import Mathlib

/-! # TreeGram: the flat-array n-gram tree of `tools/lattice_rescore/TreeGram.cc`

A shallow embedding of the node store, the builder (`reserve_nodes`,
`check_order`, `find_path`, `add_gram`) and the back-off query engine
(`find_child`, `binary_search`, `fetch_gram`, `log_prob`, `fetch_bigram_list`,
`fetch_trigram_list`).

Conventions of the embedding.

* C++ `int` values (word ids, node indices, `child_index`, counters) are `Int`;
  no operation of the builder or of the query engine depends on 32-bit
  wrap-around.
* The `float` fields `log_prob` and `back_off` are integers that stand for
  `float` values.  The builder and the file codec only copy them; the sums of
  the queries are taken by the `float` addition of a `Host`, a parameter of
  every query.  `int_host` is the host on which the stand-in `n` is the
  `float` of the whole number `n`, with the rounding of a 24-bit significand.
* A run of a member function either returns (`Except.ok`) or stops with a
  `Fault`: `exit` for `exit(1)`, `assertion` for a failed `assert`,
  `length_error` for the exception of `std::vector::reserve`, and
  `out_of_bounds` for an access outside a `std::vector` or a `new[]` buffer.
  (`fuel` marks an exhausted loop counter of the embedding; the counter of
  `binary_search` starts at the length of the range and is never exhausted.)
* A load of `m_nodes[i]` outside the array does not stop the C++ code.  Where
  the value loaded decides a branch or an address, the embedding stops with
  `out_of_bounds` (`node_at`); where it only flows into the returned value,
  the embedding takes what the host has next to the array (`load`); where it
  is discarded, the embedding does not load at all.
* Memory is not bounded: `push_back` and `new[]` always succeed.
* The vocabulary `m_words` belongs to a base class whose code is not part of
  the sources; only `m_words.size()` is used here, so the word list is a field
  that the constructor receives.
-/

/-- How a member function can stop without returning. -/
inductive Fault where
  | exit
  | assertion
  | length_error
  | out_of_bounds
  | fuel
deriving DecidableEq, Repr

deriving instance DecidableEq for Except

/-- The model type `m_type`. -/
inductive ModelType where
  | BACKOFF
  | INTERPOLATED
deriving DecidableEq, Repr

/-- `TreeGram::Node`: four 32-bit fields. -/
structure Node where
  word : Int
  log_prob : Int
  back_off : Int
  child_index : Int
deriving DecidableEq, Repr

/-- The members of `class TreeGram` that the builder and the queries use. -/
structure TreeGram where
  m_words : List String
  m_type : ModelType
  m_order : Int
  m_order_count : List Int
  m_interpolation : List Int
  m_nodes : List Node
  m_last_gram : List Int
  m_insert_stack : List Int
  m_fetch_stack : List Int
  m_last_order : Int
  m_last_history_length : Int
deriving DecidableEq, Repr

/-- What the machine contributes to a query: the `float` zero and the `float`
addition on the stand-ins of the stored log values, and the memory next to
the node array, which a load of `m_nodes[i]` outside the array yields. -/
structure Host where
  fzero : Int
  fadd : Int → Int → Int
  beyond : Int → Node

namespace TreeGram

/-- `TreeGram::TreeGram()` (lines 25-35) on a vocabulary `words`. -/
def construct (words : List String) : TreeGram :=
  { m_words := words
    m_type := ModelType.BACKOFF
    m_order := 0
    m_order_count := []
    m_interpolation := []
    m_nodes := []
    m_last_gram := []
    m_insert_stack := []
    m_fetch_stack := []
    m_last_order := 0
    m_last_history_length := 0 }

/-- A BACKOFF store given by the members that the builder writes; the query
members are as the constructor leaves them. -/
def store_of (words : List String) (order : Int) (counts : List Int) (nodes : List Node)
    (last_gram insert_stack : List Int) : TreeGram :=
  { m_words := words
    m_type := ModelType.BACKOFF
    m_order := order
    m_order_count := counts
    m_interpolation := []
    m_nodes := nodes
    m_last_gram := last_gram
    m_insert_stack := insert_stack
    m_fetch_stack := []
    m_last_order := 0
    m_last_history_length := 0 }

/-- `m_nodes[i]` for a C++ `int` index: a read outside the vector is a fault. -/
def node_at (nodes : List Node) (i : Int) : Except Fault Node :=
  if i < 0 then Except.error Fault.out_of_bounds
  else
    match nodes[i.toNat]? with
    | some nd => Except.ok nd
    | none => Except.error Fault.out_of_bounds

/-- `m_nodes[i]` where the value read only flows into the returned value:
inside the array the node, outside it what the host has there. -/
def load (h : Host) (nodes : List Node) (i : Int) : Node :=
  match node_at nodes i with
  | Except.ok nd => nd
  | Except.error _ => h.beyond i

/-- The smallest power of two `u` at or above the given one with `n / u <
2^24`, searched over at most the given number of doublings. -/
def f32_unit (n : Nat) : Nat → Nat → Nat
  | 0, u => u
  | k + 1, u => if n / u < 2 ^ 24 then u else f32_unit n k (2 * u)

/-- The `float` nearest to a whole number of magnitude below `2^128`: a whole
number below `2^24` in magnitude is a `float`; a larger one is rounded to 24
significant bits, a tie to the even significand. -/
def f32_round (x : Int) : Int :=
  if x.natAbs < 2 ^ 24 then x
  else
    let u := f32_unit x.natAbs 104 1
    let q := x.natAbs / u
    let r := x.natAbs % u
    let q1 := if 2 * r < u then q else if 2 * r > u then q + 1 else if q % 2 = 0 then q else q + 1
    if x < 0 then -((q1 * u : Nat) : Int) else ((q1 * u : Nat) : Int)

/-- The host on which the stand-in `n` is the `float` of the whole number `n`:
the sum of two such `float`s is the whole number nearest to the exact sum
among the `float`s.  The memory next to the node array holds zeros. -/
def int_host : Host :=
  { fzero := 0
    fadd := fun a b => f32_round (a + b)
    beyond := fun _ => { word := 0, log_prob := 0, back_off := 0, child_index := 0 } }

/-- The assignment `m_nodes[i].child_index = v`. -/
def set_child_index (nodes : List Node) (i : Int) (v : Int) : Except Fault (List Node) :=
  match node_at nodes i with
  | Except.error e => Except.error e
  | Except.ok nd => Except.ok (nodes.set i.toNat { nd with child_index := v })

/-- Lines 40 and 42-45 of `reserve_nodes`: the node array is cleared and the
root node is pushed, `m_order_count` becomes `[1]` and `m_order` becomes 1. -/
def install_root (s : TreeGram) : TreeGram :=
  { s with
    m_nodes := [{ word := 0, log_prob := -99, back_off := 0, child_index := -1 }]
    m_order_count := [1]
    m_order := 1 }

/-- `TreeGram::reserve_nodes` (lines 37-46).  `m_nodes.reserve(nodes)` converts
the `int` to the unsigned `size_type`: a negative capacity is above
`max_size()`, and `reserve` throws `std::length_error` after `m_nodes.clear()`,
before the root node is pushed.  A capacity from 0 on only pre-allocates. -/
def reserve_nodes (s : TreeGram) (nodes : Int) : Except Fault TreeGram :=
  if nodes < 0 then Except.error Fault.length_error
  else Except.ok (install_root s)

/-- The comparison loop of `check_order` (lines 93-115), run on two grams of
the same length: it stops at the first position where `gram[i] > last[i]`,
exits when `gram[i] < last[i]`, and exits as a duplicate when the loop runs to
the end. -/
def check_sorted : List Int → List Int → Except Fault Unit
  | [], _ => Except.error Fault.exit
  | _ :: _, [] => Except.error Fault.out_of_bounds
  | g :: gs, l :: ls =>
    if g > l then Except.ok ()
    else if g < l then Except.error Fault.exit
    else check_sorted gs ls

/-- `TreeGram::check_order` (lines 63-117). -/
def check_order (s : TreeGram) (gram : List Int) : Except Fault Unit :=
  if gram = [0] then Except.ok ()
  else if gram.length < s.m_last_gram.length ∨ gram.length > s.m_last_gram.length + 1 then
    Except.error Fault.exit
  else if gram.length = 1 ∧ gram.head? ≠ some (s.m_nodes.length : Int) then
    Except.error Fault.exit
  else if gram.length = s.m_last_gram.length then check_sorted gram s.m_last_gram
  else Except.ok ()

/-- The second loop of `binary_search` (lines 149-153): `n` is `last - first`,
the number of slots still to scan. -/
def linear_scan (nodes : List Node) (word : Int) : Nat → Int → Except Fault Int
  | 0, _ => Except.ok (-1)
  | n + 1, first =>
    match node_at nodes first with
    | Except.error e => Except.error e
    | Except.ok nd =>
      if nd.word = word then Except.ok first
      else linear_scan nodes word n (first + 1)

/-- The loops of `binary_search` (lines 126-155).  Every round of the first
loop at least halves `last - first`; the counter `fuel` bounds the number of
rounds and starts at `last - first`. -/
def binary_search_loop (nodes : List Node) (word : Int) : Nat → Int → Int → Except Fault Int
  | fuel, first, last =>
    if last - first > 5 then
      match fuel with
      | 0 => Except.error Fault.fuel
      | fuel + 1 =>
        let middle := first + (last - first) / 2
        match node_at nodes middle with
        | Except.error e => Except.error e
        | Except.ok nd =>
          if nd.word = word then Except.ok middle
          else if nd.word > word then binary_search_loop nodes word fuel first middle
          else binary_search_loop nodes word fuel (middle + 1) last
    else linear_scan nodes word (last - first).toNat first

/-- `TreeGram::binary_search` (lines 119-156); `last` is not in the range. -/
def binary_search (s : TreeGram) (word first last : Int) : Except Fault Int :=
  binary_search_loop s.m_nodes word (last - first).toNat first last

/-- `TreeGram::find_child` (lines 158-183). -/
def find_child (s : TreeGram) (word node_index : Int) : Except Fault Int :=
  if word < 0 ∨ word ≥ (s.m_words.length : Int) then Except.error Fault.exit
  else if node_index < 0 then Except.ok word
  else if node_index ≥ (s.m_nodes.length : Int) - 1 then Except.ok (-1)
  else
    match node_at s.m_nodes node_index, node_at s.m_nodes (node_index + 1) with
    | Except.ok nd, Except.ok nx =>
      if nd.child_index < 0 ∨ nx.child_index < 0 then Except.ok (-1)
      else binary_search s word nd.child_index nx.child_index
    | _, _ => Except.error Fault.out_of_bounds

/-- The first loop of `find_path` (lines 215-219) on the words of `gram`
before the last one: the number of leading positions where `gram` and
`m_last_gram` agree. -/
def shared_words : List Int → List Int → Except Fault Nat
  | [], _ => Except.ok 0
  | _ :: _, [] => Except.error Fault.out_of_bounds
  | g :: gs, l :: ls =>
    if g ≠ l then Except.ok 0
    else
      match shared_words gs ls with
      | Except.error e => Except.error e
      | Except.ok k => Except.ok (k + 1)

/-- `std::vector<int>::resize(n)`: truncates, or pads with zeros. -/
def resize (v : List Int) (n : Nat) : List Int :=
  v.take n ++ List.replicate (n - v.length) 0

/-- The second loop of `find_path` (lines 228-240) over the remaining prefix
words: every word must resolve, otherwise "prefix not found". -/
def search_path (s : TreeGram) : List Int → Int → List Int → Except Fault (List Int)
  | [], _, stack => Except.ok stack
  | w :: ws, prev, stack =>
    match find_child s w prev with
    | Except.error e => Except.error e
    | Except.ok index =>
      if index < 0 then Except.error Fault.exit
      else search_path s ws index (stack ++ [index])

/-- `TreeGram::find_path` (lines 204-241); the result is the new
`m_insert_stack`. -/
def find_path (s : TreeGram) (gram : List Int) : Except Fault (List Int) :=
  if ¬(gram.length > 1) then Except.error Fault.assertion
  else
    match shared_words gram.dropLast s.m_last_gram with
    | Except.error e => Except.error e
    | Except.ok order =>
      let stack := resize s.m_insert_stack order
      let prev : Int := if order = 0 then -1 else stack.getLast?.getD (-1)
      search_path s (gram.dropLast.drop order) prev stack

/-- The statement `m_order_count[i]++`. -/
def incr_count (counts : List Int) (i : Nat) : Except Fault (List Int) :=
  match counts[i]? with
  | none => Except.error Fault.out_of_bounds
  | some c => Except.ok (counts.set i (c + 1))

/-- Lines 279-298 of `add_gram`: the insertion of a gram of order two or more,
given the counters already updated. -/
def add_higher (s : TreeGram) (gram : List Int) (log_prob back_off : Int) :
    Except Fault TreeGram :=
  match find_path s gram with
  | Except.error e => Except.error e
  | Except.ok stack =>
    match stack.getLast?, gram.getLast? with
    | some p, some w =>
      match node_at s.m_nodes p with
      | Except.error e => Except.error e
      | Except.ok par =>
        let nodes1 :=
          if par.child_index < 0 then
            s.m_nodes.set p.toNat { par with child_index := (s.m_nodes.length : Int) }
          else s.m_nodes
        let nodes2 := nodes1 ++ [{ word := w, log_prob := log_prob, back_off := back_off,
                                   child_index := -1 }]
        match set_child_index nodes2 (p + 1) (nodes2.length : Int) with
        | Except.error e => Except.error e
        | Except.ok nodes3 =>
          Except.ok { s with
            m_nodes := nodes3
            m_insert_stack := stack ++ [(nodes3.length : Int) - 1] }
    | _, _ => Except.error Fault.out_of_bounds

/-- Lines 266-277 of `add_gram`: the unigram `[w]`.  The OOV word 0 updates
node 0 in place, any other word appends a node. -/
def add_unigram (s : TreeGram) (w : Int) (log_prob back_off : Int) : Except Fault TreeGram :=
  if w = 0 then
    match s.m_nodes with
    | [] => Except.error Fault.out_of_bounds
    | root :: rest =>
      Except.ok { s with
        m_nodes := { root with log_prob := log_prob, back_off := back_off } :: rest }
  else
    Except.ok { s with
      m_nodes := s.m_nodes ++ [{ word := w, log_prob := log_prob, back_off := back_off,
                                 child_index := -1 }] }

/-- Lines 254-258 of `add_gram`: a new order count is opened when the gram is
longer than the counts. -/
def open_count (s : TreeGram) (gram : List Int) : TreeGram :=
  if gram.length > s.m_order_count.length then
    { s with m_order_count := s.m_order_count ++ [0], m_order := s.m_order + 1 }
  else s

/-- Lines 254-263 of `add_gram`: after `open_count` the sizes are asserted
equal, and the count of the gram's order is incremented unless the gram is the
OOV unigram. -/
def update_counts (s : TreeGram) (gram : List Int) : Except Fault TreeGram :=
  if (open_count s gram).m_order_count.length ≠ gram.length then Except.error Fault.assertion
  else if gram = [0] then Except.ok (open_count s gram)
  else
    match incr_count (open_count s gram).m_order_count (gram.length - 1) with
    | Except.error e => Except.error e
    | Except.ok counts => Except.ok { open_count s gram with m_order_count := counts }

/-- Lines 265-298 of `add_gram`: the node update, by the order of the gram. -/
def insert_node (s : TreeGram) (gram : List Int) (log_prob back_off : Int) :
    Except Fault TreeGram :=
  match gram with
  | [] => Except.error Fault.out_of_bounds
  | [w] => add_unigram s w log_prob back_off
  | _ :: _ :: _ => add_higher s gram log_prob back_off

/-- `TreeGram::add_gram` (lines 243-302). -/
def add_gram (s : TreeGram) (gram : List Int) (log_prob back_off : Int) :
    Except Fault TreeGram :=
  if s.m_nodes = [] then Except.error Fault.exit
  else
    match check_order s gram with
    | Except.error e => Except.error e
    | Except.ok _ =>
      match update_counts s gram with
      | Except.error e => Except.error e
      | Except.ok s2 =>
        match insert_node s2 gram log_prob back_off with
        | Except.error e => Except.error e
        | Except.ok s3 =>
          if s3.m_order ≠ (gram.length : Int) then Except.error Fault.assertion
          else Except.ok { s3 with m_last_gram := gram }

/-- The loop of `fetch_gram` (lines 461-468) over the words from `first` on;
the result is the new `m_fetch_stack`. -/
def fetch_loop (s : TreeGram) : List Int → Int → List Int → Except Fault (List Int)
  | [], _, stack => Except.ok stack
  | w :: ws, prev, stack =>
    match find_child s w prev with
    | Except.error e => Except.error e
    | Except.ok node =>
      if node < 0 then Except.ok stack
      else fetch_loop s ws node (stack ++ [node])

/-- `TreeGram::fetch_gram` (lines 452-469); the result is the new
`m_fetch_stack`. -/
def fetch_gram (s : TreeGram) (gram : List Int) (first : Int) : Except Fault (List Int) :=
  if ¬(first ≥ 0 ∧ first < (gram.length : Int)) then Except.error Fault.assertion
  else fetch_loop s (gram.drop first.toNat) (-1) []

/-- The `m_type==BACKOFF` loop of `log_prob` (lines 582-605).  The first
argument counts the rounds left before `assert(n < gram.size())` fails, so the
suffix start is `n = gram.size() - rounds`; `log_prob` is the accumulator and
`hist` the running `m_last_history_length`.  The result is the returned value
and the store with the diagnostic members updated. -/
def backoff_loop (h : Host) (s : TreeGram) (gram : List Int) :
    Nat → Int → Int → Except Fault (Int × TreeGram)
  | 0, _, _ => Except.error Fault.assertion
  | r + 1, log_prob, hist =>
    let n : Int := (gram.length : Int) - ((r : Int) + 1)
    match fetch_gram s gram n with
    | Except.error e => Except.error e
    | Except.ok stack =>
      match stack.getLast? with
      | none => Except.error Fault.assertion
      | some top =>
        if (stack.length : Int) = (gram.length : Int) - n then
          let last_order : Int := (gram.length : Int) - n
          Except.ok (h.fadd log_prob (load h s.m_nodes top).log_prob,
            { s with
              m_fetch_stack := stack
              m_last_order := last_order
              m_last_history_length := if hist < 0 then last_order else hist })
        else if (stack.length : Int) = (gram.length : Int) - n - 1 then
          backoff_loop h s gram r (h.fadd log_prob (load h s.m_nodes top).back_off)
            (if hist < 0 then (gram.length : Int) - n - 1 else hist)
        else backoff_loop h s gram r log_prob hist

/-- `TreeGram::log_prob` for `m_type == BACKOFF` (lines 555-607, without the
optional class map). -/
def log_prob_backoff (h : Host) (s : TreeGram) (gram : List Int) :
    Except Fault (Int × TreeGram) :=
  if ¬(gram.length > 0) then Except.error Fault.assertion
  else backoff_loop h s gram gram.length h.fzero (-1)

/-- The loop `for (i = 0; i < m_words.size(); i++) lm_buf[i] = offset +
m_nodes[i].log_prob` of the list fetches; the last argument is the number of
entries filled. -/
def fill_unigrams (h : Host) (nodes : List Node) (offset : Int) : Nat → List Int
  | 0 => []
  | n + 1 => fill_unigrams h nodes offset n ++ [h.fadd offset (load h nodes (n : Int)).log_prob]

/-- The loop `for (i = child_index; i < next_child_index; i++)
lm_buf[m_nodes[i].word] = f(m_nodes[i].log_prob)` of the list fetches; the
first argument is the number of rounds left. -/
def overwrite_children (nodes : List Node) (f : Int → Int) :
    Nat → Int → List Int → Except Fault (List Int)
  | 0, _, buf => Except.ok buf
  | n + 1, i, buf =>
    match node_at nodes i with
    | Except.error e => Except.error e
    | Except.ok nd =>
      if nd.word < 0 ∨ nd.word ≥ (buf.length : Int) then Except.error Fault.out_of_bounds
      else overwrite_children nodes f n (i + 1) (buf.set nd.word.toNat (f nd.log_prob))

/-- The child loop of the list fetches for the node `x`, with its guard:
`child_index = m_nodes[x].child_index; next_child_index =
m_nodes[x+1].child_index; if (child_index != -1 && next_child_index >
child_index)` followed by the loop.  The value loaded from `m_nodes[x+1]` is
inspected only when `child_index != -1`. -/
def overwrite_range (nodes : List Node) (f : Int → Int) (x : Int) (buf : List Int) :
    Except Fault (List Int) :=
  match node_at nodes x with
  | Except.error e => Except.error e
  | Except.ok nd =>
    if nd.child_index ≠ -1 then
      match node_at nodes (x + 1) with
      | Except.error e => Except.error e
      | Except.ok nx =>
        if nx.child_index > nd.child_index then
          overwrite_children nodes f (nx.child_index - nd.child_index).toNat nd.child_index buf
        else Except.ok buf
    else Except.ok buf

/-- The loop `result_buffer[i] = lm_buf[next_word_id[i]]`; `i` is the index
of the first target still to map. -/
def map_to_result (buf : List Int) : List Int → Nat → List Int → Except Fault (List Int)
  | [], _, result => Except.ok result
  | t :: ts, i, result =>
    if t < 0 then Except.error Fault.out_of_bounds
    else
      match buf[t.toNat]? with
      | none => Except.error Fault.out_of_bounds
      | some v =>
        if i < result.length then map_to_result buf ts (i + 1) (result.set i v)
        else Except.error Fault.out_of_bounds

/-- `TreeGram::fetch_bigram_list` (lines 472-499); the result is the new
`result_buffer`. -/
def fetch_bigram_list (h : Host) (s : TreeGram) (prev_word_id : Int) (next_word_id : List Int)
    (result_buffer : List Int) : Except Fault (List Int) :=
  let back_off_w := (load h s.m_nodes prev_word_id).back_off
  let buf := fill_unigrams h s.m_nodes back_off_w s.m_words.length
  match overwrite_range s.m_nodes (fun lp => lp) prev_word_id buf with
  | Except.error e => Except.error e
  | Except.ok buf2 => map_to_result buf2 next_word_id 0 result_buffer

/-- The branch of `fetch_trigram_list` taken when the bigram `(w1, w2)` is
stored at `bigram_index` (lines 515-552). -/
def fetch_trigram_stored (h : Host) (s : TreeGram) (w2 bigram_index : Int)
    (next_word_id : List Int) (result_buffer : List Int) : Except Fault (List Int) :=
  let bigram_back_off_w := (load h s.m_nodes bigram_index).back_off
  let w2_back_off_w := (load h s.m_nodes w2).back_off
  let temp := h.fadd bigram_back_off_w w2_back_off_w
  let buf := fill_unigrams h s.m_nodes temp s.m_words.length
  match overwrite_range s.m_nodes (fun lp => h.fadd bigram_back_off_w lp) w2 buf with
  | Except.error e => Except.error e
  | Except.ok buf2 =>
    match overwrite_range s.m_nodes (fun lp => lp) bigram_index buf2 with
    | Except.error e => Except.error e
    | Except.ok buf3 => map_to_result buf3 next_word_id 0 result_buffer

/-- `TreeGram::fetch_trigram_list` (lines 501-553); the result is the new
`result_buffer`. -/
def fetch_trigram_list (h : Host) (s : TreeGram) (w1 w2 : Int) (next_word_id : List Int)
    (result_buffer : List Int) : Except Fault (List Int) :=
  match find_child s w2 w1 with
  | Except.error e => Except.error e
  | Except.ok bigram_index =>
    if bigram_index = -1 then fetch_bigram_list h s w2 next_word_id result_buffer
    else fetch_trigram_stored h s w2 bigram_index next_word_id result_buffer

/-- A sequence of `add_gram(gram, log_prob, back_off)` calls, stopping at the
first call that does not return. -/
def add_grams (s : TreeGram) : List (List Int × Int × Int) → Except Fault TreeGram
  | [] => Except.ok s
  | c :: rest =>
    match add_gram s c.1 c.2.1 c.2.2 with
    | Except.error e => Except.error e
    | Except.ok s1 => add_grams s1 rest

/-- A store built from scratch: construction on a vocabulary, `reserve_nodes`
and a sequence of `add_gram` calls.  It is `ok s` exactly when `reserve_nodes`
returns and every call of the sequence is accepted. -/
def build (words : List String) (capacity : Int) (calls : List (List Int × Int × Int)) :
    Except Fault TreeGram :=
  match reserve_nodes (construct words) capacity with
  | Except.error e => Except.error e
  | Except.ok s => add_grams s calls

/-- The sum `order_count[0] + ... + order_count[order-1]`. -/
def count_sum (s : TreeGram) : Int := s.m_order_count.sum

/-- The specification's reading of "strictly greater in lexicographic order": at the
first position `i` where the two grams differ, `gram[i] > last[i]`. -/
def lex_greater (gram last : List Int) : Prop :=
  ∃ (i : Nat) (a b : Int), gram[i]? = some a ∧ last[i]? = some b ∧ a > b ∧
    ∀ j : Nat, j < i → gram[j]? = last[j]?

/-- The three conditions under which the specification says `check_order` accepts a
gram other than the OOV unigram. -/
def order_conditions (s : TreeGram) (gram : List Int) : Prop :=
  (gram.length = s.m_last_gram.length ∨ gram.length = s.m_last_gram.length + 1) ∧
  (gram.length = 1 → gram.head? = some (s.m_nodes.length : Int)) ∧
  (gram.length = s.m_last_gram.length → lex_greater gram s.m_last_gram)

/-- The node that a descent ended on: the node at the last index of the
resolved stack. -/
def resolved_node (h : Host) (s : TreeGram) (stack : List Int) : Except Fault Node :=
  match stack.getLast? with
  | none => Except.error Fault.assertion
  | some top => Except.ok (load h s.m_nodes top)

/-- The summands of the back-off value in the order in which the loop of
`log_prob` meets them, in the words of the specification: for every suffix of
`g`, from `g` itself on, of which the descent resolves exactly the words
before the last one, the `back_off` of the node reached; the list ends at the
first suffix that the descent resolves in full, with the `log_prob` of the
node reached. -/
def backoff_terms (h : Host) (s : TreeGram) : List Int → Except Fault (List Int)
  | [] => Except.error Fault.assertion
  | w :: ws =>
    match fetch_gram s (w :: ws) 0 with
    | Except.error e => Except.error e
    | Except.ok stack =>
      match resolved_node h s stack with
      | Except.error e => Except.error e
      | Except.ok nd =>
        if stack.length = (w :: ws).length then Except.ok [nd.log_prob]
        else if stack.length = ws.length then
          match backoff_terms h s ws with
          | Except.error e => Except.error e
          | Except.ok l => Except.ok (nd.back_off :: l)
        else backoff_terms h s ws

/-- `m_nodes[i].child_index`, with `-1` outside the node array. -/
def child_index_at (nodes : List Node) (i : Int) : Int :=
  match node_at nodes i with
  | Except.ok nd => nd.child_index
  | Except.error _ => -1

/-- `m_nodes[i].word`, with `0` outside the node array. -/
def word_at (nodes : List Node) (i : Int) : Int :=
  match node_at nodes i with
  | Except.ok nd => nd.word
  | Except.error _ => 0

/-- `order_count[0]`: the number of unigram slots, the root slot included. -/
def unigram_slots (s : TreeGram) : Int := s.m_order_count.headD 0

/-- The index at which the nodes of order `j + 1` start: `order_count[0] + ...
+ order_count[j-1]`. -/
def level_start (counts : List Int) (j : Nat) : Int := (counts.take j).sum

/-- The calls of a build in which every gram of two or more words starts with
a word id that has a unigram slot in the store `s`: `gram[0] <
order_count[0]`. -/
def heads_are_unigrams (calls : List (List Int × Int × Int)) (s : TreeGram) : Prop :=
  ∀ c ∈ calls, 2 ≤ c.1.length → c.1.headD 0 < unigram_slots s

instance (calls : List (List Int × Int × Int)) (s : TreeGram) :
    Decidable (heads_are_unigrams calls s) :=
  inferInstanceAs (Decidable (∀ c ∈ calls, 2 ≤ c.1.length → c.1.headD 0 < unigram_slots s))

/-- The ordering of child indices as the specification states it: whenever `i` and
`i + 1` are node indices and `child_index(i) >= 0`, `child_index(i) <=
child_index(i + 1)`. -/
def child_index_ordered (s : TreeGram) : Prop :=
  ∀ (i : Int) (nd nx : Node), node_at s.m_nodes i = Except.ok nd →
    node_at s.m_nodes (i + 1) = Except.ok nx → 0 ≤ nd.child_index →
    nd.child_index ≤ nx.child_index

/-- The ordering of child indices between two slots that are both set:
`child_index(i) >= 0` and `child_index(i + 1) >= 0` give `child_index(i) <=
child_index(i + 1)`. -/
def set_child_index_ordered (s : TreeGram) : Prop :=
  ∀ (i : Int) (nd nx : Node), node_at s.m_nodes i = Except.ok nd →
    node_at s.m_nodes (i + 1) = Except.ok nx → 0 ≤ nd.child_index → 0 ≤ nx.child_index →
    nd.child_index ≤ nx.child_index

/-- Children of one parent are inside the node array and strictly ascending
by word: for every node index `p` with `child_index(p) >= 0` and
`child_index(p + 1) >= 0`, every index of `child_index(p) .. child_index(p +
1) - 1` is a node index, and the words grow strictly along the range. -/
def children_sorted (s : TreeGram) : Prop :=
  ∀ (p : Int) (nd nx : Node), node_at s.m_nodes p = Except.ok nd →
    node_at s.m_nodes (p + 1) = Except.ok nx → 0 ≤ nd.child_index → 0 ≤ nx.child_index →
    (∀ a, nd.child_index ≤ a → a < nx.child_index → ∃ na, node_at s.m_nodes a = Except.ok na) ∧
    (∀ (a b : Int) (na nb : Node), nd.child_index ≤ a → a < b → b < nx.child_index →
      node_at s.m_nodes a = Except.ok na → node_at s.m_nodes b = Except.ok nb →
      na.word < nb.word)

/-- Node `y` lies in the child range of node `x` and carries the word `w`. -/
def child_rel (nodes : List Node) (x y w : Int) : Prop :=
  0 ≤ x ∧ 0 ≤ child_index_at nodes x ∧ child_index_at nodes x ≤ y ∧
    y < child_index_at nodes (x + 1) ∧ word_at nodes y = w

/-- The index stack `stack` is a root-to-node path for the gram `words`: the
first entry is a unigram slot not above the first word, and every later entry
lies in the child range of the entry before it and carries the gram's word. -/
def is_path (nodes : List Node) (slots : Int) (stack words : List Int) : Prop :=
  stack.length = words.length ∧
  (∀ x w, stack[0]? = some x → words[0]? = some w → 0 ≤ x ∧ x < slots ∧ x ≤ w) ∧
  (∀ (j : Nat) (x y w : Int), stack[j]? = some x → stack[j + 1]? = some y →
    words[j + 1]? = some w → child_rel nodes x y w)

/-- The shape of the child indices of an array of `n` nodes with `k` orders:
`ci`, `wd` read `child_index` and `word`, `L j` is the start of order `j + 1`,
and `F` is the frontier, the slot that holds the end of the range of the last
parent.  Child indices are `-1` outside the array and after the frontier,
never exceed `n`, grow along the array where they are set, delimit ranges of
strictly ascending words, and send a node of one order into the next. -/
structure array_shape (n : Int) (ci wd : Int → Int) (L : Nat → Int) (k : Nat) (F : Int) :
    Prop where
  oor : ∀ i, i < 0 ∨ n ≤ i → ci i = -1
  bound : ∀ i, ci i ≤ n
  mono : ∀ i j, i < j → 0 ≤ ci i → 0 ≤ ci j → ci i ≤ ci j
  sorted : ∀ q a b, 0 ≤ ci q → 0 ≤ ci (q + 1) → ci q ≤ a → a < b → b < ci (q + 1) →
    wd a < wd b
  lev1 : ∀ (j : Nat) (q : Int), L j ≤ q → q < L (j + 1) → 0 ≤ ci q → L (j + 1) ≤ ci q
  lev2 : ∀ (j : Nat) (q : Int), L j ≤ q → q < L (j + 1) → 0 ≤ ci (q + 1) →
    ci (q + 1) ≤ L (j + 2)
  f1 : ci F = n ∨ ∀ i, ci i = -1
  f2 : ∀ i, F < i → ci i = -1
  L0 : L 0 = 0
  Lstrict : ∀ j, j < k → L j < L (j + 1)
  Ltop : ∀ j, k ≤ j → L j = n

/-- The builder state while only unigrams have been inserted. -/
def unigram_phase (s : TreeGram) (F : Int) : Prop :=
  s.m_order_count.length = 1 ∧ s.m_insert_stack = [] ∧
  (∀ i, child_index_at s.m_nodes i = -1) ∧ F = 0 ∧ s.m_last_gram.length ≤ 1 ∧
  (∀ u, s.m_last_gram[0]? = some u → 0 ≤ u)

/-- The builder state once a gram of order two or more has been inserted:
`m_insert_stack` is a path for `m_last_gram`, it ends on the last node, and
its last but one entry is the parent before the frontier. -/
def higher_phase (s : TreeGram) (F : Int) : Prop :=
  2 ≤ s.m_order_count.length ∧ s.m_last_gram.length = s.m_order_count.length ∧
  is_path s.m_nodes (unigram_slots s) s.m_insert_stack s.m_last_gram ∧
  s.m_insert_stack[s.m_order_count.length - 1]? = some ((s.m_nodes.length : Int) - 1) ∧
  s.m_insert_stack[s.m_order_count.length - 2]? = some (F - 1) ∧
  child_index_at s.m_nodes F = (s.m_nodes.length : Int)

/-- The invariant of the builder. -/
def builder_inv (s : TreeGram) : Prop :=
  ∃ F, array_shape (s.m_nodes.length : Int) (child_index_at s.m_nodes) (word_at s.m_nodes)
      (level_start s.m_order_count) s.m_order_count.length F ∧
    s.m_order = (s.m_order_count.length : Int) ∧
    (unigram_phase s F ∨ higher_phase s F)

/-- The vocabulary of the spec's scenarios: `<unk>`, `a`, `b`, `c`. -/
def scenario_words : List String := ["<unk>", "a", "b", "c"]

/-- The insertions of the spec's first scenario with the log values times
ten, which are whole numbers: unigrams `a`, `b`, `c`, the bigram `(a, b)` and
the trigram `(a, b, c)`. -/
def scenario1_calls : List (List Int × Int × Int) :=
  [([1], -10, -5), ([2], -10, -5), ([3], -10, 0), ([1, 2], -3, -2), ([1, 2, 3], -7, 0)]

/-- The store that the insertions of the first scenario build. -/
def scenario1_store : TreeGram :=
  store_of scenario_words 3 [4, 1, 1]
    [⟨0, -99, 0, -1⟩, ⟨1, -10, -5, 4⟩, ⟨2, -10, -5, 5⟩, ⟨3, -10, 0, -1⟩, ⟨2, -3, -2, 5⟩,
     ⟨3, -7, 0, 6⟩]
    [1, 2, 3] [1, 4, 5]

/-- A three-word vocabulary `<unk>`, `a`, `b`. -/
def small_words : List String := ["<unk>", "a", "b"]

/-- Unigrams `a`, `b` and then the bigram `(b, a)`: the first bigram starts
with the word of the last unigram. -/
def first_bigram_calls : List (List Int × Int × Int) :=
  [([1], -10, -5), ([2], -10, -4), ([2, 1], -3, -2)]

/-- The store that `first_bigram_calls` builds: the bigram node 3 is in the
child range of node 0, and node 2 has no children. -/
def first_bigram_store : TreeGram :=
  store_of small_words 2 [3, 1]
    [⟨0, -99, 0, 3⟩, ⟨1, -10, -5, 4⟩, ⟨2, -10, -4, -1⟩, ⟨1, -3, -2, -1⟩]
    [2, 1] [0, 3]

/-- Unigrams `a` and `b` only. -/
def unigram_calls : List (List Int × Int × Int) :=
  [([1], -10, -5), ([2], -10, -4)]

/-- The store that `unigram_calls` builds: three nodes, no children. -/
def unigram_store : TreeGram :=
  store_of small_words 1 [3]
    [⟨0, -99, 0, -1⟩, ⟨1, -10, -5, -1⟩, ⟨2, -10, -4, -1⟩]
    [2] []

/-- Unigrams `a`, `b`, an update of the OOV unigram, and the single bigram
`(b, a)`. -/
def last_bigram_calls : List (List Int × Int × Int) :=
  [([1], -10, -5), ([2], -10, -4), ([0], -20, -1), ([2, 1], -3, -2)]

/-- The store that `last_bigram_calls` builds: the bigram `(b, a)` is the last
node, and its `child_index` holds the end of the range of node 2. -/
def last_bigram_store : TreeGram :=
  store_of small_words 2 [3, 1]
    [⟨0, -20, -1, -1⟩, ⟨1, -10, -5, -1⟩, ⟨2, -10, -4, 3⟩, ⟨1, -3, -2, 4⟩]
    [2, 1] [2, 3]

/-- Unigrams `a`, `b`, `c` and the bigram `(a, a)`. -/
def one_bigram_calls : List (List Int × Int × Int) :=
  [([1], -10, -5), ([2], -10, -5), ([3], -10, -5), ([1, 1], -3, 0)]

/-- The store that `one_bigram_calls` builds: node 2 holds the end of the
range of node 1, and node 3 has `child_index = -1`. -/
def one_bigram_store : TreeGram :=
  store_of scenario_words 2 [4, 1]
    [⟨0, -99, 0, -1⟩, ⟨1, -10, -5, 4⟩, ⟨2, -10, -5, 5⟩, ⟨3, -10, -5, -1⟩, ⟨1, -3, 0, -1⟩]
    [1, 1] [1, 4]

/-- A six-word vocabulary of which only `a` and `b` get a unigram. -/
def sparse_words : List String := ["<unk>", "a", "b", "c", "d", "e"]

/-- Unigrams `a`, `b`, three bigrams, the bigram `(e, a)` whose first word has
no unigram node, and the trigram `(a, a, a)`. -/
def sparse_calls : List (List Int × Int × Int) :=
  [([1], -10, -5), ([2], -10, -5), ([1, 1], -3, 0), ([1, 2], -3, 0), ([2, 1], -3, 0),
   ([5, 1], -4, 0), ([1, 1, 1], -5, 0)]

/-- The store that `sparse_calls` builds: the bigram `(e, a)` was filed under
node 5, the node of the bigram `(b, a)`. -/
def sparse_store : TreeGram :=
  store_of sparse_words 3 [3, 4, 1]
    [⟨0, -99, 0, -1⟩, ⟨1, -10, -5, 3⟩, ⟨2, -10, -5, 5⟩, ⟨1, -3, 0, 6⟩, ⟨2, -3, 0, 8⟩,
     ⟨1, -3, 0, 6⟩, ⟨1, -4, 0, 7⟩, ⟨1, -5, 0, -1⟩]
    [1, 1, 1] [1, 3, 7]

/-- Unigrams `a`, `b`, the bigram `(a, a)`, the bigram `(c, a)` whose first
word has no unigram node, and the trigram `(a, a, a)`. -/
def alias_calls : List (List Int × Int × Int) :=
  [([1], -10, -5), ([2], -10, -5), ([1, 1], -3, 0), ([3, 1], -4, 0), ([1, 1, 1], -5, 0)]

/-- The store that `alias_calls` builds: nodes 4 and 5, both with word 1, are
the child range of node 3. -/
def alias_store : TreeGram :=
  store_of scenario_words 3 [3, 2, 1]
    [⟨0, -99, 0, -1⟩, ⟨1, -10, -5, 3⟩, ⟨2, -10, -5, 4⟩, ⟨1, -3, 0, 4⟩, ⟨1, -4, 0, 6⟩,
     ⟨1, -5, 0, -1⟩]
    [1, 1, 1] [1, 3, 5]

end TreeGram

open TreeGram

namespace TreeGram

/-- The bounds that every built store keeps: the node array is not empty, the
unigram slots `order_count[0]` are between 1 and the number of nodes, and every
`child_index` is either `-1` or between 1 and the number of nodes. -/
def store_bounds (s : TreeGram) : Prop :=
  s.m_nodes ≠ [] ∧ 1 ≤ unigram_slots s ∧ unigram_slots s ≤ (s.m_nodes.length : Int) ∧
  ∀ i, child_index_at s.m_nodes i = -1 ∨
    (1 ≤ child_index_at s.m_nodes i ∧ child_index_at s.m_nodes i ≤ (s.m_nodes.length : Int))

end TreeGram

namespace TreeGram

/-- The test `node->child_index > 0 && (node+1)->child_index >
node->child_index` of `Iterator::next` (line 675) at the node `index`: the
first child when the node has children.  The node after `index` is read only
when `child_index > 0`. -/
def first_child (s : TreeGram) (index : Int) : Except Fault (Option Int) :=
  match node_at s.m_nodes index with
  | Except.error e => Except.error e
  | Except.ok node =>
    if node.child_index > 0 then
      match node_at s.m_nodes (index + 1) with
      | Except.error e => Except.error e
      | Except.ok nx =>
        if nx.child_index > node.child_index then Except.ok (some node.child_index)
        else Except.ok none
    else Except.ok none

/-- The loop of `TreeGram::Iterator::next` (lines 667-711) on a non-empty
`m_index_stack`; the flag is `backtrack`.  Every round that does not return
pops one entry, so the counter starts at the length of the stack.  The result
is the returned flag and the new `m_index_stack`. -/
def next_loop (s : TreeGram) : Nat → Bool → List Int → Except Fault (Bool × List Int)
  | 0, _, _ => Except.error Fault.fuel
  | fuel + 1, backtrack, stack =>
    match stack.getLast? with
    | none => Except.error Fault.assertion
    | some index =>
      match (if backtrack then Except.ok none else first_child s index) with
      | Except.error e => Except.error e
      | Except.ok (some child) => Except.ok (true, stack ++ [child])
      | Except.ok none =>
        if stack.length = 1 then
          match s.m_order_count[0]? with
          | none => Except.error Fault.out_of_bounds
          | some slots =>
            if index = slots - 1 then Except.ok (false, stack)
            else Except.ok (true, stack.dropLast ++ [index + 1])
        else
          match stack.dropLast.getLast? with
          | none => Except.error Fault.out_of_bounds
          | some parent =>
            match node_at s.m_nodes (parent + 1) with
            | Except.error e => Except.error e
            | Except.ok nx =>
              if index + 1 < nx.child_index then
                Except.ok (true, stack.dropLast ++ [index + 1])
              else next_loop s fuel true stack.dropLast

/-- `TreeGram::Iterator::next` (lines 654-712) on the store `s` and the
`m_index_stack` of the iterator. -/
def next (s : TreeGram) (stack : List Int) : Except Fault (Bool × List Int) :=
  if stack = [] then Except.ok (true, [0])
  else next_loop s stack.length false stack

/-- The loop of `TreeGram::Iterator::next_order` (lines 723-729); the counter
bounds the number of `next` calls. -/
def next_order_loop (s : TreeGram) (order : Int) :
    Nat → List Int → Except Fault (Bool × List Int)
  | 0, _ => Except.error Fault.fuel
  | fuel + 1, stack =>
    match next s stack with
    | Except.error e => Except.error e
    | Except.ok (false, stack1) => Except.ok (false, stack1)
    | Except.ok (true, stack1) =>
      if (stack1.length : Int) = order then Except.ok (true, stack1)
      else next_order_loop s order fuel stack1

/-- `TreeGram::Iterator::next_order` (lines 714-730).  A traversal makes at
most one `next` call per node and one more that returns false, which is where
the counter starts. -/
def next_order (s : TreeGram) (order : Int) (stack : List Int) :
    Except Fault (Bool × List Int) :=
  if order < 1 ∨ order > s.m_order then Except.error Fault.exit
  else next_order_loop s order (s.m_nodes.length + 1) stack

/-- `TreeGram::Iterator::move_in_context` (lines 746-773). -/
def move_in_context (s : TreeGram) (stack : List Int) (delta : Int) :
    Except Fault (Bool × List Int) :=
  if stack.length = 1 then
    match stack.getLast?, s.m_order_count[0]? with
    | some back, some slots =>
      if ¬ (back < slots) then Except.error Fault.assertion
      else if back + delta < 0 ∨ back + delta ≥ slots then Except.ok (false, stack)
      else Except.ok (true, stack.dropLast ++ [back + delta])
    | _, _ => Except.error Fault.out_of_bounds
  else if stack.length < 2 then Except.error Fault.out_of_bounds
  else
    match stack[stack.length - 2]?, stack.getLast? with
    | some p, some back =>
      match node_at s.m_nodes p with
      | Except.error e => Except.error e
      | Except.ok parent =>
        if ¬ (parent.child_index > 0) then Except.error Fault.assertion
        else
          match node_at s.m_nodes (p + 1) with
          | Except.error e => Except.error e
          | Except.ok next_parent =>
            if ¬ (next_parent.child_index > 0) then Except.error Fault.assertion
            else if ¬ (back ≥ parent.child_index) then Except.error Fault.assertion
            else if ¬ (back < next_parent.child_index) then Except.error Fault.assertion
            else if back + delta < parent.child_index ∨
                back + delta ≥ next_parent.child_index then Except.ok (false, stack)
            else Except.ok (true, stack.dropLast ++ [back + delta])
    | _, _ => Except.error Fault.out_of_bounds

/-- `TreeGram::Iterator::up` (lines 775-782); `pop_back` on an empty stack is
a fault. -/
def up (stack : List Int) : Except Fault (Bool × List Int) :=
  if stack.length = 1 then Except.ok (false, stack)
  else if stack = [] then Except.error Fault.out_of_bounds
  else Except.ok (true, stack.dropLast)

/-- `TreeGram::Iterator::down` (lines 784-794).  The node after the current
one is read only when the current node has `child_index >= 0`. -/
def down (s : TreeGram) (stack : List Int) : Except Fault (Bool × List Int) :=
  match stack.getLast? with
  | none => Except.error Fault.out_of_bounds
  | some back =>
    match node_at s.m_nodes back with
    | Except.error e => Except.error e
    | Except.ok node =>
      if node.child_index < 0 then Except.ok (false, stack)
      else
        match node_at s.m_nodes (back + 1) with
        | Except.error e => Except.error e
        | Except.ok nx =>
          if nx.child_index < 0 ∨ node.child_index = nx.child_index then
            Except.ok (false, stack)
          else Except.ok (true, stack ++ [node.child_index])

/-- Node `e` lies in the child range `[child_index(q), child_index(q+1))` of
node `q`, a node that has children (`child_index(q) >= 0`). -/
def in_child_range (s : TreeGram) (q e : Int) : Prop :=
  0 ≤ child_index_at s.m_nodes q ∧ child_index_at s.m_nodes q ≤ e ∧
    e < child_index_at s.m_nodes (q + 1)

instance (s : TreeGram) (q e : Int) : Decidable (in_child_range s q e) :=
  inferInstanceAs (Decidable (0 ≤ child_index_at s.m_nodes q ∧
    child_index_at s.m_nodes q ≤ e ∧ e < child_index_at s.m_nodes (q + 1)))

/-- An index stack that is a root-to-node path: the first entry is a unigram
index in `[0, order_count[0])`, and every later entry lies in the child range
of the entry before it. -/
def valid_path (s : TreeGram) (stack : List Int) : Prop :=
  (0 < stack.length → 0 ≤ stack.getD 0 0 ∧ stack.getD 0 0 < unigram_slots s) ∧
  ∀ j, j < stack.length - 1 → in_child_range s (stack.getD j 0) (stack.getD (j + 1) 0)

instance (s : TreeGram) (stack : List Int) : Decidable (valid_path s stack) :=
  inferInstanceAs (Decidable ((0 < stack.length →
      0 ≤ stack.getD 0 0 ∧ stack.getD 0 0 < unigram_slots s) ∧
    ∀ j, j < stack.length - 1 → in_child_range s (stack.getD j 0) (stack.getD (j + 1) 0)))

/-- The sibling range of the deepest entry of a stack contains `x`: `[0,
order_count[0])` at the unigram level, and otherwise the child range of the
entry before the deepest one. -/
def in_sibling_range (s : TreeGram) (stack : List Int) (x : Int) : Prop :=
  if stack.length = 1 then 0 ≤ x ∧ x < unigram_slots s
  else if 2 ≤ stack.length then
    child_index_at s.m_nodes (stack.getD (stack.length - 2) 0) ≤ x ∧
      x < child_index_at s.m_nodes (stack.getD (stack.length - 2) 0 + 1)
  else False

instance (s : TreeGram) (stack : List Int) (x : Int) : Decidable (in_sibling_range s stack x) :=
  inferInstanceAs (Decidable (if stack.length = 1 then 0 ≤ x ∧ x < unigram_slots s
    else if 2 ≤ stack.length then
      child_index_at s.m_nodes (stack.getD (stack.length - 2) 0) ≤ x ∧
        x < child_index_at s.m_nodes (stack.getD (stack.length - 2) 0 + 1)
    else False))

end TreeGram

namespace TreeGram

/-- An INTERPOLATED model of order 1 with the unigram `a`, `log_prob = -62`. -/
def faint_store : TreeGram :=
  { store_of small_words 1 [2] [⟨0, -99, 0, -1⟩, ⟨1, -62, 0, -1⟩] [1] [] with
    m_type := ModelType.INTERPOLATED }

end TreeGram

namespace TreeGram

/-- The facts about a store that the iterator relies on: the unigram slots
are readable and inside the array, every `child_index` is `-1` or between 1
and the number of nodes, the last node has `child_index = -1`, child indices
grow along the array where they are set, children are not unigrams and come
after their parent, child ranges hold strictly ascending words, the unigram at
index `i` carries the word `i`, and every node that is not a unigram lies in
the child range of some node. -/
structure iter_ready (s : TreeGram) : Prop where
  slots_eq : s.m_order_count[0]? = some (unigram_slots s)
  slots_pos : 1 ≤ unigram_slots s
  slots_le : unigram_slots s ≤ (s.m_nodes.length : Int)
  ci_range : ∀ i, child_index_at s.m_nodes i = -1 ∨
    (1 ≤ child_index_at s.m_nodes i ∧ child_index_at s.m_nodes i ≤ (s.m_nodes.length : Int))
  last : child_index_at s.m_nodes ((s.m_nodes.length : Int) - 1) = -1
  mono : ∀ i j, i < j → 0 ≤ child_index_at s.m_nodes i → 0 ≤ child_index_at s.m_nodes j →
    child_index_at s.m_nodes i ≤ child_index_at s.m_nodes j
  above : ∀ q, 0 ≤ child_index_at s.m_nodes q →
    unigram_slots s ≤ child_index_at s.m_nodes q ∧ q < child_index_at s.m_nodes q
  sorted : ∀ q a b, 0 ≤ child_index_at s.m_nodes q → 0 ≤ child_index_at s.m_nodes (q + 1) →
    child_index_at s.m_nodes q ≤ a → a < b → b < child_index_at s.m_nodes (q + 1) →
    word_at s.m_nodes a < word_at s.m_nodes b
  uni_words : ∀ i, 0 ≤ i → i < unigram_slots s → word_at s.m_nodes i = i
  covered : ∀ y, unigram_slots s ≤ y → y < (s.m_nodes.length : Int) →
    ∃ q, in_child_range s q y

/-- The invariant of built stores that the traversal needs on top of the
builder invariant and the bounds: the unigram at index `i` carries the word
`i`, and every node that is not a unigram lies in the child range of some
node. -/
def tree_inv (s : TreeGram) : Prop :=
  builder_inv s ∧ store_bounds s ∧
  (∀ i, 0 ≤ i → i < unigram_slots s → word_at s.m_nodes i = i) ∧
  (∀ y, unigram_slots s ≤ y → y < (s.m_nodes.length : Int) → ∃ q, in_child_range s q y)

/-- The second of two index stacks is greater at a position inside the first:
they agree on `pre`, and there the first holds `a` and the second `b > a`. -/
def differs (Q R : List Int) : Prop :=
  ∃ (pre : List Int) (a b : Int) (t1 t2 : List Int),
    Q = pre ++ a :: t1 ∧ R = pre ++ b :: t2 ∧ a < b

/-- The gram that an index stack spells: the words of its nodes. -/
def spell (s : TreeGram) (stack : List Int) : List Int :=
  stack.map (word_at s.m_nodes)

/-- Repeated `next()` calls from the stack `stack` until one returns false;
the result is the list of the stacks at the stops.  The counter bounds the
number of calls. -/
def stops_from (s : TreeGram) : Nat → List Int → Except Fault (List (List Int))
  | 0, _ => Except.error Fault.fuel
  | fuel + 1, stack =>
    match next s stack with
    | Except.error e => Except.error e
    | Except.ok (false, _) => Except.ok []
    | Except.ok (true, stack1) =>
      match stops_from s fuel stack1 with
      | Except.error e => Except.error e
      | Except.ok stops => Except.ok (stack1 :: stops)

/-- The stops of a fresh iterator: `next()` until it returns false.  A
traversal makes at most one call per node and one more that returns false. -/
def traversal (s : TreeGram) : Except Fault (List (List Int)) :=
  stops_from s (s.m_nodes.length + 1) []

/-- The deepest entries of a list of stacks. -/
def deepest (stops : List (List Int)) : List Int :=
  stops.map (fun st => st.getLast?.getD (-1))

/-- A call of one of the iterator's moving member functions. -/
inductive IterCall where
  | next
  | next_order (order : Int)
  | up
  | down
  | move_in_context (delta : Int)
deriving DecidableEq, Repr

/-- One call on the iterator with the stack `stack`; the result is the
returned flag and the new stack. -/
def run_call (s : TreeGram) (stack : List Int) : IterCall → Except Fault (Bool × List Int)
  | IterCall.next => next s stack
  | IterCall.next_order order => next_order s order stack
  | IterCall.up => up stack
  | IterCall.down => down s stack
  | IterCall.move_in_context delta => move_in_context s stack delta

/-- A sequence of calls on the iterator with the stack `stack`, stopping at
the first call that does not return; the result lists the stack after each
call. -/
def run_calls (s : TreeGram) : List Int → List IterCall → Except Fault (List (List Int))
  | _, [] => Except.ok []
  | stack, c :: cs =>
    match run_call s stack c with
    | Except.error e => Except.error e
    | Except.ok (_, stack1) =>
      match run_calls s stack1 cs with
      | Except.error e => Except.error e
      | Except.ok later => Except.ok (stack1 :: later)

/-- A call is `next` or `next_order`: the calls that may start on the empty
stack of a fresh iterator. -/
def starts_traversal : IterCall → Prop
  | IterCall.next => True
  | IterCall.next_order _ => True
  | _ => False

/-- The call sequences considered on a fresh iterator: the first call is
`next` or `next_order`, and every `next_order(k)` has `1 <= k <= order`. -/
def calls_allowed (s : TreeGram) (calls : List IterCall) : Prop :=
  (∀ c, calls.head? = some c → starts_traversal c) ∧
  ∀ k, IterCall.next_order k ∈ calls → 1 ≤ k ∧ k ≤ s.m_order

end TreeGram

namespace TreeGram

/-- The bytes of a `std::string`: one byte per character. -/
def bytes_of (w : String) : List Nat := w.data.map Char.toNat

/-- The `std::string` of a list of bytes. -/
def string_of (bs : List Nat) : String := String.mk (bs.map Char.ofNat)

/-- The file header `format_str` (line 23): `"cis-binlm2\n"`. -/
def format_str : List Nat := [99, 105, 115, 45, 98, 105, 110, 108, 109, 50, 10]

/-- The type line `"backoff"`. -/
def backoff_line : List Nat := [98, 97, 99, 107, 111, 102, 102]

/-- The type line `"interpolated"`. -/
def interpolated_line : List Nat :=
  [105, 110, 116, 101, 114, 112, 111, 108, 97, 116, 101, 100]

/-- `isspace` in the C locale: space, and tab to carriage return. -/
def is_space (b : Nat) : Bool := b == 32 || (9 ≤ b && b ≤ 13)

/-- `isdigit`. -/
def is_digit (b : Nat) : Bool := 48 ≤ b && b ≤ 57

/-- The decimal digits of `n` in front of `acc`, most significant first; the
counter bounds the number of digits. -/
def digits_of : Nat → Nat → List Nat → List Nat
  | 0, _, acc => acc
  | fuel + 1, n, acc =>
    if n < 10 then (n + 48) :: acc
    else digits_of fuel (n / 10) ((n % 10 + 48) :: acc)

/-- The conversion `%d` of `fprintf` for a natural number. -/
def print_nat (n : Nat) : List Nat := digits_of (n + 1) n []

/-- The conversion `%d` of `fprintf`. -/
def print_int (v : Int) : List Nat :=
  if v < 0 then 45 :: print_nat (-v).toNat else print_nat v.toNat

/-- The white space that a `scanf` directive skips. -/
def skip_space : List Nat → List Nat
  | [] => []
  | b :: rest => if is_space b then skip_space rest else b :: rest

/-- The longest run of digits at the front of the input, and what follows. -/
def take_digits : List Nat → List Nat × List Nat
  | [] => ([], [])
  | b :: rest =>
    if is_digit b then ((b :: (take_digits rest).1), (take_digits rest).2)
    else ([], b :: rest)

/-- The value of a run of decimal digits. -/
def digits_value (ds : List Nat) : Nat := ds.foldl (fun acc d => acc * 10 + (d - 48)) 0

/-- A run of digits at the front of the input, as a number; `none` when there
is no digit. -/
def scan_digits (file : List Nat) : Option (Nat × List Nat) :=
  if (take_digits file).1 = [] then none
  else some (digits_value (take_digits file).1, (take_digits file).2)

/-- A decimal number at the front of the input: white space is skipped, then
an optional sign and at least one digit are read.  The result is the exact
value and the rest of the input, `none` when no digit follows. -/
def scan_decimal (file : List Nat) : Option (Int × List Nat) :=
  match skip_space file with
  | [] => none
  | b :: rest =>
    if b = 45 then (scan_digits rest).map (fun r => (-(r.1 : Int), r.2))
    else if b = 43 then (scan_digits rest).map (fun r => ((r.1 : Int), r.2))
    else (scan_digits (b :: rest)).map (fun r => ((r.1 : Int), r.2))

/-- The value of a 32-bit `int` that holds the low 32 bits of `v`. -/
def wrap32 (v : Int) : Int := (v + 2147483648) % 4294967296 - 2147483648

/-- The `long` of 64 bits that `strtol` returns for a decimal of the exact
value `v`: the value itself, or `LONG_MAX`, `LONG_MIN` outside the range. -/
def clamp64 (v : Int) : Int :=
  if v > 9223372036854775807 then 9223372036854775807
  else if v < -9223372036854775808 then -9223372036854775808
  else v

/-- The `int` that the C library stores for a decimal of the exact value `v`:
the conversion to `long` of `strtol`, cut to 32 bits. -/
def to_int32 (v : Int) : Int := wrap32 (clamp64 v)

/-- The conversion `%d` of `fscanf`: white space is skipped, then an optional
sign and at least one digit are read, and the number is stored as an `int`.
The result is the `int` and the rest of the input, `none` on a matching
failure. -/
def scan_int (file : List Nat) : Option (Int × List Nat) :=
  (scan_decimal file).map (fun r => (to_int32 r.1, r.2))

/-- What a failed conversion `%d` leaves of the input: the white space in
front and a sign are consumed, the character that is not a digit is pushed
back. -/
def after_failed_scan (file : List Nat) : List Nat :=
  match skip_space file with
  | [] => []
  | b :: rest => if b = 45 ∨ b = 43 then rest else b :: rest

/-- `atoi`: the `int` of the number at the front of the string, 0 when there
is none. -/
def atoi (line : List Nat) : Int :=
  match scan_int line with
  | some r => r.1
  | none => 0

/-- The values of a 32-bit `int`. -/
def int32 (v : Int) : Prop := -2147483648 ≤ v ∧ v < 2147483648

instance (v : Int) : Decidable (int32 v) :=
  inferInstanceAs (Decidable (-2147483648 ≤ v ∧ v < 2147483648))

/-- The characters before the first newline, and what follows the newline. -/
def split_line : List Nat → List Nat × List Nat
  | [] => ([], [])
  | b :: rest =>
    if b = 10 then ([], rest)
    else ((b :: (split_line rest).1), (split_line rest).2)

/-- Modelled from the spec: `str::read_line(&line, file, true)`, whose code is
not part of the sources.  It reads the characters up to the next newline,
consumes the newline and returns the line without it; at the end of the
file it returns false.  The result is the returned flag, the line and the rest
of the file. -/
def read_line (file : List Nat) : Bool × List Nat × List Nat :=
  match file with
  | [] => (false, [], [])
  | _ :: _ => (true, (split_line file).1, (split_line file).2)

/-- Modelled from the spec: `str::read_string(&line, length, file)`, whose code
is not part of the sources.  It reads `length` bytes and returns false when the
file is shorter. -/
def read_string (length : Nat) (file : List Nat) : Bool × List Nat × List Nat :=
  if file.length < length then (false, file, [])
  else (true, file.take length, file.drop length)

/-- The four bytes of a 32-bit field, least significant first: the
two's-complement pattern of an `int`, and the stand-in pattern of a `float`
field that the model keeps as an integer. -/
def le_bytes (v : Int) : List Nat :=
  [(v % 4294967296).toNat % 256, (v % 4294967296).toNat / 256 % 256,
   (v % 4294967296).toNat / 65536 % 256, (v % 4294967296).toNat / 16777216 % 256]

/-- The 32-bit field whose bytes, least significant first, are `bs`. -/
def of_le_bytes (bs : List Nat) : Int :=
  let u := bs.getD 0 0 + 256 * bs.getD 1 0 + 65536 * bs.getD 2 0 + 16777216 * bs.getD 3 0
  if u < 2147483648 then (u : Int) else (u : Int) - 4294967296

/-- The bytes of a 32-bit field in the memory of the host; `big` is
`Endian::big`, a constant of a header that is not part of the sources. -/
def host_bytes (big : Bool) (v : Int) : List Nat :=
  if big then (le_bytes v).reverse else le_bytes v

/-- The 32-bit field that four bytes in the memory of the host hold. -/
def of_host_bytes (big : Bool) (bs : List Nat) : Int :=
  of_le_bytes (if big then bs.reverse else bs)

/-- Modelled from the spec: `Endian::convert(&field, 4)`, whose code is not
part of the sources: the four bytes of the field are swapped end for end. -/
def convert (v : Int) : Int := of_le_bytes (le_bytes v).reverse

/-- The conversion of the four fields of a node in `flip_endian` (lines
442-447). -/
def flip_node (nd : Node) : Node :=
  { word := convert nd.word, log_prob := convert nd.log_prob,
    back_off := convert nd.back_off, child_index := convert nd.child_index }

/-- `TreeGram::flip_endian` (lines 429-448).  The `sizeof` assertions hold for
every argument.  Modelled from the spec: the interpolation vector is swapped
float by float. -/
def flip_endian (s : TreeGram) : Except Fault TreeGram :=
  if s.m_type = ModelType.INTERPOLATED then
    if (s.m_interpolation.length : Int) ≠ s.m_order then Except.error Fault.assertion
    else Except.ok { s with m_interpolation := s.m_interpolation.map convert
                            m_nodes := s.m_nodes.map flip_node }
  else Except.ok { s with m_nodes := s.m_nodes.map flip_node }

/-- The 16 bytes of a node in the memory of the host. -/
def node_bytes (big : Bool) (nd : Node) : List Nat :=
  host_bytes big nd.word ++ host_bytes big nd.log_prob ++ host_bytes big nd.back_off ++
    host_bytes big nd.child_index

/-- The memory block `&m_nodes[0]` of `m_nodes.size() * sizeof(Node)` bytes. -/
def nodes_bytes (big : Bool) : List Node → List Nat
  | [] => []
  | nd :: rest => node_bytes big nd ++ nodes_bytes big rest

/-- The node that 16 bytes in the memory of the host hold. -/
def node_of_bytes (big : Bool) (bs : List Nat) : Node :=
  { word := of_host_bytes big (bs.take 4)
    log_prob := of_host_bytes big ((bs.drop 4).take 4)
    back_off := of_host_bytes big ((bs.drop 8).take 4)
    child_index := of_host_bytes big ((bs.drop 12).take 4) }

/-- The nodes that a memory block of `n` nodes holds. -/
def nodes_of_bytes (big : Bool) : Nat → List Nat → List Node
  | 0, _ => []
  | n + 1, bs => node_of_bytes big (bs.take 16) :: nodes_of_bytes big n (bs.drop 16)

/-- The line `"%s\n"` of a vocabulary word; `c_str()` ends at the first zero
byte. -/
def word_line (w : String) : List Nat := (bytes_of w).takeWhile (fun b => b ≠ 0) ++ [10]

/-- The lines of the vocabulary (lines 317-318). -/
def word_lines : List String → List Nat
  | [] => []
  | w :: rest => word_line w ++ word_lines rest

/-- The loop `for (i = 0; i < m_order; i++) fprintf(file, "%d\n",
m_order_count[i])` (lines 322-323) from index `i`, with `rounds` rounds
left. -/
def count_lines (counts : List Int) : Nat → Nat → Except Fault (List Nat)
  | 0, _ => Except.ok []
  | rounds + 1, i =>
    match counts[i]? with
    | none => Except.error Fault.out_of_bounds
    | some c =>
      match count_lines counts rounds (i + 1) with
      | Except.error e => Except.error e
      | Except.ok later => Except.ok (print_int c ++ [10] ++ later)

/-- The type line that `write` emits for a model type (lines 310-313), without
its newline. -/
def type_line : ModelType → List Nat
  | ModelType.BACKOFF => backoff_line
  | ModelType.INTERPOLATED => interpolated_line

/-- `TreeGram::write` (lines 304-340) without write errors of the file; the
result is the bytes written and the store afterwards.  The two sizes are
printed as `int`s. -/
def write (big : Bool) (s : TreeGram) (reflip : Bool) : Except Fault (List Nat × TreeGram) :=
  match count_lines s.m_order_count s.m_order.toNat 0 with
  | Except.error e => Except.error e
  | Except.ok lines =>
    let text := format_str ++ (type_line s.m_type ++ [10]) ++
      print_int (wrap32 (s.m_words.length : Int)) ++ [10] ++ word_lines s.m_words ++
      print_int s.m_order ++ [32] ++ print_int (wrap32 (s.m_nodes.length : Int)) ++ [10] ++
      lines
    if big then
      match flip_endian s with
      | Except.error e => Except.error e
      | Except.ok s1 =>
        if reflip then
          match flip_endian s1 with
          | Except.error e => Except.error e
          | Except.ok s2 => Except.ok (text ++ nodes_bytes big s1.m_nodes, s2)
        else Except.ok (text ++ nodes_bytes big s1.m_nodes, s1)
    else Except.ok (text ++ nodes_bytes big s.m_nodes, s)

/-- The vocabulary loop of `read` (lines 376-383): `words` lines, each added
to the word list.  Modelled from the spec: `add_word` appends the word. -/
def read_words : Nat → List Nat → List String → Except Fault (List String × List Nat)
  | 0, file, acc => Except.ok (acc, file)
  | n + 1, file, acc =>
    if (read_line file).1 = false then Except.error Fault.exit
    else read_words n (read_line file).2.2 (acc ++ [string_of (read_line file).2.1])

/-- The count loop of `read` (lines 395-401) from index `i`, with `rounds`
rounds left: `fscanf(file, "%d\n", &m_order_count[i])`, leaving the loop at the
first conversion that fails.  The sum is an `int`.  The result is the counts,
the sum and the rest of the file. -/
def read_counts : Nat → Nat → List Int → Int → List Nat → List Int × Int × List Nat
  | 0, _, counts, sum, file => (counts, sum, file)
  | rounds + 1, i, counts, sum, file =>
    match scan_int file with
    | none => (counts, sum, after_failed_scan file)
    | some r =>
      read_counts rounds (i + 1) (counts.set i r.1) (wrap32 (sum + r.1)) (skip_space r.2)

/-- Lines 349-365 of `read`: the header and the type line.  The result is the
model type and the rest of the file. -/
def read_header (file : List Nat) : Except Fault (ModelType × List Nat) :=
  if (read_string format_str.length file).1 = false ∨
      (read_string format_str.length file).2.1 ≠ format_str then Except.error Fault.exit
  else if (read_line (read_string format_str.length file).2.2).2.1 = backoff_line then
    Except.ok (ModelType.BACKOFF, (read_line (read_string format_str.length file).2.2).2.2)
  else if (read_line (read_string format_str.length file).2.2).2.1 = interpolated_line then
    Except.ok (ModelType.INTERPOLATED, (read_line (read_string format_str.length file).2.2).2.2)
  else Except.error Fault.exit

/-- Lines 367-384 of `read`: the number of words and the vocabulary.  The
result is the vocabulary and the rest of the file. -/
def read_vocabulary (file : List Nat) : Except Fault (List String × List Nat) :=
  if (read_line file).1 = false then Except.error Fault.exit
  else if atoi (read_line file).2.1 < 1 then Except.error Fault.exit
  else read_words (atoi (read_line file).2.1).toNat (read_line file).2.2 []

/-- Lines 386-407 of `read`: the order, the number of nodes and the order
counts, on the old order counts of the store.  A negative size in `resize`
throws `std::length_error`.  The result is the order, the number of nodes, the
new counts and the rest of the file. -/
def read_sizes (old_counts : List Int) (file : List Nat) :
    Except Fault (Int × Int × List Int × List Nat) :=
  match scan_int file with
  | none => Except.error Fault.exit
  | some r1 =>
    match scan_int r1.2 with
    | none => Except.error Fault.exit
    | some r2 =>
      if r1.1 < 0 then Except.error Fault.length_error
      else if (read_counts r1.1.toNat 0 (resize old_counts r1.1.toNat) 0
                (skip_space r2.2)).2.1 ≠ r2.1 then Except.error Fault.exit
      else
        Except.ok (r1.1, r2.1,
          (read_counts r1.1.toNat 0 (resize old_counts r1.1.toNat) 0 (skip_space r2.2)).1,
          (read_counts r1.1.toNat 0 (resize old_counts r1.1.toNat) 0 (skip_space r2.2)).2.2)

/-- Lines 409-419 of `read`: the node block.  A negative size in `resize`
throws, `fread` of a block of size 0 returns 0, and `fread` of a block that the
file does not hold in full returns 0. -/
def read_nodes (big : Bool) (number_of_nodes : Int) (file : List Nat) :
    Except Fault (List Node) :=
  if number_of_nodes < 0 then Except.error Fault.length_error
  else if number_of_nodes = 0 ∨ file.length < number_of_nodes.toNat * 16 then
    Except.error Fault.exit
  else Except.ok (nodes_of_bytes big number_of_nodes.toNat file)

/-- `TreeGram::read` (lines 342-427) on the store `s` and the bytes of the
file. -/
def read (big : Bool) (s : TreeGram) (file : List Nat) : Except Fault TreeGram :=
  match read_header file with
  | Except.error e => Except.error e
  | Except.ok (type, f2) =>
    match read_vocabulary f2 with
    | Except.error e => Except.error e
    | Except.ok (vocabulary, f3) =>
      match read_sizes s.m_order_count f3 with
      | Except.error e => Except.error e
      | Except.ok (order, number_of_nodes, counts, f4) =>
        match read_nodes big number_of_nodes f4 with
        | Except.error e => Except.error e
        | Except.ok nodes =>
          if big then
            flip_endian { s with m_type := type, m_words := vocabulary, m_order := order,
                                 m_order_count := counts, m_nodes := nodes }
          else
            Except.ok { s with m_type := type, m_words := vocabulary, m_order := order,
                               m_order_count := counts, m_nodes := nodes }

/-- The lines of a list of counts, one `"%d\n"` each. -/
def counts_text : List Int → List Nat
  | [] => []
  | c :: rest => print_int c ++ [10] ++ counts_text rest

/-- The layout of a model file: header, type line, number of words, the
words, the line `order number_of_nodes`, the order counts, and the node
block. -/
def file_layout (type : ModelType) (words : List String) (counts : List Int) (nodes : Int)
    (block : List Nat) : List Nat :=
  format_str ++ (type_line type ++ [10]) ++ (print_int (words.length : Int) ++ [10]) ++
    word_lines words ++ (print_int (counts.length : Int) ++ [32] ++ print_int nodes ++ [10]) ++
    counts_text counts ++ block

/-- The numbers of a file of the layout are 32-bit `int`s, and so is every
partial sum of the counts: the sum of the counts does not overflow. -/
def layout_32bit (words : List String) (counts : List Int) (nodes : Int) : Prop :=
  int32 (words.length : Int) ∧ int32 (counts.length : Int) ∧ int32 nodes ∧
  (∀ c ∈ counts, int32 c) ∧ ∀ k ∈ List.range (counts.length + 1), int32 ((counts.take k).sum)

instance (words : List String) (counts : List Int) (nodes : Int) :
    Decidable (layout_32bit words counts nodes) :=
  inferInstanceAs (Decidable (int32 (words.length : Int) ∧ int32 (counts.length : Int) ∧
    int32 nodes ∧ (∀ c ∈ counts, int32 c) ∧
    ∀ k ∈ List.range (counts.length + 1), int32 ((counts.take k).sum)))

/-- The word can be written as a line and read back: it has no newline and no
zero byte. -/
def line_safe (w : String) : Prop := ∀ b ∈ bytes_of w, b ≠ 10 ∧ b ≠ 0

instance (w : String) : Decidable (line_safe w) :=
  inferInstanceAs (Decidable (∀ b ∈ bytes_of w, b ≠ 10 ∧ b ≠ 0))

/-- Every field of every node is a 32-bit value. -/
def fields_32bit (nodes : List Node) : Prop :=
  ∀ nd ∈ nodes, (-2147483648 ≤ nd.word ∧ nd.word < 2147483648) ∧
    (-2147483648 ≤ nd.log_prob ∧ nd.log_prob < 2147483648) ∧
    (-2147483648 ≤ nd.back_off ∧ nd.back_off < 2147483648) ∧
    (-2147483648 ≤ nd.child_index ∧ nd.child_index < 2147483648)

instance (nodes : List Node) : Decidable (fields_32bit nodes) :=
  inferInstanceAs (Decidable (∀ nd ∈ nodes, (-2147483648 ≤ nd.word ∧ nd.word < 2147483648) ∧
    (-2147483648 ≤ nd.log_prob ∧ nd.log_prob < 2147483648) ∧
    (-2147483648 ≤ nd.back_off ∧ nd.back_off < 2147483648) ∧
    (-2147483648 ≤ nd.child_index ∧ nd.child_index < 2147483648)))

/-- `TreeGram::set_interpolation` (lines 48-52). -/
def set_interpolation (s : TreeGram) (interpolation : List Int) : TreeGram :=
  { s with m_interpolation := interpolation }

/-- Modelled from the spec: `set_type`, whose code is in the header, stores the
model type. -/
def set_type (s : TreeGram) (type : ModelType) : TreeGram := { s with m_type := type }

/-- The store of the first scenario as an interpolated model with the
interpolation weights 5, 6, 7. -/
def weighted_store : TreeGram :=
  set_interpolation (set_type scenario1_store ModelType.INTERPOLATED) [5, 6, 7]

/-- A model file with the vocabulary `<unk>`, order 0 and no nodes:
the header, `backoff`, `1`, `<unk>` and the line `0 0`. -/
def empty_model_file : List Nat :=
  format_str ++ backoff_line ++ [10] ++ [49, 10] ++ [60, 117, 110, 107, 62, 10] ++
    [48, 32, 48, 10]

end TreeGram

namespace TreeGram

/-- Repeated `next_order(order)` calls from the stack `stack` until one
returns false; the result is the list of the stacks at the calls that returned
true.  The counter bounds the number of calls. -/
def order_stops_from (s : TreeGram) (order : Int) :
    Nat → List Int → Except Fault (List (List Int))
  | 0, _ => Except.error Fault.fuel
  | fuel + 1, stack =>
    match next_order s order stack with
    | Except.error e => Except.error e
    | Except.ok (false, _) => Except.ok []
    | Except.ok (true, stack1) =>
      match order_stops_from s order fuel stack1 with
      | Except.error e => Except.error e
      | Except.ok stops => Except.ok (stack1 :: stops)

/-- The stops of repeated `next_order(order)` calls on a fresh iterator, up to
the first call that returns false.  Every stop is at another node, so there
are at most as many calls as nodes and one more. -/
def order_stops (s : TreeGram) (order : Int) : Except Fault (List (List Int)) :=
  order_stops_from s order (s.m_nodes.length + 1) []

/-- The grams of the nodes of a store built by the calls `calls`, in the
order of the node array: the gram `[0]` of the root that `reserve_nodes`
installs, and then the gram of every call other than an update of `[0]`. -/
def node_grams (calls : List (List Int × Int × Int)) : List (List Int) :=
  [0] :: (calls.map Prod.fst).filter (fun g => g ≠ [0])

/-- Two successive grams of a build that do not trigger the resize of the
empty insert stack in `find_path`: a gram of two or more words that follows a
unigram does not start with the word of that unigram, unless the word is 0. -/
def no_stale_parent (c d : List Int) : Prop :=
  c.length = 1 → 2 ≤ d.length → c.head? = d.head? → c = [0]

instance (c d : List Int) : Decidable (no_stale_parent c d) :=
  inferInstanceAs (Decidable (c.length = 1 → 2 ≤ d.length → c.head? = d.head? → c = [0]))

/-- No call of the build after the gram `last` resizes the empty insert stack:
every call is checked against the gram of the call before it. -/
def parents_fresh_from : List Int → List (List Int × Int × Int) → Prop
  | _, [] => True
  | last, c :: rest => no_stale_parent last c.1 ∧ parents_fresh_from c.1 rest

instance parents_fresh_from_decidable :
    ∀ (last : List Int) (calls : List (List Int × Int × Int)),
      Decidable (parents_fresh_from last calls)
  | _, [] => instDecidableTrue
  | last, c :: rest =>
    @instDecidableAnd (no_stale_parent last c.1) (parents_fresh_from c.1 rest) inferInstance
      (parents_fresh_from_decidable c.1 rest)

/-- No call of a build from scratch resizes the empty insert stack. -/
def parents_fresh (calls : List (List Int × Int × Int)) : Prop :=
  parents_fresh_from [] calls

instance (calls : List (List Int × Int × Int)) : Decidable (parents_fresh calls) :=
  inferInstanceAs (Decidable (parents_fresh_from [] calls))

/-- The first entry of `m_insert_stack`, when there is one, is the first word
of `m_last_gram`. -/
def exact_stack (s : TreeGram) : Prop :=
  s.m_insert_stack = [] ∨ s.m_insert_stack.head? = s.m_last_gram.head?

/-- The list `paths` holds, for every node of the store in the order of the
node array, a valid path that ends at the node, and the paths spell the grams
`grams`. -/
def node_paths (s : TreeGram) (grams : List (List Int)) (paths : List (List Int)) : Prop :=
  deepest paths = (List.range s.m_nodes.length).map (fun i : Nat => (i : Int)) ∧
  (∀ P ∈ paths, valid_path s P ∧ P ≠ []) ∧
  paths.map (spell s) = grams

end TreeGram

namespace TreeGram

/-- The index stack `stack` holds the nodes reached by descending the words
`words` from the root: the stack has one entry per word, entry 0 is the
unigram slot of the first word, which is the word id itself and lies below
`order_count[0]`, and every later entry lies in the child range of the entry
before it and carries the word at its position. -/
def descent_of (s : TreeGram) (stack words : List Int) : Prop :=
  stack.length = words.length ∧ valid_path s stack ∧ stack.head? = words.head? ∧
  ∀ j, j < stack.length - 1 →
    word_at s.m_nodes (stack.getD (j + 1) 0) = words.getD (j + 1) 0

instance (s : TreeGram) (stack words : List Int) : Decidable (descent_of s stack words) :=
  inferInstanceAs (Decidable (stack.length = words.length ∧ valid_path s stack ∧
    stack.head? = words.head? ∧
    ∀ j, j < stack.length - 1 →
      word_at s.m_nodes (stack.getD (j + 1) 0) = words.getD (j + 1) 0))

/-- Unigrams `a`, `b` and the bigram `(a, a)` on the six-word vocabulary: the
words `c`, `d`, `e` have no unigram node. -/
def gap_calls : List (List Int × Int × Int) :=
  [([1], -10, -5), ([2], -10, -5), ([1, 1], -3, 0)]

/-- The store that `gap_calls` builds: four nodes. -/
def gap_store : TreeGram :=
  store_of sparse_words 2 [3, 1]
    [⟨0, -99, 0, -1⟩, ⟨1, -10, -5, 3⟩, ⟨2, -10, -5, 4⟩, ⟨1, -3, 0, -1⟩]
    [1, 1] [1, 3]

/-- An eight-word vocabulary. -/
def wide_words : List String := ["<unk>", "a", "b", "c", "d", "e", "f", "g"]

/-- A store with the unigrams of the words 1 to 7 and the seven bigrams `(a,
w)`: the child range of node 1 is `[8, 15)`, longer than the threshold of the
linear scan. -/
def wide_store : TreeGram :=
  store_of wide_words 2 [8, 7]
    [⟨0, -99, 0, -1⟩, ⟨1, -10, -5, 8⟩, ⟨2, -10, -5, 15⟩, ⟨3, -10, -5, -1⟩, ⟨4, -10, -5, -1⟩,
     ⟨5, -10, -5, -1⟩, ⟨6, -10, -5, -1⟩, ⟨7, -10, -5, -1⟩,
     ⟨1, -3, 0, -1⟩, ⟨2, -3, 0, -1⟩, ⟨3, -3, 0, -1⟩, ⟨4, -3, 0, -1⟩, ⟨5, -3, 0, -1⟩,
     ⟨6, -3, 0, -1⟩, ⟨7, -3, 0, -1⟩]
    [1, 7] [1, 14]

/-- The calls that build `wide_store`. -/
def wide_calls : List (List Int × Int × Int) :=
  [([1], -10, -5), ([2], -10, -5), ([3], -10, -5), ([4], -10, -5), ([5], -10, -5),
   ([6], -10, -5), ([7], -10, -5), ([1, 1], -3, 0), ([1, 2], -3, 0), ([1, 3], -3, 0),
   ([1, 4], -3, 0), ([1, 5], -3, 0), ([1, 6], -3, 0), ([1, 7], -3, 0)]

end TreeGram

namespace TreeGram

/-- Every word of every gram of the calls is a word id of a vocabulary of
`num_words` words. -/
def grams_in_vocabulary (calls : List (List Int × Int × Int)) (num_words : Nat) : Prop :=
  ∀ c ∈ calls, ∀ w ∈ c.1, 0 ≤ w ∧ w < (num_words : Int)

instance (calls : List (List Int × Int × Int)) (num_words : Nat) :
    Decidable (grams_in_vocabulary calls num_words) :=
  inferInstanceAs (Decidable (∀ c ∈ calls, ∀ w ∈ c.1, 0 ≤ w ∧ w < (num_words : Int)))

end TreeGram

/-! ## The concrete stores are built by their calls -/

theorem reserve_nodes_eq (s : TreeGram) (capacity : Int) (h : 0 ≤ capacity) :
    reserve_nodes s capacity = Except.ok (install_root s) := by
  unfold reserve_nodes
  rw [if_neg (by omega)]

theorem build_eq (words : List String) (capacity : Int) (calls : List (List Int × Int × Int))
    (h : 0 ≤ capacity) :
    build words capacity calls = add_grams (install_root (construct words)) calls := by
  unfold build
  rw [reserve_nodes_eq _ _ h]

theorem build_steps (words : List String) (capacity : Int) (calls : List (List Int × Int × Int))
    (s : TreeGram) (h : build words capacity calls = Except.ok s) :
    0 ≤ capacity ∧ add_grams (install_root (construct words)) calls = Except.ok s := by
  by_cases hc : 0 ≤ capacity
  · rw [build_eq _ _ _ hc] at h
    exact ⟨hc, h⟩
  · unfold build reserve_nodes at h
    rw [if_pos (by omega)] at h
    simp at h

theorem scenario1_store_built : build scenario_words 16 scenario1_calls = Except.ok scenario1_store := by
  have h1 : add_gram (install_root (construct scenario_words)) [1] (-10) (-5)
      = Except.ok (store_of scenario_words 1 [2]
      [⟨0, -99, 0, -1⟩, ⟨1, -10, -5, -1⟩]
      [1] []) := by
    decide
  have h2 : add_gram (store_of scenario_words 1 [2]
      [⟨0, -99, 0, -1⟩, ⟨1, -10, -5, -1⟩]
      [1] []) [2] (-10) (-5)
      = Except.ok (store_of scenario_words 1 [3]
      [⟨0, -99, 0, -1⟩, ⟨1, -10, -5, -1⟩, ⟨2, -10, -5, -1⟩]
      [2] []) := by
    decide
  have h3 : add_gram (store_of scenario_words 1 [3]
      [⟨0, -99, 0, -1⟩, ⟨1, -10, -5, -1⟩, ⟨2, -10, -5, -1⟩]
      [2] []) [3] (-10) 0
      = Except.ok (store_of scenario_words 1 [4]
      [⟨0, -99, 0, -1⟩, ⟨1, -10, -5, -1⟩, ⟨2, -10, -5, -1⟩, ⟨3, -10, 0, -1⟩]
      [3] []) := by
    decide
  have h4 : add_gram (store_of scenario_words 1 [4]
      [⟨0, -99, 0, -1⟩, ⟨1, -10, -5, -1⟩, ⟨2, -10, -5, -1⟩, ⟨3, -10, 0, -1⟩]
      [3] []) [1, 2] (-3) (-2)
      = Except.ok (store_of scenario_words 2 [4, 1]
      [⟨0, -99, 0, -1⟩, ⟨1, -10, -5, 4⟩, ⟨2, -10, -5, 5⟩, ⟨3, -10, 0, -1⟩, ⟨2, -3, -2, -1⟩]
      [1, 2] [1, 4]) := by
    decide
  have h5 : add_gram (store_of scenario_words 2 [4, 1]
      [⟨0, -99, 0, -1⟩, ⟨1, -10, -5, 4⟩, ⟨2, -10, -5, 5⟩, ⟨3, -10, 0, -1⟩, ⟨2, -3, -2, -1⟩]
      [1, 2] [1, 4]) [1, 2, 3] (-7) 0
      = Except.ok (store_of scenario_words 3 [4, 1, 1]
      [⟨0, -99, 0, -1⟩, ⟨1, -10, -5, 4⟩, ⟨2, -10, -5, 5⟩, ⟨3, -10, 0, -1⟩, ⟨2, -3, -2, 5⟩,
       ⟨3, -7, 0, 6⟩]
      [1, 2, 3] [1, 4, 5]) := by
    decide
  rw [build_eq _ _ _ (by decide)]
  simp only [scenario1_calls, add_grams, h1, h2, h3, h4, h5]
  rfl

theorem first_bigram_store_built : build small_words 16 first_bigram_calls = Except.ok first_bigram_store := by
  have h1 : add_gram (install_root (construct small_words)) [1] (-10) (-5)
      = Except.ok (store_of small_words 1 [2]
      [⟨0, -99, 0, -1⟩, ⟨1, -10, -5, -1⟩]
      [1] []) := by
    decide
  have h2 : add_gram (store_of small_words 1 [2]
      [⟨0, -99, 0, -1⟩, ⟨1, -10, -5, -1⟩]
      [1] []) [2] (-10) (-4)
      = Except.ok (store_of small_words 1 [3]
      [⟨0, -99, 0, -1⟩, ⟨1, -10, -5, -1⟩, ⟨2, -10, -4, -1⟩]
      [2] []) := by
    decide
  have h3 : add_gram (store_of small_words 1 [3]
      [⟨0, -99, 0, -1⟩, ⟨1, -10, -5, -1⟩, ⟨2, -10, -4, -1⟩]
      [2] []) [2, 1] (-3) (-2)
      = Except.ok (store_of small_words 2 [3, 1]
      [⟨0, -99, 0, 3⟩, ⟨1, -10, -5, 4⟩, ⟨2, -10, -4, -1⟩, ⟨1, -3, -2, -1⟩]
      [2, 1] [0, 3]) := by
    decide
  rw [build_eq _ _ _ (by decide)]
  simp only [first_bigram_calls, add_grams, h1, h2, h3]
  rfl

theorem unigram_store_built : build small_words 16 unigram_calls = Except.ok unigram_store := by
  have h1 : add_gram (install_root (construct small_words)) [1] (-10) (-5)
      = Except.ok (store_of small_words 1 [2]
      [⟨0, -99, 0, -1⟩, ⟨1, -10, -5, -1⟩]
      [1] []) := by
    decide
  have h2 : add_gram (store_of small_words 1 [2]
      [⟨0, -99, 0, -1⟩, ⟨1, -10, -5, -1⟩]
      [1] []) [2] (-10) (-4)
      = Except.ok (store_of small_words 1 [3]
      [⟨0, -99, 0, -1⟩, ⟨1, -10, -5, -1⟩, ⟨2, -10, -4, -1⟩]
      [2] []) := by
    decide
  rw [build_eq _ _ _ (by decide)]
  simp only [unigram_calls, add_grams, h1, h2]
  rfl

theorem last_bigram_store_built : build small_words 16 last_bigram_calls = Except.ok last_bigram_store := by
  have h1 : add_gram (install_root (construct small_words)) [1] (-10) (-5)
      = Except.ok (store_of small_words 1 [2]
      [⟨0, -99, 0, -1⟩, ⟨1, -10, -5, -1⟩]
      [1] []) := by
    decide
  have h2 : add_gram (store_of small_words 1 [2]
      [⟨0, -99, 0, -1⟩, ⟨1, -10, -5, -1⟩]
      [1] []) [2] (-10) (-4)
      = Except.ok (store_of small_words 1 [3]
      [⟨0, -99, 0, -1⟩, ⟨1, -10, -5, -1⟩, ⟨2, -10, -4, -1⟩]
      [2] []) := by
    decide
  have h3 : add_gram (store_of small_words 1 [3]
      [⟨0, -99, 0, -1⟩, ⟨1, -10, -5, -1⟩, ⟨2, -10, -4, -1⟩]
      [2] []) [0] (-20) (-1)
      = Except.ok (store_of small_words 1 [3]
      [⟨0, -20, -1, -1⟩, ⟨1, -10, -5, -1⟩, ⟨2, -10, -4, -1⟩]
      [0] []) := by
    decide
  have h4 : add_gram (store_of small_words 1 [3]
      [⟨0, -20, -1, -1⟩, ⟨1, -10, -5, -1⟩, ⟨2, -10, -4, -1⟩]
      [0] []) [2, 1] (-3) (-2)
      = Except.ok (store_of small_words 2 [3, 1]
      [⟨0, -20, -1, -1⟩, ⟨1, -10, -5, -1⟩, ⟨2, -10, -4, 3⟩, ⟨1, -3, -2, 4⟩]
      [2, 1] [2, 3]) := by
    decide
  rw [build_eq _ _ _ (by decide)]
  simp only [last_bigram_calls, add_grams, h1, h2, h3, h4]
  rfl

theorem one_bigram_store_built : build scenario_words 16 one_bigram_calls = Except.ok one_bigram_store := by
  have h1 : add_gram (install_root (construct scenario_words)) [1] (-10) (-5)
      = Except.ok (store_of scenario_words 1 [2]
      [⟨0, -99, 0, -1⟩, ⟨1, -10, -5, -1⟩]
      [1] []) := by
    decide
  have h2 : add_gram (store_of scenario_words 1 [2]
      [⟨0, -99, 0, -1⟩, ⟨1, -10, -5, -1⟩]
      [1] []) [2] (-10) (-5)
      = Except.ok (store_of scenario_words 1 [3]
      [⟨0, -99, 0, -1⟩, ⟨1, -10, -5, -1⟩, ⟨2, -10, -5, -1⟩]
      [2] []) := by
    decide
  have h3 : add_gram (store_of scenario_words 1 [3]
      [⟨0, -99, 0, -1⟩, ⟨1, -10, -5, -1⟩, ⟨2, -10, -5, -1⟩]
      [2] []) [3] (-10) (-5)
      = Except.ok (store_of scenario_words 1 [4]
      [⟨0, -99, 0, -1⟩, ⟨1, -10, -5, -1⟩, ⟨2, -10, -5, -1⟩, ⟨3, -10, -5, -1⟩]
      [3] []) := by
    decide
  have h4 : add_gram (store_of scenario_words 1 [4]
      [⟨0, -99, 0, -1⟩, ⟨1, -10, -5, -1⟩, ⟨2, -10, -5, -1⟩, ⟨3, -10, -5, -1⟩]
      [3] []) [1, 1] (-3) 0
      = Except.ok (store_of scenario_words 2 [4, 1]
      [⟨0, -99, 0, -1⟩, ⟨1, -10, -5, 4⟩, ⟨2, -10, -5, 5⟩, ⟨3, -10, -5, -1⟩, ⟨1, -3, 0, -1⟩]
      [1, 1] [1, 4]) := by
    decide
  rw [build_eq _ _ _ (by decide)]
  simp only [one_bigram_calls, add_grams, h1, h2, h3, h4]
  rfl

theorem sparse_store_built : build sparse_words 16 sparse_calls = Except.ok sparse_store := by
  have h1 : add_gram (install_root (construct sparse_words)) [1] (-10) (-5)
      = Except.ok (store_of sparse_words 1 [2]
      [⟨0, -99, 0, -1⟩, ⟨1, -10, -5, -1⟩]
      [1] []) := by
    decide
  have h2 : add_gram (store_of sparse_words 1 [2]
      [⟨0, -99, 0, -1⟩, ⟨1, -10, -5, -1⟩]
      [1] []) [2] (-10) (-5)
      = Except.ok (store_of sparse_words 1 [3]
      [⟨0, -99, 0, -1⟩, ⟨1, -10, -5, -1⟩, ⟨2, -10, -5, -1⟩]
      [2] []) := by
    decide
  have h3 : add_gram (store_of sparse_words 1 [3]
      [⟨0, -99, 0, -1⟩, ⟨1, -10, -5, -1⟩, ⟨2, -10, -5, -1⟩]
      [2] []) [1, 1] (-3) 0
      = Except.ok (store_of sparse_words 2 [3, 1]
      [⟨0, -99, 0, -1⟩, ⟨1, -10, -5, 3⟩, ⟨2, -10, -5, 4⟩, ⟨1, -3, 0, -1⟩]
      [1, 1] [1, 3]) := by
    decide
  have h4 : add_gram (store_of sparse_words 2 [3, 1]
      [⟨0, -99, 0, -1⟩, ⟨1, -10, -5, 3⟩, ⟨2, -10, -5, 4⟩, ⟨1, -3, 0, -1⟩]
      [1, 1] [1, 3]) [1, 2] (-3) 0
      = Except.ok (store_of sparse_words 2 [3, 2]
      [⟨0, -99, 0, -1⟩, ⟨1, -10, -5, 3⟩, ⟨2, -10, -5, 5⟩, ⟨1, -3, 0, -1⟩, ⟨2, -3, 0, -1⟩]
      [1, 2] [1, 4]) := by
    decide
  have h5 : add_gram (store_of sparse_words 2 [3, 2]
      [⟨0, -99, 0, -1⟩, ⟨1, -10, -5, 3⟩, ⟨2, -10, -5, 5⟩, ⟨1, -3, 0, -1⟩, ⟨2, -3, 0, -1⟩]
      [1, 2] [1, 4]) [2, 1] (-3) 0
      = Except.ok (store_of sparse_words 2 [3, 3]
      [⟨0, -99, 0, -1⟩, ⟨1, -10, -5, 3⟩, ⟨2, -10, -5, 5⟩, ⟨1, -3, 0, 6⟩, ⟨2, -3, 0, -1⟩,
       ⟨1, -3, 0, -1⟩]
      [2, 1] [2, 5]) := by
    decide
  have h6 : add_gram (store_of sparse_words 2 [3, 3]
      [⟨0, -99, 0, -1⟩, ⟨1, -10, -5, 3⟩, ⟨2, -10, -5, 5⟩, ⟨1, -3, 0, 6⟩, ⟨2, -3, 0, -1⟩,
       ⟨1, -3, 0, -1⟩]
      [2, 1] [2, 5]) [5, 1] (-4) 0
      = Except.ok (store_of sparse_words 2 [3, 4]
      [⟨0, -99, 0, -1⟩, ⟨1, -10, -5, 3⟩, ⟨2, -10, -5, 5⟩, ⟨1, -3, 0, 6⟩, ⟨2, -3, 0, -1⟩,
       ⟨1, -3, 0, 6⟩, ⟨1, -4, 0, 7⟩]
      [5, 1] [5, 6]) := by
    decide
  have h7 : add_gram (store_of sparse_words 2 [3, 4]
      [⟨0, -99, 0, -1⟩, ⟨1, -10, -5, 3⟩, ⟨2, -10, -5, 5⟩, ⟨1, -3, 0, 6⟩, ⟨2, -3, 0, -1⟩,
       ⟨1, -3, 0, 6⟩, ⟨1, -4, 0, 7⟩]
      [5, 1] [5, 6]) [1, 1, 1] (-5) 0
      = Except.ok (store_of sparse_words 3 [3, 4, 1]
      [⟨0, -99, 0, -1⟩, ⟨1, -10, -5, 3⟩, ⟨2, -10, -5, 5⟩, ⟨1, -3, 0, 6⟩, ⟨2, -3, 0, 8⟩,
       ⟨1, -3, 0, 6⟩, ⟨1, -4, 0, 7⟩, ⟨1, -5, 0, -1⟩]
      [1, 1, 1] [1, 3, 7]) := by
    decide
  rw [build_eq _ _ _ (by decide)]
  simp only [sparse_calls, add_grams, h1, h2, h3, h4, h5, h6, h7]
  rfl

theorem alias_store_built : build scenario_words 16 alias_calls = Except.ok alias_store := by
  have h1 : add_gram (install_root (construct scenario_words)) [1] (-10) (-5)
      = Except.ok (store_of scenario_words 1 [2]
      [⟨0, -99, 0, -1⟩, ⟨1, -10, -5, -1⟩]
      [1] []) := by
    decide
  have h2 : add_gram (store_of scenario_words 1 [2]
      [⟨0, -99, 0, -1⟩, ⟨1, -10, -5, -1⟩]
      [1] []) [2] (-10) (-5)
      = Except.ok (store_of scenario_words 1 [3]
      [⟨0, -99, 0, -1⟩, ⟨1, -10, -5, -1⟩, ⟨2, -10, -5, -1⟩]
      [2] []) := by
    decide
  have h3 : add_gram (store_of scenario_words 1 [3]
      [⟨0, -99, 0, -1⟩, ⟨1, -10, -5, -1⟩, ⟨2, -10, -5, -1⟩]
      [2] []) [1, 1] (-3) 0
      = Except.ok (store_of scenario_words 2 [3, 1]
      [⟨0, -99, 0, -1⟩, ⟨1, -10, -5, 3⟩, ⟨2, -10, -5, 4⟩, ⟨1, -3, 0, -1⟩]
      [1, 1] [1, 3]) := by
    decide
  have h4 : add_gram (store_of scenario_words 2 [3, 1]
      [⟨0, -99, 0, -1⟩, ⟨1, -10, -5, 3⟩, ⟨2, -10, -5, 4⟩, ⟨1, -3, 0, -1⟩]
      [1, 1] [1, 3]) [3, 1] (-4) 0
      = Except.ok (store_of scenario_words 2 [3, 2]
      [⟨0, -99, 0, -1⟩, ⟨1, -10, -5, 3⟩, ⟨2, -10, -5, 4⟩, ⟨1, -3, 0, 4⟩, ⟨1, -4, 0, 5⟩]
      [3, 1] [3, 4]) := by
    decide
  have h5 : add_gram (store_of scenario_words 2 [3, 2]
      [⟨0, -99, 0, -1⟩, ⟨1, -10, -5, 3⟩, ⟨2, -10, -5, 4⟩, ⟨1, -3, 0, 4⟩, ⟨1, -4, 0, 5⟩]
      [3, 1] [3, 4]) [1, 1, 1] (-5) 0
      = Except.ok (store_of scenario_words 3 [3, 2, 1]
      [⟨0, -99, 0, -1⟩, ⟨1, -10, -5, 3⟩, ⟨2, -10, -5, 4⟩, ⟨1, -3, 0, 4⟩, ⟨1, -4, 0, 6⟩,
       ⟨1, -5, 0, -1⟩]
      [1, 1, 1] [1, 3, 5]) := by
    decide
  rw [build_eq _ _ _ (by decide)]
  simp only [alias_calls, add_grams, h1, h2, h3, h4, h5]
  rfl

/-- C10 (as stated, refuted): for the capacity `-1`, `m_nodes.reserve(-1)`
throws `std::length_error` after the node array was cleared: the call does not
return, on a fresh store and on the store of the first scenario, and no root
node is installed. -/
theorem reserve_nodes_negative_capacity :
    reserve_nodes (construct scenario_words) (-1) = Except.error Fault.length_error ∧
    reserve_nodes scenario1_store (-1) = Except.error Fault.length_error ∧
    build scenario_words (-1) [] = Except.error Fault.length_error :=
  ⟨by decide, by decide, by decide⟩

/-- C10 (amended): on every store and for every capacity from 0 on,
`reserve_nodes` returns and leaves exactly the root node `Node(0, -99, 0, -1)`,
`order_count = [1]` and `order = 1`. -/
theorem reserve_nodes_installs_root (s : TreeGram) (capacity : Int) (h : 0 ≤ capacity) :
    ∃ s1, reserve_nodes s capacity = Except.ok s1 ∧
      s1.m_nodes = [{ word := 0, log_prob := -99, back_off := 0, child_index := -1 }] ∧
      s1.m_order_count = [1] ∧ s1.m_order = 1 :=
  ⟨install_root s, reserve_nodes_eq s capacity h, rfl, rfl, rfl⟩

/-- C10 (amended) on the store of the first scenario, with the capacities 0
and 16. -/
theorem reserve_nodes_installs_root_witness :
    ((0 : Int) ≤ 0 ∧ ∃ s1, reserve_nodes scenario1_store 0 = Except.ok s1 ∧
      s1.m_nodes = [{ word := 0, log_prob := -99, back_off := 0, child_index := -1 }] ∧
      s1.m_order_count = [1] ∧ s1.m_order = 1) ∧
    ((0 : Int) ≤ 16 ∧ ∃ s1, reserve_nodes scenario1_store 16 = Except.ok s1 ∧
      s1.m_nodes = [{ word := 0, log_prob := -99, back_off := 0, child_index := -1 }] ∧
      s1.m_order_count = [1] ∧ s1.m_order = 1) :=
  ⟨⟨by decide, reserve_nodes_installs_root scenario1_store 0 (by decide)⟩,
    ⟨by decide, reserve_nodes_installs_root scenario1_store 16 (by decide)⟩⟩

/-! ## The ordering check -/

theorem lex_greater_nil_left (l : List Int) : ¬ lex_greater [] l := by
  rintro ⟨i, a, b, h, _⟩
  simp at h

theorem lex_greater_cons (g l : Int) (gs ls : List Int) :
    lex_greater (g :: gs) (l :: ls) ↔ g > l ∨ (g = l ∧ lex_greater gs ls) := by
  constructor
  · rintro ⟨i, a, b, ha, hb, hab, hj⟩
    cases i with
    | zero =>
      simp at ha hb
      left; omega
    | succ i =>
      right
      have h0 := hj 0 (Nat.succ_pos i)
      simp at h0
      refine ⟨h0, i, a, b, by simpa using ha, by simpa using hb, hab, ?_⟩
      intro j hji
      have := hj (j + 1) (Nat.succ_lt_succ hji)
      simpa using this
  · rintro (h | ⟨h, i, a, b, ha, hb, hab, hj⟩)
    · exact ⟨0, g, l, by simp, by simp, h, fun j hj => absurd hj (Nat.not_lt_zero j)⟩
    · refine ⟨i + 1, a, b, by simpa using ha, by simpa using hb, hab, ?_⟩
      intro j hji
      cases j with
      | zero => simp [h]
      | succ j => simpa using hj j (Nat.lt_of_succ_lt_succ hji)

theorem check_sorted_ok_iff (gram last : List Int) (hlen : gram.length = last.length) :
    (check_sorted gram last = Except.ok () ↔ lex_greater gram last) ∧
    (check_sorted gram last = Except.ok () ∨ check_sorted gram last = Except.error Fault.exit) := by
  induction gram generalizing last with
  | nil =>
    refine ⟨⟨fun h => ?_, fun h => absurd h (lex_greater_nil_left last)⟩, Or.inr ?_⟩
    · simp [check_sorted] at h
    · simp [check_sorted]
  | cons g gs ih =>
    cases last with
    | nil => simp at hlen
    | cons l ls =>
      have hl : gs.length = ls.length := by simpa using hlen
      obtain ⟨ih1, ih2⟩ := ih ls hl
      rw [lex_greater_cons]
      by_cases h1 : g > l
      · simp [check_sorted, h1]
      · by_cases h2 : g < l
        · have hne : ¬ g = l := by omega
          simp [check_sorted, h1, h2, hne]
        · have heq : g = l := by omega
          subst heq
          have hirr : ¬ g > g := lt_irrefl g
          simp only [check_sorted, hirr, if_false, true_and, false_or]
          exact ⟨ih1, ih2⟩

theorem check_order_spec (s : TreeGram) (gram : List Int) (h : gram ≠ [0]) :
    (check_order s gram = Except.ok () ↔ order_conditions s gram) ∧
    (¬ order_conditions s gram → check_order s gram = Except.error Fault.exit) := by
  unfold check_order order_conditions
  rw [if_neg h]
  by_cases h1 : gram.length < s.m_last_gram.length ∨ gram.length > s.m_last_gram.length + 1
  · rw [if_pos h1]
    refine ⟨⟨fun hc => by simp at hc, fun hc => ?_⟩, fun _ => rfl⟩
    omega
  · rw [if_neg h1]
    by_cases h2 : gram.length = 1 ∧ gram.head? ≠ some (s.m_nodes.length : Int)
    · rw [if_pos h2]
      refine ⟨⟨fun hc => by simp at hc, fun hc => ?_⟩, fun _ => rfl⟩
      exact absurd (hc.2.1 h2.1) h2.2
    · rw [if_neg h2]
      have h2' : gram.length = 1 → gram.head? = some (s.m_nodes.length : Int) := by
        intro hl
        by_contra hne
        exact h2 ⟨hl, hne⟩
      by_cases h3 : gram.length = s.m_last_gram.length
      · rw [if_pos h3]
        obtain ⟨hs1, hs2⟩ := check_sorted_ok_iff gram s.m_last_gram h3
        refine ⟨⟨fun hc => ⟨Or.inl h3, h2', fun _ => hs1.mp hc⟩, fun hc => hs1.mpr (hc.2.2 h3)⟩, ?_⟩
        intro hn
        rcases hs2 with hok | hex
        · exact absurd ⟨Or.inl h3, h2', fun _ => hs1.mp hok⟩ hn
        · exact hex
      · rw [if_neg h3]
        refine ⟨⟨fun _ => ⟨by omega, h2', fun hl => absurd hl h3⟩, fun _ => rfl⟩, ?_⟩
        intro hn
        exact absurd ⟨by omega, h2', fun hl => absurd hl h3⟩ hn

/-- C5: for a gram other than the OOV unigram `[0]`, `check_order` returns
exactly when the three ordering conditions hold (length equal to that of the
last gram or one more; a unigram's word equal to the node count; a gram of
the same length strictly greater than the last gram at the first differing
position), and in every other case it stops with `exit(1)`. -/
theorem check_order_accepts_iff (s : TreeGram) (gram : List Int) (h : gram ≠ [0]) :
    (check_order s gram = Except.ok () ↔ order_conditions s gram) ∧
    (¬ order_conditions s gram → check_order s gram = Except.error Fault.exit) :=
  check_order_spec s gram h

/-- C5 at a concrete store and gram: the bigram `[2, 1]` on the store of the
unigrams `[1]`, `[2]`. -/
theorem check_order_accepts_iff_witness :
    ([2, 1] : List Int) ≠ [0] ∧
    ((check_order unigram_store [2, 1] = Except.ok () ↔ order_conditions unigram_store [2, 1]) ∧
     (¬ order_conditions unigram_store [2, 1] →
        check_order unigram_store [2, 1] = Except.error Fault.exit)) :=
  ⟨by decide, check_order_accepts_iff unigram_store [2, 1] (by decide)⟩

/-! ## Order counts -/

theorem sum_set_succ (l : List Int) (i : Nat) (c : Int) (h : l[i]? = some c) :
    (l.set i (c + 1)).sum = l.sum + 1 := by
  induction l generalizing i with
  | nil => simp at h
  | cons x xs ih =>
    cases i with
    | zero =>
      simp at h
      subst h
      simp [List.set]
      omega
    | succ i =>
      have h1 : xs[i]? = some c := by simpa using h
      simp [List.set, ih i h1]
      omega

theorem incr_count_sum (counts counts1 : List Int) (i : Nat)
    (h : incr_count counts i = Except.ok counts1) : counts1.sum = counts.sum + 1 := by
  unfold incr_count at h
  split at h
  · simp at h
  · next c hc =>
    simp at h
    subst h
    exact sum_set_succ counts i c hc

theorem open_count_nodes (s : TreeGram) (gram : List Int) :
    (open_count s gram).m_nodes = s.m_nodes := by
  unfold open_count
  split <;> rfl

theorem open_count_sum (s : TreeGram) (gram : List Int) :
    count_sum (open_count s gram) = count_sum s := by
  unfold open_count
  split <;> simp [count_sum]

theorem update_counts_effect (s s1 : TreeGram) (gram : List Int)
    (h : update_counts s gram = Except.ok s1) :
    s1.m_nodes = s.m_nodes ∧
    count_sum s1 = count_sum s + (if gram = [0] then 0 else 1) := by
  unfold update_counts at h
  by_cases h1 : (open_count s gram).m_order_count.length ≠ gram.length
  · rw [if_pos h1] at h
    simp at h
  · rw [if_neg h1] at h
    by_cases h0 : gram = [0]
    · rw [if_pos h0] at h
      simp at h
      subst h
      simp [h0, open_count_nodes, open_count_sum]
    · rw [if_neg h0] at h
      split at h
      · simp at h
      · next counts hc =>
        simp at h
        subst h
        have := incr_count_sum _ _ _ hc
        simp only [h0, if_false, count_sum]
        rw [this]
        have hsum := open_count_sum s gram
        simp only [count_sum] at hsum
        exact ⟨open_count_nodes s gram, by rw [hsum]⟩

theorem set_child_index_length (nodes nodes1 : List Node) (i v : Int)
    (h : set_child_index nodes i v = Except.ok nodes1) : nodes1.length = nodes.length := by
  unfold set_child_index at h
  split at h
  · simp at h
  · simp at h
    subst h
    simp

theorem add_higher_length (s s1 : TreeGram) (gram : List Int) (lp bo : Int)
    (h : add_higher s gram lp bo = Except.ok s1) :
    s1.m_nodes.length = s.m_nodes.length + 1 ∧ s1.m_order_count = s.m_order_count := by
  unfold add_higher at h
  split at h
  · simp at h
  · split at h
    · split at h
      · simp at h
      · simp only at h
        split at h
        · simp at h
        · next nodes3 h3 =>
          simp at h
          subst h
          have := set_child_index_length _ _ _ _ h3
          simp only [this]
          split <;> simp
    · simp at h

theorem insert_node_length (s s1 : TreeGram) (gram : List Int) (lp bo : Int)
    (h : insert_node s gram lp bo = Except.ok s1) :
    (s1.m_nodes.length : Int) = s.m_nodes.length + (if gram = [0] then 0 else 1) ∧
    s1.m_order_count = s.m_order_count := by
  unfold insert_node at h
  split at h
  · simp at h
  · next w =>
    unfold add_unigram at h
    split at h
    · next hw =>
      subst hw
      split at h
      · simp at h
      · next root rest hr =>
        simp at h
        subst h
        simp [hr]
    · next hw =>
      simp at h
      subst h
      simp [hw]
  · next a b rest =>
    have := add_higher_length _ _ _ _ _ h
    simp [this.1, this.2]

theorem add_gram_count_sum (s s1 : TreeGram) (gram : List Int) (lp bo : Int)
    (h : add_gram s gram lp bo = Except.ok s1)
    (hs : (s.m_nodes.length : Int) = count_sum s) :
    (s1.m_nodes.length : Int) = count_sum s1 := by
  unfold add_gram at h
  split at h
  · simp at h
  · split at h
    · simp at h
    · split at h
      · simp at h
      · next s2 h2 =>
        split at h
        · simp at h
        · next s3 h3 =>
          split at h
          · simp at h
          · simp at h
            subst h
            obtain ⟨hn2, hc2⟩ := update_counts_effect _ _ _ h2
            obtain ⟨hn3, hc3⟩ := insert_node_length _ _ _ _ _ h3
            simp only [count_sum] at *
            rw [hn3, hc3, hn2, hc2, hs]

/-- C7 (as stated, refuted): on the store built from the unigrams `[1]`, `[2]`
the node array has three entries and the order counts sum to three, so
`len(nodes) - 1` differs from `sum(order_count)`. -/
theorem count_sum_includes_root :
    build small_words 16 unigram_calls = Except.ok unigram_store ∧
    (unigram_store.m_nodes.length : Int) - 1 ≠ count_sum unigram_store :=
  ⟨unigram_store_built, by decide⟩

/-- C7 (amended): after `reserve_nodes` on any store and any accepted sequence
of `add_gram` calls, `len(nodes) == sum(order_count)`: the root slot is counted
in `order_count[0]`. -/
theorem nodes_length_eq_count_sum (s0 s1 s : TreeGram) (capacity : Int)
    (calls : List (List Int × Int × Int))
    (h0 : reserve_nodes s0 capacity = Except.ok s1)
    (h : add_grams s1 calls = Except.ok s) :
    (s.m_nodes.length : Int) = count_sum s := by
  have key : ∀ (calls : List (List Int × Int × Int)) (a b : TreeGram),
      (a.m_nodes.length : Int) = count_sum a → add_grams a calls = Except.ok b →
      (b.m_nodes.length : Int) = count_sum b := by
    intro calls
    induction calls with
    | nil =>
      intro a b ha hab
      simp [add_grams] at hab
      subst hab
      exact ha
    | cons c rest ih =>
      intro a b ha hab
      simp only [add_grams] at hab
      split at hab
      · simp at hab
      · next a1 h1 =>
        exact ih a1 b (add_gram_count_sum _ _ _ _ _ h1 ha) hab
  have hs1 : s1 = install_root s0 := by
    unfold reserve_nodes at h0
    split at h0
    · simp at h0
    · simp at h0
      exact h0.symm
  subst hs1
  exact key calls _ s (by simp [install_root, count_sum]) h

/-- C7 (amended) on the store of the spec's first scenario: six nodes, order
counts `[4, 1, 1]`. -/
theorem nodes_length_eq_count_sum_witness :
    reserve_nodes (construct scenario_words) 16
      = Except.ok (install_root (construct scenario_words)) ∧
    add_grams (install_root (construct scenario_words)) scenario1_calls
      = Except.ok scenario1_store ∧
    (scenario1_store.m_nodes.length : Int) = count_sum scenario1_store :=
  ⟨reserve_nodes_eq _ _ (by decide),
    (build_steps _ _ _ _ scenario1_store_built).2,
    nodes_length_eq_count_sum (construct scenario_words) (install_root (construct scenario_words))
      scenario1_store 16 scenario1_calls (reserve_nodes_eq _ _ (by decide))
      (build_steps _ _ _ _ scenario1_store_built).2⟩

/-! ## The back-off query -/

theorem fetch_loop_length_le (s : TreeGram) (ws : List Int) (prev : Int) (stack out : List Int)
    (h : fetch_loop s ws prev stack = Except.ok out) : stack.length ≤ out.length := by
  induction ws generalizing prev stack with
  | nil =>
    simp [fetch_loop] at h
    subst h
    exact Nat.le_refl _
  | cons w ws ih =>
    simp only [fetch_loop] at h
    split at h
    · simp at h
    · next node hn =>
      split at h
      · simp at h
        subst h
        exact Nat.le_refl _
      · have := ih _ _ h
        simp at this
        omega

theorem fetch_loop_root_ne_nil (s : TreeGram) (w : Int) (ws out : List Int)
    (h : fetch_loop s (w :: ws) (-1) [] = Except.ok out) : out ≠ [] := by
  simp only [fetch_loop] at h
  split at h
  · simp at h
  · next node hn =>
    unfold find_child at hn
    split at hn
    · simp at hn
    · next hv =>
      simp at hn
      have hw : ¬ node < 0 := by omega
      rw [if_neg hw] at h
      have := fetch_loop_length_le _ _ _ _ _ h
      intro ho
      subst ho
      simp at this

theorem fetch_gram_suffix (s : TreeGram) (gram : List Int) (n : Nat) (hn : n < gram.length) :
    fetch_gram s gram (n : Int) = fetch_gram s (gram.drop n) 0 := by
  unfold fetch_gram
  have h1 : ((n : Int) ≥ 0 ∧ (n : Int) < (gram.length : Int)) := by omega
  have h2 : ((0 : Int) ≥ 0 ∧ (0 : Int) < ((gram.drop n).length : Int)) := by
    simp
    omega
  simp only [h1, h2, not_true_eq_false, if_false]
  simp

theorem backoff_loop_eq_terms (h : Host) (s : TreeGram) (gram : List Int) :
    ∀ (r : Nat) (acc hist : Int), r ≤ gram.length →
      (backoff_loop h s gram r acc hist).map Prod.fst
        = (backoff_terms h s (gram.drop (gram.length - r))).map
            (fun l => l.foldl h.fadd acc) := by
  intro r
  induction r with
  | zero =>
    intro acc hist _
    simp [backoff_loop, backoff_terms, Except.map]
  | succ r ih =>
    intro acc hist hr
    have hn : gram.length - (r + 1) < gram.length := by omega
    have hcast : ((gram.length : Int) - ((r : Int) + 1)) = ((gram.length - (r + 1) : Nat) : Int) := by
      omega
    obtain ⟨w, ws, hws⟩ : ∃ w ws, gram.drop (gram.length - (r + 1)) = w :: ws := by
      cases hd : gram.drop (gram.length - (r + 1)) with
      | nil =>
        have := congrArg List.length hd
        simp at this
        omega
      | cons w ws => exact ⟨w, ws, rfl⟩
    have htail : gram.drop (gram.length - r) = ws := by
      have : gram.length - r = (gram.length - (r + 1)) + 1 := by omega
      rw [this, ← List.drop_drop, hws]
      rfl
    have hlen : (w :: ws).length = r + 1 := by
      rw [← hws]
      simp
      omega
    have hwsl : ws.length = r := by simpa using hlen
    rw [hws]
    simp only [backoff_loop, backoff_terms]
    rw [hcast, fetch_gram_suffix s gram _ hn, hws]
    cases hf : fetch_gram s (w :: ws) 0 with
    | error e => simp [Except.map]
    | ok stack =>
      have hne : stack ≠ [] := by
        unfold fetch_gram at hf
        simp at hf
        exact fetch_loop_root_ne_nil s w ws stack hf
      obtain ⟨top, htop⟩ : ∃ top, stack.getLast? = some top := by
        cases hg : stack.getLast? with
        | none => simp at hg; exact absurd hg hne
        | some top => exact ⟨top, rfl⟩
      simp only [htop, resolved_node]
      have e1 : ((stack.length : Int) = (gram.length : Int) - ((gram.length - (r + 1) : Nat) : Int))
          ↔ stack.length = (w :: ws).length := by
        rw [hlen]
        omega
      have e2 : ((stack.length : Int) = (gram.length : Int) - ((gram.length - (r + 1) : Nat) : Int) - 1)
          ↔ stack.length = ws.length := by
        rw [hwsl]
        omega
      by_cases c1 : stack.length = (w :: ws).length
      · rw [if_pos (e1.mpr c1), if_pos c1]
        simp [Except.map]
      · rw [if_neg (fun h => c1 (e1.mp h)), if_neg c1]
        by_cases c2 : stack.length = ws.length
        · rw [if_pos (e2.mpr c2), if_pos c2]
          rw [ih _ _ (by omega), htail]
          cases backoff_terms h s ws with
          | error e => simp [Except.map]
          | ok l => simp [Except.map]
        · rw [if_neg (fun h => c2 (e2.mp h)), if_neg c2]
          rw [ih _ _ (by omega), htail]

theorem log_prob_backoff_terms (h : Host) (s : TreeGram) (g : List Int) :
    (log_prob_backoff h s g).map Prod.fst
      = (backoff_terms h s g).map (fun l => l.foldl h.fadd h.fzero) := by
  unfold log_prob_backoff
  cases g with
  | nil => simp [backoff_terms, Except.map]
  | cons w ws =>
    have hpos : (w :: ws).length > 0 := by simp
    simp only [hpos, not_true_eq_false, if_false]
    rw [backoff_loop_eq_terms h s (w :: ws) (w :: ws).length h.fzero (-1) (Nat.le_refl _)]
    simp only [Nat.sub_self, List.drop_zero]

/-- C1 (failing input): after the unigrams `[1]`, `[2]` the bigram `[2, 1]`
is accepted with `log_prob = -3`, but `find_path` keeps the first entry of the
resized, empty `m_insert_stack`, so the node is filed under node 0.  The
descent along `[2, 1]` resolves one word only and `log_prob([2, 1])` returns
`back_off(2) + log_prob(1) = -14`; the stored value `-3` is returned for the
gram `[0, 1]`, which was never inserted. -/
theorem first_bigram_lookup_misses :
    build small_words 16 first_bigram_calls = Except.ok first_bigram_store ∧
    fetch_gram first_bigram_store [2, 1] 0 = Except.ok [2] ∧
    (log_prob_backoff int_host first_bigram_store [2, 1]).map Prod.fst = Except.ok (-14) ∧
    (log_prob_backoff int_host first_bigram_store [0, 1]).map Prod.fst = Except.ok (-3) :=
  ⟨first_bigram_store_built, by decide, by decide, by decide⟩

/-- C3 (as stated, refuted): the store of `alias_calls` is built by
`reserve_nodes` and five accepted `add_gram` calls; the word id 3 is in the
vocabulary and has no unigram node, so index 3 is the node of the bigram `(a,
a)`, whose child range holds the nodes 4 and 5, both with the word 1.
`fetch_bigram_list(3, [1], out)` leaves `out[0] = -5`, the value of the last
child with the word 1, while `log_prob([3, 1])` returns `-4`, the value of the
first one.  No read leaves the node array. -/
theorem fetch_bigram_list_differs_from_log_prob :
    build scenario_words 16 alias_calls = Except.ok alias_store ∧
    (3 : Int) < (alias_store.m_words.length : Int) ∧
    (1 : Int) < (alias_store.m_words.length : Int) ∧
    fetch_gram alias_store [3, 1] 0 = Except.ok [3, 4] ∧
    fetch_bigram_list int_host alias_store 3 [1] [0] = Except.ok [-5] ∧
    (log_prob_backoff int_host alias_store [3, 1]).map Prod.fst = Except.ok (-4) :=
  ⟨alias_store_built, by decide, by decide, by decide, by decide, by decide⟩

/-- C4 (failing input): on the store whose last node is the bigram `(2, 1)`,
`fetch_trigram_list(2, 1, [1], out)` finds the bigram at index 3, whose
`child_index` is 4, and reads `m_nodes[4]`, one past the last node; the value
read decides whether the trigram loop runs.  `log_prob([2, 1, 1])` returns
`-2 + -5 + -10 = -17`. -/
theorem fetch_trigram_list_reads_past_end :
    build small_words 16 last_bigram_calls = Except.ok last_bigram_store ∧
    find_child last_bigram_store 1 2 = Except.ok 3 ∧
    fetch_trigram_list int_host last_bigram_store 2 1 [1] [0]
      = Except.error Fault.out_of_bounds ∧
    node_at last_bigram_store.m_nodes (3 + 1) = Except.error Fault.out_of_bounds ∧
    (log_prob_backoff int_host last_bigram_store [2, 1, 1]).map Prod.fst = Except.ok (-17) :=
  ⟨last_bigram_store_built, by decide, by decide, by decide, by decide⟩

/-- C6 (failing input): on the store of the first scenario, whose order is 3,
`add_gram([0], -20, -1)` passes `check_order` and then fails the assertion
`m_order_count.size() == gram.size()`. -/
theorem oov_update_asserts_after_bigrams :
    build scenario_words 16 scenario1_calls = Except.ok scenario1_store ∧
    check_order scenario1_store [0] = Except.ok () ∧
    add_gram scenario1_store [0] (-20) (-1) = Except.error Fault.assertion :=
  ⟨scenario1_store_built, by decide, by decide⟩

/-! ## Reading and writing the node array -/

theorem node_at_ok_iff (nodes : List Node) (i : Int) (nd : Node) :
    node_at nodes i = Except.ok nd ↔ 0 ≤ i ∧ nodes[i.toNat]? = some nd := by
  unfold node_at
  by_cases h : i < 0
  · simp [h]
  · simp only [h, if_false]
    cases hg : nodes[i.toNat]? with
    | none => simp
    | some x =>
      simp
      intro _
      omega

theorem node_at_ok_bounds (nodes : List Node) (i : Int) (nd : Node)
    (h : node_at nodes i = Except.ok nd) : 0 ≤ i ∧ i < (nodes.length : Int) := by
  rw [node_at_ok_iff] at h
  obtain ⟨h0, h1⟩ := h
  have := List.getElem?_eq_some_iff.mp h1
  obtain ⟨hlt, _⟩ := this
  omega

theorem node_at_in_bounds (nodes : List Node) (i : Int) (h0 : 0 ≤ i)
    (h1 : i < (nodes.length : Int)) : ∃ nd, node_at nodes i = Except.ok nd := by
  have hlt : i.toNat < nodes.length := by omega
  refine ⟨nodes[i.toNat], ?_⟩
  rw [node_at_ok_iff]
  exact ⟨h0, List.getElem?_eq_getElem hlt⟩

theorem node_at_error_of_out (nodes : List Node) (i : Int)
    (h : i < 0 ∨ (nodes.length : Int) ≤ i) : ∃ e, node_at nodes i = Except.error e := by
  cases hn : node_at nodes i with
  | error e => exact ⟨e, rfl⟩
  | ok nd =>
    have := node_at_ok_bounds nodes i nd hn
    omega

theorem child_index_at_out (nodes : List Node) (i : Int)
    (h : i < 0 ∨ (nodes.length : Int) ≤ i) : child_index_at nodes i = -1 := by
  obtain ⟨e, he⟩ := node_at_error_of_out nodes i h
  simp [child_index_at, he]

theorem child_index_at_of_ok (nodes : List Node) (i : Int) (nd : Node)
    (h : node_at nodes i = Except.ok nd) : child_index_at nodes i = nd.child_index := by
  simp [child_index_at, h]

theorem word_at_of_ok (nodes : List Node) (i : Int) (nd : Node)
    (h : node_at nodes i = Except.ok nd) : word_at nodes i = nd.word := by
  simp [word_at, h]

theorem node_at_append_new (nodes : List Node) (x : Node) :
    node_at (nodes ++ [x]) (nodes.length : Int) = Except.ok x := by
  rw [node_at_ok_iff]
  refine ⟨by omega, ?_⟩
  simp

theorem node_at_append_old (nodes : List Node) (x : Node) (i : Int)
    (h : i ≠ (nodes.length : Int)) :
    child_index_at (nodes ++ [x]) i = child_index_at nodes i ∧
    word_at (nodes ++ [x]) i = word_at nodes i := by
  by_cases hin : 0 ≤ i ∧ i < (nodes.length : Int)
  · obtain ⟨nd, hnd⟩ := node_at_in_bounds nodes i hin.1 hin.2
    have h2 : node_at (nodes ++ [x]) i = Except.ok nd := by
      rw [node_at_ok_iff] at hnd ⊢
      refine ⟨hnd.1, ?_⟩
      rw [List.getElem?_append_left (by omega)]
      exact hnd.2
    simp [child_index_at, word_at, hnd, h2]
  · have ho : i < 0 ∨ (nodes.length : Int) ≤ i := by omega
    have ho2 : i < 0 ∨ ((nodes ++ [x]).length : Int) ≤ i := by
      simp
      omega
    obtain ⟨e, he⟩ := node_at_error_of_out nodes i ho
    obtain ⟨e2, he2⟩ := node_at_error_of_out _ i ho2
    simp [child_index_at, word_at, he, he2]

theorem node_at_set (nodes : List Node) (p : Int) (x : Node) (hp0 : 0 ≤ p)
    (hp1 : p < (nodes.length : Int)) (i : Int) :
    node_at (nodes.set p.toNat x) i = if i = p then Except.ok x else node_at nodes i := by
  by_cases hip : i = p
  · subst hip
    simp only [if_true]
    rw [node_at_ok_iff]
    refine ⟨hp0, ?_⟩
    rw [List.getElem?_set_self (by omega)]
  · simp only [hip, if_false]
    unfold node_at
    by_cases h0 : i < 0
    · simp [h0]
    · simp only [h0, if_false]
      have : p.toNat ≠ i.toNat := by omega
      rw [List.getElem?_set_ne this]

/-! ## What a successful search returns -/

theorem linear_scan_sound (nodes : List Node) (word : Int) (n : Nat) (first idx : Int)
    (h : linear_scan nodes word n first = Except.ok idx) (hidx : 0 ≤ idx) :
    first ≤ idx ∧ idx < first + n ∧ word_at nodes idx = word := by
  induction n generalizing first with
  | zero =>
    simp [linear_scan] at h
    omega
  | succ n ih =>
    simp only [linear_scan] at h
    split at h
    · simp at h
    · next nd hnd =>
      split at h
      · next hw =>
        simp at h
        subst h
        refine ⟨le_refl _, by push_cast; omega, ?_⟩
        rw [word_at_of_ok _ _ _ hnd]
        exact hw
      · have := ih (first + 1) h
        push_cast
        omega

theorem binary_search_loop_sound (nodes : List Node) (word : Int) (fuel : Nat)
    (first last idx : Int)
    (h : binary_search_loop nodes word fuel first last = Except.ok idx) (hidx : 0 ≤ idx) :
    first ≤ idx ∧ idx < last ∧ word_at nodes idx = word := by
  induction fuel generalizing first last with
  | zero =>
    unfold binary_search_loop at h
    split at h
    · simp at h
    · next hlen =>
      have := linear_scan_sound _ _ _ _ _ h hidx
      omega
  | succ fuel ih =>
    unfold binary_search_loop at h
    split at h
    · next hlen =>
      simp only at h
      split at h
      · simp at h
      · next nd hnd =>
        split at h
        · next hw =>
          simp at h
          subst h
          refine ⟨by omega, by omega, ?_⟩
          rw [word_at_of_ok _ _ _ hnd]
          exact hw
        · split at h
          · have := ih _ _ h
            omega
          · have := ih _ _ h
            omega
    · next hlen =>
      have := linear_scan_sound _ _ _ _ _ h hidx
      omega

theorem find_child_sound (s : TreeGram) (w prev idx : Int)
    (h : find_child s w prev = Except.ok idx) (hidx : 0 ≤ idx) :
    (0 ≤ w ∧ w < (s.m_words.length : Int)) ∧
    ((prev < 0 ∧ idx = w) ∨ child_rel s.m_nodes prev idx w) := by
  unfold find_child at h
  split at h
  · simp at h
  · next hv =>
    refine ⟨by omega, ?_⟩
    split at h
    · next hp =>
      simp at h
      exact Or.inl ⟨hp, h.symm⟩
    · next hp =>
      right
      split at h
      · simp at h
        omega
      · split at h
        · next nd nx hnd hnx =>
          split at h
          · simp at h
            omega
          · next hc =>
            unfold binary_search at h
            have := binary_search_loop_sound _ _ _ _ _ _ h hidx
            refine ⟨by omega, ?_, ?_, ?_, this.2.2⟩
            · rw [child_index_at_of_ok _ _ _ hnd]; omega
            · rw [child_index_at_of_ok _ _ _ hnd]; omega
            · rw [child_index_at_of_ok _ _ _ hnx]; omega
        · simp at h

theorem find_child_congr (s1 s2 : TreeGram) (hw : s1.m_words = s2.m_words)
    (hn : s1.m_nodes = s2.m_nodes) (w prev : Int) :
    find_child s1 w prev = find_child s2 w prev := by
  unfold find_child binary_search
  rw [hw, hn]

theorem search_path_congr (s1 s2 : TreeGram) (hw : s1.m_words = s2.m_words)
    (hn : s1.m_nodes = s2.m_nodes) (ws : List Int) (prev : Int) (stack : List Int) :
    search_path s1 ws prev stack = search_path s2 ws prev stack := by
  induction ws generalizing prev stack with
  | nil => simp [search_path]
  | cons w ws ih =>
    simp only [search_path]
    rw [find_child_congr s1 s2 hw hn]
    cases find_child s2 w prev with
    | error e => rfl
    | ok index =>
      simp only
      split
      · rfl
      · exact ih _ _

theorem find_path_congr (s1 s2 : TreeGram) (hw : s1.m_words = s2.m_words)
    (hn : s1.m_nodes = s2.m_nodes) (hl : s1.m_last_gram = s2.m_last_gram)
    (hs : s1.m_insert_stack = s2.m_insert_stack) (gram : List Int) :
    find_path s1 gram = find_path s2 gram := by
  unfold find_path
  rw [hl, hs]
  split
  · rfl
  · cases shared_words gram.dropLast s2.m_last_gram with
    | error e => rfl
    | ok order =>
      simp only
      exact search_path_congr s1 s2 hw hn _ _ _

/-! ## The shape of the child indices under an insertion -/

theorem shape_L_le_succ {n : Int} {ci wd : Int → Int} {L : Nat → Int} {k : Nat} {F : Int}
    (h : array_shape n ci wd L k F) (j : Nat) : L j ≤ L (j + 1) := by
  by_cases hj : j < k
  · exact le_of_lt (h.Lstrict j hj)
  · rw [h.Ltop j (by omega), h.Ltop (j + 1) (by omega)]

theorem shape_L_mono {n : Int} {ci wd : Int → Int} {L : Nat → Int} {k : Nat} {F : Int}
    (h : array_shape n ci wd L k F) (i j : Nat) (hij : i ≤ j) : L i ≤ L j := by
  induction j with
  | zero =>
    have : i = 0 := by omega
    subst this
    exact le_refl _
  | succ j ih =>
    by_cases hi : i = j + 1
    · subst hi
      exact le_refl _
    · exact le_trans (ih (by omega)) (shape_L_le_succ h j)

theorem shape_L_le_n {n : Int} {ci wd : Int → Int} {L : Nat → Int} {k : Nat} {F : Int}
    (h : array_shape n ci wd L k F) (j : Nat) : L j ≤ n := by
  have h1 := shape_L_mono h j (max j k) (le_max_left _ _)
  rw [h.Ltop (max j k) (le_max_right _ _)] at h1
  exact h1

theorem shape_L_nonneg {n : Int} {ci wd : Int → Int} {L : Nat → Int} {k : Nat} {F : Int}
    (h : array_shape n ci wd L k F) (j : Nat) : 0 ≤ L j := by
  have h1 := shape_L_mono h 0 j (Nat.zero_le _)
  rw [h.L0] at h1
  exact h1

/-- A new node `n` with word `w` under a parent `p` at or after the frontier:
`p` is of order `a + 1`, the new node of order `a + 2`. -/
theorem shape_insert_new {n : Int} {ci wd : Int → Int} {L : Nat → Int} {k : Nat} {F : Int}
    (h : array_shape n ci wd L k F) (p w : Int) (a : Nat)
    (hk : k = a + 1 ∨ k = a + 2)
    (hpl : L a ≤ p) (hpu : p < L (a + 1)) (hFp : F ≤ p)
    (hX : L (a + 1) = n ∨ L a ≤ p - 1)
    (ci' wd' : Int → Int) (L' : Nat → Int)
    (hci : ∀ i, ci' i = if i = p + 1 then n + 1 else if i = p then
        (if ci p < 0 then n else ci p) else if i = n then -1 else ci i)
    (hwd : ∀ i, wd' i = if i = n then w else wd i)
    (hL : ∀ j, L' j = if j ≤ a + 1 then L j else n + 1) :
    array_shape (n + 1) ci' wd' L' (a + 2) (p + 1) := by
  have hLa1 : L (a + 1) ≤ n := shape_L_le_n h _
  have hLa0 : 0 ≤ L a := shape_L_nonneg h _
  have hLa2 : L (a + 2) = n := h.Ltop _ (by omega)
  have hpn : p < n := by omega
  have hp0 : 0 ≤ p := by omega
  -- the value at the parent
  have hcp : ci p = n ∨ ci p = -1 := by
    by_cases hF : F = p
    · subst hF
      rcases h.f1 with h1 | h1
      · exact Or.inl h1
      · exact Or.inr (h1 _)
    · exact Or.inr (h.f2 p (by omega))
  have hcp' : (if ci p < 0 then n else ci p) = n := by
    rcases hcp with h1 | h1 <;> simp [h1]
  have hci2 : ∀ i, ci' i = if i = p + 1 then n + 1 else if i = p then n else ci i := by
    intro i
    rw [hci i, hcp']
    by_cases h1 : i = p + 1
    · simp [h1]
    · by_cases h2 : i = p
      · simp [h2]
      · by_cases h3 : i = n
        · have := h.oor i (by omega)
          simp [h1, h2, h3] at this ⊢
          omega
        · simp [h1, h2, h3]
  have old_after : ∀ i, i ≠ p → 0 ≤ ci i → i < p := by
    intro i hip hi
    by_contra hlt
    have : F < i := by omega
    have := h.f2 i this
    omega
  refine
    { oor := ?_, bound := ?_, mono := ?_, sorted := ?_, lev1 := ?_, lev2 := ?_, f1 := ?_,
      f2 := ?_, L0 := ?_, Lstrict := ?_, Ltop := ?_ }
  · -- oor
    intro i hi
    rw [hci2]
    have := h.oor i
    split_ifs <;> omega
  · -- bound
    intro i
    rw [hci2]
    have := h.bound i
    split_ifs <;> omega
  · -- mono
    intro i j hij hi hj
    rw [hci2] at hi hj ⊢
    rw [hci2]
    have b1 := h.bound i
    have b2 := h.bound j
    have m := h.mono i j hij
    have oj := old_after j
    split_ifs at hi hj ⊢ <;> omega
  · -- sorted
    intro q x y hq hq1 hx hxy hy
    have b1 := h.bound (q + 1)
    by_cases c1 : q = p
    · subst c1
      rw [hci2] at hx hy
      simp only [if_true] at hy
      split_ifs at hx <;> omega
    · by_cases c2 : q = p + 1
      · subst c2
        rw [hci2] at hq1
        have := h.f2 (p + 1 + 1) (by omega)
        split_ifs at hq1 <;> omega
      · by_cases c3 : q + 1 = p
        · have hqv : ci' q = ci q := by
            rw [hci2]
            split_ifs; omega
          have hq1v : ci' (q + 1) = n := by
            rw [hci2]
            split_ifs <;> omega
          rw [hqv] at hq hx
          rw [hq1v] at hy
          have hwx : wd' x = wd x := by
            rw [hwd]
            split_ifs <;> omega
          have hwy : wd' y = wd y := by
            rw [hwd]
            split_ifs <;> omega
          rw [hwx, hwy]
          have hF : ci F = n := by
            rcases h.f1 with f1 | f1
            · exact f1
            · have := f1 q
              omega
          have hqF : q ≤ F := by
            by_contra hlt
            have := h.f2 q (by omega)
            omega
          by_cases c4 : F = p
          · subst c4
            refine h.sorted q x y hq ?_ hx hxy ?_
            · rw [c3]; omega
            · rw [c3]; omega
          · have : F = q := by omega
            subst this
            omega
        · have hqv : ci' q = ci q := by
            rw [hci2]
            split_ifs; omega
          have hq1v : ci' (q + 1) = ci (q + 1) := by
            rw [hci2]
            split_ifs <;> omega
          rw [hqv] at hq hx
          rw [hq1v] at hq1 hy
          have hwx : wd' x = wd x := by
            rw [hwd]
            split_ifs <;> omega
          have hwy : wd' y = wd y := by
            rw [hwd]
            split_ifs <;> omega
          rw [hwx, hwy]
          exact h.sorted q x y hq hq1 hx hxy hy
  · -- lev1
    intro j q hq1 hq2 hc
    rw [hL] at hq1 hq2
    rw [hL]
    rw [hci2] at hc ⊢
    have b0 := h.bound q
    have l1 := h.lev1 j q
    have o0 := old_after q
    have m1 : a + 1 ≤ j → L (a + 1) ≤ L j := fun hh => shape_L_mono h _ _ hh
    have m2 : j + 1 ≤ a → L (j + 1) ≤ L a := fun hh => shape_L_mono h _ _ hh
    have m3 := shape_L_le_n h (j + 1)
    split_ifs at hq1 hq2 hc ⊢ <;> omega
  · -- lev2
    intro j q hq1 hq2 hc
    rw [hL] at hq1 hq2
    rw [hL]
    rw [hci2] at hc ⊢
    have b0 := h.bound (q + 1)
    have l2 := h.lev2 j q
    have o0 := old_after (q + 1)
    have m1 : a + 1 ≤ j → L (a + 1) ≤ L j := fun hh => shape_L_mono h _ _ hh
    have m2 : j + 1 ≤ a → L (j + 1) ≤ L a := fun hh => shape_L_mono h _ _ hh
    have m3 := shape_L_le_n h (j + 2)
    have m4 : j + 2 ≤ a → L (j + 2) ≤ L a := fun hh => shape_L_mono h _ _ hh
    have s1 : j + 1 < k → L (j + 1) < L (j + 2) := fun hh => h.Lstrict _ hh
    have e1 : j + 1 = a → L (j + 2) = L (a + 1) := fun hh => by rw [← hh]
    split_ifs at hq1 hq2 hc ⊢ <;> omega
  · -- f1
    left
    rw [hci2]
    simp
  · -- f2
    intro i hi
    rw [hci2]
    have := h.f2 i
    split_ifs <;> omega
  · -- L0
    rw [hL]
    simp [h.L0]
  · -- Lstrict
    intro j hj
    rw [hL, hL]
    have s1 : j < k → L j < L (j + 1) := h.Lstrict j
    have s2 := shape_L_le_n h j
    split_ifs <;> omega
  · -- Ltop
    intro j hj
    rw [hL]
    split_ifs
    · omega
    · rfl

/-- A new node `n` with word `w` under the parent `p` just before the
frontier, whose range so far ends with node `n - 1`, of a smaller word. -/
theorem shape_insert_same {n : Int} {ci wd : Int → Int} {L : Nat → Int} {k : Nat} {F : Int}
    (h : array_shape n ci wd L k F) (p w : Int) (a : Nat)
    (hk : k = a + 2)
    (hpl : L a ≤ p) (hpu : p < L (a + 1)) (hF : F = p + 1)
    (hcp : 0 ≤ ci p) (hcF : ci F = n) (hlast : ci p ≤ n - 1) (hw : wd (n - 1) < w)
    (ci' wd' : Int → Int) (L' : Nat → Int)
    (hci : ∀ i, ci' i = if i = p + 1 then n + 1 else if i = p then
        (if ci p < 0 then n else ci p) else if i = n then -1 else ci i)
    (hwd : ∀ i, wd' i = if i = n then w else wd i)
    (hL : ∀ j, L' j = if j ≤ a + 1 then L j else n + 1) :
    array_shape (n + 1) ci' wd' L' (a + 2) (p + 1) := by
  have hLa1 : L (a + 1) < n := by
    have := h.Lstrict (a + 1) (by omega)
    rw [h.Ltop (a + 1 + 1) (by omega)] at this
    exact this
  have hLa0 : 0 ≤ L a := shape_L_nonneg h _
  have hpn : p < n := by omega
  have hp0 : 0 ≤ p := by omega
  have hci2 : ∀ i, ci' i = if i = p + 1 then n + 1 else ci i := by
    intro i
    rw [hci i]
    by_cases h1 : i = p + 1
    · simp [h1]
    · by_cases h2 : i = p
      · subst h2
        have : ¬ ci i < 0 := by omega
        simp [this]
      · by_cases h3 : i = n
        · have := h.oor i (by omega)
          simp [h1, h2, h3] at this ⊢
          omega
        · simp [h1, h2, h3]
  have old_le : ∀ i, 0 ≤ ci i → i ≤ p + 1 := by
    intro i hi
    by_contra hlt
    have := h.f2 i (by omega)
    omega
  refine
    { oor := ?_, bound := ?_, mono := ?_, sorted := ?_, lev1 := ?_, lev2 := ?_, f1 := ?_,
      f2 := ?_, L0 := ?_, Lstrict := ?_, Ltop := ?_ }
  · -- oor
    intro i hi
    rw [hci2]
    have := h.oor i
    split_ifs <;> omega
  · -- bound
    intro i
    rw [hci2]
    have := h.bound i
    split_ifs <;> omega
  · -- mono
    intro i j hij hi hj
    rw [hci2] at hi hj ⊢
    rw [hci2]
    have b1 := h.bound i
    have b2 := h.bound j
    have m := h.mono i j hij
    have oj := old_le j
    split_ifs at hi hj ⊢ <;> omega
  · -- sorted
    intro q x y hq hq1 hx hxy hy
    have b1 := h.bound (q + 1)
    by_cases c1 : q = p
    · subst c1
      have hqv : ci' q = ci q := by
        rw [hci2]
        split_ifs <;> omega
      have hq1v : ci' (q + 1) = n + 1 := by
        rw [hci2]
        simp
      rw [hqv] at hx
      rw [hq1v] at hy
      have hwx : wd' x = wd x := by
        rw [hwd]
        split_ifs <;> omega
      rw [hwx]
      have hcF' : ci (q + 1) = n := by rw [← hF]; exact hcF
      by_cases c2 : y = n
      · have hwy : wd' y = w := by
          rw [hwd]
          simp [c2]
        rw [hwy]
        by_cases c3 : x = n - 1
        · rw [c3]; exact hw
        · have := h.sorted q x (n - 1) hcp (by omega) hx (by omega) (by omega)
          omega
      · have hwy : wd' y = wd y := by
          rw [hwd]
          simp [c2]
        rw [hwy]
        exact h.sorted q x y hcp (by omega) hx hxy (by omega)
    · by_cases c2 : q = p + 1
      · subst c2
        rw [hci2] at hq1
        have := h.f2 (p + 1 + 1) (by omega)
        split_ifs at hq1 <;> omega
      · have hqv : ci' q = ci q := by
          rw [hci2]
          split_ifs; omega
        have hq1v : ci' (q + 1) = ci (q + 1) := by
          rw [hci2]
          split_ifs <;> omega
        rw [hqv] at hq hx
        rw [hq1v] at hq1 hy
        have hwx : wd' x = wd x := by
          rw [hwd]
          split_ifs <;> omega
        have hwy : wd' y = wd y := by
          rw [hwd]
          split_ifs <;> omega
        rw [hwx, hwy]
        exact h.sorted q x y hq hq1 hx hxy hy
  · -- lev1
    intro j q hq1 hq2 hc
    rw [hL] at hq1 hq2
    rw [hL]
    rw [hci2] at hc ⊢
    have b0 := h.bound q
    have l1 := h.lev1 j q
    have o0 := old_le q
    have m1 : a + 1 ≤ j → L (a + 1) ≤ L j := fun hh => shape_L_mono h _ _ hh
    have m3 := shape_L_le_n h (j + 1)
    split_ifs at hq1 hq2 hc ⊢ <;> omega
  · -- lev2
    intro j q hq1 hq2 hc
    rw [hL] at hq1 hq2
    rw [hL]
    rw [hci2] at hc ⊢
    have b0 := h.bound (q + 1)
    have l2 := h.lev2 j q
    have o0 := old_le (q + 1)
    have m1 : a + 1 ≤ j → L (a + 1) ≤ L j := fun hh => shape_L_mono h _ _ hh
    have m2 : j + 1 ≤ a → L (j + 1) ≤ L a := fun hh => shape_L_mono h _ _ hh
    have m3 := shape_L_le_n h (j + 2)
    split_ifs at hq1 hq2 hc ⊢ <;> omega
  · -- f1
    left
    rw [hci2]
    simp
  · -- f2
    intro i hi
    rw [hci2]
    have := h.f2 i
    split_ifs <;> omega
  · -- L0
    rw [hL]
    simp [h.L0]
  · -- Lstrict
    intro j hj
    rw [hL, hL]
    have s1 : j < k → L j < L (j + 1) := h.Lstrict j
    have s2 := shape_L_le_n h j
    split_ifs <;> omega
  · -- Ltop
    intro j hj
    rw [hL]
    split_ifs
    · omega
    · rfl

/-! ## The effect of one insertion on the node array -/

theorem child_index_at_set (nodes : List Node) (p : Int) (x : Node) (hp0 : 0 ≤ p)
    (hp1 : p < (nodes.length : Int)) (i : Int) :
    child_index_at (nodes.set p.toNat x) i
      = if i = p then x.child_index else child_index_at nodes i := by
  unfold child_index_at
  rw [node_at_set nodes p x hp0 hp1 i]
  split_ifs <;> rfl

theorem word_at_set (nodes : List Node) (p : Int) (x : Node) (hp0 : 0 ≤ p)
    (hp1 : p < (nodes.length : Int)) (i : Int) :
    word_at (nodes.set p.toNat x) i = if i = p then x.word else word_at nodes i := by
  unfold word_at
  rw [node_at_set nodes p x hp0 hp1 i]
  split_ifs <;> rfl

theorem child_index_at_append (nodes : List Node) (x : Node) (i : Int) :
    child_index_at (nodes ++ [x]) i
      = if i = (nodes.length : Int) then x.child_index else child_index_at nodes i := by
  by_cases h : i = (nodes.length : Int)
  · subst h
    simp [child_index_at, node_at_append_new]
  · simp only [h, if_false]
    exact (node_at_append_old nodes x i h).1

theorem word_at_append (nodes : List Node) (x : Node) (i : Int) :
    word_at (nodes ++ [x]) i
      = if i = (nodes.length : Int) then x.word else word_at nodes i := by
  by_cases h : i = (nodes.length : Int)
  · subst h
    simp [word_at, node_at_append_new]
  · simp only [h, if_false]
    exact (node_at_append_old nodes x i h).2

theorem set_child_index_effect (nodes nodes1 : List Node) (q v : Int)
    (h : set_child_index nodes q v = Except.ok nodes1) :
    nodes1.length = nodes.length ∧ 0 ≤ q ∧ q < (nodes.length : Int) ∧
    (∀ i, child_index_at nodes1 i = if i = q then v else child_index_at nodes i) ∧
    (∀ i, word_at nodes1 i = word_at nodes i) := by
  have hlen := set_child_index_length _ _ _ _ h
  unfold set_child_index at h
  split at h
  · simp at h
  · next nd hnd =>
    simp at h
    subst h
    obtain ⟨hq0, hq1⟩ := node_at_ok_bounds _ _ _ hnd
    refine ⟨hlen, hq0, hq1, ?_, ?_⟩
    · intro i
      rw [child_index_at_set _ _ _ hq0 hq1]
    · intro i
      rw [word_at_set _ _ _ hq0 hq1]
      split_ifs with hi
      · rw [hi, word_at_of_ok _ _ _ hnd]
      · rfl

/-- What `add_higher` does to the store, in terms of the path `r` that
`find_path` returns, its last entry `p` and the last word `w` of the gram. -/
theorem add_higher_effect (s s1 : TreeGram) (gram : List Int) (lp bo : Int)
    (h : add_higher s gram lp bo = Except.ok s1) :
    ∃ (r : List Int) (p w : Int),
      find_path s gram = Except.ok r ∧ r.getLast? = some p ∧ gram.getLast? = some w ∧
      0 ≤ p ∧ p < (s.m_nodes.length : Int) ∧
      (s1.m_nodes.length : Int) = (s.m_nodes.length : Int) + 1 ∧
      (∀ i, child_index_at s1.m_nodes i =
        if i = p + 1 then (s.m_nodes.length : Int) + 1 else if i = p then
          (if child_index_at s.m_nodes p < 0 then (s.m_nodes.length : Int)
           else child_index_at s.m_nodes p)
        else if i = (s.m_nodes.length : Int) then -1 else child_index_at s.m_nodes i) ∧
      (∀ i, word_at s1.m_nodes i =
        if i = (s.m_nodes.length : Int) then w else word_at s.m_nodes i) ∧
      s1.m_insert_stack = r ++ [(s.m_nodes.length : Int)] ∧
      s1.m_order_count = s.m_order_count ∧ s1.m_order = s.m_order ∧
      s1.m_last_gram = s.m_last_gram ∧ s1.m_words = s.m_words := by
  unfold add_higher at h
  split at h
  · simp at h
  · next r hr =>
    split at h
    · next p w hp hw =>
      split at h
      · simp at h
      · next par hpar =>
        simp only at h
        split at h
        · simp at h
        · next nodes3 h3 =>
          simp at h
          subst h
          obtain ⟨hp0, hp1⟩ := node_at_ok_bounds _ _ _ hpar
          have hcp : child_index_at s.m_nodes p = par.child_index :=
            child_index_at_of_ok _ _ _ hpar
          have hwp : word_at s.m_nodes p = par.word := word_at_of_ok _ _ _ hpar
          obtain ⟨nodes1, hn1, hlen1, hci1, hwd1⟩ :
              ∃ nodes1 : List Node,
                nodes1 = (if par.child_index < 0 then
                    s.m_nodes.set p.toNat { par with child_index := (s.m_nodes.length : Int) }
                  else s.m_nodes) ∧
                nodes1.length = s.m_nodes.length ∧
                (∀ i, child_index_at nodes1 i = if i = p then
                    (if child_index_at s.m_nodes p < 0 then (s.m_nodes.length : Int)
                     else child_index_at s.m_nodes p)
                  else child_index_at s.m_nodes i) ∧
                (∀ i, word_at nodes1 i = word_at s.m_nodes i) := by
            refine ⟨_, rfl, ?_, ?_, ?_⟩
            · split <;> simp
            · intro i
              rw [hcp]
              split
              · rw [child_index_at_set _ _ _ hp0 hp1]
              · split_ifs with hi
                · rw [hi, hcp]
                · rfl
            · intro i
              split
              · rw [word_at_set _ _ _ hp0 hp1]
                split_ifs with hi
                · rw [hi, hwp]
                · rfl
              · rfl
          rw [← hn1] at h3
          obtain ⟨hlen3, hq0, hq1, hci3, hwd3⟩ := set_child_index_effect _ _ _ _ h3
          refine ⟨r, p, w, hr, hp, hw, hp0, hp1, ?_, ?_, ?_, ?_, rfl, rfl, rfl, rfl⟩
          · simp [hlen3, hlen1]
          · intro i
            simp only
            rw [hci3, child_index_at_append, hci1]
            simp only [List.length_append, List.length_singleton, hlen1]
            push_cast
            split_ifs <;> first | rfl | omega
          · intro i
            simp only
            rw [hwd3, word_at_append, hwd1, hlen1]
          · simp [hlen3, hlen1]
    · simp at h

/-! ## Order starts -/

theorem level_start_zero (counts : List Int) : level_start counts 0 = 0 := by
  simp [level_start]

theorem level_start_one (s : TreeGram) : level_start s.m_order_count 1 = unigram_slots s := by
  unfold level_start unigram_slots
  cases s.m_order_count with
  | nil => simp
  | cons c cs => simp

theorem level_start_top (counts : List Int) (j : Nat) (h : counts.length ≤ j) :
    level_start counts j = counts.sum := by
  unfold level_start
  rw [List.take_of_length_le h]

theorem level_start_append (counts : List Int) (c : Int) (j : Nat) :
    level_start (counts ++ [c]) j
      = if j ≤ counts.length then level_start counts j else counts.sum + c := by
  unfold level_start
  split_ifs with h
  · rw [List.take_append_of_le_length h]
  · rw [List.take_of_length_le (by simp; omega)]
    simp

theorem level_start_set (counts : List Int) (i : Nat) (c : Int) (h : counts[i]? = some c) (j : Nat) :
    level_start (counts.set i (c + 1)) j
      = if j ≤ i then level_start counts j else level_start counts j + 1 := by
  unfold level_start
  induction counts generalizing i j with
  | nil => simp at h
  | cons x xs ih =>
    cases j with
    | zero => simp
    | succ j =>
      cases i with
      | zero =>
        simp at h
        subst h
        simp [List.set]
        omega
      | succ i =>
        have h1 : xs[i]? = some c := by simpa using h
        simp only [List.set, List.take_succ_cons, List.sum_cons, ih i h1 j]
        split_ifs <;> omega

/-! ## The common words of two grams -/

theorem shared_words_spec (a b : List Int) (m : Nat) (h : shared_words a b = Except.ok m) :
    m ≤ a.length ∧ m ≤ b.length ∧ (∀ j, j < m → a[j]? = b[j]?) ∧
    (m < a.length → ∃ x y, a[m]? = some x ∧ b[m]? = some y ∧ x ≠ y) := by
  induction a generalizing b m with
  | nil =>
    simp [shared_words] at h
    subst h
    simp
  | cons x xs ih =>
    cases b with
    | nil => simp [shared_words] at h
    | cons y ys =>
      simp only [shared_words] at h
      split at h
      · next hne =>
        simp at h
        subst h
        refine ⟨by simp, by simp, by simp, fun _ => ⟨x, y, by simp, by simp, hne⟩⟩
      · next heq =>
        have heq' : x = y := by
          by_contra hc
          exact heq hc
        split at h
        · simp at h
        · next k hk =>
          simp at h
          subst h
          obtain ⟨h1, h2, h3, h4⟩ := ih ys k hk
          refine ⟨by simp; omega, by simp; omega, ?_, ?_⟩
          · intro j hj
            cases j with
            | zero => simp [heq']
            | succ j => simpa using h3 j (by omega)
          · intro hlt
            obtain ⟨u, v, hu, hv, huv⟩ := h4 (by simpa using hlt)
            exact ⟨u, v, by simpa using hu, by simpa using hv, huv⟩

theorem lex_greater_first_diff (g l : List Int) (m : Nat) (h : lex_greater g l)
    (hm : ∀ j, j < m → g[j]? = l[j]?) (x y : Int) (hx : g[m]? = some x) (hy : l[m]? = some y)
    (hd : x ≠ y ∨ m + 1 = g.length) : y < x := by
  obtain ⟨i, a, b, ha, hb, hab, hj⟩ := h
  rcases Nat.lt_trichotomy i m with him | him | him
  · have := hm i him
    rw [ha, hb] at this
    simp at this
    omega
  · subst him
    rw [ha] at hx
    rw [hb] at hy
    simp at hx hy
    omega
  · rcases hd with hd | hd
    · have := hj m him
      rw [hx, hy] at this
      simp at this
      exact absurd this hd
    · have := List.getElem?_eq_some_iff.mp ha
      obtain ⟨hlt, _⟩ := this
      omega

/-! ## Paths in the node array -/

theorem search_path_sound (s : TreeGram) :
    ∀ (ws : List Int) (prev : Int) (st done r : List Int),
      st.length = done.length →
      (∀ (j : Nat) (x y w : Int), st[j]? = some x → st[j + 1]? = some y →
        done[j + 1]? = some w → child_rel s.m_nodes x y w) →
      (st = [] → prev < 0) →
      (st ≠ [] → st.getLast? = some prev ∧ 0 ≤ prev) →
      search_path s ws prev st = Except.ok r →
      r.length = (done ++ ws).length ∧
      (∀ (j : Nat) (x y w : Int), r[j]? = some x → r[j + 1]? = some y →
        (done ++ ws)[j + 1]? = some w → child_rel s.m_nodes x y w) ∧
      (∀ j, j < st.length → r[j]? = st[j]?) ∧
      (st = [] → ∀ x w, r[0]? = some x → ws[0]? = some w → x = w ∧ 0 ≤ w) := by
  intro ws
  induction ws with
  | nil =>
    intro prev st done r hlen hch _ _ h
    simp [search_path] at h
    subst h
    refine ⟨by simp [hlen], ?_, fun _ _ => rfl, ?_⟩
    · intro j x y w hx hy hw
      exact hch j x y w hx hy (by simpa using hw)
    · intro _ x w _ hw
      simp at hw
  | cons w ws ih =>
    intro prev st done r hlen hch hnil hcons h
    simp only [search_path] at h
    split at h
    · simp at h
    · next idx hidx =>
      split at h
      · simp at h
      · next hneg =>
        have hidx0 : 0 ≤ idx := by omega
        obtain ⟨hwv, hlink⟩ := find_child_sound s w prev idx hidx hidx0
        have hstep := ih idx (st ++ [idx]) (done ++ [w]) r (by simp [hlen]) ?_ (by simp)
          (fun _ => ⟨by simp, hidx0⟩) h
        · obtain ⟨r1, r2, r3, r4⟩ := hstep
          refine ⟨by simpa using r1, ?_, ?_, ?_⟩
          · intro j x y w' hx hy hw'
            exact r2 j x y w' hx hy (by simpa using hw')
          · intro j hj
            rw [r3 j (by simp; omega), List.getElem?_append_left hj]
          · intro hst x w' hx hw'
            subst hst
            have h0 := r3 0 (by simp)
            simp at h0
            rw [h0] at hx
            simp at hx hw'
            subst hx hw'
            rcases hlink with ⟨_, he⟩ | hc
            · exact ⟨he, hwv.1⟩
            · have := hnil rfl
              have := hc.1
              omega
        · intro j x y w' hx hy hw'
          by_cases hj : j + 1 < st.length
          · rw [List.getElem?_append_left (by omega)] at hx
            rw [List.getElem?_append_left hj] at hy
            rw [List.getElem?_append_left (by omega)] at hw'
            exact hch j x y w' hx hy hw'
          · by_cases hj2 : j + 1 = st.length
            · rw [List.getElem?_append_left (by omega)] at hx
              rw [hj2, List.getElem?_concat_length] at hy
              rw [hj2, hlen, List.getElem?_concat_length] at hw'
              simp at hy hw'
              subst hy hw'
              have hne : st ≠ [] := by
                intro hc
                subst hc
                simp at hj2
              obtain ⟨hl, hp0⟩ := hcons hne
              rw [List.getLast?_eq_getElem?] at hl
              have hjj : st.length - 1 = j := by omega
              rw [hjj, hx] at hl
              simp at hl
              subst hl
              rcases hlink with ⟨hp, _⟩ | hc
              · omega
              · exact hc
            · have : (st ++ [idx])[j + 1]? = none := by
                rw [List.getElem?_eq_none_iff]
                simp
                omega
              rw [this] at hy
              simp at hy

theorem path_levels {n : Int} {L : Nat → Int} {k : Nat} {F : Int} (nodes : List Node)
    (h : array_shape n (child_index_at nodes) (word_at nodes) L k F)
    (stack words : List Int) (hp : is_path nodes (L 1) stack words) :
    ∀ (j : Nat) (x : Int), stack[j]? = some x → L j ≤ x ∧ x < L (j + 1) := by
  obtain ⟨hlen, hfirst, hchain⟩ := hp
  intro j
  induction j with
  | zero =>
    intro x hx
    obtain ⟨hlt, _⟩ := List.getElem?_eq_some_iff.mp hx
    have hw : ∃ w, words[0]? = some w := ⟨words[0], List.getElem?_eq_getElem (by omega)⟩
    obtain ⟨w, hw⟩ := hw
    have := hfirst x w hx hw
    rw [h.L0]
    simp
    omega
  | succ j ih =>
    intro y hy
    obtain ⟨hlt, _⟩ := List.getElem?_eq_some_iff.mp hy
    have hx : stack[j]? = some stack[j] := List.getElem?_eq_getElem (by omega)
    have hw : words[j + 1]? = some words[j + 1] := List.getElem?_eq_getElem (by omega)
    obtain ⟨_, c1, c2, c3, _⟩ := hchain j _ y _ hx hy hw
    obtain ⟨l1, l2⟩ := ih _ hx
    have e1 := h.lev1 j _ l1 l2 c1
    have e2 := h.lev2 j _ l1 l2 (by omega)
    constructor
    · omega
    · have : j + 1 + 1 = j + 2 := rfl
      rw [this]
      omega

theorem path_compare {n : Int} {L : Nat → Int} {k : Nat} {F : Int} (nodes : List Node)
    (h : array_shape n (child_index_at nodes) (word_at nodes) L k F)
    (r st : List Int)
    (hr : ∀ (j : Nat) (x y : Int), r[j]? = some x → r[j + 1]? = some y →
      ∃ w, child_rel nodes x y w)
    (hs : ∀ (j : Nat) (x y : Int), st[j]? = some x → st[j + 1]? = some y →
      ∃ w, child_rel nodes x y w)
    (m : Nat) (hm : ∀ x y, r[m]? = some x → st[m]? = some y → y < x) :
    ∀ (j : Nat), m ≤ j → ∀ x y, r[j]? = some x → st[j]? = some y → y < x := by
  intro j hj
  induction j with
  | zero =>
    have : m = 0 := by omega
    subst this
    exact hm
  | succ j ih =>
    by_cases hmj : m = j + 1
    · subst hmj
      exact hm
    · intro x' y' hx' hy'
      obtain ⟨hlt1, _⟩ := List.getElem?_eq_some_iff.mp hx'
      obtain ⟨hlt2, _⟩ := List.getElem?_eq_some_iff.mp hy'
      have hx : r[j]? = some r[j] := List.getElem?_eq_getElem (by omega)
      have hy : st[j]? = some st[j] := List.getElem?_eq_getElem (by omega)
      have hlt := ih (by omega) _ _ hx hy
      obtain ⟨_, _, a1, a2, a3, _⟩ := hr j _ x' hx hx'
      obtain ⟨_, _, b1, b2, b3, _⟩ := hs j _ y' hy hy'
      by_cases he : st[j] + 1 = r[j]
      · rw [he] at b3
        omega
      · have := h.mono (st[j] + 1) r[j] (by omega) (by omega) a1
        omega

theorem is_path_weak (nodes : List Node) (slots : Int) (stack words : List Int)
    (hp : is_path nodes slots stack words) :
    ∀ (j : Nat) (x y : Int), stack[j]? = some x → stack[j + 1]? = some y →
      ∃ w, child_rel nodes x y w := by
  obtain ⟨hlen, _, hchain⟩ := hp
  intro j x y hx hy
  obtain ⟨hlt, _⟩ := List.getElem?_eq_some_iff.mp hy
  exact ⟨_, hchain j x y _ hx hy (List.getElem?_eq_getElem (by omega))⟩

/-! ## The counters of an insertion of order two or more -/

theorem update_counts_higher (s s2 : TreeGram) (g : List Int)
    (h : update_counts s g = Except.ok s2) (hg : 2 ≤ g.length) :
    s2.m_order_count.length = g.length ∧
    (g.length ≤ s.m_order_count.length ∨ g.length = s.m_order_count.length + 1) ∧
    (∀ j, level_start s2.m_order_count j =
      if j ≤ g.length - 1 then level_start s.m_order_count j
      else (if g.length ≤ s.m_order_count.length then level_start s.m_order_count j
            else s.m_order_count.sum) + 1) ∧
    s2.m_order = s.m_order + (if g.length > s.m_order_count.length then 1 else 0) ∧
    s2.m_nodes = s.m_nodes ∧ s2.m_words = s.m_words ∧ s2.m_last_gram = s.m_last_gram ∧
    s2.m_insert_stack = s.m_insert_stack := by
  have hne : g ≠ [0] := by
    intro hc
    subst hc
    simp at hg
  unfold update_counts at h
  by_cases hgt : g.length > s.m_order_count.length
  · have ho : open_count s g =
        { s with m_order_count := s.m_order_count ++ [0], m_order := s.m_order + 1 } := by
      unfold open_count
      rw [if_pos hgt]
    rw [ho] at h
    simp only [List.length_append, List.length_singleton] at h
    split at h
    · simp at h
    · next hlen =>
      have hlen' : s.m_order_count.length + 1 = g.length := by
        by_contra hc
        exact hlen hc
      try rw [if_neg hne] at h
      split at h
      · simp at h
      · next counts hc =>
        simp at h
        subst h
        unfold incr_count at hc
        have hidx : (s.m_order_count ++ [0])[g.length - 1]? = some 0 := by
          have : g.length - 1 = s.m_order_count.length := by omega
          rw [this, List.getElem?_concat_length]
        rw [hidx] at hc
        simp at hc
        subst hc
        refine ⟨by simp; omega, Or.inr (by omega), ?_, by simp [hgt], rfl, rfl, rfl, rfl⟩
        intro j
        simp only
        have := level_start_set (s.m_order_count ++ [0]) (g.length - 1) 0 hidx j
        simp only [zero_add] at this
        rw [this, level_start_append]
        have hng : ¬ g.length ≤ s.m_order_count.length := by omega
        simp only [hng, if_false]
        split_ifs <;> first | rfl | omega
  · have ho : open_count s g = s := by
      unfold open_count
      rw [if_neg hgt]
    rw [ho] at h
    split at h
    · simp at h
    · next hlen =>
      have hlen' : s.m_order_count.length = g.length := by
        by_contra hc
        exact hlen hc
      try rw [if_neg hne] at h
      split at h
      · simp at h
      · next counts hc =>
        simp at h
        subst h
        unfold incr_count at hc
        split at hc
        · simp at hc
        · next c hcc =>
          simp at hc
          subst hc
          refine ⟨by simp; omega, Or.inl (by omega), ?_, by simp [hgt], rfl, rfl, rfl, rfl⟩
          intro j
          simp only
          rw [level_start_set _ _ _ hcc j]
          have hng : g.length ≤ s.m_order_count.length := by omega
          simp only [hng, if_true]

/-! ## The path that `find_path` returns -/

theorem extend_path (s : TreeGram) (gd : List Int) (m : Nat) (st0 r : List Int) (prev slots : Int)
    (hm : m ≤ gd.length) (hlen : st0.length = m)
    (hchain : ∀ (j : Nat) (x y w : Int), st0[j]? = some x → st0[j + 1]? = some y →
      gd[j + 1]? = some w → child_rel s.m_nodes x y w)
    (hfirst : ∀ x w, st0[0]? = some x → gd[0]? = some w → 0 ≤ x ∧ x < slots ∧ x ≤ w)
    (hprev0 : m = 0 → prev < 0)
    (hprev1 : m ≠ 0 → st0.getLast? = some prev ∧ 0 ≤ prev)
    (hdense : ∀ w, gd[0]? = some w → w < slots)
    (hsp : search_path s (gd.drop m) prev st0 = Except.ok r) :
    is_path s.m_nodes slots r gd ∧ (∀ j, j < m → r[j]? = st0[j]?) ∧
    (m = 0 → ∀ x w, r[0]? = some x → gd[0]? = some w → x = w) := by
  have hst0 : st0 = [] ↔ m = 0 := by
    rw [← hlen]
    exact List.length_eq_zero.symm
  have hs := search_path_sound s (gd.drop m) prev st0 (gd.take m) r
    (by simp [hlen]; omega) ?_ (fun h0 => hprev0 (hst0.mp h0))
    (fun h0 => hprev1 (fun hc => h0 (hst0.mpr hc))) hsp
  · rw [List.take_append_drop] at hs
    obtain ⟨r1, r2, r3, r4⟩ := hs
    refine ⟨⟨r1, ?_, r2⟩, ?_, ?_⟩
    · intro x w hx hw
      by_cases h0 : m = 0
      · have hd0 : (gd.drop m)[0]? = some w := by
          rw [List.getElem?_drop]
          simpa [h0] using hw
        obtain ⟨e1, e2⟩ := r4 (hst0.mpr h0) x w hx hd0
        have := hdense w hw
        omega
      · have hx0 := r3 0 (by omega)
        rw [hx] at hx0
        exact hfirst x w hx0.symm hw
    · intro j hj
      exact r3 j (by omega)
    · intro h0 x w hx hw
      have hd0 : (gd.drop m)[0]? = some w := by
        rw [List.getElem?_drop]
        simpa [h0] using hw
      exact (r4 (hst0.mpr h0) x w hx hd0).1
  · intro j x y w hx hy hw
    obtain ⟨hlt, _⟩ := List.getElem?_eq_some_iff.mp hy
    rw [List.getElem?_take_of_lt (by omega)] at hw
    exact hchain j x y w hx hy hw

theorem resize_length (v : List Int) (n : Nat) : (resize v n).length = n := by
  unfold resize
  simp
  omega

theorem resize_of_le (v : List Int) (n : Nat) (h : n ≤ v.length) : resize v n = v.take n := by
  unfold resize
  have : n - v.length = 0 := by omega
  rw [this]
  simp

theorem getLast?_of_length (v : List Int) (n : Nat) (h : v.length = n + 1) :
    v.getLast? = v[n]? := by
  rw [List.getLast?_eq_getElem?, h]
  rfl

theorem dropLast_getElem? (g : List Int) (j : Nat) (h : j + 1 < g.length) :
    g.dropLast[j]? = g[j]? := by
  rw [List.getElem?_dropLast]
  simp
  intro hc
  omega

theorem getLast?_exists (g : List Int) (h : 1 ≤ g.length) : ∃ w, g.getLast? = some w ∧
    g[g.length - 1]? = some w := by
  refine ⟨g[g.length - 1], ?_, ?_⟩
  · rw [List.getLast?_eq_getElem?]
    exact List.getElem?_eq_getElem (by omega)
  · exact List.getElem?_eq_getElem (by omega)

/-- `find_path` for the first gram of order two, on a store that holds
unigrams only. -/
theorem find_path_unigram_phase (s : TreeGram) (F : Int) (g r : List Int)
    (hshape : array_shape (s.m_nodes.length : Int) (child_index_at s.m_nodes)
      (word_at s.m_nodes) (level_start s.m_order_count) s.m_order_count.length F)
    (hU : unigram_phase s F)
    (hco : check_order s g = Except.ok ())
    (hg : 2 ≤ g.length)
    (hd : ∀ w, g.head? = some w → w < unigram_slots s)
    (hfp : find_path s g = Except.ok r) :
    g.length = 2 ∧ is_path s.m_nodes (unigram_slots s) r g.dropLast ∧
    ∃ p, r.getLast? = some p ∧ F ≤ p := by
  obtain ⟨hk, hst, hall, hF, hll, hl0⟩ := hU
  have hne : g ≠ [0] := by
    intro hc
    subst hc
    simp at hg
  have hoc := (check_order_spec s g hne).1.mp hco
  obtain ⟨hlen, _, _⟩ := hoc
  have hg2 : g.length = 2 := by omega
  have hl1 : s.m_last_gram.length = 1 := by omega
  refine ⟨hg2, ?_⟩
  unfold find_path at hfp
  have hgt : g.length > 1 := by omega
  simp only [hgt, not_true_eq_false, if_false] at hfp
  cases hsw : shared_words g.dropLast s.m_last_gram with
  | error e => rw [hsw] at hfp; simp at hfp
  | ok m =>
    rw [hsw] at hfp
    simp only at hfp
    obtain ⟨hm1, hm2, hm3, hm4⟩ := shared_words_spec _ _ _ hsw
    have hgd : g.dropLast.length = 1 := by simp; omega
    have hslots : 0 < unigram_slots s := by
      have := hshape.Lstrict 0 (by omega)
      rw [hshape.L0, level_start_one] at this
      exact this
    have hgd0 : g.dropLast[0]? = g[0]? := dropLast_getElem? g 0 (by omega)
    rw [hst] at hfp
    have hrl := resize_length [] m
    have hext := extend_path s g.dropLast m (resize [] m) r _ (unigram_slots s) hm1 hrl
      ?_ ?_ ?_ ?_ ?_ hfp
    · obtain ⟨hp, _, _⟩ := hext
      refine ⟨hp, ?_⟩
      obtain ⟨hplen, hpfirst, _⟩ := hp
      have hrlen : r.length = 0 + 1 := by omega
      have hp0 : r[0]? = some r[0] := List.getElem?_eq_getElem (by omega)
      refine ⟨r[0], ?_, ?_⟩
      · rw [getLast?_of_length r 0 hrlen]
        exact hp0
      · have hw0 : g.dropLast[0]? = some g.dropLast[0] := List.getElem?_eq_getElem (by omega)
        have := hpfirst _ _ hp0 hw0
        omega
    · intro j x y w hx hy hw
      obtain ⟨hlt, _⟩ := List.getElem?_eq_some_iff.mp hy
      omega
    · intro x w hx hw
      obtain ⟨hlt, hxe⟩ := List.getElem?_eq_some_iff.mp hx
      have hm : m = 1 := by omega
      subst hm
      have hx0 : x = 0 := by
        simp [resize] at hx
        omega
      have hs0 := hm3 0 (by omega)
      rw [hw] at hs0
      have := hl0 w hs0.symm
      omega
    · intro h0
      simp [h0]
    · intro h0
      have hm : m = 1 := by omega
      subst hm
      simp [resize]
    · intro w hw
      rw [hgd0, ← List.head?_eq_getElem?] at hw
      exact hd w hw

/-- `find_path` on a store that already holds a gram of order two or more:
the returned stack is a path for the gram without its last word, and its last
entry is either a parent at or after the frontier, or the parent just before
the frontier together with a last word above that of the last node. -/
theorem find_path_higher_phase (s : TreeGram) (F : Int) (g r : List Int)
    (hshape : array_shape (s.m_nodes.length : Int) (child_index_at s.m_nodes)
      (word_at s.m_nodes) (level_start s.m_order_count) s.m_order_count.length F)
    (hH : higher_phase s F)
    (hco : check_order s g = Except.ok ())
    (hg : 2 ≤ g.length)
    (hd : ∀ w, g.head? = some w → w < unigram_slots s)
    (hfp : find_path s g = Except.ok r) :
    (g.length = s.m_order_count.length ∨ g.length = s.m_order_count.length + 1) ∧
    is_path s.m_nodes (unigram_slots s) r g.dropLast ∧
    ∃ p w, r.getLast? = some p ∧ g.getLast? = some w ∧
      ((F ≤ p ∧ (level_start s.m_order_count (g.length - 1) = (s.m_nodes.length : Int) ∨
                 level_start s.m_order_count (g.length - 2) ≤ p - 1)) ∨
       (s.m_order_count.length = g.length ∧ F = p + 1 ∧ 0 ≤ child_index_at s.m_nodes p ∧
        child_index_at s.m_nodes p ≤ (s.m_nodes.length : Int) - 1 ∧
        word_at s.m_nodes ((s.m_nodes.length : Int) - 1) < w)) := by
  obtain ⟨hk2, hlk, hpath, htop, hpar, hcF⟩ := hH
  have hne : g ≠ [0] := by
    intro hc
    subst hc
    simp at hg
  have hoc := (check_order_spec s g hne).1.mp hco
  obtain ⟨hlen, _, hlex⟩ := hoc
  rw [hlk] at hlen
  refine ⟨hlen, ?_⟩
  have hstl : s.m_insert_stack.length = s.m_order_count.length := by
    rw [hpath.1, hlk]
  have hpathL : is_path s.m_nodes (level_start s.m_order_count 1) s.m_insert_stack
      s.m_last_gram := by
    rw [level_start_one]
    exact hpath
  have hlevS := path_levels s.m_nodes hshape _ _ hpathL
  unfold find_path at hfp
  have hgt : g.length > 1 := by omega
  simp only [hgt, not_true_eq_false, if_false] at hfp
  cases hsw : shared_words g.dropLast s.m_last_gram with
  | error e => rw [hsw] at hfp; simp at hfp
  | ok m =>
    rw [hsw] at hfp
    simp only at hfp
    obtain ⟨hm1, hm2, hm3, hm4⟩ := shared_words_spec _ _ _ hsw
    have hgd : g.dropLast.length = g.length - 1 := by simp
    have hmk : m ≤ s.m_insert_stack.length := by omega
    rw [resize_of_le _ _ hmk] at hfp
    have hgd0 : g.dropLast[0]? = g[0]? := dropLast_getElem? g 0 (by omega)
    have htk : ∀ j, j < m → (s.m_insert_stack.take m)[j]? = s.m_insert_stack[j]? :=
      fun j hj => List.getElem?_take_of_lt hj
    have hext := extend_path s g.dropLast m (s.m_insert_stack.take m) r _ (unigram_slots s) hm1
      (by simp; omega) ?_ ?_ ?_ ?_ ?_ hfp
    · obtain ⟨hp, hpre, hzero⟩ := hext
      refine ⟨hp, ?_⟩
      have hpL : is_path s.m_nodes (level_start s.m_order_count 1) r g.dropLast := by
        rw [level_start_one]
        exact hp
      have hlevR := path_levels s.m_nodes hshape _ _ hpL
      obtain ⟨hplen, hpfirst, hpchain⟩ := hp
      have hrlen : r.length = (g.length - 2) + 1 := by omega
      have hpe : r[g.length - 2]? = some r[g.length - 2] :=
        List.getElem?_eq_getElem (by omega)
      obtain ⟨w, hw1, hw2⟩ := getLast?_exists g (by omega)
      refine ⟨r[g.length - 2], w, ?_, hw1, ?_⟩
      · rw [getLast?_of_length r _ hrlen]
        exact hpe
      · rcases hlen with hsame | hnew
        · -- the same order as the last gram
          have hlex' := hlex (by rw [hlk]; exact hsame)
          have hsh : ∀ j, j < m → g[j]? = s.m_last_gram[j]? := by
            intro j hj
            rw [← dropLast_getElem? g j (by omega)]
            exact hm3 j hj
          by_cases hmk1 : m + 1 = g.length
          · -- same parent
            right
            have hpp := hpre (g.length - 2) (by omega)
            rw [htk _ (by omega), hpe] at hpp
            have hk2' : s.m_order_count.length - 2 = g.length - 2 := by omega
            rw [hk2', ← hpp] at hpar
            simp at hpar
            have hstop : s.m_insert_stack[g.length - 2 + 1]?
                = some ((s.m_nodes.length : Int) - 1) := by
              have : g.length - 2 + 1 = s.m_order_count.length - 1 := by omega
              rw [this]
              exact htop
            have hlw : ∃ lw, s.m_last_gram[g.length - 2 + 1]? = some lw :=
              ⟨_, List.getElem?_eq_getElem (by omega)⟩
            obtain ⟨lw, hlw⟩ := hlw
            have hcr := hpath.2.2 (g.length - 2) _ _ lw hpp.symm hstop hlw
            obtain ⟨c0, c1, c2, c3, c4⟩ := hcr
            have e1 : g.length - 2 + 1 = g.length - 1 := by omega
            rw [e1] at hlw
            have hcmp := lex_greater_first_diff g s.m_last_gram (g.length - 1) hlex'
              (fun j hj => hsh j (by omega)) w lw hw2 hlw (Or.inr (by omega))
            refine ⟨by omega, by omega, c1, c2, ?_⟩
            rw [c4]
            exact hcmp
          · -- a later parent
            left
            obtain ⟨x, y, hx, hy, hxy⟩ := hm4 (by omega)
            have hxg : g[m]? = some x := by
              rw [← dropLast_getElem? g m (by omega)]
              exact hx
            have hcmp := lex_greater_first_diff g s.m_last_gram m hlex' hsh x y hxg hy
              (Or.inl hxy)
            have hbase : ∀ a b, r[m]? = some a → s.m_insert_stack[m]? = some b → b < a := by
              intro a b ha hb
              by_cases hm0 : m = 0
              · subst hm0
                have := hzero rfl a x ha hx
                have := hpath.2.1 b y hb hy
                omega
              · have hc : s.m_insert_stack[m - 1]? = some s.m_insert_stack[m - 1] :=
                  List.getElem?_eq_getElem (by omega)
                have hrc : r[m - 1]? = some s.m_insert_stack[m - 1] := by
                  rw [hpre (m - 1) (by omega), htk _ (by omega)]
                  exact hc
                have em : m - 1 + 1 = m := by omega
                have c1 := hpchain (m - 1) _ a x hrc (by rw [em]; exact ha) (by rw [em]; exact hx)
                have c2 := hpath.2.2 (m - 1) _ b y hc (by rw [em]; exact hb) (by rw [em]; exact hy)
                obtain ⟨_, a1, a2, a3, a4⟩ := c1
                obtain ⟨_, b1, b2, b3, b4⟩ := c2
                by_contra hle
                by_cases hab : a = b
                · subst hab
                  omega
                · have := hshape.sorted _ a b a1 (by omega) a2 (by omega) b3
                  omega
            have hcomp := path_compare s.m_nodes hshape r s.m_insert_stack
              (is_path_weak _ _ _ _ ⟨hplen, hpfirst, hpchain⟩)
              (is_path_weak _ _ _ _ hpath) m hbase (g.length - 2) (by omega)
            have hk2' : s.m_order_count.length - 2 = g.length - 2 := by omega
            rw [hk2'] at hpar
            have hlt := hcomp _ _ hpe hpar
            have hl := hlevS _ _ hpar
            exact ⟨by omega, Or.inr (by omega)⟩
        · -- the first gram of the next order
          left
          have hl := hlevS _ _ hpar
          have hr := hlevR _ _ hpe
          have e1 : s.m_order_count.length - 2 + 1 = g.length - 2 := by omega
          rw [e1] at hl
          refine ⟨by omega, Or.inl ?_⟩
          have := hshape.Ltop (g.length - 1) (by omega)
          exact this
    · intro j x y w hx hy hw
      obtain ⟨hlt, _⟩ := List.getElem?_eq_some_iff.mp hy
      simp at hlt
      rw [htk _ (by omega)] at hx hy
      rw [hm3 _ (by omega)] at hw
      exact hpath.2.2 j x y w hx hy hw
    · intro x w hx hw
      obtain ⟨hlt, _⟩ := List.getElem?_eq_some_iff.mp hx
      simp at hlt
      rw [htk _ (by omega)] at hx
      rw [hm3 _ (by omega)] at hw
      exact hpath.2.1 x w hx hw
    · intro h0
      simp [h0]
    · intro h0
      have hl : (s.m_insert_stack.take m).getLast? = s.m_insert_stack[m - 1]? := by
        rw [getLast?_of_length _ (m - 1) (by simp; omega)]
        exact htk _ (by omega)
      have hc : s.m_insert_stack[m - 1]? = some s.m_insert_stack[m - 1] :=
        List.getElem?_eq_getElem (by omega)
      rw [hl, hc]
      simp only [h0, if_false, Option.getD_some]
      refine ⟨trivial, ?_⟩
      have := hlevS _ _ hc
      have := shape_L_nonneg hshape (m - 1)
      omega
    · intro w hw
      rw [hgd0, ← List.head?_eq_getElem?] at hw
      exact hd w hw

/-! ## The path of the inserted gram -/

theorem path_after_insert {L : Nat → Int} {k : Nat} {F : Int} (nodes nodes1 : List Node)
    (hshape : array_shape (nodes.length : Int) (child_index_at nodes) (word_at nodes) L k F)
    (g r : List Int) (p w : Int) (hg : 2 ≤ g.length)
    (hp : is_path nodes (L 1) r g.dropLast)
    (hlast : r.getLast? = some p) (hw : g.getLast? = some w)
    (hpn : p < (nodes.length : Int))
    (hci : ∀ i, child_index_at nodes1 i =
      if i = p + 1 then (nodes.length : Int) + 1 else if i = p then
        (if child_index_at nodes p < 0 then (nodes.length : Int) else child_index_at nodes p)
      else if i = (nodes.length : Int) then -1 else child_index_at nodes i)
    (hwd : ∀ i, word_at nodes1 i = if i = (nodes.length : Int) then w else word_at nodes i) :
    is_path nodes1 (L 1) (r ++ [(nodes.length : Int)]) g ∧
    (r ++ [(nodes.length : Int)])[g.length - 1]? = some (nodes.length : Int) ∧
    (r ++ [(nodes.length : Int)])[g.length - 2]? = some p ∧
    L (g.length - 2) ≤ p ∧ p < L (g.length - 2 + 1) := by
  have hlev := path_levels nodes hshape _ _ hp
  obtain ⟨hplen, hpfirst, hpchain⟩ := hp
  have hrl : r.length = g.length - 1 := by
    rw [hplen]
    simp
  have hrlen : r.length = (g.length - 2) + 1 := by omega
  rw [getLast?_of_length r _ hrlen] at hlast
  rw [List.getLast?_eq_getElem?] at hw
  have hpl := hlev _ _ hlast
  refine ⟨⟨by simp; omega, ?_, ?_⟩, ?_, ?_, hpl.1, hpl.2⟩
  · intro x v hx hv
    rw [List.getElem?_append_left (by omega)] at hx
    rw [← dropLast_getElem? g 0 (by omega)] at hv
    exact hpfirst x v hx hv
  · intro j x y v hx hy hv
    by_cases hj : j + 1 < r.length
    · rw [List.getElem?_append_left (by omega)] at hx
      rw [List.getElem?_append_left hj] at hy
      rw [← dropLast_getElem? g (j + 1) (by omega)] at hv
      obtain ⟨c0, c1, c2, c3, c4⟩ := hpchain j x y v hx hy hv
      have hlx := hlev _ _ hx
      have hly := hlev _ _ hy
      have m1 := shape_L_mono hshape (j + 1) (g.length - 2) (by omega)
      have m2 := shape_L_le_n hshape (j + 1 + 1)
      have b1 := hshape.bound (x + 1)
      have hcx : child_index_at nodes1 x = child_index_at nodes x := by
        rw [hci]
        split_ifs <;> omega
      have hcx1 : child_index_at nodes1 (x + 1) = child_index_at nodes (x + 1) := by
        by_cases hxp : x + 1 = p
        · subst hxp
          rw [hci]
          split_ifs <;> omega
        · rw [hci]
          split_ifs <;> omega
      refine ⟨c0, ?_, ?_, ?_, ?_⟩
      · rw [hcx]; exact c1
      · rw [hcx]; exact c2
      · rw [hcx1]; exact c3
      · rw [hwd]
        split_ifs
        · omega
        · exact c4
    · have hjr : j + 1 = r.length := by
        by_contra hc
        have : (r ++ [(nodes.length : Int)])[j + 1]? = none := by
          rw [List.getElem?_eq_none_iff]
          simp
          omega
        rw [this] at hy
        simp at hy
      rw [List.getElem?_append_left (by omega)] at hx
      rw [hjr, List.getElem?_concat_length] at hy
      simp at hy
      subst hy
      have ej : j = g.length - 2 := by omega
      rw [ej, hlast] at hx
      simp at hx
      subst hx
      have ev : j + 1 = g.length - 1 := by omega
      rw [ev, hw] at hv
      simp at hv
      subst hv
      have b0 := hshape.bound p
      have l0 := shape_L_nonneg hshape (g.length - 2)
      refine ⟨by omega, ?_, ?_, ?_, ?_⟩
      · rw [hci]
        split_ifs <;> omega
      · rw [hci]
        split_ifs <;> omega
      · rw [hci]
        simp
      · rw [hwd]
        simp
  · have : g.length - 1 = r.length := by omega
    rw [this, List.getElem?_concat_length]
  · rw [List.getElem?_append_left (by omega)]
    exact hlast

/-! ## One accepted `add_gram` call -/

theorem add_gram_steps (s s1 : TreeGram) (g : List Int) (lp bo : Int)
    (h : add_gram s g lp bo = Except.ok s1) :
    check_order s g = Except.ok () ∧
    ∃ s2 s3, update_counts s g = Except.ok s2 ∧ insert_node s2 g lp bo = Except.ok s3 ∧
      s3.m_order = (g.length : Int) ∧ s1 = { s3 with m_last_gram := g } := by
  unfold add_gram at h
  split at h
  · simp at h
  · split at h
    · simp at h
    · next u hco =>
      split at h
      · simp at h
      · next s2 h2 =>
        split at h
        · simp at h
        · next s3 h3 =>
          split at h
          · simp at h
          · next hord =>
            simp at h
            refine ⟨hco, s2, s3, h2, h3, ?_, h.symm⟩
            by_contra hc
            exact hord hc

theorem shape_unigrams (n : Int) (hn : 1 ≤ n) (ci wd : Int → Int) (hall : ∀ i, ci i = -1)
    (counts : List Int) (hc : counts = [n]) :
    array_shape n ci wd (level_start counts) 1 0 := by
  subst hc
  have hL : ∀ j, 1 ≤ j → level_start [n] j = n := by
    intro j hj
    rw [level_start_top _ _ (by simpa using hj)]
    simp
  refine
    { oor := fun i _ => hall i, bound := ?_, mono := ?_, sorted := ?_, lev1 := ?_, lev2 := ?_,
      f1 := Or.inr hall, f2 := fun i _ => hall i, L0 := level_start_zero _, Lstrict := ?_,
      Ltop := hL }
  · intro i
    rw [hall]
    omega
  · intro i j _ hi
    rw [hall] at hi
    omega
  · intro q a b hq
    rw [hall] at hq
    omega
  · intro j q _ _ hq
    rw [hall] at hq
    omega
  · intro j q _ _ hq
    rw [hall] at hq
    omega
  · intro j hj
    have : j = 0 := by omega
    subst this
    rw [level_start_zero, hL 1 (le_refl _)]
    omega

theorem counts_singleton (counts : List Int) (n : Int) (h1 : counts.length = 1)
    (h2 : level_start counts 1 = n) : counts = [n] := by
  cases counts with
  | nil => simp at h1
  | cons c cs =>
    cases cs with
    | nil =>
      simp [level_start] at h2
      rw [h2]
    | cons d ds => simp at h1

theorem add_unigram_effect (s s3 : TreeGram) (w lv bv : Int)
    (h : add_unigram s w lv bv = Except.ok s3) :
    s3.m_order_count = s.m_order_count ∧ s3.m_order = s.m_order ∧
    s3.m_insert_stack = s.m_insert_stack ∧
    (w = 0 → (s3.m_nodes.length : Int) = (s.m_nodes.length : Int) ∧
      ∀ i, child_index_at s3.m_nodes i = child_index_at s.m_nodes i) ∧
    (w ≠ 0 → (s3.m_nodes.length : Int) = (s.m_nodes.length : Int) + 1 ∧
      ∀ i, child_index_at s3.m_nodes i =
        if i = (s.m_nodes.length : Int) then -1 else child_index_at s.m_nodes i) := by
  unfold add_unigram at h
  by_cases hw : w = 0
  · rw [if_pos hw] at h
    split at h
    · simp at h
    · next root rest hr =>
      simp at h
      subst h
      refine ⟨rfl, rfl, rfl, fun _ => ⟨?_, ?_⟩, fun hc => absurd hw hc⟩
      · simp [hr]
      · intro i
        simp only
        have e : ({ root with log_prob := lv, back_off := bv } :: rest : List Node)
            = (s.m_nodes).set (0 : Int).toNat { root with log_prob := lv, back_off := bv } := by
          rw [hr]
          rfl
        rw [e, child_index_at_set _ _ _ (le_refl _) (by rw [hr]; simp)]
        split_ifs with hi
        · rw [hi, hr]
          simp [child_index_at, node_at]
        · rfl
  · rw [if_neg hw] at h
    simp at h
    subst h
    refine ⟨rfl, rfl, rfl, fun hc => absurd hc hw, fun _ => ⟨by simp, ?_⟩⟩
    intro i
    simp only
    rw [child_index_at_append]

theorem update_counts_unigram (s s2 : TreeGram) (w : Int)
    (h : update_counts s [w] = Except.ok s2) (hk1 : 1 ≤ s.m_order_count.length) :
    s.m_order_count.length = 1 ∧ s2.m_nodes = s.m_nodes ∧ s2.m_order = s.m_order ∧
    s2.m_insert_stack = s.m_insert_stack ∧
    (w = 0 → s2.m_order_count = s.m_order_count) ∧
    (w ≠ 0 → ∀ c, s.m_order_count = [c] → s2.m_order_count = [c + 1]) := by
  have hopen : open_count s [w] = s := by
    unfold open_count
    rw [if_neg (by simp only [List.length_singleton]; omega)]
  unfold update_counts at h
  rw [hopen] at h
  split at h
  · simp at h
  · next hlen =>
    have hk : s.m_order_count.length = 1 := by
      by_contra hc
      exact hlen (by simpa using hc)
    by_cases hw : w = 0
    · subst hw
      simp at h
      subst h
      exact ⟨hk, rfl, rfl, rfl, fun _ => rfl, fun hc => absurd rfl hc⟩
    · have hne : ([w] : List Int) ≠ [0] := by simpa using hw
      rw [if_neg hne] at h
      split at h
      · simp at h
      · next counts hc =>
        simp at h
        subst h
        refine ⟨hk, rfl, rfl, rfl, fun hc0 => absurd hc0 hw, ?_⟩
        intro _ c hcs
        unfold incr_count at hc
        rw [hcs] at hc
        simp at hc
        simp only
        exact hc.symm

/-- An accepted unigram insertion keeps the builder invariant. -/
theorem add_unigram_preserves (s s1 : TreeGram) (w lv bv : Int)
    (hinv : builder_inv s) (h : add_gram s [w] lv bv = Except.ok s1) :
    builder_inv s1 := by
  obtain ⟨F, hshape, hord, hphase⟩ := hinv
  obtain ⟨hco, s2, s3, h2, h3, ho3, hs1⟩ := add_gram_steps _ _ _ _ _ h
  have hk1 : 1 ≤ s.m_order_count.length := by
    rcases hphase with hU | hH
    · rw [hU.1]
    · have := hH.1
      omega
  obtain ⟨hk, u1, u2, u3, u4, u5⟩ := update_counts_unigram _ _ _ h2 hk1
  simp only [insert_node] at h3
  obtain ⟨a1, a2, a3, a4, a5⟩ := add_unigram_effect _ _ _ _ _ h3
  have hU : unigram_phase s F := by
    rcases hphase with hU | hH
    · exact hU
    · have := hH.1
      omega
  obtain ⟨_, hst, hall, hF, hll, hl0⟩ := hU
  subst hF
  have hn := hshape.Ltop 1 (by omega)
  have hoc := counts_singleton _ _ hk hn
  have hnpos : 1 ≤ (s.m_nodes.length : Int) := by
    have := hshape.Lstrict 0 (by omega)
    rw [hshape.L0, hn] at this
    omega
  have hstack : s1.m_insert_stack = [] := by
    rw [hs1]
    simp only
    rw [a3, u3, hst]
  have hlast : s1.m_last_gram = [w] := by
    rw [hs1]
  have hnodes : s1.m_nodes = s3.m_nodes := by
    rw [hs1]
  have hcounts : s1.m_order_count = s2.m_order_count := by
    rw [hs1]
    simp only
    rw [a1]
  have horder : s1.m_order = 1 := by
    rw [hs1]
    simp only
    rw [ho3]
    simp
  by_cases hw : w = 0
  · obtain ⟨b1, b2⟩ := a4 hw
    rw [u1] at b1 b2
    have hall' : ∀ i, child_index_at s1.m_nodes i = -1 := by
      intro i
      rw [hnodes, b2, hall]
    have hc1 : s1.m_order_count = [(s1.m_nodes.length : Int)] := by
      rw [hcounts, u4 hw, hoc, hnodes, b1]
    refine ⟨0, ?_, ?_, Or.inl ⟨by rw [hc1]; simp, hstack, hall', rfl, by rw [hlast]; simp, ?_⟩⟩
    · have := shape_unigrams (s1.m_nodes.length : Int) (by rw [hnodes, b1]; exact hnpos)
        (child_index_at s1.m_nodes) (word_at s1.m_nodes) hall' _ hc1
      have e : s1.m_order_count.length = 1 := by rw [hc1]; simp
      rw [e]
      exact this
    · rw [horder, hc1]
      simp
    · intro u hu
      rw [hlast] at hu
      simp at hu
      omega
  · obtain ⟨b1, b2⟩ := a5 hw
    rw [u1] at b1 b2
    have hall' : ∀ i, child_index_at s1.m_nodes i = -1 := by
      intro i
      rw [hnodes, b2]
      split_ifs
      · rfl
      · exact hall i
    have hc1 : s1.m_order_count = [(s1.m_nodes.length : Int)] := by
      rw [hcounts, u5 hw _ hoc, hnodes, b1]
    have hne : ([w] : List Int) ≠ [0] := by simpa using hw
    have hoc' := (check_order_spec s [w] hne).1.mp hco
    have hwn : w = (s.m_nodes.length : Int) := by
      have := hoc'.2.1 rfl
      simpa using this
    refine ⟨0, ?_, ?_, Or.inl ⟨by rw [hc1]; simp, hstack, hall', rfl, by rw [hlast]; simp, ?_⟩⟩
    · have := shape_unigrams (s1.m_nodes.length : Int) (by rw [hnodes, b1]; omega)
        (child_index_at s1.m_nodes) (word_at s1.m_nodes) hall' _ hc1
      have e : s1.m_order_count.length = 1 := by rw [hc1]; simp
      rw [e]
      exact this
    · rw [horder, hc1]
      simp
    · intro u hu
      rw [hlast] at hu
      simp at hu
      omega

/-- An accepted insertion of a gram of order two or more, whose first word has
a unigram slot, keeps the builder invariant and the number of unigram slots. -/
theorem add_higher_preserves (s s1 : TreeGram) (g : List Int) (lv bv : Int)
    (hinv : builder_inv s) (h : add_gram s g lv bv = Except.ok s1) (hg : 2 ≤ g.length)
    (hd : ∀ w, g.head? = some w → w < unigram_slots s) :
    builder_inv s1 := by
  obtain ⟨F, hshape, hord, hphase⟩ := hinv
  obtain ⟨hco, s2, s3, h2, h3, ho3, hs1⟩ := add_gram_steps _ _ _ _ _ h
  obtain ⟨u1, u2, u3, u4, u5, u6, u7, u8⟩ := update_counts_higher _ _ _ h2 hg
  have h3' : add_higher s2 g lv bv = Except.ok s3 := by
    cases g with
    | nil => simp at hg
    | cons a t =>
      cases t with
      | nil => simp at hg
      | cons b t => simpa [insert_node] using h3
  obtain ⟨r, p, w, e1, e2, e3, e4, e5, e6, e7, e8, e9, e10, e11, e12, e13⟩ :=
    add_higher_effect _ _ _ _ _ h3'
  rw [find_path_congr s2 s u6 u5 u7 u8] at e1
  rw [u5] at e5 e6 e7 e8 e9
  -- the fields of the final store
  have hnodes : s1.m_nodes = s3.m_nodes := by rw [hs1]
  have hcounts : s1.m_order_count = s2.m_order_count := by
    rw [hs1]
    simp only
    rw [e10]
  have hstack : s1.m_insert_stack = r ++ [(s.m_nodes.length : Int)] := by
    rw [hs1]
    simp only
    rw [e9]
  have hlast : s1.m_last_gram = g := by rw [hs1]
  have horder : s1.m_order = (s1.m_order_count.length : Int) := by
    rw [hcounts, u1, hs1]
    simp only
    exact ho3
  have hk : s.m_order_count.length = 1 ∨ 2 ≤ s.m_order_count.length := by
    rcases hphase with hU | hH
    · exact Or.inl hU.1
    · exact Or.inr hH.1
  have hsum : level_start s.m_order_count s.m_order_count.length = (s.m_nodes.length : Int) :=
    hshape.Ltop _ (le_refl _)
  -- the parent and its order
  have hparent : (g.length = s.m_order_count.length ∨ g.length = s.m_order_count.length + 1) ∧
      is_path s.m_nodes (unigram_slots s) r g.dropLast ∧
      ((F ≤ p ∧ (level_start s.m_order_count (g.length - 1) = (s.m_nodes.length : Int) ∨
                 level_start s.m_order_count (g.length - 2) ≤ p - 1)) ∨
       (s.m_order_count.length = g.length ∧ F = p + 1 ∧ 0 ≤ child_index_at s.m_nodes p ∧
        child_index_at s.m_nodes F = (s.m_nodes.length : Int) ∧
        child_index_at s.m_nodes p ≤ (s.m_nodes.length : Int) - 1 ∧
        word_at s.m_nodes ((s.m_nodes.length : Int) - 1) < w)) := by
    rcases hphase with hU | hH
    · obtain ⟨a1, a2, p', a3, a4⟩ := find_path_unigram_phase s F g r hshape hU hco hg hd e1
      rw [e2] at a3
      simp at a3
      subst a3
      refine ⟨Or.inr (by rw [hU.1]; omega), a2, Or.inl ⟨a4, Or.inl ?_⟩⟩
      exact hshape.Ltop _ (by rw [hU.1]; omega)
    · obtain ⟨a1, a2, p', w', a3, a4, a5⟩ := find_path_higher_phase s F g r hshape hH hco hg hd e1
      rw [e2] at a3
      rw [e3] at a4
      simp at a3 a4
      subst a3 a4
      refine ⟨a1, a2, ?_⟩
      rcases a5 with a5 | ⟨b1, b2, b3, b4, b5⟩
      · exact Or.inl a5
      · exact Or.inr ⟨b1, b2, b3, hH.2.2.2.2.2, b4, b5⟩
  obtain ⟨hlen, hpath, hcase⟩ := hparent
  have hpathL : is_path s.m_nodes (level_start s.m_order_count 1) r g.dropLast := by
    rw [level_start_one]
    exact hpath
  obtain ⟨q1, q2, q3, q4, q5⟩ :=
    path_after_insert s.m_nodes s3.m_nodes hshape g r p w hg hpathL e2 e3 e5 e7 e8
  -- the order starts of the final store
  have hL : ∀ j, level_start s1.m_order_count j =
      if j ≤ g.length - 2 + 1 then level_start s.m_order_count j
      else (s.m_nodes.length : Int) + 1 := by
    intro j
    rw [hcounts, u3 j]
    have e : g.length - 2 + 1 = g.length - 1 := by omega
    rw [e]
    split_ifs with c1 c2
    · rfl
    · rw [hshape.Ltop j (by omega)]
    · have := level_start_top s.m_order_count s.m_order_count.length (le_refl _)
      rw [← this, hsum]
  have hslots : unigram_slots s1 = unigram_slots s := by
    rw [← level_start_one, ← level_start_one, hL 1]
    rw [if_pos (by omega)]
  have hk' : s1.m_order_count.length = g.length - 2 + 2 := by
    rw [hcounts, u1]
    omega
  have hn' : (s1.m_nodes.length : Int) = (s.m_nodes.length : Int) + 1 := by
    rw [hnodes]
    exact e6
  have hshape' : array_shape (s1.m_nodes.length : Int) (child_index_at s1.m_nodes)
      (word_at s1.m_nodes) (level_start s1.m_order_count) s1.m_order_count.length (p + 1) := by
    rw [hn', hk', hnodes]
    rcases hcase with ⟨c1, c2⟩ | ⟨c1, c2, c3, c4, c5, c6⟩
    · refine shape_insert_new hshape p w (g.length - 2) (by omega) q4 q5 c1 ?_ _ _ _ e7 e8 hL
      have e : g.length - 2 + 1 = g.length - 1 := by omega
      rw [e]
      exact c2
    · exact shape_insert_same hshape p w (g.length - 2) (by omega) q4 q5 c2 c3 c4 c5 c6
        _ _ _ e7 e8 hL
  refine ⟨p + 1, hshape', horder, Or.inr ⟨by omega, ?_, ?_, ?_, ?_, ?_⟩⟩
  · rw [hlast, hk']
    omega
  · rw [hslots, hstack, hlast, hnodes, ← level_start_one]
    exact q1
  · rw [hstack, hn']
    have e : s1.m_order_count.length - 1 = g.length - 1 := by omega
    rw [e, q2]
    simp
  · rw [hstack]
    have e : s1.m_order_count.length - 2 = g.length - 2 := by omega
    rw [e, q3]
    simp
  · rw [hnodes, e7, e6]
    simp

/-! ## The builder invariant on built stores -/

theorem add_gram_slots_higher (s s1 : TreeGram) (g : List Int) (lv bv : Int)
    (h : add_gram s g lv bv = Except.ok s1) (hg : 2 ≤ g.length) :
    unigram_slots s1 = unigram_slots s ∧ 2 ≤ s1.m_order_count.length := by
  obtain ⟨hco, s2, s3, h2, h3, ho3, hs1⟩ := add_gram_steps _ _ _ _ _ h
  obtain ⟨u1, u2, u3, u4, u5, u6, u7, u8⟩ := update_counts_higher _ _ _ h2 hg
  have h3' : add_higher s2 g lv bv = Except.ok s3 := by
    cases g with
    | nil => simp at hg
    | cons a t =>
      cases t with
      | nil => simp at hg
      | cons b t => simpa [insert_node] using h3
  obtain ⟨r, p, w, e1, e2, e3, e4, e5, e6, e7, e8, e9, e10, e11, e12, e13⟩ :=
    add_higher_effect _ _ _ _ _ h3'
  have hcounts : s1.m_order_count = s2.m_order_count := by
    rw [hs1]
    simp only
    rw [e10]
  constructor
  · rw [← level_start_one, ← level_start_one, hcounts, u3 1, if_pos (by omega)]
  · rw [hcounts, u1]
    exact hg

theorem add_gram_order_two (s s1 : TreeGram) (g : List Int) (lv bv : Int)
    (h : add_gram s g lv bv = Except.ok s1) (hk : 2 ≤ s.m_order_count.length) :
    2 ≤ g.length := by
  obtain ⟨hco, s2, s3, h2, h3, ho3, hs1⟩ := add_gram_steps _ _ _ _ _ h
  cases g with
  | nil => simp [insert_node] at h3
  | cons a t =>
    cases t with
    | nil =>
      have := (update_counts_unigram _ _ _ h2 (by omega)).1
      omega
    | cons b t => simp

theorem slots_frozen (calls : List (List Int × Int × Int)) :
    ∀ (s1 s : TreeGram), add_grams s1 calls = Except.ok s → 2 ≤ s1.m_order_count.length →
      unigram_slots s = unigram_slots s1 := by
  induction calls with
  | nil =>
    intro s1 s h _
    simp [add_grams] at h
    rw [h]
  | cons c rest ih =>
    intro s1 s h hk
    simp only [add_grams] at h
    split at h
    · simp at h
    · next s2 h2 =>
      have hg := add_gram_order_two _ _ _ _ _ h2 hk
      obtain ⟨a1, a2⟩ := add_gram_slots_higher _ _ _ _ _ h2 hg
      rw [ih s2 s h a2, a1]

theorem builder_inv_reserve (words : List String) (capacity : Int) :
    builder_inv (install_root (construct words)) := by
  have hall : ∀ i, child_index_at
      (install_root (construct words)).m_nodes i = -1 := by
    intro i
    by_cases hi : i = 0
    · subst hi
      rfl
    · exact child_index_at_out _ _ (by simp [install_root]; omega)
  refine ⟨0, ?_, rfl, Or.inl ⟨rfl, rfl, hall, rfl, by simp [install_root, construct], ?_⟩⟩
  · exact shape_unigrams 1 (le_refl _) _ _ hall _ rfl
  · intro u hu
    simp [install_root, construct] at hu

theorem builder_inv_add_grams (calls : List (List Int × Int × Int)) :
    ∀ (s1 s : TreeGram), builder_inv s1 → add_grams s1 calls = Except.ok s →
      heads_are_unigrams calls s → builder_inv s := by
  induction calls with
  | nil =>
    intro s1 s hinv h _
    simp [add_grams] at h
    rw [← h]
    exact hinv
  | cons c rest ih =>
    intro s1 s hinv h hd
    simp only [add_grams] at h
    split at h
    · simp at h
    · next s2 h2 =>
      have hrest : heads_are_unigrams rest s := by
        intro c' hc' hl
        exact hd c' (List.mem_cons_of_mem _ hc') hl
      refine ih s2 s ?_ h hrest
      by_cases hg : 2 ≤ c.1.length
      · obtain ⟨a1, a2⟩ := add_gram_slots_higher _ _ _ _ _ h2 hg
        have hfr := slots_frozen rest s2 s h a2
        have hc := hd c (List.mem_cons_self _ _) hg
        rw [hfr, a1] at hc
        refine add_higher_preserves s1 s2 c.1 c.2.1 c.2.2 hinv h2 hg ?_
        intro w hw
        cases hcl : c.1 with
        | nil => rw [hcl] at hw; simp at hw
        | cons x xs =>
          rw [hcl] at hw hc
          simp at hw hc
          omega
      · obtain ⟨hco, t2, t3, e2, e3, _, _⟩ := add_gram_steps _ _ _ _ _ h2
        cases hcl : c.1 with
        | nil =>
          rw [hcl] at e3
          simp [insert_node] at e3
        | cons x xs =>
          cases xs with
          | nil =>
            rw [hcl] at h2
            exact add_unigram_preserves s1 s2 x c.2.1 c.2.2 hinv h2
          | cons y ys =>
            rw [hcl] at hg
            simp at hg

theorem builder_inv_build (words : List String) (capacity : Int)
    (calls : List (List Int × Int × Int)) (s : TreeGram)
    (hb : build words capacity calls = Except.ok s) (hd : heads_are_unigrams calls s) :
    builder_inv s :=
  builder_inv_add_grams calls _ s (builder_inv_reserve words capacity)
    (build_steps _ _ _ _ hb).2 hd

theorem set_child_index_ordered_of_inv (s : TreeGram) (hinv : builder_inv s) :
    set_child_index_ordered s := by
  obtain ⟨F, hshape, _, _⟩ := hinv
  intro i nd nx h1 h2 h3 h4
  have := hshape.mono i (i + 1) (by omega)
  rw [child_index_at_of_ok _ _ _ h1, child_index_at_of_ok _ _ _ h2] at this
  exact this h3 h4

theorem children_sorted_of_inv (s : TreeGram) (hinv : builder_inv s) : children_sorted s := by
  obtain ⟨F, hshape, _, _⟩ := hinv
  intro p nd nx h1 h2 h3 h4
  have e1 := child_index_at_of_ok _ _ _ h1
  have e2 := child_index_at_of_ok _ _ _ h2
  constructor
  · intro a ha1 ha2
    have := hshape.bound (p + 1)
    rw [e2] at this
    exact node_at_in_bounds _ _ (by omega) (by omega)
  · intro a b na nb ha hab hb hna hnb
    have := hshape.sorted p a b (by rw [e1]; exact h3) (by rw [e2]; exact h4)
      (by rw [e1]; exact ha) hab (by rw [e2]; exact hb)
    rw [word_at_of_ok _ _ _ hna, word_at_of_ok _ _ _ hnb] at this
    exact this

/-! ## Child indices along the array -/

/-- C8 (as stated, refuted): on the store of the unigrams `[1]`, `[2]`, `[3]`
and the bigram `[1, 1]`, node 2 has `child_index = 5` and node 3 has
`child_index = -1`; and on a store with a bigram whose first word has no
unigram node, nodes 4 and 5 have the child indices 8 and 6. -/
theorem child_index_not_ordered :
    (build scenario_words 16 one_bigram_calls = Except.ok one_bigram_store ∧
      ¬ child_index_ordered one_bigram_store) ∧
    (build sparse_words 16 sparse_calls = Except.ok sparse_store ∧
      ¬ set_child_index_ordered sparse_store) := by
  refine ⟨⟨one_bigram_store_built, ?_⟩, ⟨sparse_store_built, ?_⟩⟩
  · intro h
    have := h 2 ⟨2, -10, -5, 5⟩ ⟨3, -10, -5, -1⟩ (by decide) (by decide) (by decide)
    simp at this
  · intro h
    have := h 4 ⟨2, -3, 0, 8⟩ ⟨1, -3, 0, 6⟩ (by decide) (by decide) (by decide) (by decide)
    simp at this

/-- C8 (amended): after `reserve_nodes` and an accepted sequence of `add_gram`
calls in which every gram of two or more words starts with a word id below
`order_count[0]`, for every node index `i` such that `i + 1` is a node index,
`child_index(i) >= 0` and `child_index(i + 1) >= 0`: `child_index(i) <=
child_index(i + 1)`. -/
theorem child_index_ordered_where_set (words : List String) (capacity : Int)
    (calls : List (List Int × Int × Int)) (s : TreeGram)
    (hb : build words capacity calls = Except.ok s) (hd : heads_are_unigrams calls s) :
    set_child_index_ordered s :=
  set_child_index_ordered_of_inv s (builder_inv_build words capacity calls s hb hd)

/-- C8 (amended) on the store of the spec's first scenario. -/
theorem child_index_ordered_where_set_witness :
    build scenario_words 16 scenario1_calls = Except.ok scenario1_store ∧
    heads_are_unigrams scenario1_calls scenario1_store ∧
    set_child_index_ordered scenario1_store :=
  ⟨scenario1_store_built, by decide,
    child_index_ordered_where_set scenario_words 16 scenario1_calls scenario1_store
      scenario1_store_built (by decide)⟩

/-! ## Children of one parent -/

/-- C9 (as stated, refuted): after the bigram `[3, 1]`, whose first word has no
unigram node, and the trigram `[1, 1, 1]`, the child range of node 3 is the
nodes 4 and 5, both with word 1. -/
theorem children_not_sorted :
    build scenario_words 16 alias_calls = Except.ok alias_store ∧
    ¬ children_sorted alias_store := by
  refine ⟨alias_store_built, ?_⟩
  intro h
  have := (h 3 ⟨1, -3, 0, 4⟩ ⟨1, -4, 0, 6⟩ (by decide) (by decide) (by decide) (by decide)).2
    4 5 ⟨1, -4, 0, 6⟩ ⟨1, -5, 0, -1⟩ (by decide) (by decide) (by decide) (by decide) (by decide)
  simp at this

/-- C9 (amended): after `reserve_nodes` and an accepted sequence of `add_gram`
calls in which every gram of two or more words starts with a word id below
`order_count[0]`, children of the same parent are sorted strictly ascending by
word: for every node index `p` with `child_index(p) >= 0` and `child_index(p +
1) >= 0`, the nodes at `child_index(p) .. child_index(p + 1) - 1` are all
inside the node array and their words are strictly increasing. -/
theorem children_sorted_of_unigram_heads (words : List String) (capacity : Int)
    (calls : List (List Int × Int × Int)) (s : TreeGram)
    (hb : build words capacity calls = Except.ok s) (hd : heads_are_unigrams calls s) :
    children_sorted s :=
  children_sorted_of_inv s (builder_inv_build words capacity calls s hb hd)

/-- C9 (amended) on the store of the bigram `[1, 1]` after three unigrams. -/
theorem children_sorted_of_unigram_heads_witness :
    build scenario_words 16 one_bigram_calls = Except.ok one_bigram_store ∧
    heads_are_unigrams one_bigram_calls one_bigram_store ∧
    children_sorted one_bigram_store :=
  ⟨one_bigram_store_built, by decide,
    children_sorted_of_unigram_heads scenario_words 16 one_bigram_calls one_bigram_store
      one_bigram_store_built (by decide)⟩

/-! ## Searches and descents that return -/

theorem linear_scan_returns (nodes : List Node) (word : Int) (n : Nat) (first : Int)
    (h0 : 0 ≤ first) (h1 : first + n ≤ (nodes.length : Int)) :
    ∃ idx, linear_scan nodes word n first = Except.ok idx := by
  induction n generalizing first with
  | zero => exact ⟨-1, rfl⟩
  | succ n ih =>
    simp only [linear_scan]
    obtain ⟨nd, hnd⟩ := node_at_in_bounds nodes first h0 (by push_cast at h1; omega)
    rw [hnd]
    simp only
    split
    · exact ⟨first, rfl⟩
    · exact ih (first + 1) (by omega) (by push_cast at h1 ⊢; omega)

theorem binary_search_loop_returns (nodes : List Node) (word : Int) (fuel : Nat)
    (first last : Int) (h0 : 0 ≤ first) (h1 : last ≤ (nodes.length : Int))
    (hf : (last - first).toNat ≤ fuel) :
    ∃ idx, binary_search_loop nodes word fuel first last = Except.ok idx := by
  induction fuel generalizing first last with
  | zero =>
    unfold binary_search_loop
    have : ¬ last - first > 5 := by omega
    rw [if_neg this]
    have e : (last - first).toNat = 0 := by omega
    rw [e]
    exact ⟨-1, rfl⟩
  | succ fuel ih =>
    unfold binary_search_loop
    split
    · next hlen =>
      simp only
      obtain ⟨nd, hnd⟩ := node_at_in_bounds nodes (first + (last - first) / 2) (by omega)
        (by omega)
      rw [hnd]
      simp only
      split
      · exact ⟨_, rfl⟩
      · split
        · exact ih _ _ h0 (by omega) (by omega)
        · exact ih _ _ (by omega) h1 (by omega)
    · next hlen =>
      by_cases hle : first ≤ last
      · exact linear_scan_returns _ _ _ _ h0 (by omega)
      · have e : (last - first).toNat = 0 := by omega
        rw [e]
        exact ⟨-1, rfl⟩

theorem find_child_returns (s : TreeGram) (w prev : Int)
    (hw : 0 ≤ w ∧ w < (s.m_words.length : Int))
    (hb : ∀ i, child_index_at s.m_nodes i ≤ (s.m_nodes.length : Int)) :
    ∃ idx, find_child s w prev = Except.ok idx := by
  unfold find_child
  have hv : ¬ (w < 0 ∨ w ≥ (s.m_words.length : Int)) := by omega
  rw [if_neg hv]
  split
  · exact ⟨w, rfl⟩
  · next hp =>
    split
    · exact ⟨-1, rfl⟩
    · next hp2 =>
      obtain ⟨nd, hnd⟩ := node_at_in_bounds s.m_nodes prev (by omega) (by omega)
      obtain ⟨nx, hnx⟩ := node_at_in_bounds s.m_nodes (prev + 1) (by omega) (by omega)
      rw [hnd, hnx]
      simp only
      split
      · exact ⟨-1, rfl⟩
      · next hc =>
        unfold binary_search
        have := hb (prev + 1)
        rw [child_index_at_of_ok _ _ _ hnx] at this
        exact binary_search_loop_returns _ _ _ _ _ (by omega) this (le_refl _)

theorem find_child_range (s : TreeGram) (w prev idx : Int)
    (h : find_child s w prev = Except.ok idx) (hidx : 0 ≤ idx)
    (hv : (s.m_words.length : Int) ≤ (s.m_nodes.length : Int))
    (hb : ∀ i, child_index_at s.m_nodes i ≤ (s.m_nodes.length : Int)) :
    idx < (s.m_nodes.length : Int) := by
  obtain ⟨hw, hl⟩ := find_child_sound s w prev idx h hidx
  rcases hl with ⟨_, he⟩ | ⟨_, _, _, c3, _⟩
  · omega
  · have := hb (prev + 1)
    omega

theorem fetch_loop_returns (s : TreeGram)
    (hv : (s.m_words.length : Int) ≤ (s.m_nodes.length : Int))
    (hb : ∀ i, child_index_at s.m_nodes i ≤ (s.m_nodes.length : Int)) :
    ∀ (ws : List Int) (prev : Int) (stack : List Int),
      (∀ w ∈ ws, 0 ≤ w ∧ w < (s.m_words.length : Int)) →
      (∀ x ∈ stack, 0 ≤ x ∧ x < (s.m_nodes.length : Int)) →
      ∃ out, fetch_loop s ws prev stack = Except.ok out ∧
        ∀ x ∈ out, 0 ≤ x ∧ x < (s.m_nodes.length : Int) := by
  intro ws
  induction ws with
  | nil =>
    intro prev stack _ hs
    exact ⟨stack, rfl, hs⟩
  | cons w ws ih =>
    intro prev stack hws hs
    simp only [fetch_loop]
    obtain ⟨idx, hidx⟩ := find_child_returns s w prev (hws w (List.mem_cons_self _ _)) hb
    rw [hidx]
    simp only
    split
    · exact ⟨stack, rfl, hs⟩
    · next hneg =>
      refine ih idx (stack ++ [idx]) (fun v hv' => hws v (List.mem_cons_of_mem _ hv')) ?_
      intro x hx
      rw [List.mem_append] at hx
      rcases hx with hx | hx
      · exact hs x hx
      · simp at hx
        subst hx
        exact ⟨by omega, find_child_range s w prev x hidx (by omega) hv hb⟩

/-- C11 (failing input): `reserve_nodes(16)` on the store of the first scenario
returns; it resets the nodes, the counts and the order, and keeps `m_last_gram
= [1, 2, 3]` and `m_insert_stack = [1, 4, 5]`; the unigram `[1]` is then
refused by `check_order` ("trying to insert 1-gram after 3-gram"), while on a
freshly constructed store after `reserve_nodes(16)` the same call is
accepted. -/
theorem reserve_nodes_keeps_last_gram :
    build scenario_words 16 scenario1_calls = Except.ok scenario1_store ∧
    reserve_nodes scenario1_store 16 = Except.ok (install_root scenario1_store) ∧
    (install_root scenario1_store).m_last_gram = [1, 2, 3] ∧
    (install_root scenario1_store).m_insert_stack = [1, 4, 5] ∧
    check_order (install_root scenario1_store) [1] = Except.error Fault.exit ∧
    add_gram (install_root scenario1_store) [1] (-10) (-5) = Except.error Fault.exit ∧
    reserve_nodes (construct scenario_words) 16
      = Except.ok (install_root (construct scenario_words)) ∧
    add_gram (install_root (construct scenario_words)) [1] (-10) (-5)
      = Except.ok (store_of scenario_words 1 [2] [⟨0, -99, 0, -1⟩, ⟨1, -10, -5, -1⟩] [1] []) :=
  ⟨scenario1_store_built, by decide, by decide, by decide, by decide, by decide, by decide,
    by decide⟩

/-! ## Bounds of every built store -/

theorem store_bounds_reserve (s : TreeGram) :
    store_bounds (install_root s) := by
  refine ⟨by simp [install_root], by simp [install_root, unigram_slots],
    by simp [install_root, unigram_slots], ?_⟩
  intro i
  by_cases h : i = 0
  · subst h; left; rfl
  · left
    apply child_index_at_out
    simp [install_root]; omega

theorem store_bounds_add_gram (s s1 : TreeGram) (g : List Int) (lv bv : Int)
    (hinv : store_bounds s) (h : add_gram s g lv bv = Except.ok s1) : store_bounds s1 := by
  obtain ⟨hne, hs1, hs2, hci⟩ := hinv
  have hk1 : 1 ≤ s.m_order_count.length := by
    unfold unigram_slots at hs1
    cases hc : s.m_order_count with
    | nil => rw [hc] at hs1; simp at hs1
    | cons a t => simp
  obtain ⟨_, s2, s3, hu, hi, _, hs1eq⟩ := add_gram_steps s s1 g lv bv h
  have hn1 : s1.m_nodes = s3.m_nodes := by rw [hs1eq]
  have hc1 : s1.m_order_count = s3.m_order_count := by rw [hs1eq]
  match g, hu, hi, h with
  | [], hu, hi, _ => simp [insert_node] at hi
  | [w], hu, hi, _ =>
    obtain ⟨hlen1, hn2, _, _, hw0, hwn⟩ := update_counts_unigram s s2 w hu hk1
    have hi2 : add_unigram s2 w lv bv = Except.ok s3 := by simpa [insert_node] using hi
    obtain ⟨hc3, _, _, he0, hen⟩ := add_unigram_effect s2 s3 w lv bv hi2
    obtain ⟨c, hc⟩ : ∃ c, s.m_order_count = [c] := by
      match hcc : s.m_order_count, hlen1 with
      | [c], _ => exact ⟨c, rfl⟩
    have hslots : unigram_slots s = c := by simp [unigram_slots, hc]
    by_cases hw : w = 0
    · obtain ⟨hl, hcieq⟩ := he0 hw
      rw [hn2] at hl hcieq
      refine ⟨?_, ?_, ?_, ?_⟩
      · intro hnil; rw [hn1] at hnil; rw [hnil] at hl
        have : (s.m_nodes.length : Int) ≠ 0 := by
          have := List.length_pos.mpr hne; omega
        simp at hl; omega
      · rw [unigram_slots, hc1, hc3, hw0 hw]; exact hs1
      · rw [unigram_slots, hc1, hc3, hw0 hw, hn1, hl]; exact hs2
      · intro i; rw [hn1, hcieq i, hl]; exact hci i
    · obtain ⟨hl, hcieq⟩ := hen hw
      rw [hn2] at hl hcieq
      have hcn : s3.m_order_count = [c + 1] := by rw [hc3]; exact hwn hw c hc
      refine ⟨?_, ?_, ?_, ?_⟩
      · intro hnil; rw [hn1] at hnil; rw [hnil] at hl; simp at hl; omega
      · rw [unigram_slots, hc1, hcn]; simp; omega
      · rw [unigram_slots, hc1, hcn, hn1, hl]; simp; omega
      · intro i; rw [hn1, hcieq i, hl]
        by_cases hi : i = (s.m_nodes.length : Int)
        · simp [hi]
        · simp only [hi, if_false]
          rcases hci i with h1 | h1
          · left; exact h1
          · right; omega
  | a :: b :: rest, hu, hi, h =>
    have hg2 : 2 ≤ (a :: b :: rest).length := by simp
    obtain ⟨hsl, _⟩ := add_gram_slots_higher s s1 (a :: b :: rest) lv bv h hg2
    obtain ⟨_, _, _, _, hn2, _, _, _⟩ := update_counts_higher s s2 (a :: b :: rest) hu hg2
    have hi2 : add_higher s2 (a :: b :: rest) lv bv = Except.ok s3 := by
      simpa [insert_node] using hi
    obtain ⟨r, p, w, _, _, _, hp0, hp1, hl, hcieq, _⟩ :=
      add_higher_effect s2 s3 (a :: b :: rest) lv bv hi2
    rw [hn2] at hp1 hl hcieq
    have hnpos : 0 < (s.m_nodes.length : Int) := by
      have := List.length_pos.mpr hne; omega
    refine ⟨?_, ?_, ?_, ?_⟩
    · intro hnil; rw [hn1] at hnil; rw [hnil] at hl; simp at hl; omega
    · rw [hsl]; exact hs1
    · rw [hsl, hn1, hl]; omega
    · intro i; rw [hn1, hcieq i, hl]
      have h1 := hci i
      have h2 := hci p
      split_ifs <;> omega

theorem store_bounds_add_grams (calls : List (List Int × Int × Int)) :
    ∀ (s1 s : TreeGram), store_bounds s1 → add_grams s1 calls = Except.ok s →
      store_bounds s := by
  induction calls with
  | nil => intro s1 s hinv h; simp [add_grams] at h; rw [← h]; exact hinv
  | cons c rest ih =>
    intro s1 s hinv h
    simp only [add_grams] at h
    cases hc : add_gram s1 c.1 c.2.1 c.2.2 with
    | error e => rw [hc] at h; simp at h
    | ok s2 =>
      rw [hc] at h
      exact ih s2 s (store_bounds_add_gram s1 s2 c.1 c.2.1 c.2.2 hinv hc) h

theorem store_bounds_build (words : List String) (capacity : Int)
    (calls : List (List Int × Int × Int)) (s : TreeGram)
    (hb : build words capacity calls = Except.ok s) : store_bounds s :=
  store_bounds_add_grams calls _ s (store_bounds_reserve _) (build_steps _ _ _ _ hb).2

theorem add_gram_words (s s1 : TreeGram) (g : List Int) (lv bv : Int)
    (h : add_gram s g lv bv = Except.ok s1) : s1.m_words = s.m_words := by
  obtain ⟨_, s2, s3, hu, hi, _, hs1eq⟩ := add_gram_steps s s1 g lv bv h
  have h1 : s1.m_words = s3.m_words := by rw [hs1eq]
  have h2 : s2.m_words = s.m_words := by
    unfold update_counts at hu
    split_ifs at hu with ha hb
    · injection hu with hu; rw [← hu]; unfold open_count; split_ifs <;> rfl
    · cases hc : incr_count (open_count s g).m_order_count (g.length - 1) with
      | error e => rw [hc] at hu; simp at hu
      | ok counts =>
        rw [hc] at hu; injection hu with hu; rw [← hu]
        show (open_count s g).m_words = s.m_words
        unfold open_count; split_ifs <;> rfl
  have h3 : s3.m_words = s2.m_words := by
    match g, hi with
    | [], hi => simp [insert_node] at hi
    | [w], hi =>
      simp only [insert_node, add_unigram] at hi
      split_ifs at hi
      · cases hn : s2.m_nodes with
        | nil => rw [hn] at hi; simp at hi
        | cons root rest => rw [hn] at hi; injection hi with hi; rw [← hi]
      · injection hi with hi; rw [← hi]
    | a :: b :: rest, hi =>
      have hi2 : add_higher s2 (a :: b :: rest) lv bv = Except.ok s3 := by
        simpa [insert_node] using hi
      obtain ⟨_, _, _, _, _, _, _, _, _, _, _, _, _, _, _, hw⟩ :=
        add_higher_effect s2 s3 (a :: b :: rest) lv bv hi2
      exact hw
  rw [h1, h3, h2]

theorem add_grams_words (calls : List (List Int × Int × Int)) :
    ∀ (s1 s : TreeGram), add_grams s1 calls = Except.ok s → s.m_words = s1.m_words := by
  induction calls with
  | nil => intro s1 s h; simp [add_grams] at h; rw [← h]
  | cons c rest ih =>
    intro s1 s h
    simp only [add_grams] at h
    cases hc : add_gram s1 c.1 c.2.1 c.2.2 with
    | error e => rw [hc] at h; simp at h
    | ok s2 =>
      rw [hc] at h
      rw [ih s2 s h, add_gram_words s1 s2 c.1 c.2.1 c.2.2 hc]

theorem build_words (words : List String) (capacity : Int)
    (calls : List (List Int × Int × Int)) (s : TreeGram)
    (hb : build words capacity calls = Except.ok s) : s.m_words = words := by
  rw [add_grams_words calls _ s (build_steps _ _ _ _ hb).2]; rfl

/-- C15 (failing input): the store of `first_bigram_calls` is built by
`reserve_nodes` and three accepted `add_gram` calls, the last of which stores
the bigram `(b, a)`; its node, with the word 1 and `log_prob = -3`, is node 3
of the array.  After `log_prob([2, 1])`, on every host, `m_last_order` is 1
and `m_last_history_length` is 1, as if only the last word were stored: the
node was filed under node 0, and the descent along `[2, 1]` resolves one word.
For the gram `[0, 1]`, which was never inserted, `m_last_order` is 2. -/
theorem last_order_misses_stored_bigram :
    build small_words 16 first_bigram_calls = Except.ok first_bigram_store ∧
    (([2, 1] : List Int), (-3 : Int), (-2 : Int)) ∈ first_bigram_calls ∧
    node_at first_bigram_store.m_nodes 3
      = Except.ok { word := 1, log_prob := -3, back_off := -2, child_index := -1 } ∧
    fetch_gram first_bigram_store [2, 1] 0 = Except.ok [2] ∧
    (∀ h : Host, (log_prob_backoff h first_bigram_store [2, 1]).map
        (fun p => (p.2.m_last_order, p.2.m_last_history_length)) = Except.ok (1, 1)) ∧
    (∀ h : Host, (log_prob_backoff h first_bigram_store [0, 1]).map
        (fun p => (p.2.m_last_order, p.2.m_last_history_length)) = Except.ok (2, 2)) :=
  ⟨first_bigram_store_built, by decide, by decide, by decide, fun _ => rfl, fun _ => rfl⟩

/-! ## Iterator moves inside a sibling range -/

theorem node_at_of_child_index (nodes : List Node) (i : Int)
    (h : 0 ≤ child_index_at nodes i) :
    ∃ nd, node_at nodes i = Except.ok nd ∧ nd.child_index = child_index_at nodes i ∧
      0 ≤ i ∧ i < (nodes.length : Int) := by
  by_cases hout : i < 0 ∨ (nodes.length : Int) ≤ i
  · rw [child_index_at_out nodes i hout] at h; omega
  · obtain ⟨nd, hnd⟩ := node_at_in_bounds nodes i (by omega) (by omega)
    exact ⟨nd, hnd, (child_index_at_of_ok nodes i nd hnd).symm, by omega, by omega⟩

theorem counts_head_of_bounds (s : TreeGram) (hinv : store_bounds s) :
    s.m_order_count[0]? = some (unigram_slots s) := by
  obtain ⟨_, h1, _, _⟩ := hinv
  unfold unigram_slots at *
  cases hc : s.m_order_count with
  | nil => rw [hc] at h1; simp at h1
  | cons a t => simp

theorem move_in_context_of_bounds (s : TreeGram) (hinv : store_bounds s) (stack : List Int)
    (delta : Int) (hne : stack ≠ []) (hv : valid_path s stack) :
    (in_sibling_range s stack (stack.getLast?.getD 0 + delta) →
      move_in_context s stack delta
        = Except.ok (true, stack.dropLast ++ [stack.getLast?.getD 0 + delta])) ∧
    (¬ in_sibling_range s stack (stack.getLast?.getD 0 + delta) →
      move_in_context s stack delta = Except.ok (false, stack)) := by
  have hcounts := counts_head_of_bounds s hinv
  obtain ⟨_, _, _, hci⟩ := hinv
  obtain ⟨hv0, hvj⟩ := hv
  by_cases h1 : stack.length = 1
  · obtain ⟨x, hx⟩ : ∃ x, stack = [x] := by
      match stack, h1 with
      | [x], _ => exact ⟨x, rfl⟩
    subst hx
    have hx0 := hv0 (by simp)
    simp only [List.getD_cons_zero] at hx0
    simp only [in_sibling_range, move_in_context, List.length_singleton, if_true,
      List.getLast?_singleton, hcounts, Option.getD_some, List.dropLast_single, List.nil_append]
    have hlt : ¬ ¬ x < unigram_slots s := by omega
    rw [if_neg hlt]
    constructor
    · intro hin
      rw [if_neg (by omega)]
    · intro hout
      rw [if_pos (by omega)]
  · have h2 : 2 ≤ stack.length := by
      have := List.length_pos.mpr hne
      omega
    have hlt2 : ¬ stack.length < 2 := by omega
    obtain ⟨back, hback⟩ : ∃ back, stack.getLast? = some back := by
      cases hg : stack.getLast? with
      | none => simp at hg; exact absurd hg hne
      | some b => exact ⟨b, rfl⟩
    obtain ⟨p, hp⟩ : ∃ p, stack[stack.length - 2]? = some p := by
      have : stack.length - 2 < stack.length := by omega
      exact ⟨stack[stack.length - 2], List.getElem?_eq_getElem this⟩
    have hpD : stack.getD (stack.length - 2) 0 = p := by
      rw [List.getD_eq_getElem?_getD, hp]; rfl
    have hbD : stack.getD (stack.length - 2 + 1) 0 = back := by
      rw [List.getD_eq_getElem?_getD]
      have e : stack.length - 2 + 1 = stack.length - 1 := by omega
      rw [e, ← List.getLast?_eq_getElem?, hback]; rfl
    have hr := hvj (stack.length - 2) (by omega)
    rw [hpD, hbD] at hr
    obtain ⟨r0, r1, r2⟩ := hr
    obtain ⟨parent, hpar, hparci, _, _⟩ := node_at_of_child_index s.m_nodes p r0
    obtain ⟨nextp, hnx, hnxci, _, _⟩ := node_at_of_child_index s.m_nodes (p + 1) (by omega)
    have hpos : parent.child_index > 0 := by
      rcases hci p with h | h <;> omega
    simp only [in_sibling_range, move_in_context, if_neg h1, if_neg hlt2, if_pos h2, hp, hback,
      hpar, hnx, hpD, Option.getD_some]
    rw [if_neg (by omega), if_neg (by omega), if_neg (by omega), if_neg (by omega)]
    rw [← hparci, ← hnxci]
    constructor
    · intro hin
      rw [if_neg (by omega)]
    · intro hout
      rw [if_pos (by omega)]

/-- C20: on a store built by `reserve_nodes` and accepted `add_gram` calls,
for an iterator positioned on a valid path and every integer `delta`,
`move_in_context(delta)` returns true and replaces the deepest entry `x` by
`x + delta` exactly when `x + delta` lies in the sibling range (`[0,
order_count[0])` at the unigram level, otherwise the child range of the entry
before the deepest one); otherwise it returns false and leaves the stack as it
was.  The entries before the deepest one are the same in both cases. -/
theorem move_in_context_in_range_iff (words : List String) (capacity : Int)
    (calls : List (List Int × Int × Int)) (s : TreeGram) (stack : List Int) (delta : Int)
    (hb : build words capacity calls = Except.ok s) (hne : stack ≠ [])
    (hv : valid_path s stack) :
    (in_sibling_range s stack (stack.getLast?.getD 0 + delta) →
      move_in_context s stack delta
        = Except.ok (true, stack.dropLast ++ [stack.getLast?.getD 0 + delta])) ∧
    (¬ in_sibling_range s stack (stack.getLast?.getD 0 + delta) →
      move_in_context s stack delta = Except.ok (false, stack)) :=
  move_in_context_of_bounds s (store_bounds_build words capacity calls s hb) stack delta hne hv

/-- C20 on the store of the first scenario: at the bigram `(a, b)`, the only
child of `a`, a shift by 1 leaves the range and is refused; at the unigram `a`
a shift by 2 moves to the unigram `c`. -/
theorem move_in_context_in_range_iff_witness :
    build scenario_words 16 scenario1_calls = Except.ok scenario1_store ∧
    valid_path scenario1_store [1, 4] ∧ valid_path scenario1_store [1] ∧
    move_in_context scenario1_store [1, 4] 1 = Except.ok (false, [1, 4]) ∧
    move_in_context scenario1_store [1] 2 = Except.ok (true, [3]) :=
  ⟨scenario1_store_built, by decide, by decide,
    (move_in_context_in_range_iff scenario_words 16 scenario1_calls scenario1_store [1, 4] 1
      scenario1_store_built (by decide) (by decide)).2 (by decide),
    (move_in_context_in_range_iff scenario_words 16 scenario1_calls scenario1_store [1] 2
      scenario1_store_built (by decide) (by decide)).1 (by decide)⟩

/-! ## The interpolated query -/

theorem faint_store_bounds :
    ∀ i, child_index_at faint_store.m_nodes i ≤ (faint_store.m_nodes.length : Int) := by
  intro i
  by_cases h : 0 ≤ i ∧ i < 2
  · have : i = 0 ∨ i = 1 := by omega
    rcases this with h | h <;> subst h <;> decide
  · rw [child_index_at_out _ _ (by simp [faint_store, store_of]; omega)]
    decide

theorem lex_of_extension (Q : List Int) (c : Int) (t : List Int) : Q < Q ++ c :: t := by
  induction Q with
  | nil => exact List.Lex.nil
  | cons a Q ih => exact List.Lex.cons ih

theorem lex_of_differs (Q R : List Int) (h : differs Q R) : Q < R := by
  obtain ⟨pre, a, b, t1, t2, hQ, hR, hab⟩ := h
  rw [hQ, hR]
  exact List.Lex.append_left _ (List.Lex.rel hab) pre

theorem lex_cases (Q R : List Int) (h : Q < R) :
    (∃ c t, R = Q ++ c :: t) ∨ differs Q R := by
  have h' : List.Lex (fun x1 x2 : Int => x1 < x2) Q R := h
  induction h' with
  | nil => exact Or.inl ⟨_, _, rfl⟩
  | @cons a l1 l2 hl ih =>
    rcases ih hl with ⟨c, t, hc⟩ | ⟨pre, x, y, t1, t2, h1, h2, hxy⟩
    · left; exact ⟨c, t, by rw [hc]; rfl⟩
    · right; exact ⟨a :: pre, x, y, t1, t2, by rw [h1]; rfl, by rw [h2]; rfl, hxy⟩
  | @rel a1 l1 a2 l2 hr =>
    right; exact ⟨[], a1, a2, l1, l2, rfl, rfl, hr⟩

theorem differs_append (Q R ext : List Int) (h : differs Q R) : differs (Q ++ ext) R := by
  obtain ⟨pre, a, b, t1, t2, hQ, hR, hab⟩ := h
  exact ⟨pre, a, b, t1 ++ ext, t2, by rw [hQ]; simp, hR, hab⟩

theorem differs_concat (pre R : List Int) (x : Int) (h : differs (pre ++ [x]) R) :
    (∃ b t2, R = pre ++ b :: t2 ∧ x < b) ∨ differs pre R := by
  obtain ⟨p, a, b, t1, t2, hQ, hR, hab⟩ := h
  rcases List.eq_nil_or_concat t1 with ht | ⟨t1', z, ht⟩
  · subst ht
    have := List.append_inj' hQ rfl
    obtain ⟨h1, h2⟩ := this
    simp at h2
    subst h1 h2
    exact Or.inl ⟨b, t2, hR, hab⟩
  · subst ht
    have e : pre ++ [x] = (p ++ a :: t1') ++ [z] := by rw [hQ]; simp
    have := List.append_inj' e rfl
    obtain ⟨h1, _⟩ := this
    exact Or.inr ⟨p, a, b, t1', t2, h1, hR, hab⟩

theorem le_of_extension_or_eq (Q : List Int) (c y : Int) (t : List Int) (h : c ≤ y) :
    Q ++ [c] ≤ Q ++ y :: t := by
  rcases lt_or_eq_of_le h with h1 | h1
  · exact le_of_lt (lex_of_differs _ _ ⟨Q, c, y, [], t, rfl, rfl, h1⟩)
  · subst h1
    cases t with
    | nil => exact le_refl _
    | cons z t =>
      have := lex_of_extension (Q ++ [c]) z t
      simp at this
      exact le_of_lt this

theorem nil_or_snoc (l : List Int) : l = [] ∨ ∃ l1 x, l = l1 ++ [x] := by
  rcases List.eq_nil_or_concat l with h | ⟨l1, x, h⟩
  · exact Or.inl h
  · exact Or.inr ⟨l1, x, by rw [h, List.concat_eq_append]⟩

/-! ## Valid paths -/

theorem valid_path_of_append (s : TreeGram) (P T : List Int) (h : valid_path s (P ++ T)) :
    valid_path s P := by
  obtain ⟨h0, hj⟩ := h
  constructor
  · intro hpos
    have := h0 (by simp; omega)
    rwa [List.getD_append _ _ _ _ hpos] at this
  · intro j hjlt
    have := hj j (by simp; omega)
    rwa [List.getD_append _ _ _ _ (by omega), List.getD_append _ _ _ _ (by omega)] at this

theorem valid_path_singleton (s : TreeGram) (x : Int) :
    valid_path s [x] ↔ 0 ≤ x ∧ x < unigram_slots s := by
  unfold valid_path
  simp

theorem valid_path_concat (s : TreeGram) (Q : List Int) (q e : Int) :
    valid_path s (Q ++ [q] ++ [e]) ↔ valid_path s (Q ++ [q]) ∧ in_child_range s q e := by
  constructor
  · intro h
    refine ⟨valid_path_of_append s _ _ h, ?_⟩
    have := h.2 Q.length (by simp)
    rw [List.getD_append _ _ _ _ (by simp), List.getD_append_right _ _ _ _ (by simp),
      List.getD_append_right _ _ _ _ (by simp)] at this
    simpa using this
  · intro ⟨⟨h0, hj⟩, hr⟩
    constructor
    · intro _
      have := h0 (by simp)
      rwa [List.getD_append _ _ _ _ (by simp)]
    · intro j hjlt
      simp at hjlt
      by_cases hlast : j = Q.length
      · subst hlast
        rw [List.getD_append _ _ _ _ (by simp), List.getD_append_right _ _ _ _ (by simp),
          List.getD_append_right _ _ _ _ (by simp)]
        simpa using hr
      · have := hj j (by simp; omega)
        rwa [List.getD_append _ [e] _ _ (by simp; omega),
          List.getD_append _ [e] _ _ (by simp; omega)]

theorem valid_path_last_range (s : TreeGram) (hw : iter_ready s) (Q : List Int) (x : Int)
    (h : valid_path s (Q ++ [x])) : 0 ≤ x ∧ x < (s.m_nodes.length : Int) := by
  rcases nil_or_snoc Q with hQ | ⟨Q', q, hQ⟩
  · subst hQ
    have := (valid_path_singleton s x).mp h
    have := hw.slots_le
    omega
  · subst hQ
    obtain ⟨_, r0, r1, r2⟩ := (valid_path_concat s Q' q x).mp h
    rcases hw.ci_range (q + 1) with h1 | h1 <;> omega

/-! ## One `next` call on a well-formed store -/

theorem first_child_spec (s : TreeGram) (hw : iter_ready s) (x : Int) (hx0 : 0 ≤ x)
    (hx1 : x < (s.m_nodes.length : Int)) :
    first_child s x = Except.ok
      (if 0 ≤ child_index_at s.m_nodes x ∧
          child_index_at s.m_nodes x < child_index_at s.m_nodes (x + 1)
       then some (child_index_at s.m_nodes x) else none) := by
  obtain ⟨nd, hnd⟩ := node_at_in_bounds s.m_nodes x hx0 hx1
  have hci := child_index_at_of_ok s.m_nodes x nd hnd
  unfold first_child
  rw [hnd]
  simp only
  by_cases hpos : nd.child_index > 0
  · rw [if_pos hpos]
    have hne : x ≠ (s.m_nodes.length : Int) - 1 := by
      intro he
      have := hw.last
      rw [← he, hci] at this
      omega
    obtain ⟨nx, hnx⟩ := node_at_in_bounds s.m_nodes (x + 1) (by omega) (by omega)
    have hcx := child_index_at_of_ok s.m_nodes (x + 1) nx hnx
    rw [hnx]
    simp only
    rw [hci, hcx]
    by_cases hgt : nx.child_index > nd.child_index
    · rw [if_pos hgt, if_pos ⟨by omega, by omega⟩]
    · rw [if_neg hgt, if_neg (by omega)]
  · rw [if_neg hpos]
    rw [hci]
    have := hw.ci_range x
    rw [hci] at this
    rw [if_neg (by omega)]

theorem next_loop_spec (s : TreeGram) (hw : iter_ready s) :
    ∀ (fuel : Nat) (bt : Bool) (Q : List Int), valid_path s Q → Q ≠ [] → Q.length ≤ fuel →
      ∃ b st, next_loop s fuel bt Q = Except.ok (b, st) ∧ valid_path s st ∧ st ≠ [] ∧
        (b = true → (bt = false ∧ ∃ c, st = Q ++ [c]) ∨
          ∃ pre a t1, Q = pre ++ a :: t1 ∧ st = pre ++ [a + 1]) ∧
        (∀ R, valid_path s R → ((bt = false ∧ Q < R) ∨ differs Q R) → b = true ∧ st ≤ R) := by
  intro fuel
  induction fuel with
  | zero =>
    intro bt Q _ hne hlen
    have : Q = [] := List.length_eq_zero.mp (by omega)
    exact absurd this hne
  | succ fuel ih =>
    intro bt Q hv hne hlen
    rcases nil_or_snoc Q with hQ | ⟨pre, x, hQ⟩
    · exact absurd hQ hne
    subst hQ
    obtain ⟨hx0, hx1⟩ := valid_path_last_range s hw pre x hv
    have hlastx : (pre ++ [x]).getLast? = some x := by simp
    simp only [next_loop, hlastx]
    by_cases hdive : bt = false ∧ 0 ≤ child_index_at s.m_nodes x ∧
        child_index_at s.m_nodes x < child_index_at s.m_nodes (x + 1)
    · -- the node has children
      obtain ⟨hbt, hc0, hc1⟩ := hdive
      subst hbt
      simp only [Bool.false_eq_true, if_false, first_child_spec s hw x hx0 hx1,
        if_pos (And.intro hc0 hc1)]
      refine ⟨true, _, rfl, ?_, by simp, ?_, ?_⟩
      · exact (valid_path_concat s pre x _).mpr ⟨hv, hc0, le_refl _, hc1⟩
      · intro _; exact Or.inl ⟨trivial, _, rfl⟩
      · intro R hR hrel
        refine ⟨rfl, ?_⟩
        have hcase : (∃ c t, R = (pre ++ [x]) ++ c :: t) ∨ differs (pre ++ [x]) R := by
          rcases hrel with ⟨_, hlt⟩ | hd
          · exact lex_cases _ _ hlt
          · exact Or.inr hd
        rcases hcase with ⟨c, t, hc⟩ | hd
        · have hRv : valid_path s (pre ++ [x] ++ [c]) := by
            apply valid_path_of_append s _ t
            rw [hc] at hR
            simpa using hR
          obtain ⟨_, _, r1, _⟩ := (valid_path_concat s pre x c).mp hRv
          rw [hc]
          exact le_of_extension_or_eq _ _ _ _ r1
        · exact le_of_lt (lex_of_differs _ _ (differs_append _ _ _ hd))
    · -- no dive
      have hnone : (if bt = true then Except.ok none else first_child s x)
          = (Except.ok none : Except Fault (Option Int)) := by
        by_cases hb : bt = true
        · rw [if_pos hb]
        · rw [if_neg hb, first_child_spec s hw x hx0 hx1]
          have hbf : bt = false := by simpa using hb
          rw [if_neg (fun hc => hdive ⟨hbf, hc⟩)]
      rw [hnone]
      simp only
      have hdiff : ∀ R, valid_path s R → ((bt = false ∧ (pre ++ [x]) < R) ∨ differs (pre ++ [x]) R) →
          differs (pre ++ [x]) R := by
        intro R hR hrel
        rcases hrel with ⟨hbf, hlt⟩ | hd
        · rcases lex_cases _ _ hlt with ⟨c, t, hc⟩ | hd
          · exfalso
            have hRv : valid_path s (pre ++ [x] ++ [c]) := by
              apply valid_path_of_append s _ t
              rw [hc] at hR
              simpa using hR
            obtain ⟨_, r0, r1, r2⟩ := (valid_path_concat s pre x c).mp hRv
            exact hdive ⟨hbf, r0, by omega⟩
          · exact hd
        · exact hd
      rcases nil_or_snoc pre with hpre | ⟨pre1, p, hpre⟩
      · -- unigram level
        subst hpre
        have hxs := (valid_path_singleton s x).mp hv
        simp only [List.nil_append, List.length_singleton, if_true, hw.slots_eq,
          List.dropLast_single]
        by_cases hend : x = unigram_slots s - 1
        · rw [if_pos hend]
          refine ⟨false, _, rfl, hv, by simp, by simp, ?_⟩
          intro R hR hrel
          exfalso
          rcases differs_concat [] R x (hdiff R hR hrel) with ⟨b, t2, hb, hxb⟩ | hd
          · have hRv : valid_path s [b] := by
              apply valid_path_of_append s [b] t2
              rw [hb] at hR
              simpa using hR
            have := (valid_path_singleton s b).mp hRv
            omega
          · obtain ⟨pp, a, bb, t1, t2, h1, _, _⟩ := hd
            simp at h1
        · rw [if_neg hend]
          refine ⟨true, _, rfl, ?_, by simp, ?_, ?_⟩
          · exact (valid_path_singleton s (x + 1)).mpr ⟨by omega, by omega⟩
          · intro _; exact Or.inr ⟨[], x, [], rfl, rfl⟩
          · intro R hR hrel
            refine ⟨rfl, ?_⟩
            rcases differs_concat [] R x (hdiff R hR hrel) with ⟨b, t2, hb, hxb⟩ | hd
            · rw [hb]
              exact le_of_extension_or_eq [] (x + 1) b t2 (by omega)
            · obtain ⟨pp, a, bb, t1, t2, h1, _, _⟩ := hd
              simp at h1
      · -- higher order
        subst hpre
        obtain ⟨hvp, r0, r1, r2⟩ := (valid_path_concat s pre1 p x).mp hv
        have hlen1 : ¬ (pre1 ++ [p] ++ [x]).length = 1 := by simp
        have hdl : (pre1 ++ [p] ++ [x]).dropLast = pre1 ++ [p] := by
          simp [List.dropLast_append_of_ne_nil]
        have hgl : (pre1 ++ [p]).getLast? = some p := by simp
        obtain ⟨nx, hnx, hnxci, _, _⟩ := node_at_of_child_index s.m_nodes (p + 1) (by omega)
        simp only [if_neg hlen1, hdl, hgl, hnx]
        by_cases hsib : x + 1 < nx.child_index
        · rw [if_pos hsib]
          refine ⟨true, _, rfl, ?_, by simp, ?_, ?_⟩
          · exact (valid_path_concat s pre1 p (x + 1)).mpr ⟨hvp, r0, by omega, by omega⟩
          · intro _; exact Or.inr ⟨pre1 ++ [p], x, [], rfl, rfl⟩
          · intro R hR hrel
            refine ⟨rfl, ?_⟩
            rcases differs_concat (pre1 ++ [p]) R x (hdiff R hR hrel) with ⟨b, t2, hb, hxb⟩ | hd
            · rw [hb]
              exact le_of_extension_or_eq (pre1 ++ [p]) (x + 1) b t2 (by omega)
            · exact le_of_lt (lex_of_differs _ _ (differs_append _ _ _ hd))
        · rw [if_neg hsib]
          obtain ⟨b, st, hrun, hvst, hstne, hstruct, hleast⟩ :=
            ih true (pre1 ++ [p]) hvp (by simp) (by simp at hlen ⊢; omega)
          refine ⟨b, st, hrun, hvst, hstne, ?_, ?_⟩
          · intro hb
            rcases hstruct hb with ⟨hf, _⟩ | ⟨pre2, a, t1, h1, h2⟩
            · simp at hf
            · exact Or.inr ⟨pre2, a, t1 ++ [x], by rw [h1]; simp, h2⟩
          · intro R hR hrel
            rcases differs_concat (pre1 ++ [p]) R x (hdiff R hR hrel) with ⟨bb, t2, hb, hxb⟩ | hd
            · exfalso
              have hRv : valid_path s (pre1 ++ [p] ++ [bb]) := by
                apply valid_path_of_append s _ t2
                rw [hb] at hR
                simpa using hR
              obtain ⟨_, _, _, q2⟩ := (valid_path_concat s pre1 p bb).mp hRv
              omega
            · exact hleast R hR (Or.inr hd)

/-! ## The traversal of a well-formed store -/

theorem spell_step (s : TreeGram) (hw : iter_ready s) (pre : List Int) (a : Int) (t1 : List Int)
    (h1 : valid_path s (pre ++ a :: t1)) (h2 : valid_path s (pre ++ [a + 1])) :
    spell s (pre ++ a :: t1) < spell s (pre ++ [a + 1]) := by
  have hva : valid_path s (pre ++ [a]) := by
    apply valid_path_of_append s _ t1
    simpa using h1
  have hword : word_at s.m_nodes a < word_at s.m_nodes (a + 1) := by
    rcases nil_or_snoc pre with hpre | ⟨pre1, p, hpre⟩
    · subst hpre
      have ha := (valid_path_singleton s a).mp hva
      have hb := (valid_path_singleton s (a + 1)).mp h2
      rw [hw.uni_words a ha.1 ha.2, hw.uni_words (a + 1) hb.1 hb.2]
      omega
    · subst hpre
      obtain ⟨_, r0, r1, r2⟩ := (valid_path_concat s pre1 p a).mp hva
      obtain ⟨_, q0, q1, q2⟩ := (valid_path_concat s pre1 p (a + 1)).mp h2
      exact hw.sorted p a (a + 1) r0 (by omega) r1 (by omega) q2
  apply lex_of_differs
  exact ⟨spell s pre, word_at s.m_nodes a, word_at s.m_nodes (a + 1), spell s t1, [],
    by simp [spell], by simp [spell], hword⟩

theorem next_spec (s : TreeGram) (hw : iter_ready s) (P : List Int) (hv : valid_path s P) :
    ∃ b st, next s P = Except.ok (b, st) ∧ valid_path s st ∧ st ≠ [] ∧
      (b = true → P < st ∧ spell s P < spell s st) ∧
      (∀ R, valid_path s R → R ≠ [] → P < R → b = true ∧ st ≤ R) := by
  unfold next
  by_cases hP : P = []
  · subst hP
    rw [if_pos rfl]
    refine ⟨true, [0], rfl, ?_, by simp, ?_, ?_⟩
    · exact (valid_path_singleton s 0).mpr ⟨le_refl _, by have := hw.slots_pos; omega⟩
    · intro _
      exact ⟨by decide, by simp [spell]; exact List.Lex.nil⟩
    · intro R hR hRne _
      refine ⟨rfl, ?_⟩
      cases R with
      | nil => exact absurd rfl hRne
      | cons r t =>
        have hRv : valid_path s [r] := by
          apply valid_path_of_append s [r] t
          simpa using hR
        have := (valid_path_singleton s r).mp hRv
        exact le_of_extension_or_eq [] 0 r t this.1
  · rw [if_neg hP]
    obtain ⟨b, st, hrun, hvst, hstne, hstruct, hleast⟩ :=
      next_loop_spec s hw P.length false P hv hP (le_refl _)
    refine ⟨b, st, hrun, hvst, hstne, ?_, ?_⟩
    · intro hb
      rcases hstruct hb with ⟨_, c, hc⟩ | ⟨pre, a, t1, h1, h2⟩
      · rw [hc]
        refine ⟨lex_of_extension P c [], ?_⟩
        have : spell s (P ++ [c]) = spell s P ++ [word_at s.m_nodes c] := by simp [spell]
        rw [this]
        exact lex_of_extension _ _ _
      · rw [h1, h2]
        refine ⟨lex_of_differs _ _ ⟨pre, a, a + 1, t1, [], rfl, rfl, by omega⟩, ?_⟩
        rw [h1] at hv
        rw [h2] at hvst
        exact spell_step s hw pre a t1 hv hvst
    · intro R hR _ hlt
      exact hleast R hR (Or.inl ⟨rfl, hlt⟩)

theorem parent_unique (s : TreeGram) (hw : iter_ready s) (q q1 e : Int)
    (h : in_child_range s q e) (h1 : in_child_range s q1 e) : q = q1 := by
  obtain ⟨a0, a1, a2⟩ := h
  obtain ⟨b0, b1, b2⟩ := h1
  by_contra hne
  rcases lt_or_gt_of_ne hne with hlt | hgt
  · by_cases hs : q + 1 = q1
    · rw [hs] at a2; omega
    · have := hw.mono (q + 1) q1 (by omega) (by omega) b0
      omega
  · by_cases hs : q1 + 1 = q
    · rw [hs] at b2; omega
    · have := hw.mono (q1 + 1) q (by omega) (by omega) a0
      omega

theorem valid_path_unique (s : TreeGram) (hw : iter_ready s) :
    ∀ (m : Nat) (P R : List Int), P.length = m → valid_path s P → valid_path s R → P ≠ [] →
      R ≠ [] → P.getLast? = R.getLast? → P = R := by
  intro m
  induction m with
  | zero =>
    intro P R hlen _ _ hP
    exact absurd (List.length_eq_zero.mp hlen) hP
  | succ m ih =>
    intro P R hlen hvP hvR hP hR hlast
    rcases nil_or_snoc P with h | ⟨P1, e, h⟩
    · exact absurd h hP
    rcases nil_or_snoc R with h' | ⟨R1, e', h'⟩
    · exact absurd h' hR
    subst h h'
    simp at hlast
    subst hlast
    rcases nil_or_snoc P1 with hp | ⟨P2, q, hp⟩ <;> rcases nil_or_snoc R1 with hr | ⟨R2, q1, hr⟩
    · subst hp hr; rfl
    · subst hp hr
      exfalso
      have he := (valid_path_singleton s e).mp hvP
      obtain ⟨_, r0, r1, _⟩ := (valid_path_concat s R2 q1 e).mp hvR
      have := (hw.above q1 r0).1
      omega
    · subst hp hr
      exfalso
      have he := (valid_path_singleton s e).mp hvR
      obtain ⟨_, r0, r1, _⟩ := (valid_path_concat s P2 q e).mp hvP
      have := (hw.above q r0).1
      omega
    · subst hp hr
      obtain ⟨hv1, hr1⟩ := (valid_path_concat s P2 q e).mp hvP
      obtain ⟨hv2, hr2⟩ := (valid_path_concat s R2 q1 e).mp hvR
      have hq := parent_unique s hw q q1 e hr1 hr2
      subst hq
      have := ih (P2 ++ [q]) (R2 ++ [q]) (by simp at hlen ⊢; omega) hv1 hv2 (by simp) (by simp)
        (by simp)
      rw [this]

theorem path_exists (s : TreeGram) (hw : iter_ready s) :
    ∀ (m : Nat) (y : Int), y.toNat ≤ m → 0 ≤ y → y < (s.m_nodes.length : Int) →
      ∃ R, valid_path s R ∧ R ≠ [] ∧ R.getLast? = some y := by
  intro m
  induction m with
  | zero =>
    intro y hm hy0 _
    have : y = 0 := by omega
    subst this
    exact ⟨[0], (valid_path_singleton s 0).mpr ⟨le_refl _, by have := hw.slots_pos; omega⟩,
      by simp, by simp⟩
  | succ m ih =>
    intro y hm hy0 hy1
    by_cases hs : y < unigram_slots s
    · exact ⟨[y], (valid_path_singleton s y).mpr ⟨hy0, hs⟩, by simp, by simp⟩
    · obtain ⟨q, r0, r1, r2⟩ := hw.covered y (by omega) hy1
      have hq := (hw.above q r0).2
      obtain ⟨_, _, _, hq0, hq1⟩ := node_at_of_child_index s.m_nodes q r0
      obtain ⟨R, hRv, hRne, hRl⟩ := ih q (by omega) hq0 hq1
      rcases nil_or_snoc R with h | ⟨R1, q', h⟩
      · exact absurd h hRne
      subst h
      simp at hRl
      subst hRl
      exact ⟨R1 ++ [q'] ++ [y], (valid_path_concat s R1 q' y).mpr ⟨hRv, r0, r1, r2⟩,
        by simp, by simp⟩

theorem length_le_of_nodup_range (l : List Int) (n : Int) (hn : 0 ≤ n) (hnd : l.Nodup)
    (hr : ∀ x ∈ l, 0 ≤ x ∧ x < n) : (l.length : Int) ≤ n := by
  have hsub : l.toFinset ⊆ Finset.Ico 0 n := by
    intro x hx
    rw [List.mem_toFinset] at hx
    rw [Finset.mem_Ico]
    exact hr x hx
  have hcard := Finset.card_le_card hsub
  rw [List.toFinset_card_of_nodup hnd, Int.card_Ico] at hcard
  omega

theorem visited_length_le (s : TreeGram) (hw : iter_ready s) (visited : List (List Int))
    (hvis : ∀ V ∈ visited, valid_path s V ∧ V ≠ []) (hnd : visited.Nodup) :
    (visited.length : Int) ≤ (s.m_nodes.length : Int) := by
  have hinj : ∀ V1 ∈ visited, ∀ V2 ∈ visited,
      V1.getLast?.getD (-1) = V2.getLast?.getD (-1) → V1 = V2 := by
    intro V1 h1 V2 h2 heq
    obtain ⟨hv1, hn1⟩ := hvis V1 h1
    obtain ⟨hv2, hn2⟩ := hvis V2 h2
    apply valid_path_unique s hw V1.length V1 V2 rfl hv1 hv2 hn1 hn2
    rcases nil_or_snoc V1 with h | ⟨A, a, h⟩
    · exact absurd h hn1
    rcases nil_or_snoc V2 with h' | ⟨B, b, h'⟩
    · exact absurd h' hn2
    subst h h'
    simp at heq ⊢
    exact heq
  have hnd2 : (deepest visited).Nodup := List.Nodup.map_on hinj hnd
  have hlen : (deepest visited).length = visited.length := by simp [deepest]
  rw [← hlen]
  apply length_le_of_nodup_range _ _ (by omega) hnd2
  intro x hx
  simp only [deepest, List.mem_map] at hx
  obtain ⟨V, hV, hx⟩ := hx
  obtain ⟨hv, hn⟩ := hvis V hV
  rcases nil_or_snoc V with h | ⟨A, a, h⟩
  · exact absurd h hn
  subst h
  simp at hx
  subst hx
  exact valid_path_last_range s hw A a hv

theorem stops_from_spec (s : TreeGram) (hw : iter_ready s) :
    ∀ (fuel : Nat) (P : List Int) (visited : List (List Int)), valid_path s P →
      (∀ V ∈ visited, valid_path s V ∧ V ≠ [] ∧ V ≤ P) → visited.Nodup →
      s.m_nodes.length + 1 ≤ visited.length + fuel →
      ∃ l, stops_from s fuel P = Except.ok l ∧ (∀ st ∈ l, valid_path s st ∧ st ≠ []) ∧
        List.Chain (fun a b : List Int => a < b) P l ∧
        List.Chain (fun a b : List Int => a < b) (spell s P) (l.map (spell s)) ∧
        (∀ R, valid_path s R → R ≠ [] → P < R → R ∈ l) := by
  intro fuel
  induction fuel with
  | zero =>
    intro P visited _ hvis hnd hlen
    exfalso
    have := visited_length_le s hw visited (fun V hV => ⟨(hvis V hV).1, (hvis V hV).2.1⟩) hnd
    omega
  | succ fuel ih =>
    intro P visited hv hvis hnd hlen
    obtain ⟨b, st, hrun, hvst, hstne, hstep, hleast⟩ := next_spec s hw P hv
    simp only [stops_from, hrun]
    cases b with
    | false =>
      refine ⟨[], rfl, by simp, List.Chain.nil, by simp, ?_⟩
      intro R hR hRne hlt
      have := (hleast R hR hRne hlt).1
      simp at this
    | true =>
      obtain ⟨hPst, hspell⟩ := hstep rfl
      have hvis' : ∀ V ∈ st :: visited, valid_path s V ∧ V ≠ [] ∧ V ≤ st := by
        intro V hV
        rcases List.mem_cons.mp hV with h | h
        · subst h; exact ⟨hvst, hstne, le_refl _⟩
        · obtain ⟨a, b, c⟩ := hvis V h
          exact ⟨a, b, le_of_lt (lt_of_le_of_lt c hPst)⟩
      have hnd' : (st :: visited).Nodup := by
        refine List.nodup_cons.mpr ⟨?_, hnd⟩
        intro hmem
        have := (hvis st hmem).2.2
        exact absurd hPst (not_lt_of_le this)
      obtain ⟨l, hl, hall, hch, hsp, hcomp⟩ :=
        ih st (st :: visited) hvst hvis' hnd' (by simp; omega)
      simp only [hl]
      refine ⟨st :: l, rfl, ?_, List.Chain.cons hPst hch, ?_, ?_⟩
      · intro x hx
        rcases List.mem_cons.mp hx with h | h
        · subst h; exact ⟨hvst, hstne⟩
        · exact hall x h
      · simp only [List.map_cons]
        exact List.Chain.cons hspell hsp
      · intro R hR hRne hlt
        obtain ⟨_, hle⟩ := hleast R hR hRne hlt
        rcases eq_or_lt_of_le hle with h | h
        · rw [← h]; exact List.mem_cons_self _ _
        · exact List.mem_cons_of_mem _ (hcomp R hR hRne h)

theorem traversal_spec (s : TreeGram) (hw : iter_ready s) :
    ∃ stops, traversal s = Except.ok stops ∧
      (∀ st ∈ stops, valid_path s st ∧ st ≠ []) ∧
      (deepest stops).Nodup ∧
      (∀ y, 0 ≤ y → y < (s.m_nodes.length : Int) → y ∈ deepest stops) ∧
      List.Chain' (fun a b : List Int => a < b) stops ∧
      List.Chain' (fun a b : List Int => a < b) (stops.map (spell s)) := by
  have hv0 : valid_path s [] := by
    unfold valid_path; simp
  obtain ⟨l, hl, hall, hch, hsp, hcomp⟩ :=
    stops_from_spec s hw (s.m_nodes.length + 1) [] [] hv0 (by simp) List.nodup_nil (by simp)
  have hchain : List.Chain' (fun a b : List Int => a < b) l :=
    (show List.Chain' (fun a b : List Int => a < b) ([] :: l) from hch).tail
  have hpair : l.Pairwise (fun a b : List Int => a < b) := List.chain'_iff_pairwise.mp hchain
  have hnd : l.Nodup := hpair.imp (fun h => ne_of_lt h)
  have hinj : ∀ V1 ∈ l, ∀ V2 ∈ l,
      V1.getLast?.getD (-1) = V2.getLast?.getD (-1) → V1 = V2 := by
    intro V1 h1 V2 h2 heq
    obtain ⟨hv1, hn1⟩ := hall V1 h1
    obtain ⟨hv2, hn2⟩ := hall V2 h2
    apply valid_path_unique s hw V1.length V1 V2 rfl hv1 hv2 hn1 hn2
    rcases nil_or_snoc V1 with h | ⟨A, a, h⟩
    · exact absurd h hn1
    rcases nil_or_snoc V2 with h' | ⟨B, b, h'⟩
    · exact absurd h' hn2
    subst h h'
    simp at heq ⊢
    exact heq
  refine ⟨l, hl, hall, List.Nodup.map_on hinj hnd, ?_, hchain, ?_⟩
  · intro y hy0 hy1
    obtain ⟨R, hRv, hRne, hRl⟩ := path_exists s hw y.toNat y (le_refl _) hy0 hy1
    have hlt : ([] : List Int) < R := by
      cases R with
      | nil => exact absurd rfl hRne
      | cons r t => exact List.Lex.nil
    have := hcomp R hRv hRne hlt
    simp only [deepest, List.mem_map]
    exact ⟨R, this, by rw [hRl]; rfl⟩
  · exact (show List.Chain' (fun a b : List Int => a < b)
      (spell s [] :: l.map (spell s)) from hsp).tail

/-! ## What an insertion of order two or more does to the array -/

theorem higher_insert_facts (s s1 : TreeGram) (g : List Int) (lv bv : Int)
    (hinv : builder_inv s) (h : add_gram s g lv bv = Except.ok s1) (hg : 2 ≤ g.length)
    (hd : ∀ w, g.head? = some w → w < unigram_slots s) :
    ∃ (F p w : Int) (r : List Int),
      array_shape (s.m_nodes.length : Int) (child_index_at s.m_nodes) (word_at s.m_nodes)
        (level_start s.m_order_count) s.m_order_count.length F ∧
      F ≤ p + 1 ∧ 0 ≤ p ∧ p < (s.m_nodes.length : Int) ∧ g.getLast? = some w ∧
      (s1.m_nodes.length : Int) = (s.m_nodes.length : Int) + 1 ∧
      (∀ i, child_index_at s1.m_nodes i =
        if i = p + 1 then (s.m_nodes.length : Int) + 1 else if i = p then
          (if child_index_at s.m_nodes p < 0 then (s.m_nodes.length : Int)
           else child_index_at s.m_nodes p)
        else if i = (s.m_nodes.length : Int) then -1 else child_index_at s.m_nodes i) ∧
      (∀ i, word_at s1.m_nodes i =
        if i = (s.m_nodes.length : Int) then w else word_at s.m_nodes i) ∧
      unigram_slots s1 = unigram_slots s ∧
      find_path s g = Except.ok r ∧ r.getLast? = some p ∧
      s1.m_insert_stack = r ++ [(s.m_nodes.length : Int)] ∧
      is_path s.m_nodes (unigram_slots s) r g.dropLast ∧
      is_path s1.m_nodes (unigram_slots s1) s1.m_insert_stack g := by
  obtain ⟨F, hshape, hord, hphase⟩ := hinv
  obtain ⟨hco, s2, s3, h2, h3, ho3, hs1⟩ := add_gram_steps _ _ _ _ _ h
  obtain ⟨u1, u2, u3, u4, u5, u6, u7, u8⟩ := update_counts_higher _ _ _ h2 hg
  have h3' : add_higher s2 g lv bv = Except.ok s3 := by
    cases g with
    | nil => simp at hg
    | cons a t =>
      cases t with
      | nil => simp at hg
      | cons b t => simpa [insert_node] using h3
  obtain ⟨r, p, w, e1, e2, e3, e4, e5, e6, e7, e8, e9, e10, e11, e12, e13⟩ :=
    add_higher_effect _ _ _ _ _ h3'
  rw [find_path_congr s2 s u6 u5 u7 u8] at e1
  rw [u5] at e5 e6 e7 e8 e9
  have hnodes : s1.m_nodes = s3.m_nodes := by rw [hs1]
  have hstack : s1.m_insert_stack = r ++ [(s.m_nodes.length : Int)] := by
    rw [hs1]
    simp only
    rw [e9]
  have hslots : unigram_slots s1 = unigram_slots s :=
    (add_gram_slots_higher s s1 g lv bv h hg).1
  have hparent : is_path s.m_nodes (unigram_slots s) r g.dropLast ∧ F ≤ p + 1 := by
    rcases hphase with hU | hH
    · obtain ⟨a1, a2, p', a3, a4⟩ := find_path_unigram_phase s F g r hshape hU hco hg hd e1
      rw [e2] at a3
      simp at a3
      subst a3
      exact ⟨a2, by omega⟩
    · obtain ⟨a1, a2, p', w', a3, a4, a5⟩ := find_path_higher_phase s F g r hshape hH hco hg hd e1
      rw [e2] at a3
      rw [e3] at a4
      simp at a3 a4
      subst a3 a4
      refine ⟨a2, ?_⟩
      rcases a5 with a5 | ⟨b1, b2, b3, b4, b5⟩
      · omega
      · omega
  obtain ⟨hpath, hFp⟩ := hparent
  have hpathL : is_path s.m_nodes (level_start s.m_order_count 1) r g.dropLast := by
    rw [level_start_one]
    exact hpath
  obtain ⟨q1, q2, q3, q4, q5⟩ :=
    path_after_insert s.m_nodes s3.m_nodes hshape g r p w hg hpathL e2 e3 e5 e7 e8
  refine ⟨F, p, w, r, hshape, hFp, e4, e5, e3, ?_, ?_, ?_, hslots, e1, e2, hstack, hpath, ?_⟩
  · rw [hnodes]; exact e6
  · rw [hnodes]; exact e7
  · rw [hnodes]; exact e8
  · rw [hslots, hstack, hnodes, ← level_start_one]
    exact q1

/-! ## The traversal invariant of built stores -/

theorem check_order_unigram (s : TreeGram) (w : Int) (h : check_order s [w] = Except.ok ())
    (hw : w ≠ 0) : w = (s.m_nodes.length : Int) := by
  unfold check_order at h
  have h0 : ¬ ([w] : List Int) = [0] := by simpa using hw
  rw [if_neg h0] at h
  split_ifs at h with h1 h2
  · by_contra hne
    apply h2
    refine ⟨rfl, ?_⟩
    simpa using hne
  · by_contra hne
    apply h2
    refine ⟨rfl, ?_⟩
    simpa using hne

theorem add_unigram_words (s s3 : TreeGram) (w lv bv : Int)
    (h : add_unigram s w lv bv = Except.ok s3) :
    ∀ i, word_at s3.m_nodes i =
      if w ≠ 0 ∧ i = (s.m_nodes.length : Int) then w else word_at s.m_nodes i := by
  intro i
  unfold add_unigram at h
  by_cases hw : w = 0
  · rw [if_pos hw] at h
    cases hn : s.m_nodes with
    | nil => rw [hn] at h; simp at h
    | cons root rest =>
      rw [hn] at h
      injection h with h
      rw [← h]
      simp only [hw, ne_eq, not_true_eq_false, false_and, if_false]
      unfold word_at node_at
      by_cases hi : i < 0
      · simp [hi]
      · simp only [hi, if_false]
        cases hc : i.toNat with
        | zero => simp
        | succ m => simp
  · rw [if_neg hw] at h
    injection h with h
    rw [← h]
    simp only
    rw [word_at_append]
    simp [hw]

theorem level_exists {n : Int} {ci wd : Int → Int} {L : Nat → Int} {k : Nat} {F : Int}
    (h : array_shape n ci wd L k F) (q : Int) (h0 : 0 ≤ q) (h1 : q < n) :
    ∃ j, L j ≤ q ∧ q < L (j + 1) := by
  have key : ∀ m : Nat, q < L m → ∃ j, L j ≤ q ∧ q < L (j + 1) := by
    intro m
    induction m with
    | zero => intro hq; rw [h.L0] at hq; omega
    | succ m ih =>
      intro hq
      by_cases hm : L m ≤ q
      · exact ⟨m, hm, hq⟩
      · exact ih (by omega)
  exact key k (by rw [h.Ltop k (le_refl _)]; exact h1)

theorem tree_inv_reserve (words : List String) (capacity : Int) :
    tree_inv (install_root (construct words)) := by
  refine ⟨builder_inv_reserve words capacity, store_bounds_reserve _, ?_, ?_⟩
  · intro i h0 h1
    have : i = 0 := by
      simp [install_root, unigram_slots] at h1; omega
    subst this; rfl
  · intro y h0 h1
    exfalso
    simp [install_root, unigram_slots] at h0 h1
    omega

theorem tree_inv_unigram (s s1 : TreeGram) (w lv bv : Int) (hinv : tree_inv s)
    (h : add_gram s [w] lv bv = Except.ok s1) : tree_inv s1 := by
  obtain ⟨hb, hsb, huni, hcov⟩ := hinv
  have hb1 := add_unigram_preserves s s1 w lv bv hb h
  have hsb1 := store_bounds_add_gram s s1 [w] lv bv hsb h
  obtain ⟨hco, s2, s3, hu, hi, _, hs1eq⟩ := add_gram_steps s s1 [w] lv bv h
  have hk1 : 1 ≤ s.m_order_count.length := by
    have := hsb.2.1
    unfold unigram_slots at this
    cases hc : s.m_order_count with
    | nil => rw [hc] at this; simp at this
    | cons a t => simp
  obtain ⟨hlen1, hn2, _, _, hw0, hwn⟩ := update_counts_unigram s s2 w hu hk1
  have hi2 : add_unigram s2 w lv bv = Except.ok s3 := by simpa [insert_node] using hi
  obtain ⟨hc3, _, _, he0, hen⟩ := add_unigram_effect s2 s3 w lv bv hi2
  have hwords := add_unigram_words s2 s3 w lv bv hi2
  rw [hn2] at hwords he0 hen
  have hn1 : s1.m_nodes = s3.m_nodes := by rw [hs1eq]
  have hc1 : s1.m_order_count = s3.m_order_count := by rw [hs1eq]
  obtain ⟨F, hshape, _, _⟩ := hb
  have hslots : unigram_slots s = (s.m_nodes.length : Int) := by
    rw [← level_start_one, ← hlen1]
    exact hshape.Ltop _ (le_refl _)
  obtain ⟨c, hc⟩ : ∃ c, s.m_order_count = [c] := by
    match hcc : s.m_order_count, hlen1 with
    | [c], _ => exact ⟨c, rfl⟩
  have hsc : unigram_slots s = c := by simp [unigram_slots, hc]
  by_cases hw : w = 0
  · obtain ⟨hl, hcieq⟩ := he0 hw
    have hs1 : unigram_slots s1 = unigram_slots s := by
      rw [unigram_slots, hc1, hc3, hw0 hw]; rfl
    refine ⟨hb1, hsb1, ?_, ?_⟩
    · intro i h0 h1
      rw [hn1, hwords i]
      simp only [hw, ne_eq, not_true_eq_false, false_and, if_false]
      exact huni i h0 (by rw [← hs1]; exact h1)
    · intro y h0 h1
      exfalso
      rw [hs1, hn1, hl] at *
      omega
  · obtain ⟨hl, hcieq⟩ := hen hw
    have hcn : s3.m_order_count = [c + 1] := by rw [hc3]; exact hwn hw c hc
    have hs1 : unigram_slots s1 = unigram_slots s + 1 := by
      rw [unigram_slots, hc1, hcn, hsc]; rfl
    have hwn' := check_order_unigram s w hco hw
    refine ⟨hb1, hsb1, ?_, ?_⟩
    · intro i h0 h1
      rw [hn1, hwords i]
      by_cases hi : i = (s.m_nodes.length : Int)
      · rw [if_pos ⟨hw, hi⟩, hwn', hi]
      · rw [if_neg (fun hh => hi hh.2)]
        exact huni i h0 (by rw [hs1] at h1; omega)
    · intro y h0 h1
      exfalso
      rw [hs1, hslots] at h0
      rw [hn1, hl] at h1
      omega

theorem tree_inv_higher (s s1 : TreeGram) (g : List Int) (lv bv : Int) (hinv : tree_inv s)
    (h : add_gram s g lv bv = Except.ok s1) (hg : 2 ≤ g.length)
    (hd : ∀ w, g.head? = some w → w < unigram_slots s) : tree_inv s1 := by
  obtain ⟨hb, hsb, huni, hcov⟩ := hinv
  have hb1 := add_higher_preserves s s1 g lv bv hb h hg hd
  have hsb1 := store_bounds_add_gram s s1 g lv bv hsb h
  obtain ⟨F, p, w, r, hshape, hFp, hp0, hp1, _, hn', hci', hwd', hslots, _⟩ :=
    higher_insert_facts s s1 g lv bv hb h hg hd
  have hsl := hsb.2.2.1
  refine ⟨hb1, hsb1, ?_, ?_⟩
  · intro i h0 h1
    rw [hwd' i, if_neg (by rw [hslots] at h1; omega)]
    exact huni i h0 (by rw [← hslots]; exact h1)
  · intro y h0 h1
    rw [hslots] at h0
    rw [hn'] at h1
    by_cases hy : y = (s.m_nodes.length : Int)
    · -- the new node lies in the range of its parent
      refine ⟨p, ?_⟩
      unfold in_child_range
      rw [hci' p, hci' (p + 1)]
      have hbp := hshape.bound p
      split_ifs <;> omega
    · obtain ⟨q, r0, r1, r2⟩ := hcov y h0 (by omega)
      refine ⟨q, ?_⟩
      unfold in_child_range
      obtain ⟨_, _, _, hq0, hq1⟩ := node_at_of_child_index s.m_nodes q r0
      have hq2 : q + 1 ≠ p + 2 := by
        intro he
        have : F < q + 1 := by omega
        have := hshape.f2 (q + 1) this
        omega
      have hbq := hshape.bound (q + 1)
      rw [hci' q, hci' (q + 1)]
      by_cases e1 : q = p
      · subst e1
        rw [if_neg (by omega), if_pos rfl, if_pos rfl, if_neg (by omega)]
        omega
      · by_cases e2 : q = p + 1
        · exfalso; apply hq2; omega
        · rw [if_neg e2, if_neg e1, if_neg (by omega), if_neg (by omega)]
          by_cases e3 : q + 1 = p
          · rw [if_pos e3, ← e3, if_neg (by omega)]
            omega
          · rw [if_neg e3]
            by_cases e4 : q + 1 = (s.m_nodes.length : Int)
            · exfalso
              have := child_index_at_out s.m_nodes (q + 1) (Or.inr (by omega))
              omega
            · rw [if_neg e4]
              omega

theorem tree_inv_add_grams (calls : List (List Int × Int × Int)) :
    ∀ (s1 s : TreeGram), tree_inv s1 → add_grams s1 calls = Except.ok s →
      heads_are_unigrams calls s → tree_inv s := by
  induction calls with
  | nil =>
    intro s1 s hinv h _
    simp [add_grams] at h
    rw [← h]
    exact hinv
  | cons c rest ih =>
    intro s1 s hinv h hd
    simp only [add_grams] at h
    split at h
    · simp at h
    · next s2 h2 =>
      have hrest : heads_are_unigrams rest s := by
        intro c' hc' hl
        exact hd c' (List.mem_cons_of_mem _ hc') hl
      refine ih s2 s ?_ h hrest
      by_cases hg : 2 ≤ c.1.length
      · obtain ⟨a1, a2⟩ := add_gram_slots_higher _ _ _ _ _ h2 hg
        have hfr := slots_frozen rest s2 s h a2
        have hc := hd c (List.mem_cons_self _ _) hg
        rw [hfr, a1] at hc
        refine tree_inv_higher s1 s2 c.1 c.2.1 c.2.2 hinv h2 hg ?_
        intro w hw
        cases hcl : c.1 with
        | nil => rw [hcl] at hw; simp at hw
        | cons x xs =>
          rw [hcl] at hw hc
          simp at hw hc
          omega
      · obtain ⟨hco, t2, t3, e2, e3, _, _⟩ := add_gram_steps _ _ _ _ _ h2
        cases hcl : c.1 with
        | nil =>
          rw [hcl] at e3
          simp [insert_node] at e3
        | cons x xs =>
          cases xs with
          | nil =>
            rw [hcl] at h2
            exact tree_inv_unigram s1 s2 x c.2.1 c.2.2 hinv h2
          | cons y ys =>
            rw [hcl] at hg
            simp at hg

theorem tree_inv_build (words : List String) (capacity : Int)
    (calls : List (List Int × Int × Int)) (s : TreeGram)
    (hb : build words capacity calls = Except.ok s) (hd : heads_are_unigrams calls s) :
    tree_inv s :=
  tree_inv_add_grams calls _ s (tree_inv_reserve words capacity)
    (build_steps _ _ _ _ hb).2 hd

theorem iter_ready_of_tree_inv (s : TreeGram) (hinv : tree_inv s)
    (hlast : child_index_at s.m_nodes ((s.m_nodes.length : Int) - 1) = -1) : iter_ready s := by
  obtain ⟨⟨F, hshape, _, _⟩, hsb, huni, hcov⟩ := hinv
  have hse := counts_head_of_bounds s hsb
  obtain ⟨_, hs1, hs2, hci⟩ := hsb
  refine ⟨hse, hs1, hs2, hci, hlast, hshape.mono, ?_, hshape.sorted, huni, hcov⟩
  intro q hq
  obtain ⟨_, _, _, hq0, hq1⟩ := node_at_of_child_index s.m_nodes q hq
  obtain ⟨j, hj0, hj1⟩ := level_exists hshape q hq0 hq1
  have h1 := hshape.lev1 j q hj0 hj1 hq
  have h2 := shape_L_mono hshape 1 (j + 1) (by omega)
  rw [level_start_one] at h2
  constructor <;> omega

/-! ## The traversal of a built store -/

theorem alias_traversal :
    traversal alias_store = Except.ok [[0], [1], [1, 3], [1, 3, 4], [1, 3, 5], [2]] := by
  decide

/-- C17 (as stated, refuted): on the store with the bigram `(c, a)`, whose
first word has no unigram node, the traversal stops at the stacks `[1, 3, 4]`
and `[1, 3, 5]` one after the other, and both spell the gram `[1, 1, 1]`: the
spelled grams are not strictly increasing. -/
theorem traversal_repeats_gram :
    build scenario_words 16 alias_calls = Except.ok alias_store ∧
    traversal alias_store = Except.ok [[0], [1], [1, 3], [1, 3, 4], [1, 3, 5], [2]] ∧
    spell alias_store [1, 3, 4] = [1, 1, 1] ∧ spell alias_store [1, 3, 5] = [1, 1, 1] ∧
    ¬ List.Chain' (fun a b : List Int => a < b)
      (([[0], [1], [1, 3], [1, 3, 4], [1, 3, 5], [2]] : List (List Int)).map
        (spell alias_store)) :=
  ⟨alias_store_built, alias_traversal, by decide, by decide, by
    intro h
    have e : ([[0], [1], [1, 3], [1, 3, 4], [1, 3, 5], [2]] : List (List Int)).map
        (spell alias_store) = [[0], [1], [1, 1], [1, 1, 1], [1, 1, 1], [2]] := by decide
    rw [e] at h
    simp only [List.chain'_cons] at h
    exact lt_irrefl _ h.2.2.2.1⟩

/-- C17 (amended): on a store built by `reserve_nodes` and accepted `add_gram`
calls in which every gram of two or more words starts with a word id below
`order_count[0]`, and whose last node has `child_index = -1`, the `next()`
calls of a fresh iterator return false after at most `len(nodes)` stops; every
stop is a valid path, the deepest entries of the stops are distinct nodes,
every node index occurs among them, and the grams spelled at successive stops
are strictly increasing in lexicographic order. -/
theorem traversal_visits_nodes_in_order (words : List String) (capacity : Int)
    (calls : List (List Int × Int × Int)) (s : TreeGram)
    (hb : build words capacity calls = Except.ok s) (hd : heads_are_unigrams calls s)
    (hlast : child_index_at s.m_nodes ((s.m_nodes.length : Int) - 1) = -1) :
    ∃ stops, traversal s = Except.ok stops ∧
      (∀ st ∈ stops, valid_path s st ∧ st ≠ []) ∧
      (deepest stops).Nodup ∧
      (∀ y, 0 ≤ y → y < (s.m_nodes.length : Int) → y ∈ deepest stops) ∧
      List.Chain' (fun a b : List Int => a < b) (stops.map (spell s)) := by
  have hw := iter_ready_of_tree_inv s (tree_inv_build words capacity calls s hb hd) hlast
  obtain ⟨stops, h1, h2, h3, h4, _, h6⟩ := traversal_spec s hw
  exact ⟨stops, h1, h2, h3, h4, h6⟩

/-- C17 (amended) on the store of three unigrams and the bigram `(a, a)`: the
stops are `[0]`, `[1]`, `[1, 4]`, `[2]`, `[3]`. -/
theorem traversal_visits_nodes_in_order_witness :
    build scenario_words 16 one_bigram_calls = Except.ok one_bigram_store ∧
    heads_are_unigrams one_bigram_calls one_bigram_store ∧
    child_index_at one_bigram_store.m_nodes ((one_bigram_store.m_nodes.length : Int) - 1) = -1 ∧
    traversal one_bigram_store = Except.ok [[0], [1], [1, 4], [2], [3]] ∧
    ∃ stops, traversal one_bigram_store = Except.ok stops ∧
      (∀ st ∈ stops, valid_path one_bigram_store st ∧ st ≠ []) ∧
      (deepest stops).Nodup ∧
      (∀ y, 0 ≤ y → y < (one_bigram_store.m_nodes.length : Int) → y ∈ deepest stops) ∧
      List.Chain' (fun a b : List Int => a < b) (stops.map (spell one_bigram_store)) :=
  ⟨one_bigram_store_built, by decide, by decide, by decide,
    traversal_visits_nodes_in_order scenario_words 16 one_bigram_calls one_bigram_store
      one_bigram_store_built (by decide) (by decide)⟩

/-! ## Iterator calls keep a valid path -/

theorem store_bounds_of_ready (s : TreeGram) (hw : iter_ready s) : store_bounds s := by
  refine ⟨?_, hw.slots_pos, hw.slots_le, hw.ci_range⟩
  intro hnil
  have h1 := hw.slots_pos
  have h2 := hw.slots_le
  rw [hnil] at h2
  simp at h2
  omega

theorem next_order_loop_spec (s : TreeGram) (hw : iter_ready s) (order : Int) :
    ∀ (fuel : Nat) (P : List Int) (visited : List (List Int)), valid_path s P →
      (∀ V ∈ visited, valid_path s V ∧ V ≠ [] ∧ V ≤ P) → visited.Nodup →
      s.m_nodes.length + 1 ≤ visited.length + fuel →
      ∃ b st, next_order_loop s order fuel P = Except.ok (b, st) ∧ valid_path s st ∧
        st ≠ [] := by
  intro fuel
  induction fuel with
  | zero =>
    intro P visited _ hvis hnd hlen
    exfalso
    have := visited_length_le s hw visited (fun V hV => ⟨(hvis V hV).1, (hvis V hV).2.1⟩) hnd
    omega
  | succ fuel ih =>
    intro P visited hv hvis hnd hlen
    obtain ⟨b, st, hrun, hvst, hstne, hstep, _⟩ := next_spec s hw P hv
    simp only [next_order_loop, hrun]
    cases b with
    | false => exact ⟨false, st, rfl, hvst, hstne⟩
    | true =>
      simp only
      by_cases hdepth : (st.length : Int) = order
      · rw [if_pos hdepth]
        exact ⟨true, st, rfl, hvst, hstne⟩
      · rw [if_neg hdepth]
        obtain ⟨hPst, _⟩ := hstep rfl
        have hvis' : ∀ V ∈ st :: visited, valid_path s V ∧ V ≠ [] ∧ V ≤ st := by
          intro V hV
          rcases List.mem_cons.mp hV with h | h
          · subst h; exact ⟨hvst, hstne, le_refl _⟩
          · obtain ⟨a, b, c⟩ := hvis V h
            exact ⟨a, b, le_of_lt (lt_of_le_of_lt c hPst)⟩
        have hnd' : (st :: visited).Nodup := by
          refine List.nodup_cons.mpr ⟨?_, hnd⟩
          intro hmem
          have := (hvis st hmem).2.2
          exact absurd hPst (not_lt_of_le this)
        exact ih st (st :: visited) hvst hvis' hnd' (by simp; omega)

theorem up_spec (s : TreeGram) (P : List Int) (hv : valid_path s P) (hne : P ≠ []) :
    ∃ b st, up P = Except.ok (b, st) ∧ valid_path s st ∧ st ≠ [] := by
  unfold up
  by_cases h1 : P.length = 1
  · rw [if_pos h1]; exact ⟨false, P, rfl, hv, hne⟩
  · rw [if_neg h1, if_neg hne]
    rcases nil_or_snoc P with h | ⟨pre, x, h⟩
    · exact absurd h hne
    subst h
    have hpre : pre ≠ [] := by
      intro hp; subst hp; simp at h1
    refine ⟨true, _, rfl, ?_, ?_⟩
    · simp only [List.dropLast_concat]
      exact valid_path_of_append s pre [x] hv
    · simpa using hpre

theorem down_spec (s : TreeGram) (hw : iter_ready s) (P : List Int) (hv : valid_path s P)
    (hne : P ≠ []) :
    ∃ b st, down s P = Except.ok (b, st) ∧ valid_path s st ∧ st ≠ [] := by
  rcases nil_or_snoc P with h | ⟨pre, x, h⟩
  · exact absurd h hne
  subst h
  obtain ⟨hx0, hx1⟩ := valid_path_last_range s hw pre x hv
  obtain ⟨nd, hnd⟩ := node_at_in_bounds s.m_nodes x hx0 hx1
  have hci := child_index_at_of_ok s.m_nodes x nd hnd
  have hl : (pre ++ [x]).getLast? = some x := by simp
  simp only [down, hl, hnd]
  by_cases hneg : nd.child_index < 0
  · rw [if_pos hneg]; exact ⟨false, _, rfl, hv, hne⟩
  · rw [if_neg hneg]
    have hxl : x ≠ (s.m_nodes.length : Int) - 1 := by
      intro he
      have := hw.last
      rw [← he, hci] at this
      omega
    obtain ⟨nx, hnx⟩ := node_at_in_bounds s.m_nodes (x + 1) (by omega) (by omega)
    have hcx := child_index_at_of_ok s.m_nodes (x + 1) nx hnx
    simp only [hnx]
    by_cases hc : nx.child_index < 0 ∨ nd.child_index = nx.child_index
    · rw [if_pos hc]; exact ⟨false, _, rfl, hv, hne⟩
    · rw [if_neg hc]
      refine ⟨true, _, rfl, ?_, by simp⟩
      apply (valid_path_concat s pre x _).mpr
      refine ⟨hv, ?_⟩
      have hm := hw.mono x (x + 1) (by omega) (by rw [hci]; omega) (by rw [hcx]; omega)
      unfold in_child_range
      rw [hci, hcx] at *
      omega

theorem move_spec (s : TreeGram) (hw : iter_ready s) (P : List Int) (delta : Int)
    (hv : valid_path s P) (hne : P ≠ []) :
    ∃ b st, move_in_context s P delta = Except.ok (b, st) ∧ valid_path s st ∧ st ≠ [] := by
  obtain ⟨hin, hout⟩ :=
    move_in_context_of_bounds s (store_bounds_of_ready s hw) P delta hne hv
  by_cases hr : in_sibling_range s P (P.getLast?.getD 0 + delta)
  · refine ⟨true, _, hin hr, ?_, by simp⟩
    rcases nil_or_snoc P with h | ⟨pre, x, h⟩
    · exact absurd h hne
    subst h
    have hgl : (pre ++ [x]).getLast?.getD 0 = x := by simp
    rw [hgl] at hr ⊢
    simp only [List.dropLast_concat]
    rcases nil_or_snoc pre with hp | ⟨pre1, p, hp⟩
    · subst hp
      simp only [in_sibling_range, List.nil_append, List.length_singleton, if_true] at hr
      exact (valid_path_singleton s _).mpr hr
    · subst hp
      obtain ⟨hvp, r0, _, _⟩ := (valid_path_concat s pre1 p x).mp hv
      have hlen1 : ¬ (pre1 ++ [p] ++ [x]).length = 1 := by simp
      have hlen2 : 2 ≤ (pre1 ++ [p] ++ [x]).length := by simp
      have hpD : (pre1 ++ [p] ++ [x]).getD ((pre1 ++ [p] ++ [x]).length - 2) 0 = p := by
        have e : (pre1 ++ [p] ++ [x]).length - 2 = pre1.length := by simp
        rw [e, List.getD_append _ _ _ _ (by simp), List.getD_append_right _ _ _ _ (by simp)]
        simp
      simp only [in_sibling_range, if_neg hlen1, if_pos hlen2, hpD] at hr
      exact (valid_path_concat s pre1 p _).mpr ⟨hvp, r0, hr.1, hr.2⟩
  · exact ⟨false, P, hout hr, hv, hne⟩

theorem run_call_spec (s : TreeGram) (hw : iter_ready s) (P : List Int) (c : IterCall)
    (hv : valid_path s P) (hok : P ≠ [] ∨ starts_traversal c)
    (hk : ∀ k, c = IterCall.next_order k → 1 ≤ k ∧ k ≤ s.m_order) :
    ∃ b st, run_call s P c = Except.ok (b, st) ∧ valid_path s st ∧ st ≠ [] := by
  cases c with
  | next =>
    obtain ⟨b, st, h1, h2, h3, _⟩ := next_spec s hw P hv
    exact ⟨b, st, h1, h2, h3⟩
  | next_order k =>
    obtain ⟨k1, k2⟩ := hk k rfl
    simp only [run_call, next_order]
    rw [if_neg (by omega)]
    exact next_order_loop_spec s hw k (s.m_nodes.length + 1) P [] hv (by simp)
      List.nodup_nil (by simp)
  | up =>
    have hne : P ≠ [] := by
      rcases hok with h | h
      · exact h
      · exact absurd h (by simp [starts_traversal])
    exact up_spec s P hv hne
  | down =>
    have hne : P ≠ [] := by
      rcases hok with h | h
      · exact h
      · exact absurd h (by simp [starts_traversal])
    exact down_spec s hw P hv hne
  | move_in_context delta =>
    have hne : P ≠ [] := by
      rcases hok with h | h
      · exact h
      · exact absurd h (by simp [starts_traversal])
    exact move_spec s hw P delta hv hne

theorem run_calls_spec (s : TreeGram) (hw : iter_ready s) :
    ∀ (calls : List IterCall) (P : List Int), valid_path s P →
      (P ≠ [] ∨ ∀ c, calls.head? = some c → starts_traversal c) →
      (∀ k, IterCall.next_order k ∈ calls → 1 ≤ k ∧ k ≤ s.m_order) →
      ∃ l, run_calls s P calls = Except.ok l ∧ l.length = calls.length ∧
        ∀ st ∈ l, valid_path s st ∧ st ≠ [] := by
  intro calls
  induction calls with
  | nil => intro P _ _ _; exact ⟨[], rfl, rfl, by simp⟩
  | cons c cs ih =>
    intro P hv hok hk
    have hok1 : P ≠ [] ∨ starts_traversal c := by
      rcases hok with h | h
      · exact Or.inl h
      · exact Or.inr (h c rfl)
    obtain ⟨b, st, hrun, hvst, hstne⟩ := run_call_spec s hw P c hv hok1
      (fun k hc => hk k (by rw [hc]; exact List.mem_cons_self _ _))
    obtain ⟨l, hl, hlen, hall⟩ := ih st hvst (Or.inl hstne)
      (fun k hc => hk k (List.mem_cons_of_mem _ hc))
    simp only [run_calls, hrun, hl]
    refine ⟨st :: l, rfl, by simp [hlen], ?_⟩
    intro x hx
    rcases List.mem_cons.mp hx with h | h
    · subst h; exact ⟨hvst, hstne⟩
    · exact hall x h

theorem sparse_calls_run :
    run_calls sparse_store []
        [IterCall.next, IterCall.next, IterCall.down, IterCall.move_in_context 1, IterCall.down]
      = Except.ok [[0], [1], [1, 3], [1, 4], [1, 4, 8]] := by
  decide

/-- C19 (as stated, refuted): on the store with the bigram `(e, a)`, whose
first word has no unigram node, the calls `next`, `next`, `down`,
`move_in_context(1)`, `down` all return, and the last one leaves the stack
`[1, 4, 8]`, whose last entry is not in the child range `[8, 6)` of node 4 and
is not a node index; and on a fresh iterator `up()` pops an empty stack. -/
theorem down_leaves_the_node_array :
    build sparse_words 16 sparse_calls = Except.ok sparse_store ∧
    run_calls sparse_store []
        [IterCall.next, IterCall.next, IterCall.down, IterCall.move_in_context 1, IterCall.down]
      = Except.ok [[0], [1], [1, 3], [1, 4], [1, 4, 8]] ∧
    ¬ valid_path sparse_store [1, 4, 8] ∧
    run_calls sparse_store [] [IterCall.up] = Except.error Fault.out_of_bounds :=
  ⟨sparse_store_built, sparse_calls_run, by decide, by decide⟩

/-- C19 (amended): on a store built by `reserve_nodes` and accepted `add_gram`
calls in which every gram of two or more words starts with a word id below
`order_count[0]`, and whose last node has `child_index = -1`, for every
sequence of `next`, `next_order`, `up`, `down` and `move_in_context` calls on a
fresh iterator that starts with `next` or `next_order` and in which every
`next_order(k)` has `1 <= k <= order`: every call returns, and after each call
`index_stack` is a non-empty valid path. -/
theorem iterator_calls_keep_valid_path (words : List String) (capacity : Int)
    (calls : List (List Int × Int × Int)) (s : TreeGram) (moves : List IterCall)
    (hb : build words capacity calls = Except.ok s) (hd : heads_are_unigrams calls s)
    (hlast : child_index_at s.m_nodes ((s.m_nodes.length : Int) - 1) = -1)
    (hc : calls_allowed s moves) :
    ∃ l, run_calls s [] moves = Except.ok l ∧ l.length = moves.length ∧
      ∀ st ∈ l, valid_path s st ∧ st ≠ [] := by
  have hw := iter_ready_of_tree_inv s (tree_inv_build words capacity calls s hb hd) hlast
  exact run_calls_spec s hw moves [] (by unfold valid_path; simp) (Or.inr hc.1) hc.2

theorem one_bigram_moves_allowed :
    calls_allowed one_bigram_store
      [IterCall.next_order 2, IterCall.up, IterCall.down, IterCall.move_in_context 1,
       IterCall.next, IterCall.next_order 1] := by
  constructor
  · intro c hc
    simp at hc
    subst hc
    trivial
  · intro k hk
    simp at hk
    rcases hk with h | h <;> subst h <;> decide

/-- C19 (amended) on the store of three unigrams and the bigram `(a, a)`. -/
theorem iterator_calls_keep_valid_path_witness :
    build scenario_words 16 one_bigram_calls = Except.ok one_bigram_store ∧
    run_calls one_bigram_store []
        [IterCall.next_order 2, IterCall.up, IterCall.down, IterCall.move_in_context 1,
         IterCall.next, IterCall.next_order 1]
      = Except.ok [[1, 4], [1], [1, 4], [1, 4], [2], [3]] ∧
    ∃ l, run_calls one_bigram_store []
        [IterCall.next_order 2, IterCall.up, IterCall.down, IterCall.move_in_context 1,
         IterCall.next, IterCall.next_order 1] = Except.ok l ∧
      l.length = ([IterCall.next_order 2, IterCall.up, IterCall.down,
        IterCall.move_in_context 1, IterCall.next, IterCall.next_order 1] : List IterCall).length ∧
      ∀ st ∈ l, valid_path one_bigram_store st ∧ st ≠ [] :=
  ⟨one_bigram_store_built, by decide,
    iterator_calls_keep_valid_path scenario_words 16 one_bigram_calls one_bigram_store _
      one_bigram_store_built (by decide) (by decide) one_bigram_moves_allowed⟩

/-! ## Printing and scanning decimal numbers -/

theorem digits_of_append (fuel : Nat) : ∀ (n : Nat) (acc : List Nat),
    digits_of fuel n acc = digits_of fuel n [] ++ acc := by
  induction fuel with
  | zero => intro n acc; simp [digits_of]
  | succ fuel ih =>
    intro n acc
    simp only [digits_of]
    by_cases h : n < 10
    · simp [h]
    · simp only [h, if_false]
      rw [ih (n / 10) ((n % 10 + 48) :: acc), ih (n / 10) [n % 10 + 48]]
      simp

theorem digits_of_digits (fuel : Nat) : ∀ (n : Nat), n < fuel →
    (∀ b ∈ digits_of fuel n [], is_digit b = true) ∧ digits_of fuel n [] ≠ [] ∧
    digits_value (digits_of fuel n []) = n := by
  induction fuel with
  | zero => intro n h; omega
  | succ fuel ih =>
    intro n hn
    simp only [digits_of]
    by_cases h : n < 10
    · simp only [h, if_true]
      refine ⟨?_, by simp, ?_⟩
      · intro b hb
        simp at hb
        subst hb
        simp [is_digit]
        omega
      · simp [digits_value]
    · simp only [h, if_false]
      rw [digits_of_append]
      obtain ⟨h1, h2, h3⟩ := ih (n / 10) (by omega)
      refine ⟨?_, by simp, ?_⟩
      · intro b hb
        rcases List.mem_append.mp hb with hb | hb
        · exact h1 b hb
        · simp at hb
          subst hb
          simp [is_digit]
          omega
      · unfold digits_value at h3 ⊢
        rw [List.foldl_append, h3]
        simp
        omega

theorem take_digits_append (ds rest : List Nat) (hds : ∀ b ∈ ds, is_digit b = true)
    (hrest : ∀ b, rest.head? = some b → is_digit b = false) :
    take_digits (ds ++ rest) = (ds, rest) := by
  induction ds with
  | nil =>
    cases rest with
    | nil => rfl
    | cons b r =>
      have := hrest b rfl
      simp [take_digits, this]
  | cons d ds ih =>
    have hd := hds d (List.mem_cons_self _ _)
    have := ih (fun b hb => hds b (List.mem_cons_of_mem _ hb))
    simp [take_digits, hd, this]

theorem scan_digits_print (n : Nat) (rest : List Nat)
    (hrest : ∀ b, rest.head? = some b → is_digit b = false) :
    scan_digits (print_nat n ++ rest) = some (n, rest) := by
  obtain ⟨h1, h2, h3⟩ := digits_of_digits (n + 1) n (by omega)
  unfold scan_digits print_nat
  rw [take_digits_append _ _ h1 hrest]
  simp only [h2, if_false, h3]

theorem print_nat_head (n : Nat) :
    ∃ b t, print_nat n = b :: t ∧ is_digit b = true := by
  obtain ⟨h1, h2, _⟩ := digits_of_digits (n + 1) n (by omega)
  unfold print_nat
  cases hc : digits_of (n + 1) n [] with
  | nil => exact absurd hc h2
  | cons b t => exact ⟨b, t, rfl, h1 b (by rw [hc]; exact List.mem_cons_self _ _)⟩

theorem is_digit_facts (b : Nat) (h : is_digit b = true) :
    is_space b = false ∧ b ≠ 45 ∧ b ≠ 43 ∧ b ≠ 10 := by
  simp [is_digit] at h
  refine ⟨?_, by omega, by omega, by omega⟩
  simp [is_space]
  omega

theorem scan_decimal_print (v : Int) (rest : List Nat)
    (hrest : ∀ b, rest.head? = some b → is_digit b = false) :
    scan_decimal (print_int v ++ rest) = some (v, rest) := by
  unfold scan_decimal print_int
  by_cases hv : v < 0
  · simp only [hv, if_true, List.cons_append]
    have hs : is_space 45 = false := by decide
    simp only [skip_space, hs, Bool.false_eq_true, if_false, if_true]
    rw [scan_digits_print _ _ hrest]
    simp
    omega
  · simp only [hv, if_false]
    obtain ⟨b, t, hb, hd⟩ := print_nat_head v.toNat
    obtain ⟨f1, f2, f3, _⟩ := is_digit_facts b hd
    have hsd := scan_digits_print v.toNat rest hrest
    rw [hb] at hsd ⊢
    simp only [List.cons_append, skip_space, f1, Bool.false_eq_true, if_false, f2, f3,
      List.append_eq] at hsd ⊢
    rw [hsd]
    simp
    omega

theorem to_int32_of_int32 (v : Int) (hv : int32 v) : to_int32 v = v := by
  obtain ⟨h1, h2⟩ := hv
  unfold to_int32 clamp64 wrap32
  rw [if_neg (by omega), if_neg (by omega)]
  omega

theorem wrap32_of_int32 (v : Int) (hv : int32 v) : wrap32 v = v := by
  obtain ⟨h1, h2⟩ := hv
  unfold wrap32
  omega

theorem scan_int_print (v : Int) (rest : List Nat) (hv : int32 v)
    (hrest : ∀ b, rest.head? = some b → is_digit b = false) :
    scan_int (print_int v ++ rest) = some (v, rest) := by
  unfold scan_int
  rw [scan_decimal_print v rest hrest]
  simp [to_int32_of_int32 v hv]

theorem print_int_head (v : Int) :
    ∃ b t, print_int v = b :: t ∧ is_space b = false ∧ b ≠ 10 := by
  unfold print_int
  by_cases hv : v < 0
  · simp only [hv, if_true]
    exact ⟨45, _, rfl, by decide, by decide⟩
  · simp only [hv, if_false]
    obtain ⟨b, t, hb, hd⟩ := print_nat_head v.toNat
    obtain ⟨f1, _, _, f4⟩ := is_digit_facts b hd
    exact ⟨b, t, hb, f1, f4⟩

theorem print_int_no_newline (v : Int) : ∀ b ∈ print_int v, b ≠ 10 := by
  intro b hb
  unfold print_int at hb
  have key : ∀ n : Nat, ∀ c ∈ print_nat n, c ≠ 10 := by
    intro n c hc
    obtain ⟨h1, _, _⟩ := digits_of_digits (n + 1) n (by omega)
    exact (is_digit_facts c (h1 c hc)).2.2.2
  by_cases hv : v < 0
  · simp only [hv, if_true] at hb
    rcases List.mem_cons.mp hb with h | h
    · omega
    · exact key _ b h
  · simp only [hv, if_false] at hb
    exact key _ b hb

theorem atoi_print (v : Int) (hv : int32 v) : atoi (print_int v) = v := by
  have := scan_int_print v [] hv (by simp)
  simp only [List.append_nil] at this
  simp [atoi, this]

/-! ## Lines, words and counts -/

theorem split_line_append (l rest : List Nat) (hl : ∀ b ∈ l, b ≠ 10) :
    split_line (l ++ 10 :: rest) = (l, rest) := by
  induction l with
  | nil => simp [split_line]
  | cons b l ih =>
    have hb := hl b (List.mem_cons_self _ _)
    have := ih (fun c hc => hl c (List.mem_cons_of_mem _ hc))
    simp [split_line, hb, this]

theorem read_line_append (l rest : List Nat) (hl : ∀ b ∈ l, b ≠ 10) :
    read_line (l ++ 10 :: rest) = (true, l, rest) := by
  have h := split_line_append l rest hl
  unfold read_line
  cases hc : l ++ 10 :: rest with
  | nil => simp at hc
  | cons b t =>
    rw [hc] at h
    simp [h]

theorem string_of_bytes_of (w : String) : string_of (bytes_of w) = w := by
  unfold string_of bytes_of
  have : ∀ cs : List Char, (cs.map Char.toNat).map Char.ofNat = cs := by
    intro cs
    induction cs with
    | nil => rfl
    | cons c cs ih => simp [ih, Char.ofNat_toNat]
  rw [this]

theorem word_line_safe (w : String) (h : line_safe w) : word_line w = bytes_of w ++ [10] := by
  unfold word_line
  congr 1
  apply List.takeWhile_eq_self_iff.mpr
  intro b hb
  simpa using (h b hb).2

theorem read_words_lines (ws : List String) : ∀ (acc : List String) (rest : List Nat),
    (∀ w ∈ ws, line_safe w) →
    read_words ws.length (word_lines ws ++ rest) acc = Except.ok (acc ++ ws, rest) := by
  induction ws with
  | nil => intro acc rest _; simp [read_words, word_lines]
  | cons w ws ih =>
    intro acc rest h
    have hw := h w (List.mem_cons_self _ _)
    have hl : word_lines (w :: ws) ++ rest = bytes_of w ++ 10 :: (word_lines ws ++ rest) := by
      simp [word_lines, word_line_safe w hw]
    have hr := read_line_append (bytes_of w) (word_lines ws ++ rest) (fun b hb => (hw b hb).1)
    simp only [List.length_cons, read_words, hl, hr, string_of_bytes_of]
    rw [ih _ _ (fun v hv => h v (List.mem_cons_of_mem _ hv))]
    simp

theorem skip_space_head (l : List Nat) (h : ∀ b, l.head? = some b → is_space b = false) :
    skip_space l = l := by
  cases l with
  | nil => rfl
  | cons b t =>
    have := h b rfl
    simp [skip_space, this]

theorem skip_space_newline (l : List Nat) (h : ∀ b, l.head? = some b → is_space b = false) :
    skip_space (10 :: l) = l := by
  have h10 : is_space 10 = true := by decide
  simp only [skip_space, h10, if_true]
  exact skip_space_head l h

theorem scan_int_space (b : Nat) (l : List Nat) (hb : is_space b = true) :
    scan_int (b :: l) = scan_int l := by
  simp [scan_int, scan_decimal, skip_space, hb]

theorem skip_space_space (b : Nat) (l : List Nat) (hb : is_space b = true) :
    skip_space (b :: l) = skip_space l := by
  simp [skip_space, hb]

theorem newline_not_digit (l : List Nat) : ∀ b, (10 :: l).head? = some b → is_digit b = false := by
  intro b hb
  simp at hb
  subst hb
  decide

theorem skip_space_print (v : Int) (rest : List Nat) :
    skip_space (print_int v ++ rest) = print_int v ++ rest := by
  obtain ⟨b0, t, hb, hs, _⟩ := print_int_head v
  apply skip_space_head
  intro b hb2
  simp [hb] at hb2
  subst hb2
  exact hs

theorem sum_take_succ (c : Int) (cs : List Int) (k : Nat) :
    ((c :: cs).take (k + 1)).sum = c + (cs.take k).sum := by
  simp

/-- The count loop on the text of the counts: the counts are stored, summed,
and the white space after the last line is consumed. -/
theorem read_counts_text (cs : List Int) : ∀ (pre old : List Int) (sum : Int) (rest : List Nat),
    cs.length ≤ old.length → (∀ c ∈ cs, int32 c) →
    (∀ k, k ≤ cs.length → int32 (sum + (cs.take k).sum)) →
    read_counts cs.length pre.length (pre ++ old) sum (skip_space (counts_text cs ++ rest)) =
      (pre ++ cs ++ old.drop cs.length, sum + cs.sum, skip_space rest) := by
  induction cs with
  | nil => intro pre old sum rest _ _ _; simp [read_counts, counts_text]
  | cons c cs ih =>
    intro pre old sum rest hlen hc hsum
    cases old with
    | nil => simp at hlen
    | cons o old =>
      have hl : counts_text (c :: cs) ++ rest = print_int c ++ 10 :: (counts_text cs ++ rest) := by
        simp [counts_text]
      have hs := scan_int_print c (10 :: (counts_text cs ++ rest))
        (hc c (List.mem_cons_self _ _)) (newline_not_digit _)
      have hk := skip_space_space 10 (counts_text cs ++ rest) (by decide)
      have h1 : int32 (sum + c) := by
        have := hsum 1 (by simp)
        simpa using this
      simp only [List.length_cons, read_counts, hl, skip_space_print, hs, hk,
        wrap32_of_int32 _ h1]
      have hset : (pre ++ o :: old).set pre.length c = (pre ++ [c]) ++ old := by
        simp [List.set_append]
      rw [hset]
      have := ih (pre ++ [c]) old (sum + c) rest (by simpa using hlen)
        (fun x hx => hc x (List.mem_cons_of_mem _ hx))
        (fun k hk => by
          have := hsum (k + 1) (by simp; omega)
          rw [sum_take_succ] at this
          rw [add_assoc]
          exact this)
      simp only [List.length_append, List.length_singleton] at this
      rw [this]
      simp
      omega

theorem count_lines_text (counts : List Int) : ∀ (rounds i : Nat), i + rounds = counts.length →
    count_lines counts rounds i = Except.ok (counts_text (counts.drop i)) := by
  intro rounds
  induction rounds with
  | zero =>
    intro i h
    have : counts.drop i = [] := List.drop_eq_nil_of_le (by omega)
    simp [count_lines, this, counts_text]
  | succ rounds ih =>
    intro i h
    have hi : i < counts.length := by omega
    have hd : counts.drop i = counts[i] :: counts.drop (i + 1) := by
      rw [List.drop_eq_getElem_cons hi]
    simp only [count_lines, List.getElem?_eq_getElem hi, ih (i + 1) (by omega), hd, counts_text]

/-! ## The node block -/

theorem of_le_bytes_le_bytes (v : Int) (h : -2147483648 ≤ v ∧ v < 2147483648) :
    of_le_bytes (le_bytes v) = v := by
  unfold of_le_bytes le_bytes
  simp only [List.getD_cons_zero, List.getD_cons_succ]
  split <;> omega

theorem le_bytes_of_le_bytes (a b c d : Nat) (ha : a < 256) (hb : b < 256) (hc : c < 256)
    (hd : d < 256) : le_bytes (of_le_bytes [a, b, c, d]) = [a, b, c, d] := by
  unfold of_le_bytes le_bytes
  simp only [List.getD_cons_zero, List.getD_cons_succ]
  split <;> simp <;> omega

theorem le_bytes_form (v : Int) :
    ∃ a b c d, le_bytes v = [a, b, c, d] ∧ a < 256 ∧ b < 256 ∧ c < 256 ∧ d < 256 :=
  ⟨_, _, _, _, rfl, Nat.mod_lt _ (by decide), Nat.mod_lt _ (by decide),
    Nat.mod_lt _ (by decide), Nat.mod_lt _ (by decide)⟩

theorem host_bytes_convert (v : Int) : host_bytes true (convert v) = le_bytes v := by
  obtain ⟨a, b, c, d, h, ha, hb, hc, hd⟩ := le_bytes_form v
  simp only [host_bytes, convert, h, if_true, List.reverse_cons, List.reverse_nil,
    List.nil_append, List.cons_append]
  rw [le_bytes_of_le_bytes d c b a hd hc hb ha]
  rfl

theorem convert_convert (v : Int) (h : -2147483648 ≤ v ∧ v < 2147483648) :
    convert (convert v) = v := by
  obtain ⟨a, b, c, d, hf, ha, hb, hc, hd⟩ := le_bytes_form v
  have h1 : le_bytes (convert v) = [d, c, b, a] := by
    simp only [convert, hf, List.reverse_cons, List.reverse_nil, List.nil_append,
      List.cons_append]
    exact le_bytes_of_le_bytes d c b a hd hc hb ha
  have h2 : convert (convert v) = of_le_bytes (le_bytes v) := by
    rw [hf]
    show of_le_bytes (le_bytes (convert v)).reverse = _
    rw [h1]
    rfl
  rw [h2, of_le_bytes_le_bytes v h]

theorem flip_node_flip_node (nd : Node)
    (h : (-2147483648 ≤ nd.word ∧ nd.word < 2147483648) ∧
      (-2147483648 ≤ nd.log_prob ∧ nd.log_prob < 2147483648) ∧
      (-2147483648 ≤ nd.back_off ∧ nd.back_off < 2147483648) ∧
      (-2147483648 ≤ nd.child_index ∧ nd.child_index < 2147483648)) :
    flip_node (flip_node nd) = nd := by
  cases nd
  simp only [flip_node] at h ⊢
  rw [convert_convert _ h.1, convert_convert _ h.2.1, convert_convert _ h.2.2.1,
    convert_convert _ h.2.2.2]

theorem map_flip_flip (nodes : List Node) (h : fields_32bit nodes) :
    (nodes.map flip_node).map flip_node = nodes := by
  induction nodes with
  | nil => rfl
  | cons nd rest ih =>
    have h1 := h nd (List.mem_cons_self _ _)
    have h2 : fields_32bit rest := fun x hx => h x (List.mem_cons_of_mem _ hx)
    simp only [List.map_cons, flip_node_flip_node nd h1, ih h2]

theorem node_bytes_flip (nd : Node) : node_bytes true (flip_node nd) = node_bytes false nd := by
  simp only [node_bytes, flip_node, host_bytes_convert]
  rfl

theorem nodes_bytes_flip (nodes : List Node) :
    nodes_bytes true (nodes.map flip_node) = nodes_bytes false nodes := by
  induction nodes with
  | nil => rfl
  | cons nd rest ih => simp only [List.map_cons, nodes_bytes, node_bytes_flip, ih]

theorem node_bytes_length (nd : Node) : (node_bytes false nd).length = 16 := by
  simp [node_bytes, host_bytes, le_bytes]

theorem nodes_bytes_length (nodes : List Node) :
    (nodes_bytes false nodes).length = nodes.length * 16 := by
  induction nodes with
  | nil => rfl
  | cons nd rest ih =>
    simp only [nodes_bytes, List.length_append, node_bytes_length, ih, List.length_cons]
    omega

theorem node_of_bytes_big (nd : Node) :
    node_of_bytes true (node_bytes false nd) = flip_node nd := by
  simp [node_of_bytes, node_bytes, host_bytes, le_bytes, of_host_bytes, flip_node, convert]

theorem node_of_bytes_little (nd : Node)
    (h : (-2147483648 ≤ nd.word ∧ nd.word < 2147483648) ∧
      (-2147483648 ≤ nd.log_prob ∧ nd.log_prob < 2147483648) ∧
      (-2147483648 ≤ nd.back_off ∧ nd.back_off < 2147483648) ∧
      (-2147483648 ≤ nd.child_index ∧ nd.child_index < 2147483648)) :
    node_of_bytes false (node_bytes false nd) = nd := by
  have e1 := of_le_bytes_le_bytes _ h.1
  have e2 := of_le_bytes_le_bytes _ h.2.1
  have e3 := of_le_bytes_le_bytes _ h.2.2.1
  have e4 := of_le_bytes_le_bytes _ h.2.2.2
  cases nd
  simp only [le_bytes] at e1 e2 e3 e4
  simp [node_of_bytes, node_bytes, host_bytes, le_bytes, of_host_bytes, e1, e2, e3, e4]

theorem nodes_of_bytes_block (big : Bool) (nodes : List Node) (rest : List Nat) :
    nodes_of_bytes big nodes.length (nodes_bytes false nodes ++ rest) =
      nodes.map (fun nd => node_of_bytes big (node_bytes false nd)) := by
  induction nodes with
  | nil => rfl
  | cons nd more ih =>
    have hl := node_bytes_length nd
    have e1 : (nodes_bytes false (nd :: more) ++ rest).take 16 = node_bytes false nd := by
      simp only [nodes_bytes, List.append_assoc]
      rw [← hl, List.take_left]
    have e2 : (nodes_bytes false (nd :: more) ++ rest).drop 16 =
        nodes_bytes false more ++ rest := by
      simp only [nodes_bytes, List.append_assoc]
      rw [← hl, List.drop_left]
    simp only [List.length_cons, nodes_of_bytes, e1, e2, ih, List.map_cons]

/-- The block of a little-endian host read back on either host: the nodes
as read, and after the conversion on a big-endian host. -/
theorem decode_block (big : Bool) (nodes : List Node) (rest : List Nat)
    (h : fields_32bit nodes) :
    (if big then (nodes_of_bytes big nodes.length (nodes_bytes false nodes ++ rest)).map flip_node
     else nodes_of_bytes big nodes.length (nodes_bytes false nodes ++ rest)) = nodes := by
  rw [nodes_of_bytes_block]
  cases big with
  | true =>
    simp only [if_true, node_of_bytes_big]
    have : (nodes.map fun nd => flip_node nd) = nodes.map flip_node := rfl
    rw [this, map_flip_flip nodes h]
  | false =>
    simp only [Bool.false_eq_true, if_false]
    have : ∀ l : List Node, fields_32bit l →
        l.map (fun nd => node_of_bytes false (node_bytes false nd)) = l := by
      intro l hl
      induction l with
      | nil => rfl
      | cons nd more ih =>
        simp only [List.map_cons, node_of_bytes_little nd (hl nd (List.mem_cons_self _ _)),
          ih (fun x hx => hl x (List.mem_cons_of_mem _ hx))]
    exact this nodes h

theorem block_head (nodes : List Node) (h : (nodes.head?.map Node.word) = some 0) :
    ∀ b, (nodes_bytes false nodes).head? = some b → is_space b = false := by
  cases nodes with
  | nil => simp at h
  | cons nd rest =>
    simp at h
    intro b hb
    simp [nodes_bytes, node_bytes, host_bytes, le_bytes, h] at hb
    subst hb
    decide

/-! ## The stages of `read` on a file of the layout -/

theorem type_line_no_newline (type : ModelType) : ∀ b ∈ type_line type, b ≠ 10 := by
  cases type <;> decide

theorem read_string_header (rest : List Nat) :
    read_string format_str.length (format_str ++ rest) = (true, format_str, rest) := by
  unfold read_string
  rw [if_neg (by simp), List.take_left, List.drop_left]

theorem read_header_line (line rest : List Nat) (hl : ∀ b ∈ line, b ≠ 10) :
    read_header (format_str ++ (line ++ 10 :: rest)) =
      if line = backoff_line then Except.ok (ModelType.BACKOFF, rest)
      else if line = interpolated_line then Except.ok (ModelType.INTERPOLATED, rest)
      else Except.error Fault.exit := by
  unfold read_header
  rw [read_string_header, read_line_append line rest hl]
  simp

theorem read_header_type (type : ModelType) (rest : List Nat) :
    read_header (format_str ++ (type_line type ++ 10 :: rest)) = Except.ok (type, rest) := by
  rw [read_header_line _ _ (type_line_no_newline type)]
  cases type
  · exact if_pos rfl
  · rw [if_neg (by decide)]
    exact if_pos rfl

theorem read_header_magic (file : List Nat) (h : file.take format_str.length ≠ format_str) :
    read_header file = Except.error Fault.exit := by
  unfold read_header
  have : (read_string format_str.length file).1 = false ∨
      (read_string format_str.length file).2.1 ≠ format_str := by
    unfold read_string
    by_cases hl : file.length < format_str.length
    · left; rw [if_pos hl]
    · right; rw [if_neg hl]; exact h
  rw [if_pos this]

theorem read_vocabulary_count (line rest : List Nat) (hl : ∀ b ∈ line, b ≠ 10) :
    read_vocabulary (line ++ 10 :: rest) =
      if atoi line < 1 then Except.error Fault.exit
      else read_words (atoi line).toNat rest [] := by
  unfold read_vocabulary
  rw [read_line_append line rest hl]
  simp

theorem read_vocabulary_words (words : List String) (rest : List Nat) (hw : words ≠ [])
    (hsafe : ∀ w ∈ words, line_safe w) (h32 : int32 (words.length : Int)) :
    read_vocabulary (print_int (words.length : Int) ++ 10 :: (word_lines words ++ rest)) =
      Except.ok (words, rest) := by
  rw [read_vocabulary_count _ _ (print_int_no_newline _), atoi_print _ h32]
  have hpos : 0 < words.length := List.length_pos.mpr hw
  rw [if_neg (by omega)]
  have : ((words.length : Int)).toNat = words.length := by simp
  rw [this, read_words_lines words [] rest hsafe]
  simp

theorem space_not_digit (l : List Nat) : ∀ b, (32 :: l).head? = some b → is_digit b = false := by
  intro b hb
  simp at hb
  subst hb
  decide

theorem read_sizes_counts (old counts : List Int) (n : Int) (block : List Nat)
    (hl : int32 (counts.length : Int)) (hn : int32 n) (hc : ∀ c ∈ counts, int32 c)
    (hp : ∀ k ∈ List.range (counts.length + 1), int32 ((counts.take k).sum)) :
    read_sizes old (print_int (counts.length : Int) ++ 32 ::
        (print_int n ++ 10 :: (counts_text counts ++ block))) =
      if counts.sum ≠ n then Except.error Fault.exit
      else Except.ok ((counts.length : Int), n, counts, skip_space block) := by
  unfold read_sizes
  rw [scan_int_print _ _ hl (space_not_digit _)]
  simp only
  rw [scan_int_space 32 _ (by decide), scan_int_print _ _ hn (newline_not_digit _)]
  simp only
  rw [if_neg (by omega), skip_space_space 10 _ (by decide)]
  have hto : ((counts.length : Int)).toNat = counts.length := by simp
  rw [hto]
  have hrc := read_counts_text counts [] (resize old counts.length) 0 block
    (by rw [resize_length]) hc
    (fun k hk => by
      rw [zero_add]
      exact hp k (List.mem_range.mpr (by omega)))
  have hd : (resize old counts.length).drop counts.length = [] :=
    List.drop_eq_nil_of_le (by rw [resize_length])
  simp only [List.length_nil, List.nil_append, hd, List.append_nil, zero_add] at hrc
  rw [hrc]

theorem file_layout_eq (type : ModelType) (words : List String) (counts : List Int) (n : Int)
    (block : List Nat) :
    file_layout type words counts n block =
      format_str ++ (type_line type ++ 10 :: (print_int (words.length : Int) ++ 10 ::
        (word_lines words ++ (print_int (counts.length : Int) ++ 32 ::
          (print_int n ++ 10 :: (counts_text counts ++ block)))))) := by
  simp [file_layout]

/-- The run of `read` on a file of the layout: the white space in front of the
block is consumed with the last count line. -/
theorem read_layout (big : Bool) (r : TreeGram) (type : ModelType) (words : List String)
    (counts : List Int) (n : Int) (block : List Nat) (hw : words ≠ [])
    (hsafe : ∀ w ∈ words, line_safe w) (h32 : layout_32bit words counts n) :
    read big r (file_layout type words counts n block) =
      if counts.sum ≠ n then Except.error Fault.exit
      else if n < 0 then Except.error Fault.length_error
      else if n = 0 ∨ (skip_space block).length < n.toNat * 16 then Except.error Fault.exit
      else if big then
        flip_endian { r with m_type := type, m_words := words, m_order := (counts.length : Int),
                             m_order_count := counts,
                             m_nodes := nodes_of_bytes big n.toNat (skip_space block) }
      else
        Except.ok { r with m_type := type, m_words := words, m_order := (counts.length : Int),
                           m_order_count := counts,
                           m_nodes := nodes_of_bytes big n.toNat (skip_space block) } := by
  rw [file_layout_eq]
  unfold TreeGram.read
  rw [read_header_type]
  simp only
  obtain ⟨hw32, hl32, hn32, hc32, hp32⟩ := h32
  rw [read_vocabulary_words words _ hw hsafe hw32]
  simp only
  rw [read_sizes_counts r.m_order_count counts n block hl32 hn32 hc32 hp32]
  by_cases hs : counts.sum ≠ n
  · simp only [hs, if_true, ne_eq, not_false_eq_true]
  · rw [if_neg hs, if_neg hs]
    simp only
    unfold read_nodes
    by_cases hneg : n < 0
    · rw [if_pos hneg, if_pos hneg]
    · rw [if_neg hneg, if_neg hneg]
      by_cases hn : n = 0 ∨ (skip_space block).length < n.toNat * 16
      · rw [if_pos hn, if_pos hn]
      · rw [if_neg hn, if_neg hn]

/-! ## The file that `write` produces -/

theorem flip_endian_ok (s : TreeGram)
    (h : s.m_type = ModelType.INTERPOLATED → (s.m_interpolation.length : Int) = s.m_order) :
    ∃ s1, flip_endian s = Except.ok s1 ∧ s1.m_nodes = s.m_nodes.map flip_node ∧
      s1.m_type = s.m_type ∧ s1.m_order = s.m_order ∧ s1.m_words = s.m_words ∧
      s1.m_order_count = s.m_order_count ∧
      s1.m_interpolation.length = s.m_interpolation.length := by
  unfold flip_endian
  by_cases ht : s.m_type = ModelType.INTERPOLATED
  · rw [if_pos ht, if_neg (by simpa using h ht)]
    exact ⟨_, rfl, rfl, rfl, rfl, rfl, rfl, by simp⟩
  · rw [if_neg ht]
    exact ⟨_, rfl, rfl, rfl, rfl, rfl, rfl, rfl⟩

theorem write_layout (big reflip : Bool) (s : TreeGram)
    (horder : s.m_order = (s.m_order_count.length : Int))
    (hw32 : int32 (s.m_words.length : Int)) (hn32 : int32 (s.m_nodes.length : Int))
    (hflip : big = true → s.m_type = ModelType.INTERPOLATED →
      (s.m_interpolation.length : Int) = s.m_order) :
    ∃ s1, write big s reflip =
      Except.ok (file_layout s.m_type s.m_words s.m_order_count (s.m_nodes.length : Int)
        (nodes_bytes false s.m_nodes), s1) := by
  have hc := count_lines_text s.m_order_count s.m_order.toNat 0 (by rw [horder]; simp)
  have htext : ∀ block : List Nat,
      format_str ++ (type_line s.m_type ++ [10]) ++
      print_int (wrap32 (s.m_words.length : Int)) ++ [10] ++ word_lines s.m_words ++
      print_int s.m_order ++ [32] ++ print_int (wrap32 (s.m_nodes.length : Int)) ++ [10] ++
      counts_text s.m_order_count ++ block =
      file_layout s.m_type s.m_words s.m_order_count (s.m_nodes.length : Int) block := by
    intro block
    rw [horder, wrap32_of_int32 _ hw32, wrap32_of_int32 _ hn32]
    simp [file_layout]
  unfold write
  rw [hc]
  simp only [List.drop_zero]
  cases big with
  | false =>
    simp only [Bool.false_eq_true, if_false]
    exact ⟨s, by rw [htext]⟩
  | true =>
    simp only [if_true]
    obtain ⟨s1, h1, hn1, ht1, ho1, _, _, hi1⟩ := flip_endian_ok s (hflip rfl)
    rw [h1]
    simp only
    rw [hn1, nodes_bytes_flip, htext]
    cases reflip with
    | false => exact ⟨s1, by simp⟩
    | true =>
      obtain ⟨s2, h2, _⟩ := flip_endian_ok s1 (by
        intro ht
        rw [hi1, ho1]
        exact hflip rfl (by rw [← ht1]; exact ht))
      rw [h2]
      exact ⟨s2, by simp⟩

/-! ## What a built store hands to the codec -/

theorem head_word_set (nodes : List Node) (i : Nat) (nd : Node)
    (h : ∀ old, nodes[i]? = some old → nd.word = old.word) :
    (nodes.set i nd).head?.map Node.word = nodes.head?.map Node.word := by
  cases nodes with
  | nil => rfl
  | cons x rest =>
    cases i with
    | zero => simp [h x (by simp)]
    | succ i => simp

theorem head_word_append (nodes : List Node) (nd : Node) (h : nodes ≠ []) :
    (nodes ++ [nd]).head?.map Node.word = nodes.head?.map Node.word := by
  cases nodes with
  | nil => exact absurd rfl h
  | cons x rest => rfl

theorem set_child_index_head (nodes nodes1 : List Node) (i v : Int)
    (h : set_child_index nodes i v = Except.ok nodes1) :
    nodes1.head?.map Node.word = nodes.head?.map Node.word := by
  unfold set_child_index at h
  split at h
  · simp at h
  · next nd hnd =>
    simp at h
    subst h
    apply head_word_set
    intro old hold
    unfold node_at at hnd
    split at hnd
    · simp at hnd
    · rw [hold] at hnd
      simp at hnd
      rw [hnd]

theorem insert_node_head (s s1 : TreeGram) (g : List Int) (lp bo : Int)
    (h : insert_node s g lp bo = Except.ok s1) (hne : s.m_nodes ≠ []) :
    s1.m_nodes.head?.map Node.word = s.m_nodes.head?.map Node.word ∧
    s1.m_order_count = s.m_order_count := by
  refine ⟨?_, (insert_node_length s s1 g lp bo h).2⟩
  unfold insert_node at h
  split at h
  · simp at h
  · next w =>
    unfold add_unigram at h
    split at h
    · split at h
      · simp at h
      · next root rest hr =>
        simp at h
        subst h
        simp [hr]
    · simp at h
      subst h
      exact head_word_append _ _ hne
  · next a b rest =>
    unfold add_higher at h
    split at h
    · simp at h
    · split at h
      · next p w hp hw =>
        split at h
        · simp at h
        · next par hpar =>
          simp only at h
          split at h
          · simp at h
          · next nodes3 h3 =>
            simp at h
            subst h
            simp only
            rw [set_child_index_head _ _ _ _ h3]
            have hset : (if par.child_index < 0 then
                s.m_nodes.set p.toNat { par with child_index := (s.m_nodes.length : Int) }
                else s.m_nodes).head?.map Node.word = s.m_nodes.head?.map Node.word := by
              split
              · apply head_word_set
                intro old hold
                unfold node_at at hpar
                split at hpar
                · simp at hpar
                · rw [hold] at hpar
                  simp at hpar
                  rw [hpar]
              · rfl
            have hne2 : (if par.child_index < 0 then
                s.m_nodes.set p.toNat { par with child_index := (s.m_nodes.length : Int) }
                else s.m_nodes) ≠ [] := by
              split
              · intro hc
                apply hne
                have := congrArg List.length hc
                simp at this
                exact this
              · exact hne
            rw [head_word_append _ _ hne2, hset]
      · simp at h

theorem add_gram_codec (s s1 : TreeGram) (g : List Int) (lp bo : Int)
    (h : add_gram s g lp bo = Except.ok s1) :
    s1.m_order = (s1.m_order_count.length : Int) ∧
    s1.m_nodes.head?.map Node.word = s.m_nodes.head?.map Node.word := by
  have hne : s.m_nodes ≠ [] := by
    intro hc
    unfold add_gram at h
    rw [if_pos hc] at h
    simp at h
  obtain ⟨_, s2, s3, hu, hi, ho, hs1⟩ := add_gram_steps s s1 g lp bo h
  have hn2 := (update_counts_effect s s2 g hu).1
  obtain ⟨hh, hc3⟩ := insert_node_head s2 s3 g lp bo hi (by rw [hn2]; exact hne)
  have hl2 : s2.m_order_count.length = g.length := by
    unfold update_counts at hu
    split_ifs at hu with ha hb
    · simp at hu
      rw [← hu]
      exact not_not.mp ha
    · split at hu
      · simp at hu
      · next counts hcs =>
        simp at hu
        rw [← hu]
        unfold incr_count at hcs
        split at hcs
        · simp at hcs
        · simp at hcs
          rw [← hcs]
          simp
          exact not_not.mp ha
  subst hs1
  simp only
  rw [ho, hc3, hl2, hh, hn2]
  exact ⟨rfl, rfl⟩

theorem add_grams_codec (calls : List (List Int × Int × Int)) : ∀ (s0 s : TreeGram),
    add_grams s0 calls = Except.ok s →
    s0.m_order = (s0.m_order_count.length : Int) →
    (s0.m_nodes.length : Int) = count_sum s0 →
    (s.m_order = (s.m_order_count.length : Int) ∧ (s.m_nodes.length : Int) = count_sum s ∧
      s.m_nodes.head?.map Node.word = s0.m_nodes.head?.map Node.word) := by
  induction calls with
  | nil =>
    intro s0 s h h1 h2
    simp [add_grams] at h
    subst h
    exact ⟨h1, h2, rfl⟩
  | cons c rest ih =>
    intro s0 s h h1 h2
    simp only [add_grams] at h
    split at h
    · simp at h
    · next sa ha =>
      obtain ⟨a1, a2⟩ := add_gram_codec s0 sa c.1 c.2.1 c.2.2 ha
      have a3 := add_gram_count_sum s0 sa c.1 c.2.1 c.2.2 ha h2
      obtain ⟨b1, b2, b3⟩ := ih sa s h a1 a3
      exact ⟨b1, b2, by rw [b3, a2]⟩

theorem update_counts_pos (s s2 : TreeGram) (g : List Int)
    (h : update_counts s g = Except.ok s2) (hne : s.m_order_count ≠ [])
    (hpos : ∀ c ∈ s.m_order_count, 1 ≤ c) :
    s2.m_order_count ≠ [] ∧ ∀ c ∈ s2.m_order_count, 1 ≤ c := by
  unfold update_counts at h
  split_ifs at h with ha hb
  · simp at h
    subst h
    have hg : g.length = 1 := by rw [hb]; rfl
    have hno : ¬ g.length > s.m_order_count.length := by
      rw [hg]
      have := List.length_pos.mpr hne
      omega
    unfold open_count
    rw [if_neg hno]
    exact ⟨hne, hpos⟩
  · split at h
    · simp at h
    · next counts hcs =>
      simp at h
      subst h
      simp only
      unfold incr_count at hcs
      split at hcs
      · simp at hcs
      · next c hc =>
        simp at hcs
        subst hcs
        have hlen := not_not.mp ha
        unfold open_count at hc hlen ⊢
        by_cases hop : g.length > s.m_order_count.length
        · rw [if_pos hop] at hc hlen ⊢
          simp only at hc hlen ⊢
          have hidx : g.length - 1 = s.m_order_count.length := by
            simp at hlen
            omega
          rw [hidx] at hc ⊢
          have hset : (s.m_order_count ++ [0]).set s.m_order_count.length (c + 1)
              = s.m_order_count ++ [c + 1] := by
            simp [List.set_append]
          rw [hset]
          have hc0 : c = 0 := by
            simp at hc
            exact hc.symm
          refine ⟨by simp, ?_⟩
          intro x hx
          rw [List.mem_append] at hx
          rcases hx with hx | hx
          · exact hpos x hx
          · simp at hx
            omega
        · rw [if_neg hop] at hc hlen ⊢
          refine ⟨?_, ?_⟩
          · intro hnil
            have := congrArg List.length hnil
            simp at this
            exact hne this
          · intro x hx
            rcases List.mem_or_eq_of_mem_set hx with hx | hx
            · exact hpos x hx
            · have hcm : c ∈ s.m_order_count := by
                have := List.getElem?_eq_some_iff.mp hc
                obtain ⟨hl, he⟩ := this
                rw [← he]
                exact List.getElem_mem _
              have := hpos c hcm
              omega

theorem add_gram_counts_pos (s s1 : TreeGram) (g : List Int) (lp bo : Int)
    (h : add_gram s g lp bo = Except.ok s1) (hne : s.m_order_count ≠ [])
    (hpos : ∀ c ∈ s.m_order_count, 1 ≤ c) :
    s1.m_order_count ≠ [] ∧ ∀ c ∈ s1.m_order_count, 1 ≤ c := by
  obtain ⟨_, s2, s3, hu, hi, _, hs1⟩ := add_gram_steps s s1 g lp bo h
  have h2 := update_counts_pos s s2 g hu hne hpos
  have h3 := (insert_node_length s2 s3 g lp bo hi).2
  subst hs1
  simp only
  rw [h3]
  exact h2

theorem add_grams_counts_pos (calls : List (List Int × Int × Int)) : ∀ (s0 s : TreeGram),
    add_grams s0 calls = Except.ok s → s0.m_order_count ≠ [] →
    (∀ c ∈ s0.m_order_count, 1 ≤ c) →
    s.m_order_count ≠ [] ∧ ∀ c ∈ s.m_order_count, 1 ≤ c := by
  induction calls with
  | nil =>
    intro s0 s h h1 h2
    simp [add_grams] at h
    subst h
    exact ⟨h1, h2⟩
  | cons c rest ih =>
    intro s0 s h h1 h2
    simp only [add_grams] at h
    split at h
    · simp at h
    · next sa ha =>
      obtain ⟨a1, a2⟩ := add_gram_counts_pos s0 sa c.1 c.2.1 c.2.2 ha h1 h2
      exact ih sa s h a1 a2

theorem sum_take_bounds (cs : List Int) (hpos : ∀ c ∈ cs, 1 ≤ c) :
    ∀ k : Nat, ((min k cs.length : Nat) : Int) ≤ (cs.take k).sum ∧ (cs.take k).sum ≤ cs.sum := by
  induction cs with
  | nil => intro k; simp
  | cons c cs ih =>
    intro k
    have h1 := hpos c (List.mem_cons_self _ _)
    have ih2 := ih (fun x hx => hpos x (List.mem_cons_of_mem _ hx))
    cases k with
    | zero =>
      have h2 := (ih2 0).2
      simp at h2
      simp
      omega
    | succ k =>
      obtain ⟨h2, h3⟩ := ih2 k
      simp only [List.take_succ_cons, List.sum_cons, List.length_cons]
      have : min (k + 1) (cs.length + 1) = min k cs.length + 1 := by omega
      rw [this]
      push_cast
      push_cast at h2
      omega

theorem mem_le_sum (cs : List Int) (hpos : ∀ c ∈ cs, 1 ≤ c) : ∀ c ∈ cs, c ≤ cs.sum := by
  induction cs with
  | nil => intro c hc; simp at hc
  | cons a cs ih =>
    intro c hc
    have h1 := hpos a (List.mem_cons_self _ _)
    have hs := (sum_take_bounds cs (fun x hx => hpos x (List.mem_cons_of_mem _ hx)) 0).2
    simp at hs
    rcases List.mem_cons.mp hc with h | h
    · subst h
      simp
      omega
    · have := ih (fun x hx => hpos x (List.mem_cons_of_mem _ hx)) c h
      simp
      omega

/-- Counts from 1 on whose sum is a 32-bit `int` give a layout of 32-bit
numbers. -/
theorem layout_32bit_of_pos (words : List String) (counts : List Int)
    (hw : int32 (words.length : Int)) (hpos : ∀ c ∈ counts, 1 ≤ c) (hs : int32 counts.sum) :
    layout_32bit words counts counts.sum := by
  obtain ⟨hs1, hs2⟩ := hs
  have hall := sum_take_bounds counts hpos
  refine ⟨hw, ?_, ⟨hs1, hs2⟩, ?_, ?_⟩
  · have := hall counts.length
    simp at this
    constructor <;> omega
  · intro c hc
    have h1 := hpos c hc
    have h2 := mem_le_sum counts hpos c hc
    constructor <;> omega
  · intro k _
    obtain ⟨h1, h2⟩ := hall k
    constructor <;> omega

/-- A built store has one count per order, as many nodes as its counts sum to,
every count from 1 on, and word 0 in node 0. -/
theorem build_codec (words : List String) (capacity : Int)
    (calls : List (List Int × Int × Int)) (s : TreeGram)
    (hb : build words capacity calls = Except.ok s) :
    s.m_words = words ∧ s.m_order = (s.m_order_count.length : Int) ∧
    (s.m_nodes.length : Int) = s.m_order_count.sum ∧
    s.m_nodes.head?.map Node.word = some 0 ∧ ∀ c ∈ s.m_order_count, 1 ≤ c := by
  have hb2 := (build_steps _ _ _ _ hb).2
  obtain ⟨h1, h2, h3⟩ := add_grams_codec calls _ s hb2 rfl rfl
  have h4 := (add_grams_counts_pos calls _ s hb2 (by simp [install_root])
    (by simp [install_root])).2
  exact ⟨build_words words capacity calls s hb, h1, h2, by rw [h3]; rfl, h4⟩

/-! ## Writing a store and reading the file back -/

theorem nodes_length_pos (nodes : List Node) (h : nodes.head?.map Node.word = some 0) :
    1 ≤ nodes.length := by
  cases nodes with
  | nil => simp at h
  | cons nd rest => simp

theorem flip_endian_interpolation (s s1 : TreeGram) (h : flip_endian s = Except.ok s1) :
    s1.m_interpolation =
      if s.m_type = ModelType.INTERPOLATED then s.m_interpolation.map convert
      else s.m_interpolation := by
  unfold flip_endian at h
  by_cases ht : s.m_type = ModelType.INTERPOLATED
  · rw [if_pos ht] at h ⊢
    split at h
    · simp at h
    · simp at h
      rw [← h]
  · rw [if_neg ht] at h ⊢
    simp at h
    rw [← h]

theorem flip_endian_asserts (s : TreeGram) (ht : s.m_type = ModelType.INTERPOLATED)
    (hl : (s.m_interpolation.length : Int) ≠ s.m_order) :
    flip_endian s = Except.error Fault.assertion := by
  unfold flip_endian
  rw [if_pos ht, if_pos hl]

/-- The file of a store with one count per order is the layout with the
little-endian block; read on either host returns the written type, words,
order, counts and nodes, and the interpolation vector of the reading store,
which `flip_endian` swaps on a big-endian host for an interpolated model. -/
theorem round_trip_layout (big reflip : Bool) (s reader : TreeGram)
    (horder : s.m_order = (s.m_order_count.length : Int))
    (hsum : (s.m_nodes.length : Int) = s.m_order_count.sum)
    (hroot : s.m_nodes.head?.map Node.word = some 0)
    (hw : s.m_words ≠ []) (hsafe : ∀ w ∈ s.m_words, line_safe w)
    (h32 : fields_32bit s.m_nodes)
    (hl32 : layout_32bit s.m_words s.m_order_count (s.m_nodes.length : Int))
    (hflip : big = true → s.m_type = ModelType.INTERPOLATED →
      (s.m_interpolation.length : Int) = s.m_order ∧
      (reader.m_interpolation.length : Int) = s.m_order) :
    ∃ file s1 r, write big s reflip = Except.ok (file, s1) ∧
      read big reader file = Except.ok r ∧
      r.m_type = s.m_type ∧ r.m_words = s.m_words ∧ r.m_order = s.m_order ∧
      r.m_order_count = s.m_order_count ∧ r.m_nodes = s.m_nodes ∧
      r.m_interpolation =
        (if big = true ∧ s.m_type = ModelType.INTERPOLATED
          then reader.m_interpolation.map convert else reader.m_interpolation) ∧
      file = file_layout s.m_type s.m_words s.m_order_count (s.m_nodes.length : Int)
        (nodes_bytes false s.m_nodes) := by
  obtain ⟨s1, hwr⟩ := write_layout big reflip s horder hl32.1 hl32.2.2.1
    (fun hb ht => (hflip hb ht).1)
  have hhead := block_head s.m_nodes hroot
  have hskip := skip_space_head _ hhead
  have hpos := nodes_length_pos s.m_nodes hroot
  have hrd := read_layout big reader s.m_type s.m_words s.m_order_count
    (s.m_nodes.length : Int) (nodes_bytes false s.m_nodes) hw hsafe hl32
  have hto : ((s.m_nodes.length : Int)).toNat = s.m_nodes.length := by simp
  rw [if_neg (by rw [hsum]; simp), if_neg (by omega), hskip, hto, nodes_bytes_length,
    if_neg (by omega)] at hrd
  have hdec := decode_block big s.m_nodes [] h32
  rw [List.append_nil] at hdec
  cases big with
  | false =>
    simp only [Bool.false_eq_true, if_false] at hrd hdec
    refine ⟨_, s1, _, hwr, hrd, rfl, rfl, horder.symm, rfl, hdec, ?_, rfl⟩
    simp
  | true =>
    simp only [if_true] at hrd hdec
    obtain ⟨r, hr, hn, ht, ho, hwd, hc, _⟩ := flip_endian_ok
      { reader with m_type := s.m_type, m_words := s.m_words,
                    m_order := (s.m_order_count.length : Int),
                    m_order_count := s.m_order_count,
                    m_nodes := nodes_of_bytes true s.m_nodes.length
                      (nodes_bytes false s.m_nodes) }
      (fun ht => by
        have := (hflip rfl ht).2
        simp only
        rw [this, horder])
    have hint := flip_endian_interpolation _ r hr
    rw [hr] at hrd
    refine ⟨_, s1, r, hwr, hrd, ht, hwd, ?_, hc, ?_, ?_, rfl⟩
    · rw [ho, horder]
    · rw [hn]
      exact hdec
    · rw [hint]
      simp

/-- On a big-endian host `write` of an interpolated model whose interpolation
vector is not of length `order` fails the assertion of `flip_endian`. -/
theorem write_asserts (reflip : Bool) (s : TreeGram)
    (horder : s.m_order = (s.m_order_count.length : Int))
    (ht : s.m_type = ModelType.INTERPOLATED)
    (hl : (s.m_interpolation.length : Int) ≠ s.m_order) :
    write true s reflip = Except.error Fault.assertion := by
  have hc := count_lines_text s.m_order_count s.m_order.toNat 0 (by rw [horder]; simp)
  unfold write
  rw [hc]
  simp only [if_true]
  rw [flip_endian_asserts s ht hl]

/-- On a big-endian host `read` of the file of an interpolated model into a
store whose interpolation vector is not of length `order` fails the assertion
of `flip_endian`. -/
theorem read_asserts (type : ModelType) (words : List String) (counts : List Int)
    (nodes : List Node) (reader : TreeGram)
    (hsum : (nodes.length : Int) = counts.sum)
    (hroot : nodes.head?.map Node.word = some 0)
    (hw : words ≠ []) (hsafe : ∀ w ∈ words, line_safe w)
    (hl32 : layout_32bit words counts (nodes.length : Int))
    (ht : type = ModelType.INTERPOLATED)
    (hl : (reader.m_interpolation.length : Int) ≠ (counts.length : Int)) :
    read true reader (file_layout type words counts (nodes.length : Int)
      (nodes_bytes false nodes)) = Except.error Fault.assertion := by
  have hhead := block_head nodes hroot
  have hskip := skip_space_head _ hhead
  have hpos := nodes_length_pos nodes hroot
  have hrd := read_layout true reader type words counts
    (nodes.length : Int) (nodes_bytes false nodes) hw hsafe hl32
  have hto : ((nodes.length : Int)).toNat = nodes.length := by simp
  rw [if_neg (by rw [hsum]; simp), if_neg (by omega), hskip, hto, nodes_bytes_length,
    if_neg (by omega)] at hrd
  simp only [if_true] at hrd
  rw [hrd]
  exact flip_endian_asserts _ ht hl

/-- C12 (counterexample): the store of the first scenario, built by
`reserve_nodes` and five accepted `add_gram` calls, as an interpolated model
with the interpolation vector `[5, 6, 7]`.  `write` succeeds and `read` of the
written file into a fresh store succeeds, but the store read has the empty
interpolation vector: the file does not hold the vector. -/
theorem round_trip_drops_interpolation :
    build scenario_words 16 scenario1_calls = Except.ok scenario1_store ∧
    weighted_store = set_interpolation (set_type scenario1_store ModelType.INTERPOLATED)
      [5, 6, 7] ∧
    ∃ file r, write false weighted_store true = Except.ok (file, weighted_store) ∧
      read false (construct []) file = Except.ok r ∧
      r.m_type = ModelType.INTERPOLATED ∧ r.m_interpolation = [] ∧
      r.m_interpolation ≠ weighted_store.m_interpolation := by
  refine ⟨scenario1_store_built, rfl, ?_⟩
  obtain ⟨file, s1, r, hwr, hrd, ht, _, _, _, _, hi, _⟩ :=
    round_trip_layout false true weighted_store (construct []) rfl (by decide) rfl
      (by decide) (by decide) (by decide) (by decide) (by intro hb; simp at hb)
  have hs1 : s1 = weighted_store := by
    unfold write at hwr
    split at hwr
    · simp at hwr
    · simp only [Bool.false_eq_true, if_false] at hwr
      simp at hwr
      exact hwr.2.symm
  rw [hs1] at hwr
  have hint : r.m_interpolation = [] := by
    rw [hi]
    simp
    rfl
  refine ⟨file, r, hwr, hrd, ht, hint, ?_⟩
  rw [hint]
  decide

/-- C12 (amended): for every store built by `reserve_nodes` and accepted
`add_gram` calls on a vocabulary of at least one word, none with a newline or
a zero byte, with fewer than `2^31` words and nodes and node fields that are
32-bit values, and for either model type and any interpolation vector:
unless the host is big-endian, the model interpolated and one of the
interpolation vectors of the written and of the reading store not of length
`order`, `write` followed by `read` of the written file succeeds and returns a
store with the same type, vocabulary, order, order counts and node array; the
bytes written are those of a little-endian host; the interpolation vector is
not part of the file, and the store read has the vector of the reading store,
byte-swapped float by float on a big-endian host for an interpolated model.
On a big-endian host with an interpolated model, `write` fails an assertion
when the written vector is not of length `order`, and otherwise `read` fails an
assertion when the vector of the reading store is not of length `order`. -/
theorem write_read_round_trip (big reflip : Bool) (words : List String) (capacity : Int)
    (calls : List (List Int × Int × Int)) (s reader : TreeGram) (type : ModelType)
    (interpolation : List Int)
    (hb : build words capacity calls = Except.ok s)
    (hw : words ≠ []) (hsafe : ∀ w ∈ words, line_safe w) (h32 : fields_32bit s.m_nodes)
    (hwn : (words.length : Int) < 2147483648)
    (hnn : (s.m_nodes.length : Int) < 2147483648) :
    ((big = true → type = ModelType.INTERPOLATED →
        (interpolation.length : Int) = s.m_order ∧
        (reader.m_interpolation.length : Int) = s.m_order) →
      ∃ file s1 r,
        write big (set_interpolation (set_type s type) interpolation) reflip =
          Except.ok (file, s1) ∧
        read big reader file = Except.ok r ∧
        r.m_type = type ∧ r.m_words = words ∧ r.m_order = s.m_order ∧
        r.m_order_count = s.m_order_count ∧ r.m_nodes = s.m_nodes ∧
        r.m_interpolation =
          (if big = true ∧ type = ModelType.INTERPOLATED
            then reader.m_interpolation.map convert else reader.m_interpolation) ∧
        file = file_layout type words s.m_order_count (s.m_nodes.length : Int)
          (nodes_bytes false s.m_nodes)) ∧
    (big = true → type = ModelType.INTERPOLATED →
      (interpolation.length : Int) ≠ s.m_order →
      write big (set_interpolation (set_type s type) interpolation) reflip =
        Except.error Fault.assertion) ∧
    (big = true → type = ModelType.INTERPOLATED →
      (interpolation.length : Int) = s.m_order →
      (reader.m_interpolation.length : Int) ≠ s.m_order →
      ∃ file s1,
        write big (set_interpolation (set_type s type) interpolation) reflip =
          Except.ok (file, s1) ∧
        read big reader file = Except.error Fault.assertion) := by
  obtain ⟨h1, h2, h3, h4, h5⟩ := build_codec words capacity calls s hb
  have hl32 : layout_32bit s.m_words s.m_order_count (s.m_nodes.length : Int) := by
    rw [h3]
    apply layout_32bit_of_pos _ _ _ h5
    · rw [← h3]
      constructor <;> omega
    · rw [h1]
      constructor <;> omega
  refine ⟨?_, ?_, ?_⟩
  · intro hflip
    have := round_trip_layout big reflip (set_interpolation (set_type s type) interpolation)
      reader h2 h3 h4 (by rw [← h1] at hw; exact hw) (by rw [← h1] at hsafe; exact hsafe) h32
      hl32 hflip
    rw [← h1]
    exact this
  · intro hbig ht hl
    subst hbig
    exact write_asserts reflip (set_interpolation (set_type s type) interpolation) h2 ht hl
  · intro hbig ht hl hr
    subst hbig
    obtain ⟨s1, hwr⟩ := write_layout true reflip
      (set_interpolation (set_type s type) interpolation) h2 hl32.1 hl32.2.2.1
      (fun _ _ => hl)
    refine ⟨_, s1, hwr, ?_⟩
    exact read_asserts type s.m_words s.m_order_count s.m_nodes reader h3 h4
      (by rw [← h1] at hw; exact hw) (by rw [← h1] at hsafe; exact hsafe) hl32 ht
      (by rw [← h2]; exact hr)

/-- C12 (amended) on the store of the first scenario as an interpolated model.
On a big-endian host, with the written vector `[5, 6, 7]` and the vector `[1,
256, 0]` in the reading store, the round trip succeeds and the store read has
the vector `[16777216, 65536, 0]`, the floats of the reading store
byte-swapped.  With the written vector `[5, 6]`, `write` fails; with the empty
vector in the reading store, `read` fails. -/
theorem write_read_round_trip_witness :
    build scenario_words 16 scenario1_calls = Except.ok scenario1_store ∧
    (∃ file s1 r,
      write true (set_interpolation (set_type scenario1_store ModelType.INTERPOLATED)
        [5, 6, 7]) true = Except.ok (file, s1) ∧
      read true (set_interpolation (construct []) [1, 256, 0]) file = Except.ok r ∧
      r.m_type = ModelType.INTERPOLATED ∧ r.m_words = scenario_words ∧
      r.m_order = scenario1_store.m_order ∧
      r.m_order_count = scenario1_store.m_order_count ∧
      r.m_nodes = scenario1_store.m_nodes ∧
      r.m_interpolation =
        (if true = true ∧ ModelType.INTERPOLATED = ModelType.INTERPOLATED
          then (set_interpolation (construct []) [1, 256, 0]).m_interpolation.map convert
          else (set_interpolation (construct []) [1, 256, 0]).m_interpolation) ∧
      file = file_layout ModelType.INTERPOLATED scenario_words scenario1_store.m_order_count
        (scenario1_store.m_nodes.length : Int) (nodes_bytes false scenario1_store.m_nodes)) ∧
    ([(1 : Int), 256, 0].map convert = [16777216, 65536, 0]) ∧
    write true (set_interpolation (set_type scenario1_store ModelType.INTERPOLATED)
      [5, 6]) true = Except.error Fault.assertion ∧
    (∃ file s1,
      write true (set_interpolation (set_type scenario1_store ModelType.INTERPOLATED)
        [5, 6, 7]) true = Except.ok (file, s1) ∧
      read true (construct []) file = Except.error Fault.assertion) :=
  ⟨scenario1_store_built,
    (write_read_round_trip true true scenario_words 16 scenario1_calls scenario1_store
      (set_interpolation (construct []) [1, 256, 0]) ModelType.INTERPOLATED [5, 6, 7]
      scenario1_store_built (by decide) (by decide) (by decide) (by decide) (by decide)).1
      (fun _ _ => ⟨by decide, by decide⟩),
    by decide,
    (write_read_round_trip true true scenario_words 16 scenario1_calls scenario1_store
      (construct []) ModelType.INTERPOLATED [5, 6]
      scenario1_store_built (by decide) (by decide) (by decide) (by decide) (by decide)).2.1
      rfl rfl (by decide),
    (write_read_round_trip true true scenario_words 16 scenario1_calls scenario1_store
      (construct []) ModelType.INTERPOLATED [5, 6, 7]
      scenario1_store_built (by decide) (by decide) (by decide) (by decide) (by decide)).2.2
      rfl rfl (by decide) (by decide)⟩

/-! ## The inputs that `read` rejects -/

/-- C13 (counterexample): the file `cis-binlm2`, `backoff`, `1`, `<unk>`,
`0 0` has the header, a type line, the word count 1 with its word, and an
order line that declares order 0 and 0 nodes; there is no count line to sum
and the block of 0 bytes is complete.  `read` does not return a store: `fread`
of a block of size 0 returns 0. -/
theorem read_rejects_empty_model :
    empty_model_file = file_layout ModelType.BACKOFF ["<unk>"] [] 0 [] ∧
    ([] : List Int).sum = 0 ∧
    read false (construct []) empty_model_file = Except.error Fault.exit ∧
    read true (construct []) empty_model_file = Except.error Fault.exit := by
  have hf : empty_model_file = file_layout ModelType.BACKOFF ["<unk>"] [] 0 [] := by decide
  refine ⟨hf, rfl, ?_, ?_⟩
  · rw [hf, read_layout false (construct []) ModelType.BACKOFF ["<unk>"] [] 0 [] (by decide)
      (by decide) (by decide)]
    rfl
  · rw [hf, read_layout true (construct []) ModelType.BACKOFF ["<unk>"] [] 0 [] (by decide)
      (by decide) (by decide)]
    rfl

/-- C13 (amended): `read` stops the process, returning no store, on every
input whose first bytes are not the header, whose type line is neither
`backoff` nor `interpolated`, whose word count, read as an `int`, is less than
1, or, for a file of the layout whose numbers are 32-bit `int`s and whose
counts sum without overflow, whose counts do not sum to the declared number of
nodes.  It returns a store with the type, words, order and counts of the file
on every such file of the layout in which the counts sum to the declared
number of nodes, that number is at least 1, the block holds 16 bytes per node
and does not start with a white-space byte, and, on a big-endian host for an
interpolated model, the reading store has an interpolation vector of length
`order`. -/
theorem read_rejects_and_accepts (big : Bool) (r : TreeGram) :
    (∀ file : List Nat, file.take format_str.length ≠ format_str →
      read big r file = Except.error Fault.exit) ∧
    (∀ line rest : List Nat, (∀ b ∈ line, b ≠ 10) → line ≠ backoff_line →
      line ≠ interpolated_line →
      read big r (format_str ++ (line ++ 10 :: rest)) = Except.error Fault.exit) ∧
    (∀ (type : ModelType) (line rest : List Nat), (∀ b ∈ line, b ≠ 10) → atoi line < 1 →
      read big r (format_str ++ (type_line type ++ 10 :: (line ++ 10 :: rest))) =
        Except.error Fault.exit) ∧
    (∀ (type : ModelType) (words : List String) (counts : List Int) (n : Int)
      (block : List Nat), words ≠ [] → (∀ w ∈ words, line_safe w) →
      layout_32bit words counts n → counts.sum ≠ n →
      read big r (file_layout type words counts n block) = Except.error Fault.exit) ∧
    (∀ (type : ModelType) (words : List String) (counts : List Int) (n : Int)
      (block : List Nat), words ≠ [] → (∀ w ∈ words, line_safe w) →
      layout_32bit words counts n → counts.sum = n →
      1 ≤ n → n.toNat * 16 ≤ block.length →
      (∀ b, block.head? = some b → is_space b = false) →
      (big = true → type = ModelType.INTERPOLATED →
        r.m_interpolation.length = counts.length) →
      ∃ r1, read big r (file_layout type words counts n block) = Except.ok r1 ∧
        r1.m_type = type ∧ r1.m_words = words ∧ r1.m_order = (counts.length : Int) ∧
        r1.m_order_count = counts ∧ r1.m_nodes.length = n.toNat) := by
  refine ⟨?_, ?_, ?_, ?_, ?_⟩
  · intro file h
    unfold TreeGram.read
    rw [read_header_magic file h]
  · intro line rest hl h1 h2
    unfold TreeGram.read
    rw [read_header_line line rest hl, if_neg h1, if_neg h2]
  · intro type line rest hl h
    unfold TreeGram.read
    rw [read_header_type]
    simp only
    rw [read_vocabulary_count line rest hl, if_pos h]
  · intro type words counts n block hw hsafe h32 hs
    rw [read_layout big r type words counts n block hw hsafe h32, if_pos hs]
  · intro type words counts n block hw hsafe h32 hs hn hlen hhead hflip
    have hskip := skip_space_head block hhead
    rw [read_layout big r type words counts n block hw hsafe h32, if_neg (by simpa using hs),
      if_neg (by omega), hskip, if_neg (by omega)]
    have hnl : ∀ (k : Nat) (bs : List Nat), (nodes_of_bytes big k bs).length = k := by
      intro k
      induction k with
      | zero => intro bs; rfl
      | succ k ih => intro bs; simp [nodes_of_bytes, ih]
    cases big with
    | false =>
      simp only [Bool.false_eq_true, if_false]
      exact ⟨_, rfl, rfl, rfl, rfl, rfl, hnl _ _⟩
    | true =>
      simp only [if_true]
      obtain ⟨r1, hr, hn1, ht, ho, hwd, hc, _⟩ := flip_endian_ok
        { r with m_type := type, m_words := words, m_order := (counts.length : Int),
                 m_order_count := counts, m_nodes := nodes_of_bytes true n.toNat block }
        (fun ht => by
          have := hflip rfl ht
          simp only
          rw [this])
      refine ⟨r1, hr, ht, hwd, ho, hc, ?_⟩
      rw [hn1]
      simp [hnl]

/-- C13 (amended) on five files: three bytes of the header; the type line
`x`; the word count `0`; the layout of the first scenario with the counts `[4,
1, 2]` for six nodes; and the layout of the first scenario, which is read. -/
theorem read_rejects_and_accepts_witness :
    read false (construct []) [99, 105, 115] = Except.error Fault.exit ∧
    read false (construct []) (format_str ++ ([120] ++ 10 :: [])) = Except.error Fault.exit ∧
    read false (construct [])
      (format_str ++ (type_line ModelType.BACKOFF ++ 10 :: ([48] ++ 10 :: []))) =
        Except.error Fault.exit ∧
    read false (construct [])
      (file_layout ModelType.BACKOFF scenario_words [4, 1, 2] 6
        (nodes_bytes false scenario1_store.m_nodes)) = Except.error Fault.exit ∧
    ∃ r1, read false (construct [])
      (file_layout ModelType.BACKOFF scenario_words [4, 1, 1] 6
        (nodes_bytes false scenario1_store.m_nodes)) = Except.ok r1 ∧
      r1.m_type = ModelType.BACKOFF ∧ r1.m_words = scenario_words ∧
      r1.m_order = (([4, 1, 1] : List Int).length : Int) ∧
      r1.m_order_count = [4, 1, 1] ∧ r1.m_nodes.length = (6 : Int).toNat :=
  ⟨(read_rejects_and_accepts false (construct [])).1 [99, 105, 115] (by decide),
    (read_rejects_and_accepts false (construct [])).2.1 [120] [] (by decide) (by decide)
      (by decide),
    (read_rejects_and_accepts false (construct [])).2.2.1 ModelType.BACKOFF [48] []
      (by decide) (by decide),
    (read_rejects_and_accepts false (construct [])).2.2.2.1 ModelType.BACKOFF scenario_words
      [4, 1, 2] 6 (nodes_bytes false scenario1_store.m_nodes) (by decide) (by decide)
      (by decide) (by decide),
    (read_rejects_and_accepts false (construct [])).2.2.2.2 ModelType.BACKOFF scenario_words
      [4, 1, 1] 6 (nodes_bytes false scenario1_store.m_nodes) (by decide) (by decide)
      (by decide) (by decide) (by decide) (by decide) (block_head scenario1_store.m_nodes rfl)
      (fun h => by simp at h)⟩

/-! ## Repeated `next_order` calls -/

/-- One `next_order(order)` call from a valid path: it returns, and when it
returns true the new stack is the least valid path of length `order` after the
old one; when it returns false there is no such path. -/
theorem next_order_loop_least (s : TreeGram) (hw : iter_ready s) (order : Int) :
    ∀ (fuel : Nat) (P : List Int) (visited : List (List Int)), valid_path s P →
      (∀ V ∈ visited, valid_path s V ∧ V ≠ [] ∧ V ≤ P) → visited.Nodup →
      s.m_nodes.length + 1 ≤ visited.length + fuel →
      ∃ b st, next_order_loop s order fuel P = Except.ok (b, st) ∧ valid_path s st ∧
        st ≠ [] ∧
        (b = true → (st.length : Int) = order ∧ P < st) ∧
        (∀ R, valid_path s R → R ≠ [] → P < R → (R.length : Int) = order →
          b = true ∧ st ≤ R) := by
  intro fuel
  induction fuel with
  | zero =>
    intro P visited _ hvis hnd hlen
    exfalso
    have := visited_length_le s hw visited (fun V hV => ⟨(hvis V hV).1, (hvis V hV).2.1⟩) hnd
    omega
  | succ fuel ih =>
    intro P visited hv hvis hnd hlen
    obtain ⟨b, st, hrun, hvst, hstne, hstep, hleast⟩ := next_spec s hw P hv
    simp only [next_order_loop, hrun]
    cases b with
    | false =>
      refine ⟨false, st, rfl, hvst, hstne, by simp, ?_⟩
      intro R hR hRne hlt _
      have := (hleast R hR hRne hlt).1
      simp at this
    | true =>
      obtain ⟨hPst, _⟩ := hstep rfl
      simp only
      by_cases hord : (st.length : Int) = order
      · rw [if_pos hord]
        refine ⟨true, st, rfl, hvst, hstne, fun _ => ⟨hord, hPst⟩, ?_⟩
        intro R hR hRne hlt _
        exact ⟨rfl, (hleast R hR hRne hlt).2⟩
      · rw [if_neg hord]
        have hvis' : ∀ V ∈ st :: visited, valid_path s V ∧ V ≠ [] ∧ V ≤ st := by
          intro V hV
          rcases List.mem_cons.mp hV with h | h
          · subst h; exact ⟨hvst, hstne, le_refl _⟩
          · obtain ⟨a, b, c⟩ := hvis V h
            exact ⟨a, b, le_of_lt (lt_of_le_of_lt c hPst)⟩
        have hnd' : (st :: visited).Nodup := by
          refine List.nodup_cons.mpr ⟨?_, hnd⟩
          intro hmem
          have := (hvis st hmem).2.2
          exact absurd hPst (not_lt_of_le this)
        obtain ⟨b2, st2, h2, hv2, hne2, hs2, hl2⟩ :=
          ih st (st :: visited) hvst hvis' hnd' (by simp; omega)
        refine ⟨b2, st2, h2, hv2, hne2, ?_, ?_⟩
        · intro hb
          obtain ⟨a1, a2⟩ := hs2 hb
          exact ⟨a1, lt_trans hPst a2⟩
        · intro R hR hRne hlt hlenR
          obtain ⟨_, hle⟩ := hleast R hR hRne hlt
          rcases eq_or_lt_of_le hle with h | h
          · exfalso
            apply hord
            rw [h]
            exact hlenR
          · exact hl2 R hR hRne h hlenR

/-- The stops of repeated `next_order(order)` calls from a valid path: the
calls return, the stops are the valid paths of length `order` after the
starting path, in ascending order. -/
theorem order_stops_from_spec (s : TreeGram) (hw : iter_ready s) (order : Int)
    (h1 : 1 ≤ order) (h2 : order ≤ s.m_order) :
    ∀ (fuel : Nat) (P : List Int) (visited : List (List Int)), valid_path s P →
      (∀ V ∈ visited, valid_path s V ∧ V ≠ [] ∧ V ≤ P) → visited.Nodup →
      s.m_nodes.length + 1 ≤ visited.length + fuel →
      ∃ l, order_stops_from s order fuel P = Except.ok l ∧
        (∀ st ∈ l, valid_path s st ∧ st ≠ [] ∧ (st.length : Int) = order) ∧
        List.Chain (fun a b : List Int => a < b) P l ∧
        (∀ R, valid_path s R → R ≠ [] → P < R → (R.length : Int) = order → R ∈ l) := by
  intro fuel
  induction fuel with
  | zero =>
    intro P visited _ hvis hnd hlen
    exfalso
    have := visited_length_le s hw visited (fun V hV => ⟨(hvis V hV).1, (hvis V hV).2.1⟩) hnd
    omega
  | succ fuel ih =>
    intro P visited hv hvis hnd hlen
    obtain ⟨b, st, hrun, hvst, hstne, hstep, hleast⟩ :=
      next_order_loop_least s hw order (s.m_nodes.length + 1) P [] hv (by simp)
        List.nodup_nil (by simp)
    have hno : next_order s order P = Except.ok (b, st) := by
      unfold next_order
      rw [if_neg (by omega)]
      exact hrun
    simp only [order_stops_from, hno]
    cases b with
    | false =>
      refine ⟨[], rfl, by simp, List.Chain.nil, ?_⟩
      intro R hR hRne hlt hlenR
      have := (hleast R hR hRne hlt hlenR).1
      simp at this
    | true =>
      obtain ⟨hord, hPst⟩ := hstep rfl
      have hvis' : ∀ V ∈ st :: visited, valid_path s V ∧ V ≠ [] ∧ V ≤ st := by
        intro V hV
        rcases List.mem_cons.mp hV with h | h
        · subst h; exact ⟨hvst, hstne, le_refl _⟩
        · obtain ⟨a, b, c⟩ := hvis V h
          exact ⟨a, b, le_of_lt (lt_of_le_of_lt c hPst)⟩
      have hnd' : (st :: visited).Nodup := by
        refine List.nodup_cons.mpr ⟨?_, hnd⟩
        intro hmem
        have := (hvis st hmem).2.2
        exact absurd hPst (not_lt_of_le this)
      obtain ⟨l, hl, hall, hch, hcomp⟩ :=
        ih st (st :: visited) hvst hvis' hnd' (by simp; omega)
      simp only [hl]
      refine ⟨st :: l, rfl, ?_, List.Chain.cons hPst hch, ?_⟩
      · intro x hx
        rcases List.mem_cons.mp hx with h | h
        · subst h; exact ⟨hvst, hstne, hord⟩
        · exact hall x h
      · intro R hR hRne hlt hlenR
        obtain ⟨_, hle⟩ := hleast R hR hRne hlt hlenR
        rcases eq_or_lt_of_le hle with h | h
        · rw [← h]; exact List.mem_cons_self _ _
        · exact List.mem_cons_of_mem _ (hcomp R hR hRne h hlenR)

/-! ## Paths of one length are ordered like their last nodes -/

theorem last_lt_of_branch (s : TreeGram) (hw : iter_ready s) :
    ∀ (t1 t2 Q1 Q2 : List Int) (a b : Int), t1.length = t2.length → a < b →
      valid_path s (Q1 ++ [a] ++ t1) → valid_path s (Q2 ++ [b] ++ t2) →
      (Q1 ++ [a] ++ t1).getLast?.getD (-1) < (Q2 ++ [b] ++ t2).getLast?.getD (-1) := by
  intro t1
  induction t1 with
  | nil =>
    intro t2 Q1 Q2 a b hlen hab _ _
    have : t2 = [] := List.length_eq_zero.mp hlen.symm
    subst this
    simpa using hab
  | cons a1 t1 ih =>
    intro t2 Q1 Q2 a b hlen hab hv1 hv2
    cases t2 with
    | nil => simp at hlen
    | cons b1 t2 =>
      have e1 : Q1 ++ [a] ++ a1 :: t1 = (Q1 ++ [a]) ++ [a1] ++ t1 := by simp
      have e2 : Q2 ++ [b] ++ b1 :: t2 = (Q2 ++ [b]) ++ [b1] ++ t2 := by simp
      rw [e1] at hv1 ⊢
      rw [e2] at hv2 ⊢
      have ha := ((valid_path_concat s Q1 a a1).mp (valid_path_of_append s _ t1 hv1)).2
      have hb := ((valid_path_concat s Q2 b b1).mp (valid_path_of_append s _ t2 hv2)).2
      obtain ⟨a0, a2, a3⟩ := ha
      obtain ⟨b0, b2, b3⟩ := hb
      have hlt : a1 < b1 := by
        by_cases hs : a + 1 = b
        · rw [hs] at a3; omega
        · have := hw.mono (a + 1) b (by omega) (by omega) b0
          omega
      exact ih t2 (Q1 ++ [a]) (Q2 ++ [b]) a1 b1 (by simpa using hlen) hlt hv1 hv2

theorem last_lt_of_lt (s : TreeGram) (hw : iter_ready s) (P R : List Int)
    (hP : valid_path s P) (hR : valid_path s R) (hlen : P.length = R.length) (hlt : P < R) :
    P.getLast?.getD (-1) < R.getLast?.getD (-1) := by
  rcases lex_cases P R hlt with ⟨c, t, h⟩ | ⟨pre, a, b, t1, t2, h1, h2, hab⟩
  · exfalso
    rw [h] at hlen
    simp at hlen
  · subst h1 h2
    have hl : t1.length = t2.length := by simpa using hlen
    have e1 : pre ++ a :: t1 = pre ++ [a] ++ t1 := by simp
    have e2 : pre ++ b :: t2 = pre ++ [b] ++ t2 := by simp
    rw [e1] at hP ⊢
    rw [e2] at hR ⊢
    exact last_lt_of_branch s hw t1 t2 pre pre a b hl hab hP hR

theorem lt_of_last_lt (s : TreeGram) (hw : iter_ready s) (P R : List Int)
    (hP : valid_path s P) (hR : valid_path s R) (hlen : P.length = R.length)
    (hlt : P.getLast?.getD (-1) < R.getLast?.getD (-1)) : P < R := by
  rcases lt_trichotomy P R with h | h | h
  · exact h
  · subst h; omega
  · have := last_lt_of_lt s hw R P hR hP hlen.symm h
    omega

/-! ## The path that `find_path` returns starts at the unigram of the first word -/

theorem search_path_extends (s : TreeGram) : ∀ (ws : List Int) (prev : Int) (stack r : List Int),
    search_path s ws prev stack = Except.ok r → ∃ t, r = stack ++ t := by
  intro ws
  induction ws with
  | nil =>
    intro prev stack r h
    simp [search_path] at h
    exact ⟨[], by simp [h]⟩
  | cons w ws ih =>
    intro prev stack r h
    simp only [search_path] at h
    split at h
    · simp at h
    · next index hidx =>
      split at h
      · simp at h
      · obtain ⟨t, ht⟩ := ih index (stack ++ [index]) r h
        exact ⟨index :: t, by rw [ht]; simp⟩

theorem find_path_first (s : TreeGram) (g r : List Int) (h : find_path s g = Except.ok r)
    (hex : exact_stack s) (hstk : s.m_insert_stack = [] → s.m_last_gram.length ≤ 1)
    (hslip : no_stale_parent s.m_last_gram g) : r.head? = g.head? := by
  unfold find_path at h
  by_cases hg : ¬ (g.length > 1)
  · rw [if_pos hg] at h; simp at h
  rw [if_neg hg] at h
  have hg2 : 2 ≤ g.length := by omega
  obtain ⟨g0, g1, gt, hgeq⟩ : ∃ g0 g1 gt, g = g0 :: g1 :: gt := by
    match g, hg2 with
    | a :: b :: t, _ => exact ⟨a, b, t, rfl⟩
  have hdl : ∃ dt, g.dropLast = g0 :: dt := by
    rw [hgeq]
    exact ⟨(g1 :: gt).dropLast, by simp [List.dropLast]⟩
  obtain ⟨dt, hdt⟩ := hdl
  have hhead : g.head? = some g0 := by rw [hgeq]; rfl
  split at h
  · simp at h
  · next order hso =>
    simp only at h
    obtain ⟨_, hm2, hm3, _⟩ := shared_words_spec _ _ _ hso
    cases order with
    | zero =>
      simp only [resize, List.take_zero, List.nil_append, if_true, List.drop_zero,
        Nat.zero_sub, List.replicate_zero] at h
      rw [hdt] at h
      simp only [search_path] at h
      split at h
      · simp at h
      · next index hidx =>
        split at h
        · simp at h
        · next hpos =>
          obtain ⟨t, ht⟩ := search_path_extends s _ _ _ _ h
          have hi : index = g0 := by
            unfold find_child at hidx
            split at hidx
            · simp at hidx
            · rw [if_pos (by omega)] at hidx
              simp at hidx
              exact hidx.symm
          rw [ht, hhead, hi]
          rfl
    | succ m =>
      obtain ⟨t, ht⟩ := search_path_extends s _ _ _ _ h
      have h0 := hm3 0 (by omega)
      rw [hdt] at h0
      simp only [List.getElem?_cons_zero] at h0
      rw [ht, hhead]
      cases hst : s.m_insert_stack with
      | nil =>
        have hl1 := hstk hst
        obtain ⟨u, hu⟩ : ∃ u, s.m_last_gram = [u] := by
          match hlg : s.m_last_gram, hl1, hm2 with
          | [u], _, _ => exact ⟨u, rfl⟩
          | [], _, hm => simp at hm
        rw [hu] at h0
        simp at h0
        have := hslip (by rw [hu]; rfl) hg2 (by rw [hu, hhead, h0]; rfl)
        rw [hu] at this
        simp at this
        subst this
        subst h0
        simp [resize]
        rfl
      | cons x xs =>
        have hx : s.m_last_gram.head? = some x := by
          rcases hex with he | he
          · rw [hst] at he; simp at he
          · rw [hst] at he; simpa using he.symm
        have : s.m_last_gram[0]? = some x := by
          cases hl : s.m_last_gram with
          | nil => rw [hl] at hx; simp at hx
          | cons y ys => rw [hl] at hx; simpa using hx
        rw [this] at h0
        simp at h0
        subst h0
        simp [resize]

/-! ## Paths of the builder are valid paths and spell their grams -/

theorem valid_path_of_is_path (s : TreeGram) (stack words : List Int)
    (hp : is_path s.m_nodes (unigram_slots s) stack words) : valid_path s stack := by
  obtain ⟨hlen, h0, hstep⟩ := hp
  constructor
  · intro hpos
    have hx : stack[0]? = some (stack.getD 0 0) := by
      rw [List.getD_eq_getElem?_getD, List.getElem?_eq_getElem hpos]; rfl
    have hwv : words[0]? = some (words.getD 0 0) := by
      rw [List.getD_eq_getElem?_getD, List.getElem?_eq_getElem (by omega)]; rfl
    obtain ⟨a, b, _⟩ := h0 _ _ hx hwv
    exact ⟨a, b⟩
  · intro j hj
    have hx : stack[j]? = some (stack.getD j 0) := by
      rw [List.getD_eq_getElem?_getD, List.getElem?_eq_getElem (by omega)]; rfl
    have hy : stack[j + 1]? = some (stack.getD (j + 1) 0) := by
      rw [List.getD_eq_getElem?_getD, List.getElem?_eq_getElem (by omega)]; rfl
    have hwv : words[j + 1]? = some (words.getD (j + 1) 0) := by
      rw [List.getD_eq_getElem?_getD, List.getElem?_eq_getElem (by omega)]; rfl
    obtain ⟨_, a, b, c, _⟩ := hstep j _ _ _ hx hy hwv
    exact ⟨a, b, c⟩

theorem spell_of_is_path (s : TreeGram) (stack words : List Int)
    (hp : is_path s.m_nodes (unigram_slots s) stack words) (hhead : stack.head? = words.head?)
    (huni : ∀ i, 0 ≤ i → i < unigram_slots s → word_at s.m_nodes i = i) :
    spell s stack = words := by
  obtain ⟨hlen, h0, hstep⟩ := hp
  apply List.ext_getElem?
  intro j
  unfold spell
  rw [List.getElem?_map]
  by_cases hj : j < stack.length
  · have hx : stack[j]? = some stack[j] := List.getElem?_eq_getElem hj
    have hwv : words[j]? = some words[j] := List.getElem?_eq_getElem (by omega)
    rw [hx, hwv]
    simp only [Option.map_some', Option.some.injEq]
    cases j with
    | zero =>
      obtain ⟨a, b, _⟩ := h0 _ _ hx hwv
      have e : stack[0] = words[0] := by
        have h1 : stack.head? = some stack[0] := by
          rw [List.head?_eq_getElem?, hx]
        have h2 : words.head? = some words[0] := by
          rw [List.head?_eq_getElem?, hwv]
        rw [h1, h2] at hhead
        exact Option.some.inj hhead
      rw [huni _ a b, e]
    | succ j =>
      have hx0 : stack[j]? = some stack[j] := List.getElem?_eq_getElem (by omega)
      obtain ⟨_, _, _, _, hw⟩ := hstep j _ _ _ hx0 hx hwv
      exact hw
  · rw [List.getElem?_eq_none (by omega), List.getElem?_eq_none (by omega)]
    rfl

theorem valid_path_mem_range (s : TreeGram) (hsb : store_bounds s) :
    ∀ (P : List Int), valid_path s P → ∀ x ∈ P, 0 ≤ x ∧ x < (s.m_nodes.length : Int) := by
  intro P
  induction P using List.reverseRecOn with
  | nil => intro _ x hx; simp at hx
  | append_singleton Q e ih =>
    intro hv x hx
    rcases List.mem_append.mp hx with h | h
    · exact ih (valid_path_of_append s Q [e] hv) x h
    · simp at h
      subst h
      obtain ⟨_, hs1, hs2, hci⟩ := hsb
      rcases nil_or_snoc Q with hQ | ⟨Q1, q, hQ⟩
      · subst hQ
        have := (valid_path_singleton s x).mp hv
        omega
      · subst hQ
        obtain ⟨_, r0, r1, r2⟩ := (valid_path_concat s Q1 q x).mp hv
        rcases hci (q + 1) with h1 | h1 <;> omega

/-! ## The paths of the nodes along a build -/

theorem valid_path_transfer (s s1 : TreeGram) (hslots : unigram_slots s ≤ unigram_slots s1)
    (hrange : ∀ q e, in_child_range s q e → in_child_range s1 q e) (P : List Int)
    (hv : valid_path s P) : valid_path s1 P := by
  obtain ⟨h0, hj⟩ := hv
  constructor
  · intro hpos
    have := h0 hpos
    omega
  · intro j hjlt
    exact hrange _ _ (hj j hjlt)

theorem spell_transfer (s s1 : TreeGram) (P : List Int)
    (h : ∀ x ∈ P, word_at s1.m_nodes x = word_at s.m_nodes x) : spell s1 P = spell s P := by
  unfold spell
  exact List.map_congr_left h

theorem deepest_append (paths : List (List Int)) (Q : List Int) (x : Int) :
    deepest (paths ++ [Q ++ [x]]) = deepest paths ++ [x] := by
  simp [deepest]

theorem range_cast_succ (n : Nat) :
    (List.range (n + 1)).map (fun i : Nat => (i : Int)) =
      (List.range n).map (fun i : Nat => (i : Int)) ++ [(n : Int)] := by
  rw [List.range_succ, List.map_append]
  rfl

theorem node_paths_extend (s s1 : TreeGram) (grams paths : List (List Int)) (Q g : List Int)
    (hnp : node_paths s grams paths) (hsb : store_bounds s)
    (hlen : s1.m_nodes.length = s.m_nodes.length + 1)
    (hslots : unigram_slots s ≤ unigram_slots s1)
    (hrange : ∀ q e, in_child_range s q e → in_child_range s1 q e)
    (hword : ∀ x, x ≠ (s.m_nodes.length : Int) → word_at s1.m_nodes x = word_at s.m_nodes x)
    (hnew : valid_path s1 (Q ++ [(s.m_nodes.length : Int)]))
    (hspell : spell s1 (Q ++ [(s.m_nodes.length : Int)]) = g) :
    node_paths s1 (grams ++ [g]) (paths ++ [Q ++ [(s.m_nodes.length : Int)]]) := by
  obtain ⟨h1, h2, h3⟩ := hnp
  refine ⟨?_, ?_, ?_⟩
  · rw [deepest_append, h1, hlen, range_cast_succ]
  · intro P hP
    rcases List.mem_append.mp hP with h | h
    · exact ⟨valid_path_transfer s s1 hslots hrange P (h2 P h).1, (h2 P h).2⟩
    · simp at h
      subst h
      exact ⟨hnew, by simp⟩
  · rw [List.map_append, List.map_singleton, hspell, ← h3]
    congr 1
    apply List.map_congr_left
    intro P hP
    apply spell_transfer
    intro x hx
    have := valid_path_mem_range s hsb P (h2 P hP).1 x hx
    exact hword x (by omega)

theorem node_paths_same (s s1 : TreeGram) (grams paths : List (List Int))
    (hnp : node_paths s grams paths)
    (hlen : s1.m_nodes.length = s.m_nodes.length)
    (hslots : unigram_slots s ≤ unigram_slots s1)
    (hrange : ∀ q e, in_child_range s q e → in_child_range s1 q e)
    (hword : ∀ x, word_at s1.m_nodes x = word_at s.m_nodes x) :
    node_paths s1 grams paths := by
  obtain ⟨h1, h2, h3⟩ := hnp
  refine ⟨by rw [h1, hlen], ?_, ?_⟩
  · intro P hP
    exact ⟨valid_path_transfer s s1 hslots hrange P (h2 P hP).1, (h2 P hP).2⟩
  · rw [← h3]
    apply List.map_congr_left
    intro P _
    exact spell_transfer s s1 P (fun x _ => hword x)

/-- The effect of an accepted unigram call on the arrays that the iterator
reads. -/
theorem unigram_insert_facts (s s1 : TreeGram) (w lv bv : Int) (hinv : tree_inv s)
    (h : add_gram s [w] lv bv = Except.ok s1) :
    s.m_order_count.length = 1 ∧ s1.m_insert_stack = s.m_insert_stack ∧
    s1.m_last_gram = [w] ∧
    (∀ i, child_index_at s1.m_nodes i = child_index_at s.m_nodes i) ∧
    (w = 0 → s1.m_nodes.length = s.m_nodes.length ∧ unigram_slots s1 = unigram_slots s ∧
      ∀ i, word_at s1.m_nodes i = word_at s.m_nodes i) ∧
    (w ≠ 0 → s1.m_nodes.length = s.m_nodes.length + 1 ∧
      unigram_slots s1 = unigram_slots s + 1 ∧
      unigram_slots s = (s.m_nodes.length : Int) ∧ w = (s.m_nodes.length : Int) ∧
      ∀ i, word_at s1.m_nodes i = if i = (s.m_nodes.length : Int) then w
        else word_at s.m_nodes i) := by
  obtain ⟨hb, hsb, huni, hcov⟩ := hinv
  obtain ⟨hco, s2, s3, hu, hi, _, hs1eq⟩ := add_gram_steps s s1 [w] lv bv h
  have hk1 : 1 ≤ s.m_order_count.length := by
    have := hsb.2.1
    unfold unigram_slots at this
    cases hc : s.m_order_count with
    | nil => rw [hc] at this; simp at this
    | cons a t => simp
  obtain ⟨hlen1, hn2, _, hst2, hw0, hwn⟩ := update_counts_unigram s s2 w hu hk1
  have hi2 : add_unigram s2 w lv bv = Except.ok s3 := by simpa [insert_node] using hi
  obtain ⟨hc3, _, hst3, he0, hen⟩ := add_unigram_effect s2 s3 w lv bv hi2
  have hwords := add_unigram_words s2 s3 w lv bv hi2
  rw [hn2] at hwords he0 hen
  have hn1 : s1.m_nodes = s3.m_nodes := by rw [hs1eq]
  have hc1 : s1.m_order_count = s3.m_order_count := by rw [hs1eq]
  have hst1 : s1.m_insert_stack = s.m_insert_stack := by rw [hs1eq]; simp only; rw [hst3, hst2]
  have hlg : s1.m_last_gram = [w] := by rw [hs1eq]
  obtain ⟨F, hshape, _, _⟩ := hb
  have hslots : unigram_slots s = (s.m_nodes.length : Int) := by
    rw [← level_start_one, ← hlen1]
    exact hshape.Ltop _ (le_refl _)
  obtain ⟨c, hc⟩ : ∃ c, s.m_order_count = [c] := by
    match hcc : s.m_order_count, hlen1 with
    | [c], _ => exact ⟨c, rfl⟩
  have hsc : unigram_slots s = c := by simp [unigram_slots, hc]
  refine ⟨hlen1, hst1, hlg, ?_, ?_, ?_⟩
  · intro i
    rw [hn1]
    by_cases hw : w = 0
    · exact (he0 hw).2 i
    · rw [(hen hw).2 i]
      by_cases hi : i = (s.m_nodes.length : Int)
      · rw [if_pos hi, child_index_at_out s.m_nodes i (Or.inr (by omega))]
      · rw [if_neg hi]
  · intro hw
    obtain ⟨hl, _⟩ := he0 hw
    refine ⟨by rw [hn1]; exact_mod_cast hl, ?_, ?_⟩
    · rw [unigram_slots, hc1, hc3, hw0 hw]; rfl
    · intro i
      rw [hn1, hwords i]
      simp [hw]
  · intro hw
    obtain ⟨hl, _⟩ := hen hw
    have hcn : s3.m_order_count = [c + 1] := by rw [hc3]; exact hwn hw c hc
    refine ⟨by rw [hn1]; exact_mod_cast hl, ?_, hslots, check_order_unigram s w hco hw, ?_⟩
    · rw [unigram_slots, hc1, hcn, hsc]; rfl
    · intro i
      rw [hn1, hwords i]
      by_cases hi : i = (s.m_nodes.length : Int)
      · rw [if_pos ⟨hw, hi⟩, if_pos hi]
      · rw [if_neg (fun hh => hi hh.2), if_neg hi]

theorem node_paths_unigram (s s1 : TreeGram) (w lv bv : Int) (grams paths : List (List Int))
    (hinv : tree_inv s) (h : add_gram s [w] lv bv = Except.ok s1)
    (hnp : node_paths s grams paths) :
    ∃ paths1, node_paths s1 (grams ++ ([[w]].filter (fun g => g ≠ [0]))) paths1 := by
  obtain ⟨_, _, _, hci, h0, hn⟩ := unigram_insert_facts s s1 w lv bv hinv h
  have hrange : ∀ q e, in_child_range s q e → in_child_range s1 q e := by
    intro q e hr
    unfold in_child_range at hr ⊢
    rw [hci q, hci (q + 1)]
    exact hr
  by_cases hw : w = 0
  · obtain ⟨a1, a2, a3⟩ := h0 hw
    refine ⟨paths, ?_⟩
    have : ([[w]].filter (fun g : List Int => g ≠ [0])) = [] := by simp [hw]
    rw [this, List.append_nil]
    exact node_paths_same s s1 grams paths hnp a1 (by omega) hrange a3
  · obtain ⟨a1, a2, a3, a4, a5⟩ := hn hw
    refine ⟨paths ++ [[] ++ [(s.m_nodes.length : Int)]], ?_⟩
    have : ([[w]].filter (fun g : List Int => g ≠ [0])) = [[w]] := by simp [hw]
    rw [this]
    refine node_paths_extend s s1 grams paths [] [w] hnp hinv.2.1 a1 (by omega) hrange ?_ ?_ ?_
    · intro x hx
      rw [a5 x, if_neg hx]
    · rw [List.nil_append]
      exact (valid_path_singleton s1 _).mpr ⟨by omega, by omega⟩
    · simp [spell, a5]

theorem node_paths_higher (s s1 : TreeGram) (g : List Int) (lv bv : Int)
    (grams paths : List (List Int)) (hinv : tree_inv s)
    (h : add_gram s g lv bv = Except.ok s1) (hg : 2 ≤ g.length)
    (hd : ∀ w, g.head? = some w → w < unigram_slots s)
    (hex : exact_stack s) (hslip : no_stale_parent s.m_last_gram g)
    (hnp : node_paths s grams paths) :
    exact_stack s1 ∧ ∃ paths1, node_paths s1 (grams ++ [g]) paths1 := by
  have hinv1 := tree_inv_higher s s1 g lv bv hinv h hg hd
  obtain ⟨hb, hsb, huni, hcov⟩ := hinv
  obtain ⟨F, p, w, r, hshape, hFp, hp0, hp1, hgl, hn', hci', hwd', hslots, hfp, hrl, hstack,
    hpath, hpath1⟩ := higher_insert_facts s s1 g lv bv hb h hg hd
  have hstk : s.m_insert_stack = [] → s.m_last_gram.length ≤ 1 := by
    intro hnil
    obtain ⟨F0, _, _, hU | hH⟩ := hb
    · exact hU.2.2.2.2.1
    · exfalso
      have := hH.2.2.1.1
      rw [hnil, hH.2.1] at this
      have := hH.1
      simp at *
      omega
  have hfirst := find_path_first s g r hfp hex hstk hslip
  obtain ⟨hco, s2, s3, _, _, _, hs1eq⟩ := add_gram_steps s s1 g lv bv h
  have hlg : s1.m_last_gram = g := by rw [hs1eq]
  have hrne : r ≠ [] := by
    intro hr; rw [hr] at hrl; simp at hrl
  have hhead1 : s1.m_insert_stack.head? = g.head? := by
    rw [hstack, ← hfirst]
    cases r with
    | nil => exact absurd rfl hrne
    | cons x xs => rfl
  refine ⟨Or.inr (by rw [hhead1, hlg]), ?_⟩
  have hrange : ∀ q e, in_child_range s q e → in_child_range s1 q e := by
    intro q e ⟨r0, r1, r2⟩
    unfold in_child_range
    obtain ⟨_, _, _, hq0, hq1⟩ := node_at_of_child_index s.m_nodes q r0
    have hq2 : q + 1 ≠ p + 2 := by
      intro he
      have : F < q + 1 := by omega
      have := hshape.f2 (q + 1) this
      omega
    have hbq := hshape.bound (q + 1)
    rw [hci' q, hci' (q + 1)]
    by_cases e1 : q = p
    · subst e1
      rw [if_neg (by omega), if_pos rfl, if_pos rfl, if_neg (by omega)]
      omega
    · by_cases e2 : q = p + 1
      · exfalso; apply hq2; omega
      · rw [if_neg e2, if_neg e1, if_neg (by omega), if_neg (by omega)]
        by_cases e3 : q + 1 = p
        · rw [if_pos e3, ← e3, if_neg (by omega)]
          omega
        · rw [if_neg e3]
          by_cases e4 : q + 1 = (s.m_nodes.length : Int)
          · exfalso
            have := child_index_at_out s.m_nodes (q + 1) (Or.inr (by omega))
            omega
          · rw [if_neg e4]
            omega
  refine ⟨paths ++ [r ++ [(s.m_nodes.length : Int)]], ?_⟩
  have hlenN : s1.m_nodes.length = s.m_nodes.length + 1 := by exact_mod_cast hn'
  rw [hstack] at hpath1 hhead1
  refine node_paths_extend s s1 grams paths r g hnp hsb hlenN (by omega) hrange ?_ ?_ ?_
  · intro x hx
    rw [hwd' x, if_neg hx]
  · exact valid_path_of_is_path s1 _ g hpath1
  · exact spell_of_is_path s1 _ g hpath1 hhead1 hinv1.2.2.1

theorem node_paths_add_grams (calls : List (List Int × Int × Int)) :
    ∀ (s0 s : TreeGram) (grams paths : List (List Int)), tree_inv s0 → exact_stack s0 →
      node_paths s0 grams paths → add_grams s0 calls = Except.ok s →
      heads_are_unigrams calls s →
      parents_fresh_from s0.m_last_gram calls →
      ∃ paths1, node_paths s (grams ++ (calls.map Prod.fst).filter (fun g => g ≠ [0])) paths1 := by
  induction calls with
  | nil =>
    intro s0 s grams paths _ _ hnp h _ _
    simp [add_grams] at h
    subst h
    exact ⟨paths, by simpa using hnp⟩
  | cons c rest ih =>
    intro s0 s grams paths hinv hex hnp h hd hch
    simp only [add_grams] at h
    split at h
    · simp at h
    · next s2 h2 =>
      have hrest : heads_are_unigrams rest s := by
        intro c' hc' hl
        exact hd c' (List.mem_cons_of_mem _ hc') hl
      obtain ⟨hslip, hch2⟩ := hch
      obtain ⟨_, t2, t3, _, e3, _, hs2eq⟩ := add_gram_steps _ _ _ _ _ h2
      have hlg : s2.m_last_gram = c.1 := by rw [hs2eq]
      have hsplit : (List.map Prod.fst (c :: rest)).filter (fun g => g ≠ [0]) =
          ([c.1].filter (fun g => g ≠ [0])) ++ (rest.map Prod.fst).filter (fun g => g ≠ [0]) := by
        rw [List.map_cons, ← List.filter_append]
        rfl
      rw [hsplit, ← List.append_assoc]
      by_cases hg : 2 ≤ c.1.length
      · obtain ⟨a1, a2⟩ := add_gram_slots_higher _ _ _ _ _ h2 hg
        have hfr := slots_frozen rest s2 s h a2
        have hc := hd c (List.mem_cons_self _ _) hg
        rw [hfr, a1] at hc
        have hd0 : ∀ w, c.1.head? = some w → w < unigram_slots s0 := by
          intro w hw
          cases hcl : c.1 with
          | nil => rw [hcl] at hw; simp at hw
          | cons x xs =>
            rw [hcl] at hw hc
            simp at hw hc
            omega
        have hinv2 := tree_inv_higher s0 s2 c.1 c.2.1 c.2.2 hinv h2 hg hd0
        obtain ⟨hex2, paths2, hnp2⟩ :=
          node_paths_higher s0 s2 c.1 c.2.1 c.2.2 grams paths hinv h2 hg hd0 hex hslip hnp
        have hne : c.1 ≠ [0] := by
          intro he; rw [he] at hg; simp at hg
        have hf : ([c.1].filter (fun g : List Int => g ≠ [0])) = [c.1] := by simp [hne]
        rw [hf]
        exact ih s2 s _ paths2 hinv2 hex2 hnp2 h hrest (by rw [hlg]; exact hch2)
      · cases hcl : c.1 with
        | nil =>
          rw [hcl] at e3
          simp [insert_node] at e3
        | cons x xs =>
          cases xs with
          | nil =>
            rw [hcl] at h2 hlg hch2
            have hinv2 := tree_inv_unigram s0 s2 x c.2.1 c.2.2 hinv h2
            obtain ⟨f1, f2, _⟩ := unigram_insert_facts s0 s2 x c.2.1 c.2.2 hinv h2
            have hex2 : exact_stack s2 := by
              left
              rw [f2]
              obtain ⟨F0, _, _, hU | hH⟩ := hinv.1
              · exact hU.2.1
              · have := hH.1
                omega
            obtain ⟨paths2, hnp2⟩ :=
              node_paths_unigram s0 s2 x c.2.1 c.2.2 grams paths hinv h2 hnp
            exact ih s2 s _ paths2 hinv2 hex2 hnp2 h hrest (by rw [hlg]; exact hch2)
          | cons y ys =>
            rw [hcl] at hg
            simp at hg

/-- The nodes of a built store, in the order of the node array, are reached by
valid paths that spell the root gram `[0]` and the grams of the calls. -/
theorem node_paths_build (words : List String) (capacity : Int)
    (calls : List (List Int × Int × Int)) (s : TreeGram)
    (hb : build words capacity calls = Except.ok s) (hd : heads_are_unigrams calls s)
    (hfresh : parents_fresh calls) :
    ∃ paths, node_paths s (node_grams calls) paths := by
  have h0 : node_paths (install_root (construct words)) [[0]] [[0]] := by
    refine ⟨rfl, ?_, rfl⟩
    intro P hP
    simp at hP
    subst hP
    exact ⟨(valid_path_singleton _ 0).mpr ⟨le_refl _, by simp [install_root, unigram_slots]⟩,
      by simp⟩
  exact node_paths_add_grams calls _ s [[0]] [[0]] (tree_inv_reserve words capacity)
    (Or.inl rfl) h0 (build_steps _ _ _ _ hb).2 hd hfresh

/-! ## The stops of `next_order` on a built store -/

theorem range_cast_pairwise (n : Nat) :
    ((List.range n).map (fun i : Nat => (i : Int))).Pairwise (fun a b => a < b) := by
  rw [List.pairwise_map]
  exact (List.pairwise_lt_range n).imp (fun h => by exact_mod_cast h)

/-- On a store that the iterator can traverse, with a list of the paths of
its nodes: the `next_order(k)` calls stop at the paths of length `k`, in the
order of the node array. -/
theorem order_stops_of_paths (s : TreeGram) (hw : iter_ready s) (k : Int) (hk1 : 1 ≤ k)
    (hk2 : k ≤ s.m_order) (grams paths : List (List Int)) (hnp : node_paths s grams paths) :
    ∃ stops, order_stops s k = Except.ok stops ∧
      (∀ st ∈ stops, valid_path s st ∧ (st.length : Int) = k) ∧
      stops = paths.filter (fun P => decide ((P.length : Int) = k)) ∧
      stops.map (spell s) = grams.filter (fun g => decide ((g.length : Int) = k)) := by
  obtain ⟨hdeep, hvalid, hspell⟩ := hnp
  have hv0 : valid_path s [] := by
    unfold valid_path; simp
  obtain ⟨l, hl, hall, hch, hcomp⟩ :=
    order_stops_from_spec s hw k hk1 hk2 (s.m_nodes.length + 1) [] [] hv0 (by simp)
      List.nodup_nil (by simp)
  have hchain : List.Chain' (fun a b : List Int => a < b) l :=
    (show List.Chain' (fun a b : List Int => a < b) ([] :: l) from hch).tail
  have hsl : l.Pairwise (fun a b : List Int => a < b) := List.chain'_iff_pairwise.mp hchain
  have hpw : paths.Pairwise
      (fun P R : List Int => P.getLast?.getD (-1) < R.getLast?.getD (-1)) := by
    have := range_cast_pairwise s.m_nodes.length
    rw [← hdeep] at this
    unfold deepest at this
    exact List.pairwise_map.mp this
  have hmemF : ∀ P, P ∈ paths.filter (fun P => decide ((P.length : Int) = k)) ↔
      P ∈ paths ∧ (P.length : Int) = k := by
    intro P
    simp [List.mem_filter]
  have hsF : (paths.filter (fun P => decide ((P.length : Int) = k))).Pairwise
      (fun a b : List Int => a < b) := by
    refine List.Pairwise.imp_of_mem ?_ (hpw.filter _)
    intro a b ha hb hab
    obtain ⟨ha1, ha2⟩ := (hmemF a).mp ha
    obtain ⟨hb1, hb2⟩ := (hmemF b).mp hb
    exact lt_of_last_lt s hw a b (hvalid a ha1).1 (hvalid b hb1).1 (by omega) hab
  have hmem : ∀ R, R ∈ l ↔ R ∈ paths.filter (fun P => decide ((P.length : Int) = k)) := by
    intro R
    rw [hmemF]
    constructor
    · intro hR
      obtain ⟨hv, hne, hlen⟩ := hall R hR
      refine ⟨?_, hlen⟩
      rcases nil_or_snoc R with h | ⟨Q, y, h⟩
      · exact absurd h hne
      subst h
      obtain ⟨hy0, hy1⟩ := valid_path_last_range s hw Q y hv
      have hyd : y ∈ deepest paths := by
        rw [hdeep, List.mem_map]
        exact ⟨y.toNat, List.mem_range.mpr (by omega), by omega⟩
      unfold deepest at hyd
      obtain ⟨P, hP, hPy⟩ := List.mem_map.mp hyd
      obtain ⟨hvP, hneP⟩ := hvalid P hP
      have : P = Q ++ [y] := by
        apply valid_path_unique s hw P.length P (Q ++ [y]) rfl hvP hv hneP hne
        rcases nil_or_snoc P with h | ⟨A, a, h⟩
        · exact absurd h hneP
        subst h
        simp at hPy
        simp [hPy]
      rw [← this]
      exact hP
    · intro ⟨hP, hlen⟩
      obtain ⟨hv, hne⟩ := hvalid R hP
      refine hcomp R hv hne ?_ hlen
      cases R with
      | nil => exact absurd rfl hne
      | cons a t => exact List.Lex.nil
  have hperm : l.Perm (paths.filter (fun P => decide ((P.length : Int) = k))) :=
    (List.perm_ext_iff_of_nodup (hsl.imp (fun h => ne_of_lt h))
      (hsF.imp (fun h => ne_of_lt h))).mpr hmem
  have heq : l = paths.filter (fun P => decide ((P.length : Int) = k)) :=
    List.eq_of_perm_of_sorted hperm hsl hsF
  refine ⟨l, hl, fun st hst => ⟨(hall st hst).1, (hall st hst).2.2⟩, heq, ?_⟩
  rw [heq, ← hspell, List.filter_map]
  congr 1
  apply List.filter_congr
  intro P _
  simp [spell]

theorem one_bigram_order_stops :
    order_stops one_bigram_store 1 = Except.ok [[0], [1], [2], [3]] := by
  decide

theorem scenario1_order_stops :
    order_stops scenario1_store 3 = Except.error Fault.out_of_bounds := by
  decide

/-- C18 (as stated, refuted): on the store built from the unigrams `a`, `b`,
`c` and the bigram `(a, a)`, repeated `next_order(1)` calls return true four
times, at the stacks `[0]`, `[1]`, `[2]`, `[3]`, while three unigrams were
inserted: the first stop is the root node that `reserve_nodes` installs, and
it spells `[0]`, which no call inserted.  On the store of the first scenario
the `next_order(3)` calls do not come to a call that returns false: after the
stop at `[1, 4, 5]` the next call reads the node after the last one. -/
theorem next_order_stops_at_root :
    build scenario_words 16 one_bigram_calls = Except.ok one_bigram_store ∧
    order_stops one_bigram_store 1 = Except.ok [[0], [1], [2], [3]] ∧
    spell one_bigram_store [0] = [0] ∧
    (one_bigram_calls.map Prod.fst).filter (fun g => decide (g.length = 1)) =
      [[1], [2], [3]] ∧
    build scenario_words 16 scenario1_calls = Except.ok scenario1_store ∧
    next_order scenario1_store 3 [] = Except.ok (true, [1, 4, 5]) ∧
    next_order scenario1_store 3 [1, 4, 5] = Except.error Fault.out_of_bounds ∧
    order_stops scenario1_store 3 = Except.error Fault.out_of_bounds :=
  ⟨one_bigram_store_built, one_bigram_order_stops, by decide, by decide,
    scenario1_store_built, by decide, by decide, scenario1_order_stops⟩

/-- C18 (amended): on a store built by `reserve_nodes` and accepted `add_gram`
calls in which every gram of two or more words starts with a word id below
`order_count[0]`, no gram of two or more words follows a unigram of its own
first word other than 0, and whose last node has `child_index = -1`, for every
`k` with `1 <= k <= order` the repeated `next_order(k)` calls on a fresh
iterator return true a number of times and then false; every stop is a valid
path of depth `k`, and the grams spelled at the stops are, in this order, the
grams of length `k` among the root gram `[0]` and the grams of the calls other
than updates of `[0]`. -/
theorem next_order_stops_spell_node_grams (words : List String) (capacity : Int)
    (calls : List (List Int × Int × Int)) (s : TreeGram) (k : Int)
    (hb : build words capacity calls = Except.ok s) (hd : heads_are_unigrams calls s)
    (hfresh : parents_fresh calls)
    (hlast : child_index_at s.m_nodes ((s.m_nodes.length : Int) - 1) = -1)
    (hk1 : 1 ≤ k) (hk2 : k ≤ s.m_order) :
    ∃ stops, order_stops s k = Except.ok stops ∧
      (∀ st ∈ stops, valid_path s st ∧ (st.length : Int) = k) ∧
      stops.map (spell s) =
        (node_grams calls).filter (fun g => decide ((g.length : Int) = k)) := by
  have hw := iter_ready_of_tree_inv s (tree_inv_build words capacity calls s hb hd) hlast
  obtain ⟨paths, hnp⟩ := node_paths_build words capacity calls s hb hd hfresh
  obtain ⟨stops, h1, h2, _, h4⟩ := order_stops_of_paths s hw k hk1 hk2 _ paths hnp
  exact ⟨stops, h1, h2, h4⟩

/-- C18 (amended) on the store of three unigrams and the bigram `(a, a)`:
`next_order(2)` stops once, at `[1, 4]`, which spells `(a, a)`. -/
theorem next_order_stops_spell_node_grams_witness :
    build scenario_words 16 one_bigram_calls = Except.ok one_bigram_store ∧
    heads_are_unigrams one_bigram_calls one_bigram_store ∧
    parents_fresh one_bigram_calls ∧
    child_index_at one_bigram_store.m_nodes ((one_bigram_store.m_nodes.length : Int) - 1) = -1 ∧
    order_stops one_bigram_store 2 = Except.ok [[1, 4]] ∧
    (node_grams one_bigram_calls).filter (fun g => decide ((g.length : Int) = 2)) = [[1, 1]] ∧
    ∃ stops, order_stops one_bigram_store 2 = Except.ok stops ∧
      (∀ st ∈ stops, valid_path one_bigram_store st ∧ (st.length : Int) = 2) ∧
      stops.map (spell one_bigram_store) =
        (node_grams one_bigram_calls).filter (fun g => decide ((g.length : Int) = 2)) :=
  ⟨one_bigram_store_built, by decide, by decide, by decide, by decide, by decide,
    next_order_stops_spell_node_grams scenario_words 16 one_bigram_calls one_bigram_store 2
      one_bigram_store_built (by decide) (by decide) (by decide) (by decide) (by decide)⟩

/-! ## The search in a child range finds the word -/

theorem linear_scan_complete (nodes : List Node) (word : Int) :
    ∀ (n : Nat) (first : Int), 0 ≤ first → first + n ≤ (nodes.length : Int) →
      ∃ idx, linear_scan nodes word n first = Except.ok idx ∧
        ((first ≤ idx ∧ idx < first + n ∧ word_at nodes idx = word) ∨
         (idx = -1 ∧ ∀ r, first ≤ r → r < first + n → word_at nodes r ≠ word)) := by
  intro n
  induction n with
  | zero =>
    intro first _ _
    exact ⟨-1, rfl, Or.inr ⟨rfl, fun r h1 h2 => by simp at h2; omega⟩⟩
  | succ n ih =>
    intro first h0 h1
    simp only [linear_scan]
    obtain ⟨nd, hnd⟩ := node_at_in_bounds nodes first h0 (by push_cast at h1; omega)
    have hwd := word_at_of_ok nodes first nd hnd
    rw [hnd]
    simp only
    by_cases hw : nd.word = word
    · rw [if_pos hw]
      exact ⟨first, rfl, Or.inl ⟨le_refl _, by push_cast; omega, by rw [hwd]; exact hw⟩⟩
    · rw [if_neg hw]
      obtain ⟨idx, hidx, hcase⟩ := ih (first + 1) (by omega) (by push_cast at h1 ⊢; omega)
      refine ⟨idx, hidx, ?_⟩
      rcases hcase with ⟨a, b, c⟩ | ⟨a, b⟩
      · exact Or.inl ⟨by omega, by push_cast at b ⊢; omega, c⟩
      · refine Or.inr ⟨a, ?_⟩
        intro r hr1 hr2
        by_cases hr : r = first
        · rw [hr, hwd]; exact hw
        · exact b r (by omega) (by push_cast at hr2 ⊢; omega)

theorem binary_search_loop_complete (nodes : List Node) (word : Int) :
    ∀ (fuel : Nat) (first last : Int), 0 ≤ first → last ≤ (nodes.length : Int) →
      (last - first).toNat ≤ fuel →
      (∀ a b, first ≤ a → a < b → b < last → word_at nodes a < word_at nodes b) →
      ∃ idx, binary_search_loop nodes word fuel first last = Except.ok idx ∧
        ((first ≤ idx ∧ idx < last ∧ word_at nodes idx = word) ∨
         (idx = -1 ∧ ∀ r, first ≤ r → r < last → word_at nodes r ≠ word)) := by
  intro fuel
  induction fuel with
  | zero =>
    intro first last h0 h1 hf _
    unfold binary_search_loop
    have : ¬ last - first > 5 := by omega
    rw [if_neg this]
    have e : (last - first).toNat = 0 := by omega
    rw [e]
    exact ⟨-1, rfl, Or.inr ⟨rfl, fun r h1 h2 => by omega⟩⟩
  | succ fuel ih =>
    intro first last h0 h1 hf hs
    unfold binary_search_loop
    by_cases hlen : last - first > 5
    · rw [if_pos hlen]
      simp only
      have hm0 : first ≤ first + (last - first) / 2 := by omega
      have hm1 : first + (last - first) / 2 < last := by omega
      obtain ⟨nd, hnd⟩ := node_at_in_bounds nodes (first + (last - first) / 2) (by omega)
        (by omega)
      have hwd := word_at_of_ok nodes _ nd hnd
      rw [hnd]
      simp only
      by_cases hw : nd.word = word
      · rw [if_pos hw]
        exact ⟨_, rfl, Or.inl ⟨hm0, hm1, by rw [hwd]; exact hw⟩⟩
      · rw [if_neg hw]
        by_cases hgt : nd.word > word
        · rw [if_pos hgt]
          obtain ⟨idx, hidx, hcase⟩ := ih first (first + (last - first) / 2) h0 (by omega)
            (by omega) (fun a b ha hab hb => hs a b ha hab (by omega))
          refine ⟨idx, hidx, ?_⟩
          rcases hcase with ⟨a, b, c⟩ | ⟨a, b⟩
          · exact Or.inl ⟨a, by omega, c⟩
          · refine Or.inr ⟨a, ?_⟩
            intro r hr1 hr2
            by_cases hr : r < first + (last - first) / 2
            · exact b r hr1 hr
            · by_cases hre : r = first + (last - first) / 2
              · rw [hre, hwd]; exact hw
              · have := hs (first + (last - first) / 2) r hm0 (by omega) hr2
                rw [hwd] at this
                omega
        · rw [if_neg hgt]
          obtain ⟨idx, hidx, hcase⟩ := ih (first + (last - first) / 2 + 1) last (by omega) h1
            (by omega) (fun a b ha hab hb => hs a b (by omega) hab hb)
          refine ⟨idx, hidx, ?_⟩
          rcases hcase with ⟨a, b, c⟩ | ⟨a, b⟩
          · exact Or.inl ⟨by omega, b, c⟩
          · refine Or.inr ⟨a, ?_⟩
            intro r hr1 hr2
            by_cases hr : first + (last - first) / 2 + 1 ≤ r
            · exact b r hr hr2
            · by_cases hre : r = first + (last - first) / 2
              · rw [hre, hwd]; exact hw
              · have := hs r (first + (last - first) / 2) hr1 (by omega) hm1
                rw [hwd] at this
                omega
    · rw [if_neg hlen]
      by_cases hle : first ≤ last
      · obtain ⟨idx, hidx, hcase⟩ := linear_scan_complete nodes word (last - first).toNat first
          h0 (by omega)
        refine ⟨idx, hidx, ?_⟩
        rcases hcase with ⟨a, b, c⟩ | ⟨a, b⟩
        · exact Or.inl ⟨a, by omega, c⟩
        · exact Or.inr ⟨a, fun r hr1 hr2 => b r hr1 (by omega)⟩
      · have e : (last - first).toNat = 0 := by omega
        rw [e]
        exact ⟨-1, rfl, Or.inr ⟨rfl, fun r h1 h2 => by omega⟩⟩

/-- C21: for every word of the vocabulary and every node index `p` with `0 <=
p < len(nodes) - 1` whose range `[child_index(p), child_index(p+1))` starts at
a non-negative index, ends inside the node array and holds strictly ascending
words, `find_child(word, p)` returns: it returns the index in the range whose
node carries the word when there is one, which is then the only one, and `-1`
when there is none.  The counter of the binary phase, the length of the range,
is enough for ranges of every size. -/
theorem find_child_finds_word (s : TreeGram) (word p : Int)
    (hw : 0 ≤ word ∧ word < (s.m_words.length : Int))
    (hp : 0 ≤ p ∧ p < (s.m_nodes.length : Int) - 1)
    (hlo : 0 ≤ child_index_at s.m_nodes p)
    (hhi : child_index_at s.m_nodes (p + 1) ≤ (s.m_nodes.length : Int))
    (hsorted : ∀ a b, child_index_at s.m_nodes p ≤ a → a < b →
      b < child_index_at s.m_nodes (p + 1) → word_at s.m_nodes a < word_at s.m_nodes b) :
    ∃ idx, find_child s word p = Except.ok idx ∧
      (∀ r, child_index_at s.m_nodes p ≤ r → r < child_index_at s.m_nodes (p + 1) →
        word_at s.m_nodes r = word → idx = r) ∧
      ((¬ ∃ r, child_index_at s.m_nodes p ≤ r ∧ r < child_index_at s.m_nodes (p + 1) ∧
        word_at s.m_nodes r = word) → idx = -1) := by
  obtain ⟨nd, hnd⟩ := node_at_in_bounds s.m_nodes p (by omega) (by omega)
  obtain ⟨nx, hnx⟩ := node_at_in_bounds s.m_nodes (p + 1) (by omega) (by omega)
  have hcp := child_index_at_of_ok _ _ _ hnd
  have hcx := child_index_at_of_ok _ _ _ hnx
  unfold find_child
  rw [if_neg (by omega), if_neg (by omega), if_neg (by omega), hnd, hnx]
  simp only
  rw [← hcp, ← hcx]
  by_cases hneg : child_index_at s.m_nodes p < 0 ∨ child_index_at s.m_nodes (p + 1) < 0
  · rw [if_pos hneg]
    refine ⟨-1, rfl, ?_, fun _ => rfl⟩
    intro r h1 h2 _
    omega
  · rw [if_neg hneg]
    unfold binary_search
    obtain ⟨idx, hidx, hcase⟩ := binary_search_loop_complete s.m_nodes word _ _ _ hlo hhi
      (le_refl _) hsorted
    refine ⟨idx, hidx, ?_, ?_⟩
    · intro r h1 h2 h3
      rcases hcase with ⟨a, b, c⟩ | ⟨a, b⟩
      · rcases lt_trichotomy idx r with h | h | h
        · have := hsorted idx r a h h2
          omega
        · exact h
        · have := hsorted r idx h1 h b
          omega
      · exact absurd h3 (b r h1 h2)
    · intro hno
      rcases hcase with ⟨a, b, c⟩ | ⟨a, b⟩
      · exact absurd ⟨idx, a, b, c⟩ hno
      · exact a

theorem wide_range_sorted :
    ∀ a b, child_index_at wide_store.m_nodes 1 ≤ a → a < b →
      b < child_index_at wide_store.m_nodes (1 + 1) →
      word_at wide_store.m_nodes a < word_at wide_store.m_nodes b := by
  intro a b h1 h2 h3
  have e1 : child_index_at wide_store.m_nodes 1 = 8 := by decide
  have e2 : child_index_at wide_store.m_nodes (1 + 1) = 15 := by decide
  rw [e1] at h1
  rw [e2] at h3
  have hk : ∀ r : Int, 8 ≤ r → r < 15 → word_at wide_store.m_nodes r = r - 7 := by
    intro r hr1 hr2
    interval_cases r <;> decide
  rw [hk a h1 (by omega), hk b (by omega) h3]
  omega

/-- C21 on a range of seven children, which starts in the binary phase: the
word 6 is found at index 13. -/
theorem find_child_finds_word_witness :
    find_child wide_store 6 1 = Except.ok 13 ∧
    ∃ idx, find_child wide_store 6 1 = Except.ok idx ∧
      (∀ r, child_index_at wide_store.m_nodes 1 ≤ r →
        r < child_index_at wide_store.m_nodes (1 + 1) →
        word_at wide_store.m_nodes r = 6 → idx = r) ∧
      ((¬ ∃ r, child_index_at wide_store.m_nodes 1 ≤ r ∧
        r < child_index_at wide_store.m_nodes (1 + 1) ∧
        word_at wide_store.m_nodes r = 6) → idx = -1) :=
  ⟨by decide, find_child_finds_word wide_store 6 1 (by decide) (by decide) (by decide)
    (by decide) wide_range_sorted⟩

/-! ## The path that `find_path` leaves in the insert stack -/

theorem shared_words_returns : ∀ (a b : List Int), a.length ≤ b.length →
    ∃ m, shared_words a b = Except.ok m := by
  intro a
  induction a with
  | nil => intro b _; exact ⟨0, rfl⟩
  | cons x xs ih =>
    intro b h
    cases b with
    | nil => simp at h
    | cons y ys =>
      simp only [shared_words]
      split
      · exact ⟨0, rfl⟩
      · obtain ⟨k, hk⟩ := ih ys (by simpa using h)
        rw [hk]
        exact ⟨k + 1, rfl⟩

theorem find_child_total (s : TreeGram) (w prev : Int)
    (hb : ∀ i, child_index_at s.m_nodes i ≤ (s.m_nodes.length : Int)) :
    (∃ idx, find_child s w prev = Except.ok idx) ∨ find_child s w prev = Except.error Fault.exit := by
  by_cases hw : 0 ≤ w ∧ w < (s.m_words.length : Int)
  · exact Or.inl (find_child_returns s w prev hw hb)
  · right
    unfold find_child
    rw [if_pos (by omega)]

theorem search_path_total (s : TreeGram)
    (hb : ∀ i, child_index_at s.m_nodes i ≤ (s.m_nodes.length : Int)) :
    ∀ (ws : List Int) (prev : Int) (stack : List Int),
      (∃ r, search_path s ws prev stack = Except.ok r) ∨
        search_path s ws prev stack = Except.error Fault.exit := by
  intro ws
  induction ws with
  | nil => intro prev stack; exact Or.inl ⟨stack, rfl⟩
  | cons w ws ih =>
    intro prev stack
    simp only [search_path]
    rcases find_child_total s w prev hb with ⟨idx, h⟩ | h
    · rw [h]
      simp only
      split
      · exact Or.inr rfl
      · exact ih idx (stack ++ [idx])
    · rw [h]
      exact Or.inr rfl

theorem getD_of_getElem? (l : List Int) (j : Nat) (x : Int) (h : l[j]? = some x) :
    l.getD j 0 = x := by
  rw [List.getD_eq_getElem?_getD, h]
  rfl

theorem getElem?_of_lt (l : List Int) (j : Nat) (h : j < l.length) :
    l[j]? = some (l.getD j 0) := by
  rw [List.getD_eq_getElem?_getD, List.getElem?_eq_getElem h]
  rfl

theorem valid_path_entry_nonneg (s : TreeGram) (stack : List Int) (hv : valid_path s stack)
    (j : Nat) (hj : j < stack.length) : 0 ≤ stack.getD j 0 := by
  cases j with
  | zero => exact (hv.1 hj).1
  | succ j =>
    obtain ⟨a, b, _⟩ := hv.2 j (by omega)
    omega

theorem is_path_of_descent (s : TreeGram) (stack words : List Int)
    (h : descent_of s stack words) :
    is_path s.m_nodes (unigram_slots s) stack words := by
  obtain ⟨hlen, hv, hhead, hwords⟩ := h
  refine ⟨hlen, ?_, ?_⟩
  · intro x w hx hwv
    have hpos : 0 < stack.length := (List.getElem?_eq_some_iff.mp hx).1
    have := hv.1 hpos
    rw [getD_of_getElem? stack 0 x hx] at this
    rw [List.head?_eq_getElem?, List.head?_eq_getElem?, hx, hwv] at hhead
    have e : x = w := Option.some.inj hhead
    omega
  · intro j x y w hx hy hwv
    have hj : j + 1 < stack.length := (List.getElem?_eq_some_iff.mp hy).1
    obtain ⟨a, b, c⟩ := hv.2 j (by omega)
    have hn := valid_path_entry_nonneg s stack hv j (by omega)
    have hwd := hwords j (by omega)
    rw [getD_of_getElem? stack j x hx] at a b c hn
    rw [getD_of_getElem? stack (j + 1) y hy] at b c hwd
    rw [getD_of_getElem? words (j + 1) w hwv] at hwd
    exact ⟨hn, a, b, c, hwd⟩

theorem descent_of_is_path (s : TreeGram) (stack words : List Int)
    (hp : is_path s.m_nodes (unigram_slots s) stack words)
    (hhead : stack.head? = words.head?) : descent_of s stack words := by
  refine ⟨hp.1, valid_path_of_is_path s stack words hp, hhead, ?_⟩
  obtain ⟨hlen, _, hstep⟩ := hp
  intro j hj
  obtain ⟨_, _, _, _, hw⟩ := hstep j _ _ _ (getElem?_of_lt stack j (by omega))
    (getElem?_of_lt stack (j + 1) (by omega)) (getElem?_of_lt words (j + 1) (by omega))
  exact hw

/-- The run of `find_path` on a store whose insert stack holds the descent of
the last gram: it returns the descent of the gram without its last word, or
it stops the process. -/
theorem find_path_descent (s : TreeGram) (g : List Int) (hg : 2 ≤ g.length)
    (hlen : g.length ≤ s.m_last_gram.length + 1)
    (hpre : descent_of s s.m_insert_stack s.m_last_gram)
    (hhead : ∀ w, g.head? = some w → w < unigram_slots s)
    (hb : ∀ i, child_index_at s.m_nodes i ≤ (s.m_nodes.length : Int)) :
    (∃ r, find_path s g = Except.ok r ∧ r.length = g.length - 1 ∧
      descent_of s r g.dropLast) ∨ find_path s g = Except.error Fault.exit := by
  have hpath := is_path_of_descent s _ _ hpre
  obtain ⟨hsl, hfirst, hchain⟩ := hpath
  have hdl : g.dropLast.length = g.length - 1 := by simp
  obtain ⟨order, hso⟩ := shared_words_returns g.dropLast s.m_last_gram (by omega)
  obtain ⟨hm1, hm2, hm3, _⟩ := shared_words_spec _ _ _ hso
  have hrs : resize s.m_insert_stack order = s.m_insert_stack.take order :=
    resize_of_le _ _ (by omega)
  unfold find_path
  rw [if_neg (by omega), hso]
  simp only
  rw [hrs]
  rcases search_path_total s hb (g.dropLast.drop order)
      (if order = 0 then -1 else (s.m_insert_stack.take order).getLast?.getD (-1))
      (s.m_insert_stack.take order) with ⟨r, hr⟩ | hr
  · left
    refine ⟨r, hr, ?_⟩
    have hstl : (s.m_insert_stack.take order).length = order := by
      rw [List.length_take]; omega
    have hdnl : (g.dropLast.take order).length = order := by
      rw [List.length_take]; omega
    have hsound := search_path_sound s (g.dropLast.drop order) _ (s.m_insert_stack.take order)
      (g.dropLast.take order) r (by rw [hstl, hdnl]) ?_ ?_ ?_ hr
    · obtain ⟨r1, r2, r3, r4⟩ := hsound
      rw [List.take_append_drop] at r1 r2
      refine ⟨by rw [r1, hdl], ?_⟩
      have hhd : r.head? = g.dropLast.head? := by
        rw [List.head?_eq_getElem?, List.head?_eq_getElem?]
        have hr0 := getElem?_of_lt r 0 (by omega)
        have hg0 := getElem?_of_lt g.dropLast 0 (by omega)
        by_cases ho : order = 0
        · have hnil : s.m_insert_stack.take order = [] := by rw [ho]; rfl
          have hd0 : (g.dropLast.drop order)[0]? = some (g.dropLast.getD 0 0) := by
            rw [ho]; simpa using hg0
          obtain ⟨e, _⟩ := r4 hnil _ _ hr0 hd0
          rw [hr0, hg0, e]
        · have h0 := r3 0 (by omega)
          rw [h0, List.getElem?_take_of_lt (by omega)]
          have hh := hm3 0 (by omega)
          rw [hh]
          have hs0 := getElem?_of_lt s.m_insert_stack 0 (by omega)
          have hl0 := getElem?_of_lt s.m_last_gram 0 (by omega)
          obtain ⟨hpre1, hpre2, hpre3, hpre4⟩ := hpre
          rw [List.head?_eq_getElem?, List.head?_eq_getElem?] at hpre3
          exact hpre3
      refine descent_of_is_path s r g.dropLast ⟨by rw [r1], ?_, r2⟩ hhd
      intro x w hx hwv
      rw [List.head?_eq_getElem?, List.head?_eq_getElem?, hx, hwv] at hhd
      have e : x = w := Option.some.inj hhd
      by_cases ho : order = 0
      · have hnil : s.m_insert_stack.take order = [] := by rw [ho]; rfl
        have hd0 : (g.dropLast.drop order)[0]? = some w := by
          rw [ho]; simpa using hwv
        obtain ⟨_, hw0⟩ := r4 hnil _ _ hx hd0
        have hgh : g.head? = some w := by
          rw [List.head?_eq_getElem?]
          rw [← hwv]
          cases g with
          | nil => simp at hg
          | cons a t =>
            cases t with
            | nil => simp at hg
            | cons b t => simp [List.dropLast]
        have := hhead w hgh
        omega
      · have h0 := r3 0 (by omega)
        rw [hx, List.getElem?_take_of_lt (by omega)] at h0
        have hl0 := getElem?_of_lt s.m_last_gram 0 (by omega)
        obtain ⟨a, b, _⟩ := hfirst x _ h0.symm hl0
        omega
    · intro j x y w hx hy hwv
      have hj : j + 1 < order := by
        have := (List.getElem?_eq_some_iff.mp hy).1
        rw [hstl] at this
        exact this
      rw [List.getElem?_take_of_lt (by omega)] at hx hy hwv
      rw [hm3 (j + 1) hj] at hwv
      exact hchain j x y w hx hy hwv
    · intro hnil
      have ho : order = 0 := by
        have := congrArg List.length hnil
        rw [hstl] at this
        simpa using this
      rw [if_pos ho]
      omega
    · intro hne
      have ho : order ≠ 0 := by
        intro hc
        apply hne
        rw [hc]
        rfl
      rw [if_neg ho]
      have hlast : (s.m_insert_stack.take order).getLast? =
          some (s.m_insert_stack.getD (order - 1) 0) := by
        rw [List.getLast?_eq_getElem?, hstl, List.getElem?_take_of_lt (by omega)]
        exact getElem?_of_lt _ _ (by omega)
      rw [hlast]
      refine ⟨rfl, ?_⟩
      exact valid_path_entry_nonneg s _ hpre.2.1 (order - 1) (by omega)
  · right
    exact hr

theorem gap_store_built : build sparse_words 16 gap_calls = Except.ok gap_store := by
  decide

/-- C22 (as stated, refuted): on the store built from the unigrams `a`, `b`
and the bigram `(a, a)`, the insert stack `[1, 3]` holds the descent of the
last gram `[1, 1]`.  For the gram `(d, a)`, whose first word is in the
vocabulary but has no unigram node, `find_path` returns with the insert stack
`[4]`: index 4 is not a node of the four-node array, no descent of `[4]`
exists, and the call does not stop the process.  On the store that
`reserve_nodes(16)` leaves of a fresh one, with an empty last gram and an empty
insert stack, `find_path` on a two-word gram reads `m_last_gram[0]`. -/
theorem find_path_returns_unchecked_index :
    build sparse_words 16 gap_calls = Except.ok gap_store ∧
    descent_of gap_store gap_store.m_insert_stack gap_store.m_last_gram ∧
    find_path gap_store [4, 1] = Except.ok [4] ∧
    node_at gap_store.m_nodes 4 = Except.error Fault.out_of_bounds ∧
    (¬ ∃ r, descent_of gap_store r [4]) ∧
    reserve_nodes (construct sparse_words) 16
      = Except.ok (install_root (construct sparse_words)) ∧
    descent_of (install_root (construct sparse_words))
      (install_root (construct sparse_words)).m_insert_stack
      (install_root (construct sparse_words)).m_last_gram ∧
    find_path (install_root (construct sparse_words)) [1, 2] =
      Except.error Fault.out_of_bounds := by
  refine ⟨gap_store_built, by decide, by decide, by decide, ?_, by decide, by decide,
    by decide⟩
  rintro ⟨r, hlen, hv, hhead, _⟩
  cases r with
  | nil => simp at hlen
  | cons x t =>
    have hx : x = 4 := by simpa using hhead
    have := (hv.1 (by simp)).2
    simp at this
    rw [hx] at this
    revert this
    decide

/-- C22 (amended): for every gram of length at least 2 that has at most one
word more than `last_gram` and whose first word is below `order_count[0]`, on
a store in which no `child_index` exceeds the number of nodes: if before the
call `insert_stack` holds the descent of `last_gram`, then `find_path(gram)`
either returns, and then `insert_stack` has length `len(gram) - 1` and holds
the descent of the gram without its last word, or it stops the process; when
the gram without its last word has no descent it stops the process. -/
theorem find_path_leaves_descent (s : TreeGram) (g : List Int) (hg : 2 ≤ g.length)
    (hlen : g.length ≤ s.m_last_gram.length + 1)
    (hpre : descent_of s s.m_insert_stack s.m_last_gram)
    (hhead : ∀ w, g.head? = some w → w < unigram_slots s)
    (hb : ∀ i, child_index_at s.m_nodes i ≤ (s.m_nodes.length : Int)) :
    ((∃ r, find_path s g = Except.ok r ∧ r.length = g.length - 1 ∧
        descent_of s r g.dropLast) ∨ find_path s g = Except.error Fault.exit) ∧
    ((¬ ∃ r, descent_of s r g.dropLast) → find_path s g = Except.error Fault.exit) := by
  have h := find_path_descent s g hg hlen hpre hhead hb
  refine ⟨h, ?_⟩
  intro hno
  rcases h with ⟨r, _, _, hd⟩ | h
  · exact absurd ⟨r, hd⟩ hno
  · exact h

/-- C22 (amended) on the store of the unigrams `a`, `b` and the bigram `(a,
a)`: for the gram `(a, a, b)` the call returns the stack `[1, 3]`. -/
theorem find_path_leaves_descent_witness :
    descent_of gap_store gap_store.m_insert_stack gap_store.m_last_gram ∧
    find_path gap_store [1, 1, 2] = Except.ok [1, 3] ∧
    descent_of gap_store [1, 3] [1, 1] ∧
    ((∃ r, find_path gap_store [1, 1, 2] = Except.ok r ∧
        r.length = ([1, 1, 2] : List Int).length - 1 ∧
        descent_of gap_store r ([1, 1, 2] : List Int).dropLast) ∨
      find_path gap_store [1, 1, 2] = Except.error Fault.exit) ∧
    ((¬ ∃ r, descent_of gap_store r ([1, 1, 2] : List Int).dropLast) →
      find_path gap_store [1, 1, 2] = Except.error Fault.exit) :=
  ⟨by decide, by decide, by decide,
    find_path_leaves_descent gap_store [1, 1, 2] (by decide) (by decide) (by decide)
      (fun w h => by
        have e : w = 1 := by simpa using h.symm
        rw [e]
        decide)
      (fun i => by
        have := (store_bounds_build sparse_words 16 gap_calls gap_store gap_store_built).2.2.2 i
        omega)⟩

/-! ## The read after the last node -/

/-- C23 (refuted on the store of the first scenario): the store is built by
`reserve_nodes` and five accepted `add_gram` calls and has six nodes.  The
first four `next()` calls of a fresh iterator stop at `[0]`, `[1]`, `[1, 4]`
and `[1, 4, 5]`.  Node 5, the last node, has `child_index = 6 > 0`, so the
fifth call reads the `child_index` of node 6, the slot after the last node. -/
theorem traversal_reads_past_last_node :
    build scenario_words 16 scenario1_calls = Except.ok scenario1_store ∧
    scenario1_store.m_nodes.length = 6 ∧
    run_calls scenario1_store [] [IterCall.next, IterCall.next, IterCall.next, IterCall.next]
      = Except.ok [[0], [1], [1, 4], [1, 4, 5]] ∧
    node_at scenario1_store.m_nodes 5 = Except.ok ⟨3, -7, 0, 6⟩ ∧
    node_at scenario1_store.m_nodes 6 = Except.error Fault.out_of_bounds ∧
    first_child scenario1_store 5 = Except.error Fault.out_of_bounds ∧
    next scenario1_store [1, 4, 5] = Except.error Fault.out_of_bounds ∧
    traversal scenario1_store = Except.error Fault.out_of_bounds :=
  ⟨scenario1_store_built, by decide, by decide, by decide, by decide, by decide, by decide,
    by decide⟩

/-! ## The words of the nodes of a built store -/

theorem add_unigram_word_at (s s3 : TreeGram) (w lv bv : Int)
    (h : add_unigram s w lv bv = Except.ok s3) :
    ∀ i, word_at s3.m_nodes i =
      if w ≠ 0 ∧ i = (s.m_nodes.length : Int) then w else word_at s.m_nodes i := by
  unfold add_unigram at h
  by_cases hw : w = 0
  · rw [if_pos hw] at h
    split at h
    · simp at h
    · next root rest hr =>
      simp at h
      subst h
      intro i
      have hno : ¬ (w ≠ 0 ∧ i = (s.m_nodes.length : Int)) := fun hc => hc.1 hw
      rw [if_neg hno, hr]
      simp only
      unfold word_at node_at
      by_cases hi : i < 0
      · simp [hi]
      · simp only [hi, if_false]
        cases hn : i.toNat with
        | zero => simp
        | succ k => simp
  · rw [if_neg hw] at h
    simp at h
    subst h
    intro i
    simp only
    rw [word_at_append]
    by_cases hi : i = (s.m_nodes.length : Int)
    · rw [if_pos hi, if_pos ⟨hw, hi⟩]
    · rw [if_neg hi, if_neg (fun hc => hi hc.2)]

theorem add_gram_node_words (s s1 : TreeGram) (g : List Int) (lp bo : Int) (W : Int)
    (h : add_gram s g lp bo = Except.ok s1) (hg : ∀ w ∈ g, 0 ≤ w ∧ w < W)
    (hinv : ∀ i, 0 ≤ word_at s.m_nodes i ∧ word_at s.m_nodes i < W) :
    ∀ i, 0 ≤ word_at s1.m_nodes i ∧ word_at s1.m_nodes i < W := by
  obtain ⟨_, s2, s3, hu, hi, _, hs1⟩ := add_gram_steps s s1 g lp bo h
  have hn2 := (update_counts_effect s s2 g hu).1
  have hn1 : s1.m_nodes = s3.m_nodes := by rw [hs1]
  rw [hn1]
  match g, hi, hg with
  | [], hi, _ => simp [insert_node] at hi
  | [w], hi, hg =>
    have hi2 : add_unigram s2 w lp bo = Except.ok s3 := by simpa [insert_node] using hi
    have hw := add_unigram_word_at s2 s3 w lp bo hi2
    intro i
    rw [hw i, hn2]
    split
    · exact hg w (List.mem_cons_self _ _)
    · exact hinv i
  | a :: b :: rest, hi, hg =>
    have hi2 : add_higher s2 (a :: b :: rest) lp bo = Except.ok s3 := by
      simpa [insert_node] using hi
    obtain ⟨r, p, w, _, _, hlast, _, _, _, _, hwd, _⟩ :=
      add_higher_effect s2 s3 (a :: b :: rest) lp bo hi2
    intro i
    rw [hwd i, hn2]
    split
    · exact hg w (List.mem_of_getLast?_eq_some hlast)
    · exact hinv i

theorem add_grams_node_words (calls : List (List Int × Int × Int)) (W : Nat) :
    ∀ (s0 s : TreeGram), add_grams s0 calls = Except.ok s → grams_in_vocabulary calls W →
      (∀ i, 0 ≤ word_at s0.m_nodes i ∧ word_at s0.m_nodes i < (W : Int)) →
      ∀ i, 0 ≤ word_at s.m_nodes i ∧ word_at s.m_nodes i < (W : Int) := by
  induction calls with
  | nil =>
    intro s0 s h _ h0
    simp [add_grams] at h
    subst h
    exact h0
  | cons c rest ih =>
    intro s0 s h hv h0
    simp only [add_grams] at h
    split at h
    · simp at h
    · next sa ha =>
      exact ih sa s h (fun d hd => hv d (List.mem_cons_of_mem _ hd))
        (add_gram_node_words s0 sa c.1 c.2.1 c.2.2 W ha (hv c (List.mem_cons_self _ _)) h0)

/-- The nodes of a store built from grams of vocabulary words carry words of
the vocabulary. -/
theorem build_node_words (words : List String) (capacity : Int)
    (calls : List (List Int × Int × Int)) (s : TreeGram)
    (hb : build words capacity calls = Except.ok s) (hw : 1 ≤ words.length)
    (hv : grams_in_vocabulary calls words.length) :
    ∀ i, 0 ≤ word_at s.m_nodes i ∧ word_at s.m_nodes i < (words.length : Int) := by
  apply add_grams_node_words calls words.length _ s (build_steps _ _ _ _ hb).2 hv
  intro i
  have h0 : word_at (install_root (construct words)).m_nodes i = 0 := by
    unfold word_at node_at
    by_cases hi : i < 0
    · simp [hi]
    · simp only [hi, if_false, install_root]
      cases hn : i.toNat with
      | zero => simp
      | succ k => simp
  rw [h0]
  omega

/-! ## The loops of the list fetches -/

theorem fill_unigrams_length (h : Host) (nodes : List Node) (offset : Int) :
    ∀ n, (fill_unigrams h nodes offset n).length = n := by
  intro n
  induction n with
  | zero => rfl
  | succ n ih => simp [fill_unigrams, ih]

theorem fill_unigrams_get (h : Host) (nodes : List Node) (offset : Int) :
    ∀ (n t : Nat), t < n →
      (fill_unigrams h nodes offset n)[t]? = some (h.fadd offset (load h nodes (t : Int)).log_prob) := by
  intro n
  induction n with
  | zero => intro t ht; omega
  | succ n ih =>
    intro t ht
    simp only [fill_unigrams]
    by_cases htn : t < n
    · rw [List.getElem?_append_left (by rw [fill_unigrams_length]; exact htn)]
      exact ih t htn
    · have : t = n := by omega
      subst this
      rw [List.getElem?_append_right (by rw [fill_unigrams_length])]
      simp [fill_unigrams_length]

theorem overwrite_children_spec (nodes : List Node) (f : Int → Int) :
    ∀ (m : Nat) (a : Int) (buf : List Int), 0 ≤ a → a + m ≤ (nodes.length : Int) →
      (∀ c, a ≤ c → c < a + m → 0 ≤ word_at nodes c ∧ word_at nodes c < (buf.length : Int)) →
      (∀ c d, a ≤ c → c < d → d < a + m → word_at nodes c < word_at nodes d) →
      ∃ out, overwrite_children nodes f m a buf = Except.ok out ∧ out.length = buf.length ∧
        (∀ c nd, a ≤ c → c < a + m → node_at nodes c = Except.ok nd →
          out[nd.word.toNat]? = some (f nd.log_prob)) ∧
        (∀ t : Nat, (∀ c, a ≤ c → c < a + m → word_at nodes c ≠ (t : Int)) →
          out[t]? = buf[t]?) := by
  intro m
  induction m with
  | zero =>
    intro a buf _ _ _ _
    refine ⟨buf, rfl, rfl, ?_, fun _ _ => rfl⟩
    intro c nd h1 h2
    simp at h2
    omega
  | succ m ih =>
    intro a buf ha hlen hwords hasc
    obtain ⟨nd, hnd⟩ := node_at_in_bounds nodes a ha (by push_cast at hlen; omega)
    have hwa := word_at_of_ok nodes a nd hnd
    have hw0 := hwords a (le_refl _) (by push_cast; omega)
    rw [hwa] at hw0
    simp only [overwrite_children, hnd]
    rw [if_neg (by omega)]
    obtain ⟨out, hout, hl, hov, hkeep⟩ := ih (a + 1) (buf.set nd.word.toNat (f nd.log_prob))
      (by omega) (by push_cast at hlen ⊢; omega)
      (fun c h1 h2 => by
        have := hwords c (by omega) (by push_cast at h2 ⊢; omega)
        simpa using this)
      (fun c d h1 h2 h3 => hasc c d (by omega) h2 (by push_cast at h3 ⊢; omega))
    refine ⟨out, hout, by rw [hl]; simp, ?_, ?_⟩
    · intro c nc h1 h2 hnc
      by_cases hca : c = a
      · subst hca
        rw [hnd] at hnc
        injection hnc with hnc
        subst hnc
        have hk := hkeep nd.word.toNat (fun d hd1 hd2 => by
          have := hasc c d (le_refl _) (by omega) (by push_cast at hd2 ⊢; omega)
          rw [hwa] at this
          have e : ((nd.word.toNat : Nat) : Int) = nd.word := by omega
          rw [e]
          omega)
        rw [hk]
        rw [List.getElem?_set_self (by omega)]
      · exact hov c nc (by omega) (by push_cast at h2 ⊢; omega) hnc
    · intro t hno
      have hk := hkeep t (fun c h1 h2 => hno c (by omega) (by push_cast at h2 ⊢; omega))
      rw [hk]
      have hne : nd.word.toNat ≠ t := by
        intro he
        apply hno a (le_refl _) (by push_cast; omega)
        rw [hwa, ← he]
        omega
      rw [List.getElem?_set_ne hne]

theorem map_to_result_spec (buf : List Int) :
    ∀ (ts : List Int) (i : Nat) (result : List Int), i + ts.length ≤ result.length →
      (∀ t ∈ ts, 0 ≤ t ∧ t < (buf.length : Int)) →
      ∃ res, map_to_result buf ts i result = Except.ok res ∧ res.length = result.length ∧
        (∀ (j : Nat) (t : Int), ts[j]? = some t → res[i + j]? = buf[t.toNat]?) ∧
        (∀ j, j < i → res[j]? = result[j]?) := by
  intro ts
  induction ts with
  | nil =>
    intro i result _ _
    exact ⟨result, rfl, rfl, fun j t h => by simp at h, fun _ _ => rfl⟩
  | cons t ts ih =>
    intro i result hlen hts
    have ht := hts t (List.mem_cons_self _ _)
    have hlt : t.toNat < buf.length := by omega
    simp only [map_to_result]
    rw [if_neg (by omega), List.getElem?_eq_getElem hlt]
    simp only
    have hi : i < result.length := by simp at hlen; omega
    rw [if_pos hi]
    obtain ⟨res, hres, hl, hget, hkeep⟩ := ih (i + 1) (result.set i buf[t.toNat])
      (by simp at hlen ⊢; omega) (fun x hx => hts x (List.mem_cons_of_mem _ hx))
    refine ⟨res, hres, by rw [hl]; simp, ?_, ?_⟩
    · intro j x hj
      cases j with
      | zero =>
        simp at hj
        subst hj
        rw [Nat.add_zero, hkeep i (by omega), List.getElem?_set_self hi,
          List.getElem?_eq_getElem hlt]
      | succ j =>
        simp at hj
        have := hget j x hj
        rw [← this]
        congr 1
        omega
    · intro j hj
      rw [hkeep j (by omega), List.getElem?_set_ne (by omega)]

/-! ## The descent of a bigram -/

theorem find_child_cases (s : TreeGram) (word p : Int)
    (hw : 0 ≤ word ∧ word < (s.m_words.length : Int)) (hp : 0 ≤ p)
    (hb : ∀ i, child_index_at s.m_nodes i ≤ (s.m_nodes.length : Int))
    (hs : children_sorted s) :
    ∃ idx, find_child s word p = Except.ok idx ∧
      ((0 ≤ idx ∧ child_rel s.m_nodes p idx word) ∨
       (idx = -1 ∧ ∀ r, ¬ child_rel s.m_nodes p r word)) := by
  unfold find_child
  rw [if_neg (by omega), if_neg (by omega)]
  by_cases hlast : p ≥ (s.m_nodes.length : Int) - 1
  · rw [if_pos hlast]
    refine ⟨-1, rfl, Or.inr ⟨rfl, ?_⟩⟩
    rintro r ⟨_, h1, h2, h3, _⟩
    have := child_index_at_out s.m_nodes (p + 1) (Or.inr (by omega))
    omega
  · rw [if_neg hlast]
    obtain ⟨nd, hnd⟩ := node_at_in_bounds s.m_nodes p hp (by omega)
    obtain ⟨nx, hnx⟩ := node_at_in_bounds s.m_nodes (p + 1) (by omega) (by omega)
    have hcp := child_index_at_of_ok _ _ _ hnd
    have hcx := child_index_at_of_ok _ _ _ hnx
    rw [hnd, hnx]
    simp only
    by_cases hneg : nd.child_index < 0 ∨ nx.child_index < 0
    · rw [if_pos hneg]
      refine ⟨-1, rfl, Or.inr ⟨rfl, ?_⟩⟩
      rintro r ⟨_, h1, h2, h3, _⟩
      omega
    · rw [if_neg hneg]
      unfold binary_search
      obtain ⟨hin, hasc⟩ := hs p nd nx hnd hnx (by omega) (by omega)
      have hsorted : ∀ a b, nd.child_index ≤ a → a < b → b < nx.child_index →
          word_at s.m_nodes a < word_at s.m_nodes b := by
        intro a b h1 h2 h3
        obtain ⟨na, hna⟩ := hin a h1 (by omega)
        obtain ⟨nb, hnb⟩ := hin b (by omega) h3
        rw [word_at_of_ok _ _ _ hna, word_at_of_ok _ _ _ hnb]
        exact hasc a b na nb h1 h2 h3 hna hnb
      obtain ⟨idx, hidx, hcase⟩ := binary_search_loop_complete s.m_nodes word _
        nd.child_index nx.child_index (by omega)
        (by have := hb (p + 1); rw [hcx] at this; exact this) (le_refl _) hsorted
      refine ⟨idx, hidx, ?_⟩
      rcases hcase with ⟨a, b, c⟩ | ⟨a, b⟩
      · left
        exact ⟨by omega, hp, by rw [hcp]; omega, by rw [hcp]; exact a, by rw [hcx]; exact b, c⟩
      · right
        refine ⟨a, ?_⟩
        rintro r ⟨_, h1, h2, h3, h4⟩
        rw [hcp] at h2
        rw [hcx] at h3
        exact b r h2 h3 h4

theorem find_child_root (s : TreeGram) (w : Int)
    (hw : 0 ≤ w ∧ w < (s.m_words.length : Int)) : find_child s w (-1) = Except.ok w := by
  unfold find_child
  rw [if_neg (by omega), if_pos (by omega)]

theorem fetch_bigram_all (s : TreeGram) (p t idx : Int)
    (hp : 0 ≤ p ∧ p < (s.m_words.length : Int))
    (hfc : find_child s t p = Except.ok idx) :
    fetch_gram s [p, t] 0 = Except.ok (if idx < 0 then [p] else [p, idx]) := by
  unfold fetch_gram
  simp only [List.length_cons, List.length_nil]
  rw [if_neg (by simp)]
  simp only [Int.toNat_zero, List.drop_zero, fetch_loop, find_child_root s p hp]
  rw [if_neg (by omega)]
  simp only [List.nil_append, hfc]
  split <;> rfl

theorem fetch_unigram (s : TreeGram) (t : Int)
    (ht : 0 ≤ t ∧ t < (s.m_words.length : Int)) :
    fetch_gram s [t] 0 = Except.ok [t] := by
  unfold fetch_gram
  simp only [List.length_cons, List.length_nil]
  rw [if_neg (by simp)]
  simp only [Int.toNat_zero, List.drop_zero, fetch_loop, find_child_root s t ht]
  rw [if_neg (by omega)]
  rfl

theorem backoff_terms_bigram (h : Host) (s : TreeGram) (p t idx : Int)
    (hp : 0 ≤ p ∧ p < (s.m_words.length : Int))
    (ht : 0 ≤ t ∧ t < (s.m_words.length : Int))
    (hfc : find_child s t p = Except.ok idx) :
    backoff_terms h s [p, t] = Except.ok
      (if idx < 0 then [(load h s.m_nodes p).back_off, (load h s.m_nodes t).log_prob]
       else [(load h s.m_nodes idx).log_prob]) := by
  have h0 := fetch_bigram_all s p t idx hp hfc
  have h1 := fetch_unigram s t ht
  by_cases hneg : idx < 0
  · rw [if_pos hneg] at h0 ⊢
    simp only [backoff_terms, h0, h1, resolved_node, List.getLast?_singleton,
      List.length_singleton, List.length_cons, List.length_nil]
    simp
  · rw [if_neg hneg] at h0 ⊢
    have hl : ([p, idx] : List Int).getLast? = some idx := rfl
    simp only [backoff_terms, h0, resolved_node, hl, List.length_cons, List.length_nil]
    simp

/-- The value of the BACKOFF branch of `log_prob` for a bigram, by the outcome
of `find_child` for its second word under the node of the first. -/
theorem log_prob_bigram (h : Host) (s : TreeGram) (p t idx : Int)
    (hp : 0 ≤ p ∧ p < (s.m_words.length : Int))
    (ht : 0 ≤ t ∧ t < (s.m_words.length : Int))
    (hfc : find_child s t p = Except.ok idx) :
    ∃ s1, log_prob_backoff h s [p, t] = Except.ok
      (if idx < 0 then
        h.fadd (h.fadd h.fzero (load h s.m_nodes p).back_off) (load h s.m_nodes t).log_prob
       else h.fadd h.fzero (load h s.m_nodes idx).log_prob, s1) := by
  have hval := log_prob_backoff_terms h s [p, t]
  rw [backoff_terms_bigram h s p t idx hp ht hfc] at hval
  cases hl : log_prob_backoff h s [p, t] with
  | error e => rw [hl] at hval; simp [Except.map] at hval
  | ok out =>
    rw [hl] at hval
    simp only [Except.map, Except.ok.injEq] at hval
    refine ⟨out.2, ?_⟩
    have : out = (out.1, out.2) := rfl
    rw [this, hval]
    by_cases hneg : idx < 0
    · simp [hneg]
    · simp [hneg]

/-! ## The bigram list and the back-off query -/

theorem unigram_parent_has_next (s : TreeGram) (hinv : builder_inv s) (p : Int)
    (hp : p < unigram_slots s) (hc : child_index_at s.m_nodes p ≠ -1) :
    p + 1 < (s.m_nodes.length : Int) := by
  obtain ⟨F, hshape, _, hph⟩ := hinv
  rcases hph with hu | hh
  · exact absurd (hu.2.2.1 p) hc
  · have hk : 1 < s.m_order_count.length := by have := hh.1; omega
    have h1 := hshape.Lstrict 1 hk
    have h2 := shape_L_le_n hshape (1 + 1)
    rw [level_start_one] at h1
    omega

theorem heads_of_vocabulary (calls : List (List Int × Int × Int)) (s : TreeGram) (W : Nat)
    (hv : grams_in_vocabulary calls W) (hu : (W : Int) ≤ unigram_slots s) :
    heads_are_unigrams calls s := by
  intro c hc hl
  cases hg : c.1 with
  | nil => rw [hg] at hl; simp at hl
  | cons x xs =>
    have := hv c hc x (by rw [hg]; exact List.mem_cons_self _ _)
    simp
    omega

/-- The child loop of `fetch_bigram_list` for the node of a vocabulary word
`p` leaves, for every vocabulary word `t`, the `log_prob` of the child of `p`
with the word `t` when `find_child` finds one, and the entry as it was
otherwise. -/
theorem overwrite_range_bigram (s : TreeGram) (hinv : builder_inv s) (hsb : store_bounds s)
    (hnw : ∀ i, 0 ≤ word_at s.m_nodes i ∧ word_at s.m_nodes i < (s.m_words.length : Int))
    (p : Int) (hp : 0 ≤ p ∧ p < (s.m_words.length : Int))
    (hu : (s.m_words.length : Int) ≤ unigram_slots s)
    (buf : List Int) (hbuf : buf.length = s.m_words.length) :
    ∃ out, overwrite_range s.m_nodes (fun lp => lp) p buf = Except.ok out ∧
      out.length = buf.length ∧
      ∀ t idx, 0 ≤ t ∧ t < (s.m_words.length : Int) → find_child s t p = Except.ok idx →
        out[t.toNat]? =
          if idx < 0 then buf[t.toNat]? else (node_at s.m_nodes idx).toOption.map Node.log_prob := by
  obtain ⟨hne, hs1, hs2, hci⟩ := hsb
  have hsorted := children_sorted_of_inv s hinv
  have hbound : ∀ i, child_index_at s.m_nodes i ≤ (s.m_nodes.length : Int) := by
    intro i
    rcases hci i with h | h <;> omega
  obtain ⟨nd, hnd⟩ := node_at_in_bounds s.m_nodes p hp.1 (by omega)
  have hcp := child_index_at_of_ok _ _ _ hnd
  have hcases : ∀ t, 0 ≤ t ∧ t < (s.m_words.length : Int) → ∀ idx,
      find_child s t p = Except.ok idx →
      ((0 ≤ idx ∧ child_rel s.m_nodes p idx t) ∨
       (idx = -1 ∧ ∀ r, ¬ child_rel s.m_nodes p r t)) := by
    intro t ht idx hfc
    obtain ⟨idx2, h2, hc2⟩ := find_child_cases s t p ht hp.1 hbound hsorted
    rw [hfc] at h2
    injection h2 with h2
    subst h2
    exact hc2
  unfold overwrite_range
  rw [hnd]
  simp only
  by_cases hc1 : nd.child_index ≠ -1
  · rw [if_pos hc1]
    have hnext := unigram_parent_has_next s hinv p (by omega) (by rw [hcp]; exact hc1)
    obtain ⟨nx, hnx⟩ := node_at_in_bounds s.m_nodes (p + 1) (by omega) hnext
    have hcx := child_index_at_of_ok _ _ _ hnx
    rw [hnx]
    simp only
    have hlo : 1 ≤ nd.child_index := by
      rcases hci p with h | h
      · rw [hcp] at h; exact absurd h hc1
      · rw [hcp] at h; exact h.1
    by_cases hc2 : nx.child_index > nd.child_index
    · rw [if_pos hc2]
      obtain ⟨hin, hasc⟩ := hsorted p nd nx hnd hnx (by omega) (by omega)
      have hhi : nx.child_index ≤ (s.m_nodes.length : Int) := by
        have := hbound (p + 1)
        rw [hcx] at this
        exact this
      have hm : nd.child_index + ((nx.child_index - nd.child_index).toNat : Int)
          = nx.child_index := by omega
      obtain ⟨out, hout, hl, hov, hkeep⟩ := overwrite_children_spec s.m_nodes (fun lp => lp)
        (nx.child_index - nd.child_index).toNat nd.child_index buf (by omega)
        (by rw [hm]; exact hhi)
        (fun c _ _ => by rw [hbuf]; exact hnw c)
        (fun c d h1 h2 h3 => by
          rw [hm] at h3
          obtain ⟨nc, hnc⟩ := hin c h1 (by omega)
          obtain ⟨ndd, hndd⟩ := hin d (by omega) h3
          rw [word_at_of_ok _ _ _ hnc, word_at_of_ok _ _ _ hndd]
          exact hasc c d nc ndd h1 h2 h3 hnc hndd)
      refine ⟨out, hout, hl, ?_⟩
      intro t idx ht hfc
      rcases hcases t ht idx hfc with ⟨h0, _, _, h2, h3, h4⟩ | ⟨h0, hno⟩
      · rw [if_neg (by omega)]
        rw [hcp] at h2
        rw [hcx] at h3
        obtain ⟨ni, hni⟩ := hin idx h2 h3
        have hwi := word_at_of_ok _ _ _ hni
        have := hov idx ni h2 (by rw [hm]; exact h3) hni
        rw [hni]
        simp only [Except.toOption, Option.map]
        rw [← this, ← hwi, h4]
      · rw [if_pos (by omega)]
        have e : ((t.toNat : Nat) : Int) = t := by omega
        apply hkeep t.toNat
        intro c h1 h2 hw
        rw [hm] at h2
        rw [e] at hw
        exact hno c ⟨hp.1, by rw [hcp]; omega, by rw [hcp]; exact h1, by rw [hcx]; exact h2, hw⟩
    · rw [if_neg hc2]
      refine ⟨buf, rfl, rfl, ?_⟩
      intro t idx ht hfc
      rcases hcases t ht idx hfc with ⟨h0, _, _, h2, h3, _⟩ | ⟨h0, _⟩
      · rw [hcp] at h2
        rw [hcx] at h3
        omega
      · rw [if_pos (by omega)]
  · rw [if_neg hc1]
    refine ⟨buf, rfl, rfl, ?_⟩
    intro t idx ht hfc
    rcases hcases t ht idx hfc with ⟨h0, _, h1, _, _, _⟩ | ⟨h0, _⟩
    · rw [hcp] at h1
      have : nd.child_index = -1 := not_not.mp hc1
      omega
    · rw [if_pos (by omega)]

theorem load_of_ok (h : Host) (nodes : List Node) (i : Int) (nd : Node)
    (hnd : node_at nodes i = Except.ok nd) : load h nodes i = nd := by
  simp [load, hnd]

theorem node_at_mem (nodes : List Node) (i : Int) (nd : Node)
    (hnd : node_at nodes i = Except.ok nd) : nd ∈ nodes := by
  unfold node_at at hnd
  split at hnd
  · simp at hnd
  · split at hnd
    · next x hx =>
      simp at hnd
      subst hnd
      exact List.getElem?_mem hx
    · simp at hnd

/-- C3 (amended): on a store built by `reserve_nodes` and accepted `add_gram`
calls whose grams hold vocabulary words only and in which every vocabulary
word has a unigram slot (`num_words <= order_count[0]`), on a host with `0.0 +
x == x` for the stored values, for every word id `p` of the vocabulary, every
list of target word ids of the vocabulary and every result buffer with room
for the targets, `fetch_bigram_list(p, targets, out)` returns, and for every
index `i` of the targets `log_prob([p, targets[i]])` returns the value left in
`out[i]`. -/
theorem fetch_bigram_list_eq_log_prob (h : Host) (words : List String) (capacity : Int)
    (calls : List (List Int × Int × Int)) (s : TreeGram) (p : Int) (targets out : List Int)
    (hb : build words capacity calls = Except.ok s)
    (hv : grams_in_vocabulary calls words.length)
    (hu : (words.length : Int) ≤ unigram_slots s)
    (hzero : ∀ nd ∈ s.m_nodes, h.fadd h.fzero nd.log_prob = nd.log_prob ∧
      h.fadd h.fzero nd.back_off = nd.back_off)
    (hp : 0 ≤ p ∧ p < (words.length : Int))
    (ht : ∀ t ∈ targets, 0 ≤ t ∧ t < (words.length : Int))
    (hout : targets.length ≤ out.length) :
    ∃ res, fetch_bigram_list h s p targets out = Except.ok res ∧ res.length = out.length ∧
      ∀ (i : Nat) (t : Int), targets[i]? = some t →
        ∃ v s1, log_prob_backoff h s [p, t] = Except.ok (v, s1) ∧ res[i]? = some v := by
  have hw := build_words words capacity calls s hb
  have hsb := store_bounds_build words capacity calls s hb
  have hd := heads_of_vocabulary calls s words.length hv hu
  have hinv := builder_inv_build words capacity calls s hb hd
  have hnw := build_node_words words capacity calls s hb (by omega) hv
  rw [← hw] at hnw hp hu ht
  obtain ⟨_, _, hs2, hci⟩ := hsb
  have hbound : ∀ i, child_index_at s.m_nodes i ≤ (s.m_nodes.length : Int) := by
    intro i
    rcases hci i with h | h <;> omega
  have hsorted := children_sorted_of_inv s hinv
  obtain ⟨nd, hnd⟩ := node_at_in_bounds s.m_nodes p hp.1 (by omega)
  have hlp := load_of_ok h s.m_nodes p nd hnd
  have hfl := fill_unigrams_length h s.m_nodes nd.back_off s.m_words.length
  obtain ⟨buf, hbuf, hbl, hget⟩ := overwrite_range_bigram s hinv
    (store_bounds_build words capacity calls s hb) hnw p hp hu
    (fill_unigrams h s.m_nodes nd.back_off s.m_words.length) hfl
  obtain ⟨res, hres, hrl, hmap, _⟩ := map_to_result_spec buf targets 0 out (by omega)
    (fun t htm => by rw [hbl, hfl]; exact ht t htm)
  refine ⟨res, ?_, hrl, ?_⟩
  · unfold fetch_bigram_list
    simp only [hlp, hbuf]
    exact hres
  · intro i t hit
    have htv := ht t (List.getElem?_mem hit)
    obtain ⟨idx, hfc, hcase⟩ := find_child_cases s t p htv hp.1 hbound hsorted
    obtain ⟨s1, hlog⟩ := log_prob_bigram h s p t idx hp htv hfc
    refine ⟨_, s1, hlog, ?_⟩
    have hr := hmap i t hit
    rw [Nat.zero_add] at hr
    rw [hr, hget t idx htv hfc]
    have htn : t.toNat < s.m_words.length := by omega
    have e : ((t.toNat : Nat) : Int) = t := by omega
    rcases hcase with ⟨h0, _, _, h2, h3, _⟩ | ⟨h0, _⟩
    · have hlt : idx < (s.m_nodes.length : Int) := by
        have := hbound (p + 1)
        omega
      obtain ⟨ni, hni⟩ := node_at_in_bounds s.m_nodes idx h0 hlt
      rw [if_neg (by omega), if_neg (by omega), hni, load_of_ok h s.m_nodes idx ni hni,
        (hzero ni (node_at_mem _ _ _ hni)).1]
      rfl
    · rw [if_pos (by omega), if_pos (by omega), fill_unigrams_get h s.m_nodes nd.back_off
        s.m_words.length t.toNat htn, e, hlp, (hzero nd (node_at_mem _ _ _ hnd)).2]

/-- C3 (amended) on the store of the first scenario, with the log values times
ten, on the host of whole `float`s: for `p = 1` and the targets `[2, 1, 3]`
the buffer holds `-3` for the stored bigram `(a, b)` and `-15`, `back_off(a) +
log_prob`, for the two others. -/
theorem fetch_bigram_list_eq_log_prob_witness :
    build scenario_words 16 scenario1_calls = Except.ok scenario1_store ∧
    grams_in_vocabulary scenario1_calls scenario_words.length ∧
    (scenario_words.length : Int) ≤ unigram_slots scenario1_store ∧
    fetch_bigram_list int_host scenario1_store 1 [2, 1, 3] [0, 0, 0] = Except.ok [-3, -15, -15] ∧
    ∃ res, fetch_bigram_list int_host scenario1_store 1 [2, 1, 3] [0, 0, 0] = Except.ok res ∧
      res.length = ([0, 0, 0] : List Int).length ∧
      ∀ (i : Nat) (t : Int), ([2, 1, 3] : List Int)[i]? = some t →
        ∃ v s1, log_prob_backoff int_host scenario1_store [1, t] = Except.ok (v, s1) ∧
          res[i]? = some v :=
  ⟨scenario1_store_built, by decide, by decide, by decide,
    fetch_bigram_list_eq_log_prob int_host scenario_words 16 scenario1_calls scenario1_store 1
      [2, 1, 3] [0, 0, 0] scenario1_store_built (by decide) (by decide) (by decide) (by decide)
      (by decide) (by decide)⟩
